import Mathlib

/-!
# datastore-serializer: flattening entity graphs into property lists and back

A shallow embedding of `serializer.go` (`SaveEntity`, `LoadEntity`, `saveEntity`,
`loadEntity`, `extractEntityProperties`) together with the properties of the
specification that were checked against it.

Modelling conventions

* Go strings are Lean strings; the `strings` helpers used by the source act on the
  character list (`.` and `,` are single bytes that never occur inside a multi-byte
  rune, so byte positions and character positions cut a string at the same places).
* `datastore.PropertyList` is `List Property`; the pointer `ps *PropertyList` becomes an
  explicit list that every function takes and gives back.
* `datastore.SaveStruct`, `datastore.LoadStruct`, `datastore.DecodeKey` and `Key.Encode`
  belong to the App Engine SDK, not to this repository: they are the fields of `Codec`.
* A Go struct value is its scalar part (whatever the SDK codec reads and writes, of an
  arbitrary type `S`) plus the ordered list of the fields that reflection walks over.
* A run-time panic of the Go program is the error `Error.panic`.
-/

namespace Serializer

/-! ## The `strings` helpers -/

/-- Position of the last `c` in a character list (`none` stands for Go's `-1`). -/
def lastIndexChars (c : Char) : List Char → Option Nat
  | [] => none
  | x :: xs =>
    match lastIndexChars c xs with
    | some i => some (i + 1)
    | none => if x = c then some 0 else none

/-- Go `strings.LastIndex(s, sep)` for a one-character separator. -/
def LastIndex (s : String) (sep : Char) : Option Nat :=
  lastIndexChars sep s.data

/-- Go `s[:n]`. -/
def sliceTo (s : String) (n : Nat) : String :=
  ⟨s.data.take n⟩

/-- Go `strings.TrimPrefix(s, pre)`. -/
def TrimPrefix (s pre : String) : String :=
  if pre.data.isPrefixOf s.data then ⟨s.data.drop pre.data.length⟩ else s

/-- Go `strings.Trim(s, cutset)` for a one-character cutset. -/
def Trim (s : String) (cutset : Char) : String :=
  ⟨(s.data.dropWhile (fun c => c == cutset)).rdropWhile (fun c => c == cutset)⟩

/-- Pieces of a character list between occurrences of `sep`. -/
def splitChars (sep : Char) : List Char → List (List Char)
  | [] => [[]]
  | x :: xs =>
    if x = sep then [] :: splitChars sep xs
    else
      match splitChars sep xs with
      | [] => [[x]]
      | piece :: rest => (x :: piece) :: rest

/-- Go `strings.Split(s, sep)` for a one-character separator. -/
def Split (s : String) (sep : Char) : List String :=
  (splitChars sep s.data).map String.mk

/-! ## Errors, keys and properties -/

/-- Outcomes other than success. The first three are the error values of the package;
`datastore` is any error returned by the SDK codec, `panic` a Go run-time panic, and
`outOfFuel` is the model's own signal that a recursion budget was used up. -/
inductive Error where
  | ErrBadSchemaStructTag
  | ErrInvalidEntityType
  | ErrNoMoreProperties
  | datastore (msg : String)
  | panic
  | outOfFuel
  deriving DecidableEq, Repr

/-- A `*datastore.Key` that is not nil, as an uninterpreted token. -/
structure Key where
  token : String
  deriving DecidableEq, Repr

/-- The dynamic payload `Property.Value interface{}`: a key or anything else. -/
inductive Value where
  | key (k : Key)
  | scalar (s : String)
  deriving DecidableEq, Repr

/-- Go `datastore.Property`. -/
structure Property where
  Name : String
  Value : Value
  NoIndex : Bool
  Multiple : Bool
  deriving DecidableEq, Repr

abbrev PropertyList := List Property

/-! ## `extractEntityProperties` -/

/-- Namespace of an attribute name as the extractor computes it: the text before the
last dot, empty when there is no dot (`currentNamespace`, lines 201-206). -/
def currentNamespace (name : String) : String :=
  match LastIndex name '.' with
  | some index => sliceTo name index
  | none => ""

/-- Bare name of an attribute as the extractor computes it (`name`, line 208). -/
def bareName (name : String) : String :=
  TrimPrefix name (currentNamespace name ++ ".")

/-- Variables of the loop of `extractEntityProperties`. -/
structure ExtractState where
  ps : PropertyList
  key : Option Key
  properties : PropertyList
  propertyMap : List String
  deleted : Int
  deriving DecidableEq, Repr

/-- One iteration of `for i := range *ps` (lines 199-222). Reading `(*ps)[j]` outside
the current bounds and asserting a payload that is not a key to `*datastore.Key` panic. -/
def extractStep (ns : String) (st : ExtractState) (i : Nat) : Except Error ExtractState :=
  let j : Int := (i : Int) - st.deleted
  if j < 0 then .error .panic
  else
    match st.ps[j.toNat]? with
    | none => .error .panic
    | some property =>
      if currentNamespace property.Name = ns then
        let name := bareName property.Name
        if name ∉ st.propertyMap then
          let shifted := st.ps.take j.toNat ++ st.ps.drop (j.toNat + 1)
          if name = "id" then
            if st.key = none then
              match property.Value with
              | .key k =>
                .ok { st with key := some k, propertyMap := name :: st.propertyMap,
                              ps := shifted, deleted := st.deleted + 1 }
              | .scalar _ => .error .panic
            else
              .ok { st with propertyMap := name :: st.propertyMap,
                            ps := shifted, deleted := st.deleted + 1 }
          else
            .ok { st with properties := st.properties ++ [{ property with Name := name }],
                          propertyMap := name :: st.propertyMap,
                          ps := shifted, deleted := st.deleted + 1 }
        else .ok st
      else .ok st

/-- Result of an extraction: the captured key, the extracted properties and the list
that `*ps` holds afterwards. -/
structure Extracted where
  key : Option Key
  properties : PropertyList
  rest : PropertyList
  deriving DecidableEq, Repr

/-- Go `extractEntityProperties(namespace, ps)`: the loop runs over the indices of the
list as it was on entry. -/
def extractEntityProperties (ns : String) (ps : PropertyList) : Except Error Extracted :=
  match (List.range ps.length).foldlM (extractStep ns)
      { ps := ps, key := none, properties := [], propertyMap := [], deleted := 0 } with
  | .error e => .error e
  | .ok st => .ok { key := st.key, properties := st.properties, rest := st.ps }

/-! ## Entities, struct types and the SDK codec -/

abbrev TypeName := String

/-- Value of one struct field as `reflect` sees it: a string, a pointer to a struct
(nil or not), a slice of pointers to structs, or a value of any other kind. -/
inductive FieldValue (E : Type) where
  | String (s : String)
  | Ptr (elem : TypeName) (v : Option E)
  | Slice (elem : TypeName) (vs : List E)
  | Other

/-- One struct field: its Go name, its `serializer:"..."` tag and its value. -/
structure Field (E : Type) where
  Name : String
  Tag : String
  Value : FieldValue E

/-- A struct value behind the `entity interface{}` pointer: the part the SDK codec reads
and writes, and the fields in declaration order. -/
inductive Entity (S : Type) where
  | mk (scalars : S) (fields : List (Field (Entity S)))

/-- Scalar part of a struct. -/
def Entity.scalars {S : Type} : Entity S → S
  | .mk s _ => s

/-- Fields of a struct, in declaration order. -/
def Entity.fields {S : Type} : Entity S → List (Field (Entity S))
  | .mk _ fs => fs

/-- Kind and element type of a declared field. -/
inductive FieldKind where
  | String
  | Ptr (elem : TypeName)
  | Slice (elem : TypeName)
  | Other
  deriving DecidableEq, Repr

/-- Declaration of one struct field. -/
structure FieldDecl where
  Name : String
  Tag : String
  Kind : FieldKind
  deriving DecidableEq, Repr

/-- Declaration of a struct type: the zero value of its scalar part and its fields. -/
structure StructType (S : Type) where
  zero : S
  fields : List FieldDecl

/-- The struct types of the program, by name (types may refer to themselves). -/
abbrev TypeEnv (S : Type) := TypeName → StructType S

/-- Zero value of a declared field. -/
def zeroField {E : Type} (d : FieldDecl) : Field E :=
  { Name := d.Name, Tag := d.Tag,
    Value := match d.Kind with
      | .String => .String ""
      | .Ptr elem => .Ptr elem none
      | .Slice elem => .Slice elem []
      | .Other => .Other }

/-- Go `reflect.New(T)`: a fresh zero struct of type `T`. -/
def New {S : Type} (env : TypeEnv S) (T : TypeName) : Entity S :=
  .mk (env T).zero ((env T).fields.map zeroField)

/-- The App Engine SDK functions the package calls. Their errors are SDK errors, never
one of the error values of this package. -/
structure Codec (S : Type) where
  SaveStruct : S → Except String PropertyList
  LoadStruct : S → PropertyList → Except String S
  DecodeKey : String → Except String Key
  Encode : Key → String

def annotationPrimary : String := "primary"

def annotationRelation : String := "relation"

/-- Go `strings.Trim(namespace+"."+name, ".")`, the name of everything below a namespace. -/
def qualify (ns name : String) : String :=
  Trim (ns ++ "." ++ name) '.'

/-! ## `saveEntity` -/

/-- The loop over the elements of a slice relation (lines 179-185); `save` is the
recursive call at `level+1`. -/
def saveSlice {S : Type} (save : Entity S → Except Error PropertyList) :
    List (Entity S) → PropertyList → Except Error PropertyList
  | [], ps => .ok ps
  | e :: es, ps =>
    match save e with
    | .error err => .error err
    | .ok properties => saveSlice save es (ps ++ properties)

/-- The branch `annotation == annotationPrimary` of the save loop (lines 156-169): the
value of `ps` after it. -/
def savePrimary {S : Type} (c : Codec S) (ns : String) (multiple : Bool)
    (f : Field (Entity S)) (ps : PropertyList) : Except Error PropertyList :=
  match f.Value with
  | .String id =>
    if id ≠ "" ∧ ns ≠ "" then
      match c.DecodeKey id with
      | .error err => .error (.datastore err)
      | .ok key =>
        .ok (ps ++ [{ Name := qualify ns "id", Value := .key key,
                      NoIndex := false, Multiple := multiple }])
    else .ok ps
  | _ => .error .panic

/-- The branch `annotation == annotationRelation` of the save loop (lines 170-187) for
the segment `seg = args[1]`: the value of `ps` after it. `save child ns multiple` is the
recursive call at `level+1`. -/
def saveRelation {S : Type} (save : Entity S → String → Bool → Except Error PropertyList)
    (ns : String) (multiple : Bool) (seg : String) (f : Field (Entity S)) (ps : PropertyList) :
    Except Error PropertyList :=
  match f.Value with
  | .Ptr _ (some child) =>
    match save child (qualify ns seg) multiple with
    | .error err => .error err
    | .ok properties => .ok (ps ++ properties)
  | .Slice _ vs => saveSlice (fun e => save e (qualify ns seg) true) vs ps
  | _ => .ok ps

/-- One pass through the body of the loop over the struct fields (lines 141-187) for the
field `f`: the value of `ps` after it. -/
def saveField {S : Type} (c : Codec S) (save : Entity S → String → Bool → Except Error PropertyList)
    (ns : String) (multiple : Bool) (f : Field (Entity S)) (ps : PropertyList) :
    Except Error PropertyList :=
  if f.Tag = "" then .ok ps
  else
    match Split f.Tag ',' with
    | arg0 :: arg1 :: _ =>
      if arg0 = annotationPrimary then savePrimary c ns multiple f ps
      else if arg0 = annotationRelation then saveRelation save ns multiple arg1 f ps
      else .ok ps
    | _ => .error .ErrBadSchemaStructTag

/-- The loop over the struct fields (lines 140-188). -/
def saveFields {S : Type} (c : Codec S) (save : Entity S → String → Bool → Except Error PropertyList)
    (ns : String) (multiple : Bool) :
    List (Field (Entity S)) → PropertyList → Except Error PropertyList
  | [], ps => .ok ps
  | f :: fs, ps =>
    match saveField c save ns multiple f ps with
    | .error err => .error err
    | .ok ps1 => saveFields c save ns multiple fs ps1

/-- Body of `saveEntity`, by recursion on the number `3 - level` of levels that are
still saved: zero is the case `level > 2`. -/
def saveEntityAux {S : Type} (c : Codec S) :
    Nat → Entity S → String → Bool → Except Error PropertyList
  | 0, _, _, _ => .ok []
  | left + 1, entity, ns, multiple =>
    match c.SaveStruct entity.scalars with
    | .error err => .error (.datastore err)
    | .ok ps =>
      saveFields c (saveEntityAux c left) ns multiple entity.fields
        (ps.map fun property =>
          { property with Name := qualify ns property.Name, Multiple := multiple })

/-- Go `saveEntity(entity, namespace, multiple, level)`. -/
def saveEntity {S : Type} (c : Codec S) (entity : Entity S) (ns : String) (multiple : Bool)
    (level : Nat) : Except Error PropertyList :=
  saveEntityAux c (3 - level) entity ns multiple

/-- Go `SaveEntity(entity)`, for an argument that is a pointer to a struct. -/
def SaveEntity {S : Type} (c : Codec S) (entity : Entity S) : Except Error PropertyList :=
  saveEntity c entity "" false 0

/-! ## `loadEntity` -/

/-- Go `entityValue.FieldByName("ID").Set(reflect.ValueOf(s))`: panics (`none`) when the
struct has no field `ID` or the field is not a string. -/
def setID {E : Type} (s : String) : List (Field E) → Option (List (Field E))
  | [] => none
  | f :: fs =>
    if f.Name = "ID" then
      match f.Value with
      | .String _ => some ({ f with Value := .String s } :: fs)
      | _ => none
    else (setID s fs).map (fun fs1 => f :: fs1)

/-- The fields of the entity after the key, if there is one, has been stored in `ID`
(lines 68-71); `none` stands for the panic of `Set`. -/
def withID {S : Type} (c : Codec S) (key : Option Key) (fields : List (Field (Entity S))) :
    Option (List (Field (Entity S))) :=
  match key with
  | some key => setID (c.Encode key) fields
  | none => some fields

/-- The `for { ... }` loop of a slice relation (lines 101-113); `load` is the recursive
call into a fresh child and `budget` bounds the number of iterations. -/
def loadSlice {S : Type} (load : PropertyList → Except Error (Entity S) × PropertyList) :
    Nat → List (Entity S) → PropertyList → Except Error (List (Entity S)) × PropertyList
  | 0, _, ps => (.error .outOfFuel, ps)
  | budget + 1, vs, ps =>
    match load ps with
    | (.ok value, ps1) => loadSlice load budget (vs ++ [value]) ps1
    | (.error .ErrNoMoreProperties, ps1) => (.ok vs, ps1)
    | (.error err, ps1) => (.error err, ps1)

/-- The branch `annotation == annotationRelation` of the load loop (lines 89-115) for the
segment `seg = args[1]`: the field and the list after it. `load child ps ns` is the
recursive call. -/
def loadRelation {S : Type} (env : TypeEnv S)
    (load : Entity S → PropertyList → String → Except Error (Entity S) × PropertyList)
    (ns : String) (seg : String) (f : Field (Entity S)) (ps : PropertyList) :
    Except Error (Field (Entity S)) × PropertyList :=
  match f.Value with
  | .Ptr elem none =>
    match load (New env elem) ps (qualify ns seg) with
    | (.ok value, ps1) => (.ok { f with Value := .Ptr elem (some value) }, ps1)
    | (.error .ErrNoMoreProperties, ps1) => (.ok f, ps1)
    | (.error err, ps1) => (.error err, ps1)
  | .Slice elem vs =>
    match loadSlice (fun l => load (New env elem) l (qualify ns seg)) (ps.length + 1) vs ps with
    | (.ok vs1, ps1) => (.ok { f with Value := .Slice elem vs1 }, ps1)
    | (.error err, ps1) => (.error err, ps1)
  | _ => (.ok f, ps)

/-- One pass through the body of the loop over the struct fields (lines 75-115) for the
field `f`: the field and the list after it. -/
def loadField {S : Type} (env : TypeEnv S)
    (load : Entity S → PropertyList → String → Except Error (Entity S) × PropertyList)
    (ns : String) (f : Field (Entity S)) (ps : PropertyList) :
    Except Error (Field (Entity S)) × PropertyList :=
  if f.Tag = "" then (.ok f, ps)
  else
    match Split f.Tag ',' with
    | arg0 :: arg1 :: _ =>
      if arg0 = annotationRelation then loadRelation env load ns arg1 f ps
      else (.ok f, ps)
    | _ => (.error .ErrBadSchemaStructTag, ps)

/-- The loop over the struct fields (lines 74-116). Gives back the fields as they are
after the loop. -/
def loadFields {S : Type} (env : TypeEnv S)
    (load : Entity S → PropertyList → String → Except Error (Entity S) × PropertyList)
    (ns : String) :
    List (Field (Entity S)) → PropertyList →
      Except Error (List (Field (Entity S))) × PropertyList
  | [], ps => (.ok [], ps)
  | f :: fs, ps =>
    match loadField env load ns f ps with
    | (.error err, ps1) => (.error err, ps1)
    | (.ok f1, ps1) =>
      match loadFields env load ns fs ps1 with
      | (.ok fs1, ps2) => (.ok (f1 :: fs1), ps2)
      | (.error err, ps2) => (.error err, ps2)

/-- Go `loadEntity(entity, ps, namespace)`. The result is the error or the entity as it
is after the call, and the list that `*ps` holds when the call returns. `fuel` bounds
the depth of the recursion. -/
def loadEntity {S : Type} (c : Codec S) (env : TypeEnv S) :
    Nat → Entity S → PropertyList → String → Except Error (Entity S) × PropertyList
  | 0, _, ps, _ => (.error .outOfFuel, ps)
  | fuel + 1, entity, ps, ns =>
    match extractEntityProperties ns ps with
    | .error err => (.error err, ps)
    | .ok ex =>
      if ex.properties.length = 0 then (.error .ErrNoMoreProperties, ex.rest)
      else
        let properties := ex.properties.map fun property => { property with Multiple := false }
        match c.LoadStruct entity.scalars properties with
        | .error err => (.error (.datastore err), ex.rest)
        | .ok scalars =>
          match withID c ex.key entity.fields with
          | none => (.error .panic, ex.rest)
          | some fields =>
            match loadFields env (loadEntity c env fuel) ns fields ex.rest with
            | (.ok fields1, ps1) => (.ok (.mk scalars fields1), ps1)
            | (.error err, ps1) => (.error err, ps1)

/-- Go `LoadEntity(entity, ps)`, for an argument that is a pointer to a struct. The
recursion of `loadEntity` is never deeper than the list is long. -/
def LoadEntity {S : Type} (c : Codec S) (env : TypeEnv S) (entity : Entity S)
    (ps : PropertyList) : Except Error (Entity S) :=
  (loadEntity c env (ps.length + 1) entity ps "").1

/-! ## Reading the extraction loop as a pass over the list -/

/-- The loop of `extractEntityProperties` read as a recursion over the part of the list
that is still to be visited; `kept` is the part already visited and left in place. -/
def walk (ns : String) :
    PropertyList → PropertyList → Option Key → PropertyList → List String → Except Error Extracted
  | [], kept, key, properties, _ => .ok { key := key, properties := properties, rest := kept }
  | p :: todo, kept, key, properties, seen =>
    if currentNamespace p.Name = ns then
      if bareName p.Name ∉ seen then
        if bareName p.Name = "id" then
          if key = none then
            match p.Value with
            | .key k => walk ns todo kept (some k) properties (bareName p.Name :: seen)
            | .scalar _ => .error .panic
          else walk ns todo kept key properties (bareName p.Name :: seen)
        else
          walk ns todo kept key (properties ++ [{ p with Name := bareName p.Name }])
            (bareName p.Name :: seen)
      else walk ns todo (kept ++ [p]) key properties seen
    else walk ns todo (kept ++ [p]) key properties seen

/-- Projection of the loop variables onto the values the function returns. -/
def finish : Except Error ExtractState → Except Error Extracted
  | .error e => .error e
  | .ok st => .ok { key := st.key, properties := st.properties, rest := st.ps }

/-- The payload as a key, when it is one. -/
def Value.asKey : Value → Option Key
  | .key k => some k
  | .scalar _ => none

/-- Data-model invariant of attribute lists, at one namespace: the bare name `id` is
reserved, an attribute at `ns` that carries it holds a key. -/
def idsAreKeysAt (ns : String) (ps : PropertyList) : Prop :=
  ∀ p ∈ ps, currentNamespace p.Name = ns → bareName p.Name = "id" → p.Value.asKey.isSome = true

instance (ns : String) (ps : PropertyList) : Decidable (idsAreKeysAt ns ps) := by
  unfold idsAreKeysAt; infer_instance

/-- Data-model invariant of attribute lists: every attribute with the bare name `id`
holds a key. -/
def idsAreKeys (ps : PropertyList) : Prop :=
  ∀ p ∈ ps, bareName p.Name = "id" → p.Value.asKey.isSome = true

instance (ps : PropertyList) : Decidable (idsAreKeys ps) := by
  unfold idsAreKeys; infer_instance

/-- The attributes one extraction pass takes out of a list, in order and under their
original names, when the bare names in `seen` count as already met. -/
def removed (ns : String) : List String → PropertyList → PropertyList
  | _, [] => []
  | seen, p :: ps =>
    if currentNamespace p.Name = ns ∧ bareName p.Name ∉ seen then
      p :: removed ns (bareName p.Name :: seen) ps
    else removed ns seen ps

/-- The attributes one extraction pass leaves in a list, in order, when the bare names in
`seen` count as already met. -/
def survivors (ns : String) : List String → PropertyList → PropertyList
  | _, [] => []
  | seen, p :: ps =>
    if currentNamespace p.Name = ns ∧ bareName p.Name ∉ seen then
      survivors ns (bareName p.Name :: seen) ps
    else p :: survivors ns seen ps

/-- The attribute under its bare name. -/
def rename (p : Property) : Property :=
  { p with Name := bareName p.Name }

/-- The key an extraction pass captures from the attributes it takes out. -/
def capturedKey (taken : PropertyList) : Option Key :=
  (taken.find? fun p => bareName p.Name = "id").bind fun p => p.Value.asKey

/-- Whether position `i` of `ps` holds the first occurrence of its bare name among the
attributes of `ps` whose namespace is `ns`. -/
def isFirstAt (ns : String) (ps : PropertyList) (i : Nat) : Bool :=
  match ps[i]? with
  | none => false
  | some p =>
    decide (currentNamespace p.Name = ns) &&
      (ps.take i).all fun q =>
        !(decide (currentNamespace q.Name = ns) && decide (bareName q.Name = bareName p.Name))

/-- Bare names of the attributes of a list that lie at namespace `ns`, in order. -/
def namesAt (ns : String) (ps : PropertyList) : List String :=
  (ps.filter fun p => decide (currentNamespace p.Name = ns)).map fun p => bareName p.Name

/-- First attribute named `text` at the root namespace. -/
def textA : Property := { Name := "text", Value := .scalar "A", NoIndex := true, Multiple := false }

/-- Second attribute named `text` at the root namespace. -/
def textB : Property := { Name := "text", Value := .scalar "B", NoIndex := true, Multiple := false }

/-- The attribute list of `TestLoadEntity` (serializer_test.go, lines 51-70), for the key
`key`. -/
def serialized (key : Key) : PropertyList :=
  [{ Name := "text", Value := .scalar "My post", NoIndex := true, Multiple := false },
   { Name := "comments.text", Value := .scalar "My comment", NoIndex := true, Multiple := true },
   { Name := "comments.id", Value := .key key, NoIndex := false, Multiple := true }]

/-! ## Well-formed names -/

/-- The string holds no dot. -/
def dotFree (s : String) : Prop := '.' ∉ s.data

instance (s : String) : Decidable (dotFree s) := by unfold dotFree; infer_instance

/-- The string neither starts nor ends with a dot (the empty string included). -/
def trimmed (s : String) : Prop :=
  s.data.head? ≠ some '.' ∧ s.data.getLast? ≠ some '.'

instance (s : String) : Decidable (trimmed s) := by unfold trimmed; infer_instance

/-- A bare name or relation segment as the addressing scheme expects it: not empty and
without a dot. -/
def isSegment (s : String) : Prop := s ≠ "" ∧ dotFree s

instance (s : String) : Decidable (isSegment s) := by unfold isSegment; infer_instance

/-- Second tag argument of a field whose `serializer` tag has the annotation `a`, as the
field loops read it: the tag is not empty, has at least two arguments, and the first is `a`. -/
def tagArg {E : Type} (a : String) (f : Field E) : Option String :=
  if f.Tag = "" then none
  else
    match Split f.Tag ',' with
    | arg0 :: arg1 :: _ => if arg0 = a then some arg1 else none
    | _ => none

/-- Whether the field's tag is one the field loops accept: empty, or with two arguments. -/
def tagOK {E : Type} (f : Field E) : Bool :=
  decide (f.Tag = "") || decide (2 ≤ (Split f.Tag ',').length)

/-- The entities a relation field holds. -/
def FieldValue.children {E : Type} : FieldValue E → List E
  | .Ptr _ (some child) => [child]
  | .Slice _ vs => vs
  | _ => []

/-- Names are well formed down to `depth` levels: every name the scalar codec emits and
every relation segment is not empty and holds no dot, and no scalar is named `id`. -/
def wellNamed {S : Type} (c : Codec S) : Nat → Entity S → Bool
  | 0, _ => true
  | depth + 1, e =>
    (match c.SaveStruct e.scalars with
      | .ok ps => ps.all fun p => decide (isSegment p.Name ∧ p.Name ≠ "id")
      | .error _ => true) &&
    e.fields.all fun f =>
      match tagArg annotationRelation f with
      | some seg => decide (isSegment seg) && f.Value.children.all (wellNamed c depth)
      | none => true

/-- The namespace reached from `ns` along a path of relation segments. -/
def descend (ns : String) (path : List String) : String :=
  path.foldl qualify ns

/-- The `multiple` flag a relation field passes to the recursive call: `true` for the
elements of a slice, the flag of the parent otherwise. -/
def childMultiple {E : Type} (multiple : Bool) : FieldValue E → Bool
  | .Slice _ _ => true
  | _ => multiple

/-- The synthetic key attribute of a node at namespace `ns`. -/
def idProperty (ns : String) (key : Key) (multiple : Bool) : Property :=
  { Name := qualify ns "id", Value := .key key, NoIndex := false, Multiple := multiple }

/-- The synthetic key attribute a field contributes when a node is saved at `ns`: one
attribute for a `primary` string field with a non-empty key below the root, none otherwise. -/
def keyProperty {S : Type} (c : Codec S) (ns : String) (multiple : Bool)
    (f : Field (Entity S)) : PropertyList :=
  match tagArg annotationPrimary f, f.Value with
  | some _, .String id =>
    if id ≠ "" ∧ ns ≠ "" then
      match c.DecodeKey id with
      | .ok key => [idProperty ns key multiple]
      | .error _ => []
    else []
  | _, _ => []

/-- `extractEntityProperties` called `n` times in sequence at one namespace on the
draining list: the property sets returned, in order, and the list left at the end. -/
def extractTimes (ns : String) : Nat → PropertyList → Except Error (List PropertyList × PropertyList)
  | 0, ps => .ok ([], ps)
  | n + 1, ps =>
    match extractEntityProperties ns ps with
    | .error err => .error err
    | .ok ex =>
      match extractTimes ns n ex.rest with
      | .error err => .error err
      | .ok (results, rest) => .ok (ex.properties :: results, rest)

/-- Number of dots of a name. -/
def dots (s : String) : Nat := s.data.count '.'

/-- No node of the graph lies more than `k` levels below the entity. -/
def depthLE {S : Type} : Nat → Entity S → Bool
  | 0, e => e.fields.all fun f => f.Value.children.isEmpty
  | k + 1, e => e.fields.all fun f => f.Value.children.all (depthLE k)

/-- Every relation segment declared in the type environment is not empty and dot-free. -/
def envNamed {S : Type} (env : TypeEnv S) : Prop :=
  ∀ T, ∀ d ∈ (env T).fields, ∀ seg,
    tagArg annotationRelation (zeroField d : Field (Entity S)) = some seg → isSegment seg

/-- A namespace that lies at least `d` levels below the root, counted in dots: the root
namespace is at level 0, a namespace with `n` dots at level `n + 1`. -/
def levelOK (ns : String) (d : Nat) : Prop :=
  d = 0 ∨ (ns ≠ "" ∧ d ≤ dots ns + 1)

/-- The scalar codec accepts every attribute set (it ignores what it does not know). -/
def codecTotal {S : Type} (c : Codec S) : Prop :=
  ∀ s ps, ∃ s1, c.LoadStruct s ps = .ok s1

/-- Every struct type can be loaded into: its tags are well formed and it has a string
field `ID`. -/
def envLoadable {S : Type} (env : TypeEnv S) : Prop :=
  ∀ T, (∀ d ∈ (env T).fields, tagOK (zeroField d : Field (Entity S)) = true) ∧
    ∀ s, ∃ fs, setID s (New env T).fields = some fs

/-- The outcome is success or `ErrNoMoreProperties`. -/
def okOrNoMore {α : Type} (r : Except Error α) : Prop :=
  (∃ a, r = .ok a) ∨ r = .error .ErrNoMoreProperties

/-! ## A concrete codec and the types of the test file -/

/-- Scalar part of a struct whose saved fields are strings: the datastore name and the
value of each field, in declaration order. -/
abbrev StringFields := List (String × String)

/-- An SDK `SaveStruct` for string fields: one unindexed property per field. -/
def saveStringFields (s : StringFields) : Except String PropertyList :=
  .ok (s.map fun nv => { Name := nv.1, Value := .scalar nv.2, NoIndex := true, Multiple := false })

/-- An SDK `LoadStruct` for string fields, one property: the field of that name takes the
value; a key payload or an unknown name is an error. -/
def loadStringField (s : StringFields) (p : Property) : Except String StringFields :=
  match p.Value with
  | .key _ => .error "datastore: cannot load field: type mismatch"
  | .scalar v =>
    if s.any (fun nv => nv.1 == p.Name) then
      .ok (s.map fun nv => if nv.1 = p.Name then (nv.1, v) else nv)
    else .error "datastore: cannot load field: no such struct field"

/-- An SDK `LoadStruct` for string fields. -/
def loadStringFields (s : StringFields) (ps : PropertyList) : Except String StringFields :=
  ps.foldlM loadStringField s

/-- A codec for the examples: string fields, and keys whose encoded form is any string of
letters and digits. -/
def stringCodec : Codec StringFields where
  SaveStruct := saveStringFields
  LoadStruct := loadStringFields
  DecodeKey := fun s =>
    if s.data.all Char.isAlphanum then .ok ⟨s⟩ else .error "illegal base64 data"
  Encode := fun k => k.token

/-- The struct type `Post` of serializer_test.go as reflection sees it. -/
def postFields : List FieldDecl :=
  [{ Name := "ID", Tag := "", Kind := .String },
   { Name := "Comments", Tag := "relation,comments", Kind := .Slice "Comment" }]

/-- The struct type `Comment` of serializer_test.go as reflection sees it. -/
def commentFields : List FieldDecl :=
  [{ Name := "ID", Tag := "", Kind := .String }]

/-- The struct types `Post` and `Comment` of serializer_test.go (lines 9-18); their one
saved field is `Text`, stored as `text`. -/
def testEnv : TypeEnv StringFields := fun T =>
  if T = "Post" then { zero := [("text", "")], fields := postFields }
  else if T = "Comment" then { zero := [("text", "")], fields := commentFields }
  else { zero := [], fields := [] }

/-- A record with a tagged primary key and one string field. -/
def keyedRecord (id text : String) : Entity StringFields :=
  .mk [("text", text)] [{ Name := "ID", Tag := "primary,id", Value := .String id }]

/-- The field with its key replaced, when it is a `primary` string field. -/
def setKey {E : Type} (id : String) (f : Field E) : Field E :=
  match tagArg annotationPrimary f, f.Value with
  | some _, .String _ => { f with Value := .String id }
  | _, _ => f

/-- A struct type that refers to itself: a string field `v` and a single relation `next`
to a record of the same type. -/
def chainEnv : TypeEnv StringFields := fun _ =>
  { zero := [("v", "")],
    fields := [{ Name := "ID", Tag := "", Kind := .String },
               { Name := "Next", Tag := "relation,next", Kind := .Ptr "Node" }] }

/-- A hand-built list with an attribute three levels below the root. -/
def deepList : PropertyList :=
  [{ Name := "v", Value := .scalar "0", NoIndex := true, Multiple := false },
   { Name := "next.v", Value := .scalar "1", NoIndex := true, Multiple := false },
   { Name := "next.next.v", Value := .scalar "2", NoIndex := true, Multiple := false },
   { Name := "next.next.next.v", Value := .scalar "3", NoIndex := true, Multiple := false }]

/-- A record of the self-referring type. -/
def chainNode (v : String) (next : Option (Entity StringFields)) : Entity StringFields :=
  .mk [("v", v)]
    [{ Name := "ID", Tag := "", Value := .String "" },
     { Name := "Next", Tag := "relation,next", Value := .Ptr "Node" next }]

/-- A struct type without any scalar field, whose only field is a repeated relation. -/
def folderEnv : TypeEnv StringFields := fun T =>
  if T = "Folder" then
    { zero := [],
      fields := [{ Name := "Items", Tag := "relation,items", Kind := .Slice "Comment" }] }
  else testEnv T

/-- A record of type `Folder` with one item. -/
def folder : Entity StringFields :=
  .mk [] [{ Name := "Items", Tag := "relation,items",
            Value := .Slice "Comment"
              [.mk [("text", "hello")] [{ Name := "ID", Tag := "", Value := .String "" }]] }]

/-- An SDK `LoadStruct` for string fields that ignores what it does not know: a property
sets the field of its name when there is one and the payload is not a key. -/
def loadLenient (s : StringFields) (ps : PropertyList) : StringFields :=
  ps.foldl (fun acc p =>
    match p.Value with
    | .key _ => acc
    | .scalar v => acc.map fun nv => if nv.1 = p.Name then (nv.1, v) else nv) s

/-- The codec of the examples with a scalar decoder that accepts every attribute set. -/
def lenientCodec : Codec StringFields :=
  { stringCodec with LoadStruct := fun s ps => .ok (loadLenient s ps) }

/-! ## The round trip: the graphs that survive it -/

/-- Kind and element type of a field value. -/
def kindOf {E : Type} : FieldValue E → FieldKind
  | .String _ => .String
  | .Ptr elem _ => .Ptr elem
  | .Slice elem _ => .Slice elem
  | .Other => .Other

/-- Declaration of a field, read off its value. -/
def declOf {E : Type} (f : Field E) : FieldDecl :=
  { Name := f.Name, Tag := f.Tag, Kind := kindOf f.Value }

/-- The field without the entities it holds: a nil pointer, an empty slice. -/
def strip {E : Type} (f : Field E) : Field E :=
  { f with Value := match f.Value with
      | .Ptr elem _ => .Ptr elem none
      | .Slice elem _ => .Slice elem []
      | v => v }

/-- Whether the field carries the annotation `primary`. -/
def isPrimary {E : Type} (f : Field E) : Bool :=
  (tagArg annotationPrimary f).isSome

/-- The key string of an entity: the value of its `primary` string field, empty when it
has none. -/
def keyOf {S : Type} (e : Entity S) : String :=
  match e.fields.find? isPrimary with
  | some f =>
    match f.Value with
    | .String s => s
    | _ => ""
  | none => ""

/-- The entity holds no other entity. -/
def childless {S : Type} (e : Entity S) : Prop :=
  ∀ f ∈ e.fields, f.Value.children = []

/-- Element type of a pointer or slice field. -/
def elemOf {E : Type} : FieldValue E → TypeName
  | .Ptr elem _ => elem
  | .Slice elem _ => elem
  | _ => ""

/-- The attribute lies in the subtree of namespace `ns`: its namespace is reached from
`ns` along relation segments. -/
def under (ns : String) (p : Property) : Prop :=
  ∃ path : List String, (∀ s ∈ path, isSegment s) ∧ currentNamespace p.Name = descend ns path

/-- Names of the scalar attributes the codec saves for an entity. -/
def attrNames {S : Type} (c : Codec S) (e : Entity S) : List String :=
  match c.SaveStruct e.scalars with
  | .ok own => own.map fun p => p.Name
  | .error _ => []

/-- Conditions on one entity `e` of struct type `T`; `root` says whether it is the root
of the graph.
* `typed`, `fieldNames`: the fields of `e` are those of `T`, under distinct names.
* `tags`: every non-empty `serializer` tag has its two parts.
* `onePrimary`, `primary`: at most one field is tagged `primary`; it is the string field
  `ID`; the key string is empty at the root and otherwise empty or a string that
  `DecodeKey` accepts and `Encode` gives back.
* `strings`, `unsaved`: what `saveEntity` does not write is zero: the other string fields
  are empty, pointers and slices without a `relation` tag hold nothing.
* `segments`, `distinct`: relation names are non-empty and dot-free, and no two relation
  fields of the entity share one.
* `scalars`: the codec saves at least one attribute, under distinct non-empty dot-free
  names other than `id`, and loads them (with `Multiple` cleared, as `loadEntity` passes
  them) into a zero `T` to the scalars of `e`.
* `siblings`: in a repeated relation every element after the first holds no entity and
  saves the same attribute names as the first, and an element with a key is never
  preceded by one without. -/
structure NodeOK {S : Type} (c : Codec S) (env : TypeEnv S) (root : Bool) (e : Entity S)
    (T : TypeName) : Prop where
  typed : (env T).fields = e.fields.map declOf
  fieldNames : (e.fields.map fun f => f.Name).Nodup
  tags : ∀ f ∈ e.fields, tagOK f = true
  onePrimary : (e.fields.filter isPrimary).length ≤ 1
  primary : ∀ f ∈ e.fields, isPrimary f = true →
    f.Name = "ID" ∧ ∃ s, f.Value = .String s ∧ (root = true → s = "") ∧
      (s ≠ "" → ∃ k, c.DecodeKey s = .ok k ∧ c.Encode k = s)
  strings : ∀ f ∈ e.fields, isPrimary f = false → ∀ s, f.Value = .String s → s = ""
  unsaved : ∀ f ∈ e.fields, tagArg annotationRelation f = none → f.Value.children = []
  segments : ∀ f ∈ e.fields, ∀ seg, tagArg annotationRelation f = some seg → isSegment seg
  distinct : (e.fields.filterMap (tagArg annotationRelation)).Nodup
  scalars : ∃ own, c.SaveStruct e.scalars = .ok own ∧ own ≠ [] ∧
    (own.map fun p => p.Name).Nodup ∧ (∀ p ∈ own, isSegment p.Name ∧ p.Name ≠ "id") ∧
    c.LoadStruct (env T).zero (own.map fun p => { p with Multiple := false }) = .ok e.scalars
  siblings : ∀ f ∈ e.fields, ∀ elem v vs, f.Value = .Slice elem (v :: vs) →
    (∀ w ∈ vs, childless w ∧ attrNames c w = attrNames c v) ∧
    (v :: vs).Pairwise fun a b => keyOf b ≠ "" → keyOf a ≠ ""

/-- The graph of `e` has at most `depth` levels and every entity of it satisfies `NodeOK`
for the element type of the field that holds it. -/
def roundTrippable {S : Type} (c : Codec S) (env : TypeEnv S) :
    Nat → Bool → Entity S → TypeName → Prop
  | 0, _, _, _ => False
  | depth + 1, root, e, T =>
    NodeOK c env root e T ∧
    ∀ f ∈ e.fields, ∀ ch ∈ f.Value.children, roundTrippable c env depth false ch (elemOf f.Value)

/-- The scalar attributes of an entity as `saveEntity` names them under `ns`. -/
def qualified (ns : String) (multiple : Bool) (own : PropertyList) : PropertyList :=
  own.map fun property =>
    { property with Name := qualify ns property.Name, Multiple := multiple }

/-- Loading what was saved restores the entity, for graphs of at most `left` levels: the
list may go on with attributes `R` as long as those that lie in the subtree of `ns` are at
`ns` itself and repeat names of the entity. -/
def loadsBack {S : Type} (c : Codec S) (env : TypeEnv S) (left : Nat) : Prop :=
  ∀ (root : Bool) (e : Entity S) (T : TypeName) (ns : String) (multiple : Bool)
    (out R : PropertyList) (fuel : Nat),
    trimmed ns → (ns = "" → root = true) → roundTrippable c env left root e T →
    saveEntityAux c left e ns multiple = .ok out →
    (∀ p ∈ R, under ns p → currentNamespace p.Name = ns ∧
      (bareName p.Name ∈ attrNames c e ∨ (bareName p.Name = "id" ∧ keyOf e ≠ ""))) →
    idsAreKeys (out ++ R) → (out ++ R).length < fuel →
    loadEntity c env fuel (New env T) (out ++ R) ns = (.ok e, R)

/-- Three struct types with a `primary` key field: a post with comments, a comment with
replies, and a reply (every other type name). Their one saved field is stored as `text`. -/
def blogEnv : TypeEnv StringFields := fun T =>
  if T = "Post" then
    { zero := [("text", "")],
      fields := [{ Name := "ID", Tag := "primary,id", Kind := .String },
                 { Name := "Comments", Tag := "relation,comments", Kind := .Slice "Comment" }] }
  else if T = "Comment" then
    { zero := [("text", "")],
      fields := [{ Name := "ID", Tag := "primary,id", Kind := .String },
                 { Name := "Replies", Tag := "relation,replies", Kind := .Slice "Reply" }] }
  else
    { zero := [("text", "")],
      fields := [{ Name := "ID", Tag := "primary,id", Kind := .String }] }

/-- A comment of `blogEnv`. -/
def blogComment (id text : String) (replies : List (Entity StringFields)) :
    Entity StringFields :=
  .mk [("text", text)]
    [{ Name := "ID", Tag := "primary,id", Value := .String id },
     { Name := "Replies", Tag := "relation,replies", Value := .Slice "Reply" replies }]

/-- A post of `blogEnv` without key, with a keyed comment that has a reply and a comment
without key. -/
def blogPost : Entity StringFields :=
  .mk [("text", "hello")]
    [{ Name := "ID", Tag := "primary,id", Value := .String "" },
     { Name := "Comments", Tag := "relation,comments",
       Value := .Slice "Comment"
         [blogComment "k1" "first" [keyedRecord "r1" "reply"], blogComment "" "second" []] }]

/-! ## Loop states, ghost paths and save outcomes -/

/-- Number of attributes of a list at a namespace. -/
def countAt (ns : String) (ps : PropertyList) : Nat :=
  (ps.filter fun p => decide (currentNamespace p.Name = ns)).length

/-- The attribute with its `Multiple` flag cleared (lines 55-58). -/
def clearMultiple (p : Property) : Property :=
  { p with Multiple := false }

/-- The result of an extraction with the `Multiple` flags cleared. -/
def Extracted.cleared (ex : Extracted) : Extracted :=
  { key := ex.key, properties := ex.properties.map clearMultiple,
    rest := ex.rest.map clearMultiple }

/-- The loop variables of `extractEntityProperties` on entry (lines 193-198). -/
def extractInit (ps : PropertyList) : ExtractState :=
  { ps := ps, key := none, properties := [], propertyMap := [], deleted := 0 }

/-- An attribute of the output of `saveEntity` together with the relations on the path
from the root to the entity that produced it: the segment of each relation and whether
it is a repeated (slice) relation. -/
abbrev Traced := Property × List (String × Bool)

/-- The function `saveSlice` with the path carried along. -/
def traceSlice {S : Type} (trace : Entity S → Except Error (List Traced)) :
    List (Entity S) → List Traced → Except Error (List Traced)
  | [], ps => .ok ps
  | e :: es, ps =>
    match trace e with
    | .error err => .error err
    | .ok properties => traceSlice trace es (ps ++ properties)

/-- The function `savePrimary` with the path carried along. -/
def tracePrimary {S : Type} (c : Codec S) (ns : String) (multiple : Bool)
    (path : List (String × Bool)) (f : Field (Entity S)) (ps : List Traced) :
    Except Error (List Traced) :=
  match f.Value with
  | .String id =>
    if id ≠ "" ∧ ns ≠ "" then
      match c.DecodeKey id with
      | .error err => .error (.datastore err)
      | .ok key =>
        .ok (ps ++ [({ Name := qualify ns "id", Value := .key key,
                       NoIndex := false, Multiple := multiple }, path)])
    else .ok ps
  | _ => .error .panic

/-- The function `saveRelation` with the path carried along: the recursive call for a
pointer extends the path by a single relation, the calls for the elements of a slice by a
repeated one. -/
def traceRelation {S : Type}
    (trace : Entity S → String → Bool → List (String × Bool) → Except Error (List Traced))
    (ns : String) (multiple : Bool) (path : List (String × Bool)) (seg : String)
    (f : Field (Entity S)) (ps : List Traced) : Except Error (List Traced) :=
  match f.Value with
  | .Ptr _ (some child) =>
    match trace child (qualify ns seg) multiple (path ++ [(seg, false)]) with
    | .error err => .error err
    | .ok properties => .ok (ps ++ properties)
  | .Slice _ vs =>
    traceSlice (fun e => trace e (qualify ns seg) true (path ++ [(seg, true)])) vs ps
  | _ => .ok ps

/-- The function `saveField` with the path carried along. -/
def traceField {S : Type} (c : Codec S)
    (trace : Entity S → String → Bool → List (String × Bool) → Except Error (List Traced))
    (ns : String) (multiple : Bool) (path : List (String × Bool)) (f : Field (Entity S))
    (ps : List Traced) : Except Error (List Traced) :=
  if f.Tag = "" then .ok ps
  else
    match Split f.Tag ',' with
    | arg0 :: arg1 :: _ =>
      if arg0 = annotationPrimary then tracePrimary c ns multiple path f ps
      else if arg0 = annotationRelation then traceRelation trace ns multiple path arg1 f ps
      else .ok ps
    | _ => .error .ErrBadSchemaStructTag

/-- The function `saveFields` with the path carried along. -/
def traceFields {S : Type} (c : Codec S)
    (trace : Entity S → String → Bool → List (String × Bool) → Except Error (List Traced))
    (ns : String) (multiple : Bool) (path : List (String × Bool)) :
    List (Field (Entity S)) → List Traced → Except Error (List Traced)
  | [], ps => .ok ps
  | f :: fs, ps =>
    match traceField c trace ns multiple path f ps with
    | .error err => .error err
    | .ok ps1 => traceFields c trace ns multiple path fs ps1

/-- The function `saveEntityAux` with the path from the root carried along as a ghost
argument: every attribute is paired with the path of the entity that produced it. -/
def traceEntityAux {S : Type} (c : Codec S) :
    Nat → Entity S → String → Bool → List (String × Bool) → Except Error (List Traced)
  | 0, _, _, _, _ => .ok []
  | left + 1, entity, ns, multiple, path =>
    match c.SaveStruct entity.scalars with
    | .error err => .error (.datastore err)
    | .ok ps =>
      traceFields c (traceEntityAux c left) ns multiple path entity.fields
        (ps.map fun property =>
          ({ property with Name := qualify ns property.Name, Multiple := multiple }, path))

/-- The function `SaveEntity` with every attribute paired with the path of its entity. -/
def traceEntity {S : Type} (c : Codec S) (entity : Entity S) : Except Error (List Traced) :=
  traceEntityAux c 3 entity "" false []

/-- Forgetting the paths. -/
def erase (r : Except Error (List Traced)) : Except Error PropertyList :=
  r.map (List.map Prod.fst)

/-- Whether a path passes through a repeated relation. -/
def throughRepeated (path : List (String × Bool)) : Bool :=
  path.any fun step => step.2

/-- What is to hold of a traced attribute: its flag says whether its path passes through a
repeated relation, and its name lies in the namespace that the segments of the path
spell. -/
def flagged (x : Traced) : Prop :=
  x.1.Multiple = throughRepeated x.2 ∧
  ∃ b, x.1.Name = qualify (descend "" (x.2.map Prod.fst)) b

/-- What one pass of the field loop of `saveEntity` appends for the field `f`, and when it
succeeds: the tag is well-formed; a `primary` field holds a string, which is decoded when
it is non-empty below the root, and contributes its key attribute; a `relation` field
contributes the attributes of the entities it holds, in order; any other field
contributes nothing. `save` is the recursive call. -/
def fieldOutput {S : Type} (c : Codec S)
    (save : Entity S → String → Bool → Except Error PropertyList)
    (ns : String) (multiple : Bool) (f : Field (Entity S)) (o : PropertyList) : Prop :=
  tagOK f = true ∧
  match tagArg annotationPrimary f with
  | some _ =>
    (∃ id, f.Value = .String id ∧ (id ≠ "" → ns ≠ "" → ∃ k, c.DecodeKey id = .ok k)) ∧
    o = keyProperty c ns multiple f
  | none =>
    match tagArg annotationRelation f with
    | some seg =>
      ∃ os, List.Forall₂ (fun ch oc =>
          save ch (qualify ns seg) (childMultiple multiple f.Value) = .ok oc)
        f.Value.children os ∧ o = os.flatten
    | none => o = []

/-- The field is a `primary` field holding a non-empty key string that the key codec
cannot decode. -/
def badPrimary {S : Type} (c : Codec S) (f : Field (Entity S)) : Prop :=
  isPrimary f = true ∧ ∃ id, f.Value = .String id ∧ id ≠ "" ∧ ∃ msg, c.DecodeKey id = .error msg

/-- Conditions under which only a key can make saving fail, for the `depth` levels that
`saveEntity` visits: the scalar codec succeeds on every entity, every `serializer` tag is
empty or has its two parts, a `primary` field holds a string, and the name of a relation
is non-empty and dot-free. -/
def saveReady {S : Type} (c : Codec S) : Nat → Entity S → Prop
  | 0, _ => True
  | depth + 1, e =>
    (∃ own, c.SaveStruct e.scalars = .ok own) ∧
    ∀ f ∈ e.fields, tagOK f = true ∧ (isPrimary f = true → ∃ id, f.Value = .String id) ∧
      ∀ seg, tagArg annotationRelation f = some seg →
        isSegment seg ∧ ∀ ch ∈ f.Value.children, saveReady c depth ch

/-- Some entity of the graph other than the root (`nonRoot` says whether `e` itself
counts), within `depth` levels, has a non-empty primary key that the key codec cannot
decode. -/
def hasBadKey {S : Type} (c : Codec S) : Nat → Bool → Entity S → Prop
  | 0, _, _ => False
  | depth + 1, nonRoot, e =>
    (nonRoot = true ∧ ∃ f ∈ e.fields, badPrimary c f) ∨
    ∃ f ∈ e.fields, ∃ seg, tagArg annotationRelation f = some seg ∧
      ∃ ch ∈ f.Value.children, hasBadKey c depth true ch

/-- The outcome of a save is a list, or the decode error of some key string. -/
def keyFailure {S : Type} (c : Codec S) (r : Except Error PropertyList) : Prop :=
  ∃ id msg, c.DecodeKey id = .error msg ∧ r = .error (.datastore msg)

/-! ## What the scalar codec is handed on load -/

/-- The struct type that `loadEntity` loads at a namespace, starting from a root of type
`T0` at the root namespace and following the relation fields that the struct types
declare: a pointer or slice field tagged `relation,seg` of the type at `ns` puts its
element type at the child namespace of `seg`. -/
inductive Reaches {S : Type} (env : TypeEnv S) (T0 : TypeName) : String → TypeName → Prop
  | root : Reaches env T0 "" T0
  | step {ns : String} {T : TypeName} (d : FieldDecl) (seg : String) (elem : TypeName) :
      Reaches env T0 ns T → d ∈ (env T).fields →
      tagArg annotationRelation (zeroField d : Field (Entity S)) = some seg →
      (d.Kind = .Ptr elem ∨ d.Kind = .Slice elem) →
      Reaches env T0 (qualify ns seg) elem

/-- The attribute set `ps` is one that an extraction at `ns` can hand to the scalar codec
from the list `out`: attributes of `out` at `ns` other than `id`, under their bare names
and with the flag cleared, no name twice. -/
def drawnFrom (out : PropertyList) (ns : String) (ps : PropertyList) : Prop :=
  (ps.map fun p => p.Name).Nodup ∧
  ∀ p ∈ ps, ∃ q ∈ out, currentNamespace q.Name = ns ∧ bareName q.Name ≠ "id" ∧
    p = { q with Name := bareName q.Name, Multiple := false }

/-- The scalar codec accepts, into a zero value of the struct type loaded at a namespace,
every attribute set drawn from the list at that namespace. -/
def codecAccepts {S : Type} (c : Codec S) (env : TypeEnv S) (T0 : TypeName)
    (out : PropertyList) : Prop :=
  ∀ ns T ps, Reaches env T0 ns T → drawnFrom out ns ps →
    ∃ s, c.LoadStruct (env T).zero ps = .ok s

/-! ## The extraction loop and the pass agree -/

theorem extractStep_eq (ns : String) (st : ExtractState) (k : Nat) (kept todo : PropertyList)
    (p : Property) (hps : st.ps = kept ++ p :: todo) (hk : (k : Int) - st.deleted = kept.length) :
    extractStep ns st k =
      if currentNamespace p.Name = ns then
        if bareName p.Name ∉ st.propertyMap then
          if bareName p.Name = "id" then
            if st.key = none then
              match p.Value with
              | .key kk =>
                .ok { st with key := some kk, propertyMap := bareName p.Name :: st.propertyMap,
                              ps := kept ++ todo, deleted := st.deleted + 1 }
              | .scalar _ => .error .panic
            else
              .ok { st with propertyMap := bareName p.Name :: st.propertyMap,
                            ps := kept ++ todo, deleted := st.deleted + 1 }
          else
            .ok { st with properties := st.properties ++ [{ p with Name := bareName p.Name }],
                          propertyMap := bareName p.Name :: st.propertyMap,
                          ps := kept ++ todo, deleted := st.deleted + 1 }
        else .ok st
      else .ok st := by
  have hj : ((k : Int) - st.deleted).toNat = kept.length := by omega
  have hnn : ¬ ((k : Int) - st.deleted < 0) := by omega
  have hget : st.ps[kept.length]? = some p := by
    rw [hps, List.getElem?_append_right (le_refl _)]; simp
  have hshift : st.ps.take kept.length ++ st.ps.drop (kept.length + 1) = kept ++ todo := by
    rw [hps]; simp
  unfold extractStep
  simp only [hnn, if_false, hj, hget, hshift]

theorem foldlM_extractStep (ns : String) :
    ∀ (todo kept : PropertyList) (k : Nat) (st : ExtractState),
      st.ps = kept ++ todo → (k : Int) - st.deleted = kept.length →
      finish ((List.range' k todo.length).foldlM (extractStep ns) st)
        = walk ns todo kept st.key st.properties st.propertyMap := by
  intro todo
  induction todo with
  | nil =>
    intro kept k st hps _
    simp [finish, walk, hps, pure, Except.pure]
  | cons p todo ih =>
    intro kept k st hps hk
    have hk1 : ((k + 1 : Nat) : Int) - st.deleted = ((kept ++ [p]).length : Nat) := by
      simp; omega
    have hk2 : ((k + 1 : Nat) : Int) - (st.deleted + 1) = (kept.length : Nat) := by
      simp; omega
    simp only [List.length_cons, List.range'_succ, List.foldlM_cons]
    rw [extractStep_eq ns st k kept todo p hps hk, walk]
    by_cases h1 : currentNamespace p.Name = ns
    · by_cases h2 : bareName p.Name ∈ st.propertyMap
      · simp only [h1, h2, if_true, not_true_eq_false, if_false]
        exact ih (kept ++ [p]) (k + 1) st (by simp [hps]) hk1
      · by_cases h3 : bareName p.Name = "id"
        · have h2i : "id" ∉ st.propertyMap := h3 ▸ h2
          by_cases h4 : st.key = none
          · simp only [h1, h2i, h3, h4, if_true, not_false_eq_true]
            cases hv : p.Value with
            | key kk =>
              exact ih kept (k + 1)
                ⟨kept ++ todo, some kk, st.properties, "id" :: st.propertyMap, st.deleted + 1⟩ rfl hk2
            | scalar s => rfl
          · simp only [h1, h2i, h3, h4, if_true, not_false_eq_true, if_false]
            exact ih kept (k + 1)
              ⟨kept ++ todo, st.key, st.properties, "id" :: st.propertyMap, st.deleted + 1⟩ rfl hk2
        · simp only [h1, h2, h3, if_true, not_false_eq_true, if_false]
          exact ih kept (k + 1)
            ⟨kept ++ todo, st.key, st.properties ++ [{ p with Name := bareName p.Name }],
              bareName p.Name :: st.propertyMap, st.deleted + 1⟩ rfl hk2
    · simp only [h1, if_false]
      exact ih (kept ++ [p]) (k + 1) st (by simp [hps]) hk1

theorem extractEntityProperties_eq_walk (ns : String) (ps : PropertyList) :
    extractEntityProperties ns ps = walk ns ps [] none [] [] := by
  have := foldlM_extractStep ns ps [] 0
    { ps := ps, key := none, properties := [], propertyMap := [], deleted := 0 } rfl (by simp)
  rw [← this, ← List.range_eq_range']
  unfold extractEntityProperties finish
  rfl

theorem idsAreKeysAt_cons {ns : String} {p : Property} {ps : PropertyList} :
    idsAreKeysAt ns (p :: ps) ↔
      (currentNamespace p.Name = ns → bareName p.Name = "id" → p.Value.asKey.isSome = true) ∧
        idsAreKeysAt ns ps := by
  simp [idsAreKeysAt]

theorem idsAreKeys_at {ps : PropertyList} (h : idsAreKeys ps) (ns : String) :
    idsAreKeysAt ns ps :=
  fun p hp _ hid => h p hp hid

theorem removed_id_free (ns : String) :
    ∀ (todo : PropertyList) (seen : List String), "id" ∈ seen →
      ∀ p ∈ removed ns seen todo, bareName p.Name ≠ "id" := by
  intro todo
  induction todo with
  | nil => intro seen _ p hp; simp [removed] at hp
  | cons q todo ih =>
    intro seen hs p hp
    rw [removed] at hp
    split_ifs at hp with h
    · rcases List.mem_cons.1 hp with rfl | hp
      · intro hid; exact h.2 (hid ▸ hs)
      · exact ih _ (List.mem_cons_of_mem _ hs) p hp
    · exact ih _ hs p hp

theorem walk_eq (ns : String) :
    ∀ (todo kept : PropertyList) (key : Option Key) (properties : PropertyList)
      (seen : List String), (key ≠ none → "id" ∈ seen) →
      idsAreKeysAt ns todo →
      walk ns todo kept key properties seen =
        .ok { key := if "id" ∈ seen then key else capturedKey (removed ns seen todo),
              properties := properties ++
                ((removed ns seen todo).filter fun p => bareName p.Name ≠ "id").map rename,
              rest := kept ++ survivors ns seen todo } := by
  intro todo
  induction todo with
  | nil =>
    intro kept key properties seen hkey _
    by_cases hs : "id" ∈ seen
    · simp [walk, removed, survivors, hs]
    · have : key = none := by
        by_contra hne; exact hs (hkey hne)
      simp [walk, removed, survivors, hs, capturedKey, this]
  | cons p todo ih =>
    intro kept key properties seen hkey hids
    obtain ⟨hp, hids⟩ := idsAreKeysAt_cons.1 hids
    rw [walk, removed, survivors]
    by_cases h1 : currentNamespace p.Name = ns
    · by_cases h2 : bareName p.Name ∈ seen
      · simp only [h1, h2, if_true, not_true_eq_false, and_false, if_false]
        rw [ih (kept ++ [p]) key properties seen hkey hids]
        simp
      · by_cases h3 : bareName p.Name = "id"
        · have h2i : "id" ∉ seen := h3 ▸ h2
          have hk : key = none := by
            by_contra hne; exact h2i (hkey hne)
          obtain ⟨kk, hkk⟩ := Option.isSome_iff_exists.1 (hp h1 h3)
          have hv : p.Value = .key kk := by
            cases hpv : p.Value with
            | key k => simp [hpv, Value.asKey] at hkk; rw [hkk]
            | scalar s => simp [hpv, Value.asKey] at hkk
          simp only [h1, h2i, h3, hk, hv, if_true, not_false_eq_true, and_self, if_false]
          rw [ih kept (some kk) properties ("id" :: seen) (fun _ => List.mem_cons_self _ _)
            hids]
          simp [capturedKey, h3, hv, Value.asKey]
        · simp only [h1, h2, h3, if_true, not_false_eq_true, and_self, if_false]
          have hkey1 : key ≠ none → "id" ∈ bareName p.Name :: seen :=
            fun hne => List.mem_cons_of_mem _ (hkey hne)
          rw [ih kept key _ (bareName p.Name :: seen) hkey1 hids]
          have hne : ¬ ("id" = bareName p.Name) := fun h => h3 h.symm
          simp [capturedKey, h3, hne, rename]
    · simp only [h1, false_and, if_false]
      rw [ih (kept ++ [p]) key properties seen hkey hids]
      simp

theorem extract_eq (ns : String) (ps : PropertyList) (h : idsAreKeysAt ns ps) :
    extractEntityProperties ns ps =
      .ok { key := capturedKey (removed ns [] ps),
            properties := ((removed ns [] ps).filter fun p => bareName p.Name ≠ "id").map rename,
            rest := survivors ns [] ps } := by
  rw [extractEntityProperties_eq_walk, walk_eq ns ps [] none [] [] (fun h => absurd rfl h) h]
  simp

theorem isFirstAt_append (ns : String) (pre todo : PropertyList) (p : Property)
    (seen : List String)
    (hseen : ∀ b, b ∈ seen ↔ ∃ q ∈ pre, currentNamespace q.Name = ns ∧ bareName q.Name = b) :
    isFirstAt ns (pre ++ p :: todo) pre.length
      = decide (currentNamespace p.Name = ns ∧ bareName p.Name ∉ seen) := by
  unfold isFirstAt
  rw [List.getElem?_append_right (le_refl _)]
  simp only [Nat.sub_self, List.getElem?_cons_zero, List.take_left']
  rw [Bool.eq_iff_iff]
  simp only [Bool.and_eq_true, decide_eq_true_eq, List.all_eq_true, Bool.not_eq_true',
    Bool.and_eq_false_imp, decide_eq_false_iff_not, hseen]
  constructor
  · rintro ⟨h1, h2⟩
    refine ⟨h1, ?_⟩
    rintro ⟨q, hq, hq1, hq2⟩
    exact h2 q hq hq1 hq2
  · rintro ⟨h1, h2⟩
    exact ⟨h1, fun q hq hq1 hq2 => h2 ⟨q, hq, hq1, hq2⟩⟩

theorem seen_step (ns : String) (pre : PropertyList) (p : Property) (seen : List String)
    (hseen : ∀ b, b ∈ seen ↔ ∃ q ∈ pre, currentNamespace q.Name = ns ∧ bareName q.Name = b) :
    (currentNamespace p.Name = ns ∧ bareName p.Name ∉ seen →
      ∀ b, b ∈ bareName p.Name :: seen ↔
        ∃ q ∈ pre ++ [p], currentNamespace q.Name = ns ∧ bareName q.Name = b) ∧
    (¬ (currentNamespace p.Name = ns ∧ bareName p.Name ∉ seen) →
      ∀ b, b ∈ seen ↔ ∃ q ∈ pre ++ [p], currentNamespace q.Name = ns ∧ bareName q.Name = b) := by
  constructor
  · rintro ⟨h1, _⟩ b
    simp only [List.mem_append, List.mem_singleton]
    simp only [List.mem_cons, hseen]
    constructor
    · rintro (rfl | ⟨q, hq, hq1, hq2⟩)
      · exact ⟨p, Or.inr rfl, h1, rfl⟩
      · exact ⟨q, Or.inl hq, hq1, hq2⟩
    · rintro ⟨q, hq | rfl, hq1, hq2⟩
      · exact Or.inr ⟨q, hq, hq1, hq2⟩
      · exact Or.inl hq2.symm
  · intro h b
    simp only [List.mem_append, List.mem_singleton]
    constructor
    · intro hb
      obtain ⟨q, hq, hq1, hq2⟩ := (hseen b).1 hb
      exact ⟨q, Or.inl hq, hq1, hq2⟩
    · rintro ⟨q, hq | rfl, hq1, hq2⟩
      · exact (hseen b).2 ⟨q, hq, hq1, hq2⟩
      · by_contra hb
        exact h ⟨hq1, hq2 ▸ hb⟩

theorem survivors_enumFrom (ns : String) :
    ∀ (todo pre : PropertyList) (seen : List String),
      (∀ b, b ∈ seen ↔ ∃ q ∈ pre, currentNamespace q.Name = ns ∧ bareName q.Name = b) →
      survivors ns seen todo =
        ((todo.enumFrom pre.length).filter fun ip => !isFirstAt ns (pre ++ todo) ip.1).map
          Prod.snd := by
  intro todo
  induction todo with
  | nil => intro pre seen _; simp [survivors]
  | cons p todo ih =>
    intro pre seen hseen
    have e : pre ++ p :: todo = (pre ++ [p]) ++ todo := by simp
    have hl : pre.length + 1 = (pre ++ [p]).length := by simp
    have hf := isFirstAt_append ns pre todo p seen hseen
    rw [survivors, List.enumFrom_cons, List.filter_cons, hf]
    by_cases h : currentNamespace p.Name = ns ∧ bareName p.Name ∉ seen
    · simp only [h, and_self, if_true, decide_True, Bool.not_true, Bool.false_eq_true, if_false,
        not_false_eq_true]
      rw [e, hl]
      exact ih (pre ++ [p]) _ ((seen_step ns pre p seen hseen).1 h)
    · simp only [h, if_false, decide_False, Bool.not_false, if_true, List.map_cons]
      rw [e, hl, ← ih (pre ++ [p]) _ ((seen_step ns pre p seen hseen).2 h)]

theorem removed_enumFrom (ns : String) :
    ∀ (todo pre : PropertyList) (seen : List String),
      (∀ b, b ∈ seen ↔ ∃ q ∈ pre, currentNamespace q.Name = ns ∧ bareName q.Name = b) →
      removed ns seen todo =
        ((todo.enumFrom pre.length).filter fun ip => isFirstAt ns (pre ++ todo) ip.1).map
          Prod.snd := by
  intro todo
  induction todo with
  | nil => intro pre seen _; simp [removed]
  | cons p todo ih =>
    intro pre seen hseen
    have e : pre ++ p :: todo = (pre ++ [p]) ++ todo := by simp
    have hl : pre.length + 1 = (pre ++ [p]).length := by simp
    have hf := isFirstAt_append ns pre todo p seen hseen
    rw [removed, List.enumFrom_cons, List.filter_cons, hf]
    by_cases h : currentNamespace p.Name = ns ∧ bareName p.Name ∉ seen
    · simp only [h, and_self, if_true, decide_True, not_false_eq_true, List.map_cons]
      rw [e, hl, ← ih (pre ++ [p]) _ ((seen_step ns pre p seen hseen).1 h)]
    · simp only [h, if_false, decide_False, Bool.false_eq_true]
      rw [e, hl]
      exact ih (pre ++ [p]) _ ((seen_step ns pre p seen hseen).2 h)

theorem removed_fresh (ns : String) :
    ∀ (todo : PropertyList) (seen : List String),
      ((removed ns seen todo).map fun p => bareName p.Name).Nodup ∧
      ∀ p ∈ removed ns seen todo,
        p ∈ todo ∧ currentNamespace p.Name = ns ∧ bareName p.Name ∉ seen := by
  intro todo
  induction todo with
  | nil => intro seen; simp [removed]
  | cons q todo ih =>
    intro seen
    rw [removed]
    split_ifs with h
    · obtain ⟨hn, hm⟩ := ih (bareName q.Name :: seen)
      refine ⟨?_, ?_⟩
      · rw [List.map_cons, List.nodup_cons]
        refine ⟨?_, hn⟩
        intro hmem
        obtain ⟨p, hp, hpq⟩ := List.mem_map.1 hmem
        exact (hm p hp).2.2 (hpq ▸ List.mem_cons_self _ _)
      · intro p hp
        rcases List.mem_cons.1 hp with rfl | hp
        · exact ⟨List.mem_cons_self _ _, h.1, h.2⟩
        · obtain ⟨h1, h2, h3⟩ := hm p hp
          exact ⟨List.mem_cons_of_mem _ h1, h2, fun hs => h3 (List.mem_cons_of_mem _ hs)⟩
    · obtain ⟨hn, hm⟩ := ih seen
      exact ⟨hn, fun p hp => ⟨List.mem_cons_of_mem _ (hm p hp).1, (hm p hp).2⟩⟩

theorem removed_find_id (ns : String) :
    ∀ (todo : PropertyList) (seen : List String), "id" ∉ seen →
      ((removed ns seen todo).find? fun p => bareName p.Name = "id") =
        todo.find? fun p => decide (currentNamespace p.Name = ns) && decide (bareName p.Name = "id") := by
  intro todo
  induction todo with
  | nil => intro seen _; simp [removed]
  | cons q todo ih =>
    intro seen hs
    rw [removed]
    by_cases h1 : currentNamespace q.Name = ns
    · by_cases h3 : bareName q.Name = "id"
      · have h2 : bareName q.Name ∉ seen := h3 ▸ hs
        simp [h1, h3, hs]
      · by_cases h2 : bareName q.Name ∈ seen
        · simp [h1, h2, h3, ih seen hs]
        · have hs1 : "id" ∉ bareName q.Name :: seen := by
            simp only [List.mem_cons, not_or]
            exact ⟨fun h => h3 h.symm, hs⟩
          simp [h1, h2, h3, ih _ hs1]
    · simp [h1, ih seen hs]

theorem survivors_sublist (ns : String) :
    ∀ (todo : PropertyList) (seen : List String), (survivors ns seen todo).Sublist todo := by
  intro todo
  induction todo with
  | nil => intro seen; simp [survivors]
  | cons q todo ih =>
    intro seen
    rw [survivors]
    split_ifs with h
    · exact (ih _).cons q
    · exact (ih _).cons₂ q

theorem survivors_filter_other (ns : String) :
    ∀ (todo : PropertyList) (seen : List String),
      ((survivors ns seen todo).filter fun p => !decide (currentNamespace p.Name = ns)) =
        todo.filter fun p => !decide (currentNamespace p.Name = ns) := by
  intro todo
  induction todo with
  | nil => intro seen; simp [survivors]
  | cons q todo ih =>
    intro seen
    rw [survivors]
    by_cases h1 : currentNamespace q.Name = ns
    · by_cases h2 : bareName q.Name ∈ seen
      · simp [h1, h2, ih seen]
      · simp [h1, h2, ih _]
    · simp [h1, ih seen]

/-- C2 (extractor result). For every attribute list that respects the reserved name `id`
and every namespace `ns`, `extractEntityProperties` returns; its result holds exactly the
first occurrence of each bare name other than `id` among the attributes at `ns`, in
order of first occurrence, each under its bare name with value and flags unchanged; no two
attributes of the result share a name and none is named `id`; the key is the value of the
first attribute at `ns` whose bare name is `id`, absent when there is none. -/
theorem extractEntityProperties_result (ns : String) (ps : PropertyList) (h : idsAreKeysAt ns ps) :
    ∃ ex, extractEntityProperties ns ps = .ok ex ∧
      ex.properties =
        ((ps.enum.filter fun ip =>
            isFirstAt ns ps ip.1 && decide (bareName ip.2.Name ≠ "id")).map fun ip =>
          ({ ip.2 with Name := bareName ip.2.Name } : Property)) ∧
      (ex.properties.map fun p => p.Name).Nodup ∧
      (∀ p ∈ ex.properties, p.Name ≠ "id") ∧
      ex.key.map Value.key =
        (ps.find? fun p =>
          decide (currentNamespace p.Name = ns) && decide (bareName p.Name = "id")).map
            fun p => p.Value := by
  refine ⟨_, extract_eq ns ps h, ?_, ?_, ?_, ?_⟩
  · have := removed_enumFrom ns ps [] [] (by simp)
    simp only [List.length_nil, List.nil_append] at this
    simp only [this, List.enum, List.filter_map, List.filter_filter, List.map_map]
    have hf : ∀ ip : Nat × Property,
        (((fun p : Property => decide (bareName p.Name ≠ "id")) ∘ Prod.snd) ip &&
          isFirstAt ns ps ip.1) =
        (isFirstAt ns ps ip.1 && decide (bareName ip.2.Name ≠ "id")) := by
      intro ip; simp [Bool.and_comm]
    simp only [hf]
    rfl
  · have hn := (removed_fresh ns ps []).1
    simp only [List.map_map]
    have hsub : ((removed ns [] ps).filter fun p => decide (bareName p.Name ≠ "id")).Sublist
        (removed ns [] ps) := List.filter_sublist _
    exact (hsub.map _).nodup hn
  · intro p hp
    simp only [List.mem_map, List.mem_filter] at hp
    obtain ⟨q, ⟨_, hq⟩, rfl⟩ := hp
    simpa [rename] using hq
  · simp only [capturedKey]
    rw [removed_find_id ns ps [] (by simp)]
    cases hf : ps.find? (fun p =>
        decide (currentNamespace p.Name = ns) && decide (bareName p.Name = "id")) with
    | none => simp
    | some p =>
      have hp := List.find?_some hf
      have hmem := List.mem_of_find?_eq_some hf
      simp only [Bool.and_eq_true, decide_eq_true_eq] at hp
      have := h p hmem hp.1 hp.2
      cases hv : p.Value with
      | key k => simp [hv, Value.asKey]
      | scalar s => simp [hv, Value.asKey] at this

/-- C3 (extractor frame). For every attribute list that respects the reserved name `id`
and every namespace `ns`, the list left behind by `extractEntityProperties` is the
original list with exactly the positions deleted that hold the first occurrence of a bare
name at `ns`: what remains is in the original order, and every attribute whose namespace
differs from `ns` is still there. -/
theorem extractEntityProperties_rest (ns : String) (ps : PropertyList) (h : idsAreKeysAt ns ps) :
    ∃ ex, extractEntityProperties ns ps = .ok ex ∧
      ex.rest = ((ps.enum.filter fun ip => !isFirstAt ns ps ip.1).map Prod.snd) ∧
      ex.rest.Sublist ps ∧
      (ex.rest.filter fun p => decide (currentNamespace p.Name ≠ ns)) =
        ps.filter fun p => decide (currentNamespace p.Name ≠ ns) := by
  refine ⟨_, extract_eq ns ps h, ?_, survivors_sublist ns ps [], ?_⟩
  · have := survivors_enumFrom ns ps [] [] (by simp)
    simpa [List.enum] using this
  · simpa using survivors_filter_other ns ps []

theorem extractEntityProperties_result_witness :
    idsAreKeysAt "comments" (serialized ⟨"k"⟩) ∧
      ∃ ex, extractEntityProperties "comments" (serialized ⟨"k"⟩) = .ok ex ∧
        (ex.properties.map fun p => p.Name).Nodup ∧ ex.key.map Value.key = some (.key ⟨"k"⟩) :=
  ⟨by decide,
    (extractEntityProperties_result "comments" (serialized ⟨"k"⟩) (by decide)).imp
      fun _ h => ⟨h.1, h.2.2.1, h.2.2.2.2⟩⟩

theorem extractEntityProperties_rest_witness :
    idsAreKeysAt "comments" (serialized ⟨"k"⟩) ∧
      ∃ ex, extractEntityProperties "comments" (serialized ⟨"k"⟩) = .ok ex ∧
        ex.rest.Sublist (serialized ⟨"k"⟩) :=
  ⟨by decide,
    (extractEntityProperties_rest "comments" (serialized ⟨"k"⟩) (by decide)).imp
      fun _ h => ⟨h.1, h.2.2.1⟩⟩

theorem namesAt_cons (ns : String) (p : Property) (ps : PropertyList) :
    namesAt ns (p :: ps) =
      if currentNamespace p.Name = ns then bareName p.Name :: namesAt ns ps else namesAt ns ps := by
  unfold namesAt
  by_cases h : currentNamespace p.Name = ns <;> simp [h]

theorem namesAt_append (ns : String) (l1 l2 : PropertyList) :
    namesAt ns (l1 ++ l2) = namesAt ns l1 ++ namesAt ns l2 := by
  simp [namesAt]

theorem mem_namesAt {ns : String} {ps : PropertyList} {b : String} :
    b ∈ namesAt ns ps ↔ ∃ p ∈ ps, currentNamespace p.Name = ns ∧ bareName p.Name = b := by
  simp [namesAt, and_assoc]

theorem removed_congr (ns : String) :
    ∀ (l : PropertyList) (s1 s2 : List String), (∀ b, b ∈ s1 ↔ b ∈ s2) →
      removed ns s1 l = removed ns s2 l := by
  intro l
  induction l with
  | nil => intro s1 s2 _; simp [removed]
  | cons p l ih =>
    intro s1 s2 h
    rw [removed, removed]
    have ih1 := ih (bareName p.Name :: s1) (bareName p.Name :: s2)
      (fun b => by simp only [List.mem_cons, h b])
    by_cases hc : currentNamespace p.Name = ns ∧ bareName p.Name ∉ s1
    · have hc2 : currentNamespace p.Name = ns ∧ bareName p.Name ∉ s2 :=
        ⟨hc.1, fun hm => hc.2 ((h _).2 hm)⟩
      rw [if_pos hc, if_pos hc2, ih1]
    · have hc2 : ¬ (currentNamespace p.Name = ns ∧ bareName p.Name ∉ s2) :=
        fun hm => hc ⟨hm.1, fun hs => hm.2 ((h _).1 hs)⟩
      rw [if_neg hc, if_neg hc2, ih s1 s2 h]

theorem survivors_congr (ns : String) :
    ∀ (l : PropertyList) (s1 s2 : List String), (∀ b, b ∈ s1 ↔ b ∈ s2) →
      survivors ns s1 l = survivors ns s2 l := by
  intro l
  induction l with
  | nil => intro s1 s2 _; simp [survivors]
  | cons p l ih =>
    intro s1 s2 h
    rw [survivors, survivors]
    have ih1 := ih (bareName p.Name :: s1) (bareName p.Name :: s2)
      (fun b => by simp only [List.mem_cons, h b])
    by_cases hc : currentNamespace p.Name = ns ∧ bareName p.Name ∉ s1
    · have hc2 : currentNamespace p.Name = ns ∧ bareName p.Name ∉ s2 :=
        ⟨hc.1, fun hm => hc.2 ((h _).2 hm)⟩
      rw [if_pos hc, if_pos hc2, ih1]
    · have hc2 : ¬ (currentNamespace p.Name = ns ∧ bareName p.Name ∉ s2) :=
        fun hm => hc ⟨hm.1, fun hs => hm.2 ((h _).1 hs)⟩
      rw [if_neg hc, if_neg hc2, ih s1 s2 h]

theorem removed_append (ns : String) :
    ∀ (l1 l2 : PropertyList) (seen : List String),
      removed ns seen (l1 ++ l2) =
        removed ns seen l1 ++ removed ns (namesAt ns l1 ++ seen) l2 := by
  intro l1
  induction l1 with
  | nil => intro l2 seen; simp [removed, namesAt]
  | cons p l1 ih =>
    intro l2 seen
    rw [List.cons_append, removed, removed, namesAt_cons]
    by_cases h1 : currentNamespace p.Name = ns
    · by_cases h2 : bareName p.Name ∈ seen
      · simp only [h1, h2, not_true_eq_false, and_false, if_false, if_true]
        rw [ih l2 seen]
        congr 1
        apply removed_congr
        intro b
        by_cases hb : b = bareName p.Name
        · subst hb; simp [h2]
        · simp [hb]
      · simp only [h1, h2, not_false_eq_true, and_self, if_true, List.cons_append]
        rw [ih l2 (bareName p.Name :: seen)]
        congr 2
        apply removed_congr
        intro b
        simp only [List.mem_append, List.mem_cons]
        tauto
    · simp only [h1, false_and, if_false]
      exact ih l2 seen

theorem survivors_append (ns : String) :
    ∀ (l1 l2 : PropertyList) (seen : List String),
      survivors ns seen (l1 ++ l2) =
        survivors ns seen l1 ++ survivors ns (namesAt ns l1 ++ seen) l2 := by
  intro l1
  induction l1 with
  | nil => intro l2 seen; simp [survivors, namesAt]
  | cons p l1 ih =>
    intro l2 seen
    rw [List.cons_append, survivors, survivors, namesAt_cons]
    by_cases h1 : currentNamespace p.Name = ns
    · by_cases h2 : bareName p.Name ∈ seen
      · simp only [h1, h2, not_true_eq_false, and_false, if_false, if_true, List.cons_append]
        rw [ih l2 seen]
        congr 2
        apply survivors_congr
        intro b
        by_cases hb : b = bareName p.Name
        · subst hb; simp [h2]
        · simp [hb]
      · simp only [h1, h2, not_false_eq_true, and_self, if_true]
        rw [ih l2 (bareName p.Name :: seen)]
        congr 1
        apply survivors_congr
        intro b
        simp only [List.mem_append, List.mem_cons]
        tauto
    · simp only [h1, false_and, if_false, List.cons_append]
      rw [ih l2 seen]

theorem removed_of_seen (ns : String) :
    ∀ (l : PropertyList) (seen : List String), (∀ b ∈ namesAt ns l, b ∈ seen) →
      removed ns seen l = [] ∧ survivors ns seen l = l := by
  intro l
  induction l with
  | nil => intro seen _; simp [removed, survivors]
  | cons p l ih =>
    intro seen h
    rw [namesAt_cons] at h
    rw [removed, survivors]
    by_cases h1 : currentNamespace p.Name = ns
    · simp only [h1, if_true, List.mem_cons, forall_eq_or_imp] at h
      obtain ⟨hr, hs⟩ := ih seen h.2
      simp [h1, h.1, hr, hs]
    · simp only [h1, if_false] at h
      obtain ⟨hr, hs⟩ := ih seen h
      simp [h1, hr, hs]

theorem removed_of_fresh (ns : String) :
    ∀ (l : PropertyList) (seen : List String), (namesAt ns l).Nodup →
      (∀ b ∈ namesAt ns l, b ∉ seen) →
      removed ns seen l = l.filter (fun p => decide (currentNamespace p.Name = ns)) ∧
      survivors ns seen l = l.filter (fun p => !decide (currentNamespace p.Name = ns)) := by
  intro l
  induction l with
  | nil => intro seen _ _; simp [removed, survivors]
  | cons p l ih =>
    intro seen hn h
    rw [namesAt_cons] at h hn
    rw [removed, survivors]
    by_cases h1 : currentNamespace p.Name = ns
    · simp only [h1, if_true, List.mem_cons, forall_eq_or_imp, List.nodup_cons] at h hn
      have hfresh : ∀ b ∈ namesAt ns l, b ∉ bareName p.Name :: seen := by
        intro b hb hmem
        rcases List.mem_cons.1 hmem with rfl | hmem
        · exact hn.1 hb
        · exact h.2 b hb hmem
      obtain ⟨hr, hs⟩ := ih (bareName p.Name :: seen) hn.2 hfresh
      simp [h1, h.1, hr, hs]
    · simp only [h1, if_false] at h hn
      obtain ⟨hr, hs⟩ := ih seen hn h
      simp [h1, hr, hs]

theorem filter_eq_singleton_of_nodup {α β : Type} [DecidableEq β] (f : α → β) :
    ∀ (l : List α) (a : α), (l.map f).Nodup → a ∈ l →
      l.filter (fun x => decide (f x = f a)) = [a] := by
  intro l
  induction l with
  | nil => intro a _ h; simp at h
  | cons x l ih =>
    intro a hn ha
    rw [List.map_cons, List.nodup_cons] at hn
    rcases List.mem_cons.1 ha with rfl | ha
    · have : l.filter (fun x => decide (f x = f a)) = [] := by
        rw [List.filter_eq_nil_iff]
        intro y hy hfy
        exact hn.1 (List.mem_map.2 ⟨y, hy, by simpa using hfy⟩)
      simp [this]
    · have hx : f x ≠ f a := fun h => hn.1 (h ▸ List.mem_map_of_mem f ha)
      simp [hx, ih a hn.2 ha]

/-- C4, counterexample. With `text = "A"` then `text = "B"` at the root namespace, the first
extraction leaves the second attribute in the list and a second extraction returns it. -/
theorem first_wins_counterexample :
    ∃ ex1 ex2, extractEntityProperties "" [textA, textB] = .ok ex1 ∧
      ex1.properties = [textA] ∧ ex1.rest = [textB] ∧
      extractEntityProperties "" ex1.rest = .ok ex2 ∧ ex2.properties = [textB] :=
  ⟨{ key := none, properties := [textA], rest := [textB] },
    { key := none, properties := [textB], rest := [] },
    rfl, rfl, rfl, rfl, rfl⟩

/-- C4, as amended. When a list holds two attributes with the same name at namespace `ns`
(bare name other than `id`), the first and the second occurrence of that bare name at
`ns`, one extraction returns exactly one attribute of that name, with the value and flags
of the first occurrence, and leaves the second occurrence in the list; the next extraction
on the remaining list returns exactly one attribute of that name, with the value and
flags of the second occurrence. -/
theorem first_wins_then_second (ns : String) (pre mid post : PropertyList) (a b : Property)
    (hab : a.Name = b.Name) (ha : currentNamespace a.Name = ns) (hid : bareName a.Name ≠ "id")
    (hpre : bareName a.Name ∉ namesAt ns pre) (hmid : bareName a.Name ∉ namesAt ns mid)
    (hkeys : idsAreKeysAt ns (pre ++ a :: (mid ++ b :: post))) :
    ∃ ex1 ex2, extractEntityProperties ns (pre ++ a :: (mid ++ b :: post)) = .ok ex1 ∧
      (ex1.properties.filter fun p => decide (p.Name = bareName a.Name)) =
        [{ a with Name := bareName a.Name }] ∧
      b ∈ ex1.rest ∧
      extractEntityProperties ns ex1.rest = .ok ex2 ∧
      (ex2.properties.filter fun p => decide (p.Name = bareName a.Name)) =
        [{ b with Name := bareName a.Name }] := by
  have hb : currentNamespace b.Name = ns := hab ▸ ha
  have hbn : bareName b.Name = bareName a.Name := by rw [hab]
  have hrest : idsAreKeysAt ns (survivors ns [] (pre ++ a :: (mid ++ b :: post))) :=
    fun p hp => hkeys p ((survivors_sublist ns _ []).subset hp)
  refine ⟨_, _, extract_eq ns _ hkeys, ?_, ?_, extract_eq ns _ hrest, ?_⟩
  · -- the first pass takes `a`
    have hmem : a ∈ removed ns [] (pre ++ a :: (mid ++ b :: post)) := by
      rw [removed_append, removed]
      simp [ha, hpre]
    have hn := (removed_fresh ns (pre ++ a :: (mid ++ b :: post)) []).1
    have hf := filter_eq_singleton_of_nodup (fun p : Property => bareName p.Name) _ a hn hmem
    simp only [List.filter_map, List.filter_filter]
    have hfun : ∀ p : Property,
        (((fun p : Property => decide (p.Name = bareName a.Name)) ∘ rename) p &&
          decide (bareName p.Name ≠ "id")) = decide (bareName p.Name = bareName a.Name) := by
      intro p
      by_cases hp : bareName p.Name = bareName a.Name
      · simp [rename, hp, hid]
      · simp [rename, hp]
    simp only [hfun, hf]
    rfl
  · -- `b` stays
    show b ∈ survivors ns [] (pre ++ a :: (mid ++ b :: post))
    rw [survivors_append, survivors]
    simp only [ha, List.append_nil, hpre, not_false_eq_true, and_self, if_true]
    rw [survivors_append, survivors]
    have : bareName b.Name ∈ namesAt ns mid ++ bareName a.Name :: namesAt ns pre := by
      simp [hbn]
    simp [hb, this]
  · -- the second pass takes `b`
    have hsurv : survivors ns [] (pre ++ a :: (mid ++ b :: post)) =
        (survivors ns [] pre ++ survivors ns (bareName a.Name :: namesAt ns pre) mid) ++
          b :: survivors ns (namesAt ns mid ++ bareName a.Name :: namesAt ns pre) post := by
      rw [survivors_append, survivors]
      simp only [ha, List.append_nil, hpre, not_false_eq_true, and_self, if_true]
      rw [survivors_append, survivors]
      have : bareName b.Name ∈ namesAt ns mid ++ bareName a.Name :: namesAt ns pre := by
        simp [hbn]
      simp [hb, this]
    have hsub : ∀ (l : PropertyList) (seen : List String),
        bareName a.Name ∉ namesAt ns l → bareName a.Name ∉ namesAt ns (survivors ns seen l) := by
      intro l seen hl hm
      obtain ⟨q, hq, hq1, hq2⟩ := mem_namesAt.1 hm
      exact hl (mem_namesAt.2 ⟨q, (survivors_sublist ns l seen).subset hq, hq1, hq2⟩)
    have hmem : b ∈ removed ns [] (survivors ns [] (pre ++ a :: (mid ++ b :: post))) := by
      rw [hsurv, removed_append, removed]
      have : bareName b.Name ∉ namesAt ns (survivors ns [] pre ++
          survivors ns (bareName a.Name :: namesAt ns pre) mid) := by
        rw [hbn, namesAt_append, List.mem_append, not_or]
        exact ⟨hsub pre _ hpre, hsub mid _ hmid⟩
      simp [hb, this]
    have hn := (removed_fresh ns (survivors ns [] (pre ++ a :: (mid ++ b :: post))) []).1
    have hf := filter_eq_singleton_of_nodup (fun p : Property => bareName p.Name) _ b hn hmem
    simp only [List.filter_map, List.filter_filter]
    have hfun : ∀ p : Property,
        (((fun p : Property => decide (p.Name = bareName a.Name)) ∘ rename) p &&
          decide (bareName p.Name ≠ "id")) = decide (bareName p.Name = bareName b.Name) := by
      intro p
      by_cases hp : bareName p.Name = bareName a.Name
      · simp [rename, hp, hid, hbn]
      · simp [rename, hp, hbn]
    simp only [hfun, hf]
    simp [rename, hbn]

theorem first_wins_then_second_witness :
    ∃ ex1 ex2, extractEntityProperties "" ([] ++ textA :: ([] ++ textB :: [])) = .ok ex1 ∧
      (ex1.properties.filter fun p => decide (p.Name = bareName textA.Name)) =
        [{ textA with Name := bareName textA.Name }] ∧
      textB ∈ ex1.rest ∧
      extractEntityProperties "" ex1.rest = .ok ex2 ∧
      (ex2.properties.filter fun p => decide (p.Name = bareName textA.Name)) =
        [{ textB with Name := bareName textA.Name }] :=
  first_wins_then_second "" [] [] [] textA textB (by decide) (by decide) (by decide)
    (by decide) (by decide) (by decide)

/-! ## Names built by `qualify` and split by the extractor -/

theorem lastIndexChars_of_not_mem (c : Char) :
    ∀ b : List Char, c ∉ b → lastIndexChars c b = none := by
  intro b
  induction b with
  | nil => intro _; rfl
  | cons x xs ih =>
    intro h
    simp only [List.mem_cons, not_or] at h
    simp [lastIndexChars, ih h.2, Ne.symm h.1]

theorem lastIndexChars_append (c : Char) (b : List Char) (hb : c ∉ b) :
    ∀ n : List Char, lastIndexChars c (n ++ c :: b) = some n.length := by
  intro n
  induction n with
  | nil => simp [lastIndexChars, lastIndexChars_of_not_mem c b hb]
  | cons x xs ih => simp [lastIndexChars, ih]

theorem trimChars_output (l : List Char) :
    ((l.dropWhile fun c => c == '.').rdropWhile fun c => c == '.').head? ≠ some '.' ∧
    ((l.dropWhile fun c => c == '.').rdropWhile fun c => c == '.').getLast? ≠ some '.' := by
  set d := l.dropWhile fun c => c == '.' with hd
  set t := d.rdropWhile fun c => c == '.' with ht
  constructor
  · intro h
    have hne : t ≠ [] := by intro h0; rw [h0] at h; simp at h
    obtain ⟨u, hu⟩ : t <+: d := List.rdropWhile_prefix _ _
    have hdne : d ≠ [] := by intro h0; rw [h0] at hu; simp at hu; exact hne hu.1
    have hhead : d.head? = some '.' := by
      rw [← hu, List.head?_append_of_ne_nil _ hne, h]
    have := List.head_dropWhile_not (fun c => c == '.') l hdne
    rw [List.head?_eq_head hdne] at hhead
    simp only [Option.some.injEq] at hhead
    rw [hhead] at this
    simp at this
  · intro h
    have hne : t ≠ [] := by intro h0; rw [h0] at h; simp at h
    have := List.rdropWhile_last_not (fun c => c == '.') d hne
    rw [List.getLast?_eq_getLast _ hne] at h
    simp only [Option.some.injEq] at h
    rw [h] at this
    simp at this

theorem trimChars_id (l : List Char) (h1 : l.head? ≠ some '.') (h2 : l.getLast? ≠ some '.') :
    ((l.dropWhile fun c => c == '.').rdropWhile fun c => c == '.') = l := by
  have hd : (l.dropWhile fun c => c == '.') = l := by
    cases l with
    | nil => rfl
    | cons x xs =>
      have : x ≠ '.' := by simpa using h1
      simp [this]
  rw [hd, List.rdropWhile_eq_self_iff]
  intro hl hp
  rw [List.getLast?_eq_getLast _ hl] at h2
  simp only [beq_iff_eq] at hp
  exact h2 (by rw [hp])

theorem trimmed_Trim (s : String) : trimmed (Trim s '.') :=
  trimChars_output s.data

theorem Trim_of_trimmed (s : String) (h : trimmed s) : Trim s '.' = s := by
  unfold Trim
  rw [String.ext_iff]
  exact trimChars_id s.data h.1 h.2

theorem trimmed_qualify (ns name : String) : trimmed (qualify ns name) :=
  trimmed_Trim _

theorem isSegment_data {b : String} (h : isSegment b) :
    b.data ≠ [] ∧ '.' ∉ b.data ∧ b.data.head? ≠ some '.' ∧ b.data.getLast? ≠ some '.' := by
  obtain ⟨hne, hdf⟩ := h
  have hne1 : b.data ≠ [] := fun h0 => hne (String.ext_iff.2 (by rw [h0]))
  refine ⟨hne1, hdf, ?_, ?_⟩
  · intro h
    exact hdf (List.mem_of_mem_head? h)
  · intro h
    exact hdf (List.mem_of_mem_getLast? h)

theorem qualify_root (b : String) (hb : isSegment b) : qualify "" b = b := by
  obtain ⟨hne, hdf, hh, hl⟩ := isSegment_data hb
  unfold qualify Trim
  rw [String.ext_iff]
  have : ("" ++ "." ++ b).data = '.' :: b.data := rfl
  simp only [this]
  rw [List.dropWhile_cons_of_pos (by simp)]
  exact trimChars_id b.data hh hl

theorem qualify_nonroot (ns b : String) (hns : trimmed ns) (hne : ns ≠ "") (hb : isSegment b) :
    qualify ns b = ns ++ "." ++ b := by
  obtain ⟨hbne, hdf, hh, hl⟩ := isSegment_data hb
  have hnsne : ns.data ≠ [] := fun h0 => hne (String.ext_iff.2 (by rw [h0]))
  apply Trim_of_trimmed
  unfold trimmed
  have : (ns ++ "." ++ b).data = ns.data ++ ('.' :: b.data) := by
    simp [String.data_append]
  rw [this]
  constructor
  · rw [List.head?_append_of_ne_nil _ hnsne]; exact hns.1
  · rw [List.getLast?_append_of_ne_nil _ (by simp)]
    cases hbd : b.data with
    | nil => exact absurd hbd hbne
    | cons x xs =>
      rw [List.getLast?_cons_cons, ← hbd]
      exact hl

theorem qualify_ne_empty (ns b : String) (hns : trimmed ns) (hb : isSegment b) :
    qualify ns b ≠ "" := by
  by_cases hne : ns = ""
  · subst hne; rw [qualify_root b hb]; exact hb.1
  · rw [qualify_nonroot ns b hns hne hb]
    intro h
    have := congrArg String.length h
    simp at this
    have h1 : ("." : String).length = 1 := rfl
    omega

theorem length_qualify (ns b : String) (hns : trimmed ns) (hb : isSegment b) :
    ns.length < (qualify ns b).length := by
  obtain ⟨hbne, _⟩ := isSegment_data hb
  have hbl : 0 < b.length := List.length_pos.2 hbne
  by_cases hne : ns = ""
  · subst hne; rw [qualify_root b hb]; exact hbl
  · rw [qualify_nonroot ns b hns hne hb]
    simp only [String.length_append]
    omega

theorem split_append (ns b : String) (hb : dotFree b) :
    currentNamespace (ns ++ "." ++ b) = ns ∧ bareName (ns ++ "." ++ b) = b := by
  have hd : (ns ++ "." ++ b).data = ns.data ++ '.' :: b.data := by
    simp [String.data_append]
  have hcur : currentNamespace (ns ++ "." ++ b) = ns := by
    unfold currentNamespace LastIndex
    rw [hd, lastIndexChars_append '.' b.data hb ns.data]
    simp [sliceTo, hd]
  refine ⟨hcur, ?_⟩
  unfold bareName TrimPrefix
  rw [hcur]
  have hp : (ns ++ ".").data = ns.data ++ ['.'] := by simp [String.data_append]
  have hpre : (ns ++ ".").data.isPrefixOf (ns ++ "." ++ b).data = true := by
    rw [List.isPrefixOf_iff_prefix, hp, hd]
    exact ⟨b.data, by simp⟩
  rw [if_pos hpre, String.ext_iff, hd, hp]
  have e : ns.data ++ '.' :: b.data = (ns.data ++ ['.']) ++ b.data := by simp
  show List.drop (ns.data ++ ['.']).length (ns.data ++ '.' :: b.data) = b.data
  rw [e, List.drop_left]

theorem split_bare (b : String) (hb : dotFree b) :
    currentNamespace b = "" ∧ bareName b = b := by
  have hcur : currentNamespace b = "" := by
    unfold currentNamespace LastIndex
    rw [lastIndexChars_of_not_mem '.' b.data hb]
  refine ⟨hcur, ?_⟩
  unfold bareName TrimPrefix
  rw [hcur]
  have hpre : ¬ (("" : String) ++ ".").data.isPrefixOf b.data = true := by
    rw [List.isPrefixOf_iff_prefix]
    rintro ⟨t, ht⟩
    apply hb
    rw [← ht]
    simp [String.data_append]
  rw [if_neg hpre]

/-- Addressing round trip: the name built for a bare name below a namespace is split by the
extractor into that namespace and that bare name. -/
theorem split_qualify (ns b : String) (hns : trimmed ns) (hb : isSegment b) :
    currentNamespace (qualify ns b) = ns ∧ bareName (qualify ns b) = b := by
  by_cases hne : ns = ""
  · subst hne; rw [qualify_root b hb]; exact split_bare b hb.2
  · rw [qualify_nonroot ns b hns hne hb]; exact split_append ns b hb.2

/-! ## What `saveEntity` emits -/

theorem saveSlice_acc {S : Type} (save : Entity S → Except Error PropertyList) :
    ∀ (vs : List (Entity S)) (acc : PropertyList),
      saveSlice save vs acc =
        match saveSlice save vs [] with
        | .ok out => .ok (acc ++ out)
        | .error err => .error err := by
  intro vs
  induction vs with
  | nil => intro acc; simp [saveSlice]
  | cons v vs ih =>
    intro acc
    rw [saveSlice, saveSlice]
    cases hv : save v with
    | error err => rfl
    | ok properties =>
      simp only []
      rw [ih (acc ++ properties), ih ([] ++ properties)]
      cases saveSlice save vs [] with
      | error err => rfl
      | ok out => simp

theorem saveField_eq {S : Type} (c : Codec S)
    (save : Entity S → String → Bool → Except Error PropertyList) (ns : String) (multiple : Bool)
    (f : Field (Entity S)) (ps : PropertyList) :
    saveField c save ns multiple f ps =
      if tagOK f = false then .error .ErrBadSchemaStructTag
      else
        match tagArg annotationPrimary f with
        | some _ => savePrimary c ns multiple f ps
        | none =>
          match tagArg annotationRelation f with
          | some seg => saveRelation save ns multiple seg f ps
          | none => .ok ps := by
  have hne : annotationRelation ≠ annotationPrimary := by decide
  unfold saveField tagOK tagArg
  by_cases h1 : f.Tag = ""
  · simp [h1]
  · simp only [h1, if_false, decide_False, Bool.false_or]
    rcases hs : Split f.Tag ',' with _ | ⟨arg0, _ | ⟨arg1, rest⟩⟩
    · simp
    · simp
    · by_cases h2 : arg0 = annotationPrimary
      · simp [h2]
      · by_cases h3 : arg0 = annotationRelation
        · subst h3; simp [hne]
        · simp [h2, h3]

theorem saveSlice_ok_iff {S : Type} (save : Entity S → Except Error PropertyList) :
    ∀ (vs : List (Entity S)) (out : PropertyList),
      saveSlice save vs [] = .ok out ↔
        ∃ outs, List.Forall₂ (fun v o => save v = .ok o) vs outs ∧ out = outs.flatten := by
  intro vs
  induction vs with
  | nil =>
    intro out
    simp only [saveSlice, Except.ok.injEq, List.forall₂_nil_left_iff, exists_eq_left,
      List.flatten_nil]
    exact eq_comm
  | cons v vs ih =>
    intro out
    rw [saveSlice]
    cases hv : save v with
    | error err =>
      simp only [List.forall₂_cons_left_iff]
      constructor
      · intro h; cases h
      · rintro ⟨_, ⟨o, os, ho, _, _⟩, _⟩; rw [hv] at ho; cases ho
    | ok properties =>
      simp only [List.nil_append]
      rw [saveSlice_acc]
      constructor
      · intro h
        cases hr : saveSlice save vs [] with
        | error err => rw [hr] at h; cases h
        | ok o2 =>
          rw [hr] at h
          obtain ⟨outs, hf, rfl⟩ := (ih o2).1 hr
          refine ⟨properties :: outs, List.Forall₂.cons hv hf, ?_⟩
          simpa using (Except.ok.inj h).symm
      · rintro ⟨outs, hf, rfl⟩
        obtain ⟨o, os, ho, hos, rfl⟩ := List.forall₂_cons_left_iff.1 hf
        rw [hv] at ho
        cases ho
        rw [(ih os.flatten).2 ⟨os, hos, rfl⟩]
        simp

theorem saveField_acc {S : Type} (c : Codec S)
    (save : Entity S → String → Bool → Except Error PropertyList) (ns : String) (multiple : Bool)
    (f : Field (Entity S)) (acc : PropertyList) :
    saveField c save ns multiple f acc =
      match saveField c save ns multiple f [] with
      | .ok out => .ok (acc ++ out)
      | .error err => .error err := by
  rw [saveField_eq, saveField_eq]
  by_cases h0 : tagOK f = false
  · simp [h0]
  · simp only [h0, if_false]
    cases tagArg annotationPrimary f with
    | some a =>
      simp only [savePrimary]
      cases f.Value with
      | String id =>
        simp only []
        by_cases h : id ≠ "" ∧ ns ≠ ""
        · rw [if_pos h, if_pos h]; cases c.DecodeKey id <;> simp
        · rw [if_neg h, if_neg h]; simp
      | Ptr elem v => rfl
      | Slice elem vs => rfl
      | Other => rfl
    | none =>
      cases tagArg annotationRelation f with
      | none => simp
      | some seg =>
        simp only [saveRelation]
        cases f.Value with
        | String id => simp
        | Ptr elem v =>
          cases v with
          | none => simp
          | some child =>
            simp only []
            cases save child (qualify ns seg) multiple <;> simp
        | Slice elem vs =>
          simp only []
          exact saveSlice_acc _ vs acc
        | Other => simp

theorem saveFields_ok_iff {S : Type} (c : Codec S)
    (save : Entity S → String → Bool → Except Error PropertyList) (ns : String) (multiple : Bool) :
    ∀ (fs : List (Field (Entity S))) (acc out : PropertyList),
      saveFields c save ns multiple fs acc = .ok out ↔
        ∃ outs, List.Forall₂ (fun f o => saveField c save ns multiple f [] = .ok o) fs outs ∧
          out = acc ++ outs.flatten := by
  intro fs
  induction fs with
  | nil =>
    intro acc out
    simp only [saveFields, Except.ok.injEq, List.forall₂_nil_left_iff, exists_eq_left,
      List.flatten_nil, List.append_nil]
    exact eq_comm
  | cons f fs ih =>
    intro acc out
    rw [saveFields, saveField_acc]
    cases hf : saveField c save ns multiple f [] with
    | error err =>
      simp only [List.forall₂_cons_left_iff]
      constructor
      · intro h; cases h
      · rintro ⟨_, ⟨o, os, ho, _, _⟩, _⟩; rw [hf] at ho; cases ho
    | ok o1 =>
      simp only []
      rw [ih (acc ++ o1) out]
      constructor
      · rintro ⟨outs, hfs, rfl⟩
        exact ⟨o1 :: outs, List.Forall₂.cons hf hfs, by simp⟩
      · rintro ⟨outs, hfs, rfl⟩
        obtain ⟨o, os, ho, hos, rfl⟩ := List.forall₂_cons_left_iff.1 hfs
        rw [hf] at ho
        cases ho
        exact ⟨os, hos, by simp⟩

theorem saveEntityAux_ok_iff {S : Type} (c : Codec S) (left : Nat) (e : Entity S) (ns : String)
    (multiple : Bool) (out : PropertyList) :
    saveEntityAux c (left + 1) e ns multiple = .ok out ↔
      ∃ own outs, c.SaveStruct e.scalars = .ok own ∧
        List.Forall₂ (fun f o => saveField c (saveEntityAux c left) ns multiple f [] = .ok o)
          e.fields outs ∧
        out = (own.map fun property =>
          { property with Name := qualify ns property.Name, Multiple := multiple }) ++ outs.flatten := by
  rw [saveEntityAux]
  cases hs : c.SaveStruct e.scalars with
  | error err =>
    constructor
    · intro h; cases h
    · rintro ⟨_, _, h, _⟩; cases h
  | ok own =>
    simp only []
    rw [saveFields_ok_iff]
    constructor
    · rintro ⟨outs, hf, rfl⟩; exact ⟨own, outs, rfl, hf, rfl⟩
    · rintro ⟨own1, outs, h1, hf, rfl⟩; cases h1; exact ⟨outs, hf, rfl⟩

theorem forall₂_of_mem_right {α β : Type} {R : α → β → Prop} {l1 : List α} {l2 : List β}
    (h : List.Forall₂ R l1 l2) {b : β} (hb : b ∈ l2) : ∃ a ∈ l1, R a b := by
  induction h with
  | nil => simp at hb
  | cons hr _ ih =>
    rcases List.mem_cons.1 hb with rfl | hb
    · exact ⟨_, List.mem_cons_self _ _, hr⟩
    · obtain ⟨a, ha, hab⟩ := ih hb
      exact ⟨a, List.mem_cons_of_mem _ ha, hab⟩

theorem saveField_cases {S : Type} (c : Codec S)
    (save : Entity S → String → Bool → Except Error PropertyList) (ns : String) (multiple : Bool)
    (f : Field (Entity S)) (o : PropertyList)
    (h : saveField c save ns multiple f [] = .ok o) :
    (tagArg annotationPrimary f ≠ none ∧ o = keyProperty c ns multiple f) ∨
    (tagArg annotationPrimary f = none ∧ tagArg annotationRelation f = none ∧ o = []) ∨
    (∃ seg outs, tagArg annotationPrimary f = none ∧ tagArg annotationRelation f = some seg ∧
      List.Forall₂ (fun ch oc => save ch (qualify ns seg) (childMultiple multiple f.Value) = .ok oc)
        f.Value.children outs ∧ o = outs.flatten) := by
  rw [saveField_eq] at h
  by_cases h0 : tagOK f = false
  · simp [h0] at h
  · simp only [h0, if_false] at h
    cases hp : tagArg annotationPrimary f with
    | some a =>
      rw [hp] at h
      simp only [savePrimary] at h
      left
      refine ⟨by simp, ?_⟩
      unfold keyProperty
      rw [hp]
      cases hv : f.Value with
      | String id =>
        rw [hv] at h
        simp only [] at h ⊢
        by_cases hc : id ≠ "" ∧ ns ≠ ""
        · rw [if_pos hc] at h ⊢
          cases hd : c.DecodeKey id with
          | error err => rw [hd] at h; cases h
          | ok k =>
            rw [hd] at h
            simpa [idProperty] using (Except.ok.inj h).symm
        · rw [if_neg hc] at h ⊢
          exact (Except.ok.inj h).symm
      | Ptr elem v => rw [hv] at h; cases h
      | Slice elem vs => rw [hv] at h; cases h
      | Other => rw [hv] at h; cases h
    | none =>
      rw [hp] at h
      right
      cases hr : tagArg annotationRelation f with
      | none =>
        rw [hr] at h
        left
        exact ⟨rfl, rfl, (Except.ok.inj h).symm⟩
      | some seg =>
        rw [hr] at h
        simp only [saveRelation] at h
        right
        refine ⟨seg, ?_⟩
        cases hv : f.Value with
        | String id =>
          rw [hv] at h
          exact ⟨[], rfl, rfl, by simp [FieldValue.children], by simpa using (Except.ok.inj h).symm⟩
        | Other =>
          rw [hv] at h
          exact ⟨[], rfl, rfl, by simp [FieldValue.children], by simpa using (Except.ok.inj h).symm⟩
        | Ptr elem v =>
          rw [hv] at h
          cases v with
          | none =>
            exact ⟨[], rfl, rfl, by simp [FieldValue.children], by simpa using (Except.ok.inj h).symm⟩
          | some child =>
            simp only [] at h
            cases hs : save child (qualify ns seg) multiple with
            | error err => rw [hs] at h; cases h
            | ok oc =>
              rw [hs] at h
              refine ⟨[oc], rfl, rfl, ?_, by simpa using (Except.ok.inj h).symm⟩
              simp [FieldValue.children, childMultiple, hs]
        | Slice elem vs =>
          rw [hv] at h
          simp only [] at h
          obtain ⟨outs, hf, rfl⟩ := (saveSlice_ok_iff _ vs o).1 h
          exact ⟨outs, rfl, rfl, by simpa [FieldValue.children, childMultiple] using hf, rfl⟩

theorem mem_keyProperty {S : Type} (c : Codec S) (ns : String) (multiple : Bool)
    (f : Field (Entity S)) (p : Property) (h : p ∈ keyProperty c ns multiple f) :
    ns ≠ "" ∧ ∃ k, p = idProperty ns k multiple := by
  unfold keyProperty at h
  split at h
  · split_ifs at h with hc
    · split at h
      · simp only [List.mem_singleton] at h
        exact ⟨hc.2, _, h⟩
      · simp at h
    · simp at h
  · simp at h

theorem wellNamed_succ {S : Type} (c : Codec S) (depth : Nat) (e : Entity S)
    (h : wellNamed c (depth + 1) e = true) :
    (∀ own, c.SaveStruct e.scalars = .ok own → ∀ p ∈ own, isSegment p.Name ∧ p.Name ≠ "id") ∧
    ∀ f ∈ e.fields, ∀ seg, tagArg annotationRelation f = some seg →
      isSegment seg ∧ ∀ ch ∈ f.Value.children, wellNamed c depth ch = true := by
  rw [wellNamed, Bool.and_eq_true] at h
  obtain ⟨h1, h2⟩ := h
  constructor
  · intro own hown p hp
    rw [hown] at h1
    simpa using List.all_eq_true.1 h1 p hp
  · intro f hf seg hseg
    have := List.all_eq_true.1 h2 f hf
    rw [hseg] at this
    simp only [Bool.and_eq_true, decide_eq_true_eq, List.all_eq_true] at this
    exact this

theorem trimmed_descend (ns : String) (hns : trimmed ns) :
    ∀ path : List String, trimmed (descend ns path) := by
  intro path
  induction path using List.reverseRecOn with
  | nil => exact hns
  | append_singleton path s _ =>
    simp only [descend, List.foldl_append, List.foldl_cons, List.foldl_nil]
    exact trimmed_qualify _ _

theorem length_descend (ns : String) (hns : trimmed ns) :
    ∀ path : List String, (∀ s ∈ path, isSegment s) →
      ns.length + path.length ≤ (descend ns path).length := by
  intro path
  induction path using List.reverseRecOn with
  | nil => intro _; simp [descend]
  | append_singleton path s ih =>
    intro hp
    have h1 := ih (fun x hx => hp x (List.mem_append_left _ hx))
    have h2 := length_qualify (descend ns path) s (trimmed_descend ns hns path)
      (hp s (by simp))
    simp only [descend, List.foldl_append, List.foldl_cons, List.foldl_nil, List.length_append,
      List.length_singleton] at h1 h2 ⊢
    omega

theorem descend_cons (ns seg : String) (path : List String) :
    descend ns (seg :: path) = descend (qualify ns seg) path := rfl

/-- Every attribute that `saveEntity` emits for a well-named graph is named
`qualify (descend ns path) b` for a path of fewer segments than there are levels left and
a bare name `b`. -/
theorem save_names {S : Type} (c : Codec S) :
    ∀ (left : Nat) (e : Entity S) (ns : String) (multiple : Bool) (out : PropertyList),
      trimmed ns → wellNamed c left e = true → saveEntityAux c left e ns multiple = .ok out →
      ∀ p ∈ out, ∃ path b, (∀ s ∈ path, isSegment s) ∧ path.length < left ∧ isSegment b ∧
        p.Name = qualify (descend ns path) b := by
  intro left
  induction left with
  | zero =>
    intro e ns multiple out _ _ h p hp
    rw [saveEntityAux] at h
    cases h
    simp at hp
  | succ left ih =>
    intro e ns multiple out hns hw h p hp
    obtain ⟨hown, hfields⟩ := wellNamed_succ c left e hw
    obtain ⟨own, outs, hs, hf, rfl⟩ := (saveEntityAux_ok_iff c left e ns multiple out).1 h
    rcases List.mem_append.1 hp with hp | hp
    · obtain ⟨q, hq, rfl⟩ := List.mem_map.1 hp
      exact ⟨[], q.Name, by simp, by simp, (hown own hs q hq).1, rfl⟩
    · obtain ⟨o, ho, hpo⟩ := List.mem_flatten.1 hp
      obtain ⟨f, hfm, hfo⟩ := forall₂_of_mem_right hf ho
      rcases saveField_cases c _ ns multiple f o hfo with ⟨_, rfl⟩ | ⟨_, _, rfl⟩ |
        ⟨seg, couts, _, hseg, hch, rfl⟩
      · obtain ⟨_, k, rfl⟩ := mem_keyProperty c ns multiple f p hpo
        exact ⟨[], "id", by simp, by simp, by decide, rfl⟩
      · simp at hpo
      · obtain ⟨hsegOK, hchw⟩ := hfields f hfm seg hseg
        obtain ⟨oc, hoc, hpoc⟩ := List.mem_flatten.1 hpo
        obtain ⟨ch, hchm, hsave⟩ := forall₂_of_mem_right hch hoc
        obtain ⟨path, b, hpath, hlen, hb, hname⟩ :=
          ih ch (qualify ns seg) _ oc (trimmed_qualify ns seg) (hchw _ hchm) hsave p hpoc
        refine ⟨seg :: path, b, ?_, by simp; omega, hb, ?_⟩
        · intro s hs
          rcases List.mem_cons.1 hs with rfl | hs
          · exact hsegOK
          · exact hpath s hs
        · rw [descend_cons]; exact hname

theorem save_names_split {S : Type} (c : Codec S) (left : Nat) (e : Entity S) (ns : String)
    (multiple : Bool) (out : PropertyList) (hns : trimmed ns) (hw : wellNamed c left e = true)
    (h : saveEntityAux c left e ns multiple = .ok out) (p : Property) (hp : p ∈ out) :
    ∃ path, (∀ s ∈ path, isSegment s) ∧ path.length < left ∧
      currentNamespace p.Name = descend ns path ∧ isSegment (bareName p.Name) := by
  obtain ⟨path, b, hpath, hlen, hb, hname⟩ := save_names c left e ns multiple out hns hw h p hp
  have := split_qualify (descend ns path) b (trimmed_descend ns hns path) hb
  rw [← hname] at this
  exact ⟨path, hpath, hlen, this.1, this.2 ▸ hb⟩

theorem child_namespace_longer {S : Type} (c : Codec S) (left : Nat) (ch : Entity S)
    (ns seg : String) (multiple : Bool) (oc : PropertyList) (hns : trimmed ns)
    (hseg : isSegment seg) (hw : wellNamed c left ch = true)
    (h : saveEntityAux c left ch (qualify ns seg) multiple = .ok oc) (p : Property) (hp : p ∈ oc) :
    ns.length < (currentNamespace p.Name).length := by
  obtain ⟨path, hpath, _, hcur, _⟩ :=
    save_names_split c left ch (qualify ns seg) multiple oc (trimmed_qualify ns seg) hw h p hp
  have h1 := length_descend (qualify ns seg) (trimmed_qualify ns seg) path hpath
  have h2 := length_qualify ns seg hns hseg
  rw [hcur]
  omega

theorem keyProperty_atNs {S : Type} (c : Codec S) (ns : String) (hns : trimmed ns)
    (multiple : Bool) (f : Field (Entity S)) (p : Property)
    (h : p ∈ keyProperty c ns multiple f) :
    currentNamespace p.Name = ns ∧ bareName p.Name = "id" := by
  obtain ⟨_, k, rfl⟩ := mem_keyProperty c ns multiple f p h
  exact split_qualify ns "id" hns (by decide)

/-- The attributes of a saved node that lie at the node's own namespace are its scalar
attributes followed by its key attributes; everything else lies deeper. -/
theorem save_atNs {S : Type} (c : Codec S) (left : Nat) (e : Entity S) (ns : String)
    (multiple : Bool) (out : PropertyList) (hns : trimmed ns)
    (hw : wellNamed c (left + 1) e = true)
    (h : saveEntityAux c (left + 1) e ns multiple = .ok out) :
    ∃ own, c.SaveStruct e.scalars = .ok own ∧
      out.filter (fun p => decide (currentNamespace p.Name = ns)) =
        (own.map fun property =>
          { property with Name := qualify ns property.Name, Multiple := multiple }) ++
        e.fields.flatMap (keyProperty c ns multiple) ∧
      ∀ p ∈ out, currentNamespace p.Name ≠ ns → ns.length < (currentNamespace p.Name).length := by
  obtain ⟨hown, hfields⟩ := wellNamed_succ c left e hw
  obtain ⟨own, outs, hs, hf, rfl⟩ := (saveEntityAux_ok_iff c left e ns multiple out).1 h
  refine ⟨own, hs, ?_, ?_⟩
  · rw [List.filter_append]
    congr 1
    · rw [List.filter_eq_self]
      intro p hp
      obtain ⟨q, hq, rfl⟩ := List.mem_map.1 hp
      simpa using (split_qualify ns q.Name hns (hown own hs q hq).1).1
    · clear hs hown h hw
      revert hfields
      generalize e.fields = fields at hf ⊢
      intro hfields
      induction hf with
      | nil => simp
      | @cons f o fs os hfo _ ih =>
        have hrest := ih (fun g hg => hfields g (List.mem_cons_of_mem _ hg))
        rw [List.flatten_cons, List.filter_append, List.flatMap_cons, hrest]
        congr 1
        rcases saveField_cases c _ ns multiple f o hfo with ⟨_, rfl⟩ | ⟨hp0, _, rfl⟩ |
          ⟨seg, couts, hp0, hseg, hch, rfl⟩
        · rw [List.filter_eq_self]
          intro p hp
          simpa using (keyProperty_atNs c ns hns multiple f p hp).1
        · simp [keyProperty, hp0]
        · have hk : keyProperty c ns multiple f = [] := by simp [keyProperty, hp0]
          rw [hk, List.filter_eq_nil_iff]
          intro p hp
          obtain ⟨oc, hoc, hpoc⟩ := List.mem_flatten.1 hp
          obtain ⟨ch, hchm, hsave⟩ := forall₂_of_mem_right hch hoc
          obtain ⟨hsegOK, hchw⟩ := hfields f (List.mem_cons_self _ _) seg hseg
          have := child_namespace_longer c left ch ns seg _ oc hns hsegOK (hchw ch hchm) hsave p hpoc
          simp only [decide_eq_true_eq]
          intro heq
          rw [heq] at this
          exact lt_irrefl _ this
  · intro p hp hne
    obtain ⟨path, hpath, _, hcur, _⟩ :=
      save_names_split c (left + 1) e ns multiple _ hns hw h p hp
    have h1 := length_descend ns hns path hpath
    cases path with
    | nil => exact absurd hcur hne
    | cons s path =>
      rw [hcur]
      simp only [List.length_cons] at h1
      omega

/-! ## Primary key gating -/

theorem tagArg_setKey {E : Type} (a id : String) (f : Field E) :
    tagArg a (setKey id f) = tagArg a f := by
  unfold setKey
  split <;> rfl

theorem tagOK_setKey {E : Type} (id : String) (f : Field E) :
    tagOK (setKey id f) = tagOK f := by
  unfold setKey
  split <;> rfl

theorem saveField_setKey {S : Type} (c : Codec S)
    (save : Entity S → String → Bool → Except Error PropertyList) (multiple : Bool) (id : String)
    (f : Field (Entity S)) (ps : PropertyList) :
    saveField c save "" multiple (setKey id f) ps = saveField c save "" multiple f ps := by
  rw [saveField_eq, saveField_eq, tagOK_setKey, tagArg_setKey, tagArg_setKey]
  cases hp : tagArg annotationPrimary f with
  | none => simp [setKey, hp]
  | some a =>
    simp only [savePrimary]
    cases hv : f.Value with
    | String id0 => simp [setKey, hp, hv]
    | Ptr elem v => simp [setKey, hp, hv]
    | Slice elem vs => simp [setKey, hp, hv]
    | Other => simp [setKey, hp, hv]

theorem saveFields_setKey {S : Type} (c : Codec S)
    (save : Entity S → String → Bool → Except Error PropertyList) (multiple : Bool) (id : String) :
    ∀ (fs : List (Field (Entity S))) (ps : PropertyList),
      saveFields c save "" multiple (fs.map (setKey id)) ps =
        saveFields c save "" multiple fs ps := by
  intro fs
  induction fs with
  | nil => intro ps; rfl
  | cons f fs ih =>
    intro ps
    rw [List.map_cons, saveFields, saveFields, saveField_setKey]
    cases saveField c save "" multiple f ps with
    | error err => rfl
    | ok ps1 => exact ih ps1

theorem flatMap_keyProperty {S : Type} (c : Codec S) (ns : String) (multiple : Bool) :
    ∀ fs : List (Field (Entity S)),
      fs.flatMap (keyProperty c ns multiple) =
        (fs.filter fun f => (tagArg annotationPrimary f).isSome).flatMap
          (keyProperty c ns multiple) := by
  intro fs
  induction fs with
  | nil => rfl
  | cons f fs ih =>
    rw [List.flatMap_cons, ih, List.filter_cons]
    cases hp : tagArg annotationPrimary f with
    | none => simp [keyProperty, hp]
    | some a => simp

/-- C8, counterexample. Below the depth cap nothing is emitted: a nested record with a
non-empty, decodable key saved at level 3 yields the empty list, so no `a.b.c.id`. -/
theorem primary_key_gating_counterexample :
    saveEntity stringCodec (keyedRecord "k1" "hello") "a.b.c" true 3 = .ok [] ∧
      stringCodec.DecodeKey "k1" = .ok ⟨"k1"⟩ :=
  ⟨rfl, rfl⟩

/-- C8, as amended. Saving at the empty root namespace never emits a key attribute for
the root: the result does not depend on the root's key, and for a well-named graph no
attribute of the result lies at the root namespace under the bare name `id`. Saving a
nested entity within the depth cap (`level ≤ 2`) at a namespace `ns` other than the root,
whose only `primary` field holds a non-empty key that the key codec decodes to `k`, emits
exactly one attribute named `ns.id`; it is indexed and its value is `k`. -/
theorem primary_key_gating {S : Type} (c : Codec S) :
    (∀ (s : S) (fs : List (Field (Entity S))) (id : String) (multiple : Bool) (level : Nat),
      saveEntity c (.mk s (fs.map (setKey id))) "" multiple level =
        saveEntity c (.mk s fs) "" multiple level) ∧
    (∀ (e : Entity S) (out : PropertyList), wellNamed c 3 e = true → SaveEntity c e = .ok out →
      ∀ p ∈ out, ¬ (currentNamespace p.Name = "" ∧ bareName p.Name = "id")) ∧
    (∀ (e : Entity S) (ns : String) (multiple : Bool) (level : Nat) (f0 : Field (Entity S))
      (id : String) (k : Key) (out : PropertyList),
      level ≤ 2 → ns ≠ "" → trimmed ns → wellNamed c (3 - level) e = true →
      (e.fields.filter fun f => (tagArg annotationPrimary f).isSome) = [f0] →
      f0.Value = .String id → id ≠ "" → c.DecodeKey id = .ok k →
      saveEntity c e ns multiple level = .ok out →
      (out.filter fun p => decide (p.Name = ns ++ ".id")) =
        [{ Name := ns ++ ".id", Value := .key k, NoIndex := false, Multiple := multiple }]) := by
  refine ⟨?_, ?_, ?_⟩
  · intro s fs id multiple level
    unfold saveEntity
    cases h : 3 - level with
    | zero => rfl
    | succ left =>
      rw [saveEntityAux, saveEntityAux]
      simp only [Entity.scalars, Entity.fields]
      cases c.SaveStruct s with
      | error err => rfl
      | ok ps => exact saveFields_setKey c _ multiple id fs _
  · intro e out hw h p hp hcur
    have hroot : trimmed "" := by decide
    obtain ⟨own, hs, hfilter, _⟩ := save_atNs c 2 e "" false out hroot hw h
    have hmem : p ∈ out.filter (fun p => decide (currentNamespace p.Name = "")) := by
      rw [List.mem_filter]; exact ⟨hp, by simpa using hcur.1⟩
    rw [hfilter] at hmem
    rcases List.mem_append.1 hmem with hm | hm
    · obtain ⟨q, hq, rfl⟩ := List.mem_map.1 hm
      obtain ⟨hseg, hne⟩ := (wellNamed_succ c 2 e hw).1 own hs q hq
      have := (split_qualify "" q.Name hroot hseg).2
      exact hne (this ▸ hcur.2)
    · obtain ⟨f, _, hf⟩ := List.mem_flatMap.1 hm
      exact (mem_keyProperty c "" false f p hf).1 rfl
  · intro e ns multiple level f0 id k out hlevel hne hns hw hprim hval hid hdec h
    obtain ⟨left, hleft⟩ : ∃ left, 3 - level = left + 1 := ⟨2 - level, by omega⟩
    unfold saveEntity at h
    rw [hleft] at h hw
    obtain ⟨own, hs, hfilter, _⟩ := save_atNs c left e ns multiple out hns hw h
    have hname : qualify ns "id" = ns ++ ".id" := by
      rw [qualify_nonroot ns "id" hns hne (by decide), String.append_assoc]
      rfl
    have hsplit := split_qualify ns "id" hns (by decide)
    rw [hname] at hsplit
    have hstep : (out.filter fun p => decide (p.Name = ns ++ ".id")) =
        ((out.filter fun p => decide (currentNamespace p.Name = ns)).filter
          fun p => decide (p.Name = ns ++ ".id")) := by
      rw [List.filter_filter]
      apply List.filter_congr
      intro p _
      by_cases hp : p.Name = ns ++ ".id"
      · simp [hp, hsplit.1]
      · simp [hp]
    rw [hstep, hfilter, List.filter_append]
    have hown : ((own.map fun property : Property =>
        ({ property with Name := qualify ns property.Name, Multiple := multiple } : Property)).filter
          fun p => decide (p.Name = ns ++ ".id")) = [] := by
      rw [List.filter_eq_nil_iff]
      intro p hp
      obtain ⟨q, hq, rfl⟩ := List.mem_map.1 hp
      obtain ⟨hseg, hneq⟩ := (wellNamed_succ c left e hw).1 own hs q hq
      simp only [decide_eq_true_eq]
      intro heq
      have h1 := (split_qualify ns q.Name hns hseg).2
      rw [heq, hsplit.2] at h1
      exact hneq h1.symm
    have hkeys : e.fields.flatMap (keyProperty c ns multiple) =
        [{ Name := ns ++ ".id", Value := .key k, NoIndex := false, Multiple := multiple }] := by
      rw [flatMap_keyProperty, hprim]
      have hf0 : (tagArg annotationPrimary f0).isSome = true := by
        have : f0 ∈ e.fields.filter fun f => (tagArg annotationPrimary f).isSome := by
          rw [hprim]; simp
        exact (List.mem_filter.1 this).2
      obtain ⟨a, ha⟩ := Option.isSome_iff_exists.1 hf0
      simp [keyProperty, ha, hval, hid, hne, hdec, idProperty, hname]
    rw [hown, hkeys]
    simp

theorem primary_key_gating_witness :
    (saveEntity stringCodec (keyedRecord "k1" "hello") "comments" true 1).map
        (fun out => out.filter fun p => decide (p.Name = "comments" ++ ".id")) =
      .ok [{ Name := "comments" ++ ".id", Value := .key ⟨"k1"⟩, NoIndex := false,
             Multiple := true }] := by
  have h := (primary_key_gating stringCodec).2.2 (keyedRecord "k1" "hello") "comments" true 1
    { Name := "ID", Tag := "primary,id", Value := .String "k1" } "k1" ⟨"k1"⟩ _
    (by decide) (by decide) (by decide) (by decide) rfl rfl (by decide) rfl rfl
  rw [← h]
  rfl

/-! ## Row slicing -/

theorem removed_congr_on (ns : String) :
    ∀ (l : PropertyList) (s1 s2 : List String), (∀ b ∈ namesAt ns l, (b ∈ s1 ↔ b ∈ s2)) →
      removed ns s1 l = removed ns s2 l ∧ survivors ns s1 l = survivors ns s2 l := by
  intro l
  induction l with
  | nil => intro s1 s2 _; simp [removed, survivors]
  | cons p l ih =>
    intro s1 s2 h
    rw [namesAt_cons] at h
    rw [removed, removed, survivors, survivors]
    by_cases h1 : currentNamespace p.Name = ns
    · simp only [h1, if_true, List.mem_cons, forall_eq_or_imp] at h
      have ih1 := ih (bareName p.Name :: s1) (bareName p.Name :: s2)
        (fun b hb => by simp only [List.mem_cons, h.2 b hb])
      have ih2 := ih s1 s2 h.2
      by_cases h2 : bareName p.Name ∈ s1
      · have h3 : bareName p.Name ∈ s2 := h.1.1 h2
        simp [h1, h2, h3, ih2.1, ih2.2]
      · have h3 : bareName p.Name ∉ s2 := fun hm => h2 (h.1.2 hm)
        simp [h1, h2, h3, ih1.1, ih1.2]
    · simp only [h1, if_false] at h
      have ih2 := ih s1 s2 h
      simp [h1, ih2.1, ih2.2]

theorem removed_filter_atNs (ns : String) :
    ∀ (l : PropertyList) (seen : List String),
      removed ns seen (l.filter fun p => decide (currentNamespace p.Name = ns)) = removed ns seen l ∧
      survivors ns seen (l.filter fun p => decide (currentNamespace p.Name = ns)) =
        (survivors ns seen l).filter fun p => decide (currentNamespace p.Name = ns) := by
  intro l
  induction l with
  | nil => intro seen; simp [removed, survivors]
  | cons p l ih =>
    intro seen
    by_cases h1 : currentNamespace p.Name = ns
    · by_cases h2 : bareName p.Name ∈ seen
      · simp [removed, survivors, h1, h2, (ih seen).1, (ih seen).2]
      · simp [removed, survivors, h1, h2, (ih (bareName p.Name :: seen)).1,
          (ih (bareName p.Name :: seen)).2]
    · simp [removed, survivors, h1, (ih seen).1, (ih seen).2]

theorem removed_filter_bare (ns : String) (P : String → Bool) :
    ∀ (l : PropertyList) (seen : List String),
      removed ns seen (l.filter fun p => P (bareName p.Name)) =
        (removed ns seen l).filter (fun p => P (bareName p.Name)) ∧
      survivors ns seen (l.filter fun p => P (bareName p.Name)) =
        (survivors ns seen l).filter fun p => P (bareName p.Name) := by
  intro l
  induction l with
  | nil => intro seen; simp [removed, survivors]
  | cons p l ih =>
    intro seen
    by_cases hP : P (bareName p.Name) = true
    · by_cases h1 : currentNamespace p.Name = ns
      · by_cases h2 : bareName p.Name ∈ seen
        · simp [removed, survivors, h1, h2, hP, (ih seen).1, (ih seen).2]
        · simp [removed, survivors, h1, h2, hP, (ih (bareName p.Name :: seen)).1,
            (ih (bareName p.Name :: seen)).2]
      · simp [removed, survivors, h1, hP, (ih seen).1, (ih seen).2]
    · have hc := removed_congr_on ns (l.filter fun p => P (bareName p.Name))
        (bareName p.Name :: seen) seen (by
          intro b hb
          obtain ⟨q, hq, _, rfl⟩ := mem_namesAt.1 hb
          have hPq : P (bareName q.Name) = true := (List.mem_filter.1 hq).2
          have : bareName q.Name ≠ bareName p.Name := fun he => hP (he ▸ hPq)
          simp [this])
      by_cases h1 : currentNamespace p.Name = ns
      · by_cases h2 : bareName p.Name ∈ seen
        · simp [removed, survivors, h1, h2, hP, (ih seen).1, (ih seen).2]
        · simp [removed, survivors, h1, h2, hP, ← (ih (bareName p.Name :: seen)).1,
            ← (ih (bareName p.Name :: seen)).2, hc.1, hc.2]
      · simp [removed, survivors, h1, hP, (ih seen).1, (ih seen).2]

theorem filter_scalar_removed (ns : String) (l : PropertyList) (seen : List String) :
    (removed ns seen l).filter (fun p => decide (bareName p.Name ≠ "id")) =
      removed ns seen (l.filter fun p =>
        decide (currentNamespace p.Name = ns) && decide (bareName p.Name ≠ "id")) := by
  have h1 := (removed_filter_bare ns (fun b => decide (b ≠ "id")) l seen).1
  have h2 := (removed_filter_atNs ns (l.filter fun p => decide (bareName p.Name ≠ "id")) seen).1
  rw [← h1, ← h2, List.filter_filter]

theorem filter_scalar_survivors (ns : String) (l : PropertyList) (seen : List String) :
    (survivors ns seen l).filter (fun p =>
        decide (currentNamespace p.Name = ns) && decide (bareName p.Name ≠ "id")) =
      survivors ns seen (l.filter fun p =>
        decide (currentNamespace p.Name = ns) && decide (bareName p.Name ≠ "id")) := by
  have h1 := (removed_filter_bare ns (fun b => decide (b ≠ "id")) l seen).2
  have h2 := (removed_filter_atNs ns (l.filter fun p => decide (bareName p.Name ≠ "id")) seen).2
  rw [← List.filter_filter, ← h1, ← h2, List.filter_filter]

theorem filter_id_survivors (ns : String) (l : PropertyList) (seen : List String) :
    (survivors ns seen l).filter (fun p =>
        decide (currentNamespace p.Name = ns) && decide (bareName p.Name = "id")) =
      survivors ns seen (l.filter fun p =>
        decide (currentNamespace p.Name = ns) && decide (bareName p.Name = "id")) := by
  have h1 := (removed_filter_bare ns (fun b => decide (b = "id")) l seen).2
  have h2 := (removed_filter_atNs ns (l.filter fun p => decide (bareName p.Name = "id")) seen).2
  rw [← List.filter_filter, ← h1, ← h2, List.filter_filter]

theorem survivors_ids (ns : String) (z : PropertyList)
    (hz : ∀ p ∈ z, currentNamespace p.Name = ns ∧ bareName p.Name = "id") :
    survivors ns [] z = z.tail := by
  cases z with
  | nil => rfl
  | cons p z =>
    have hp := hz p (List.mem_cons_self _ _)
    rw [survivors]
    simp only [hp.1, hp.2, List.not_mem_nil, not_false_eq_true, and_self, if_true, List.tail_cons]
    refine (removed_of_seen ns z ["id"] ?_).2
    intro b hb
    obtain ⟨q, hq, _, rfl⟩ := mem_namesAt.1 hb
    simp [(hz q (List.mem_cons_of_mem _ hq)).2]

theorem namesAt_of_all (ns : String) (r : PropertyList)
    (h : ∀ p ∈ r, currentNamespace p.Name = ns) :
    namesAt ns r = r.map fun p => bareName p.Name := by
  unfold namesAt
  rw [List.filter_eq_self.2]
  intro p hp
  simpa using h p hp

/-- Row slicing on a list whose scalar attributes at `ns` are the rows `rows`, one after
the other, every row with the same distinct bare names, and which holds at most as many
`id` attributes at `ns` as rows: as many extractions as rows give the rows back, one more
gives nothing and leaves no attribute at `ns`. -/
theorem extractTimes_rows (ns : String) (names : List String) (hnd : names.Nodup) :
    ∀ (rows : List PropertyList) (l : PropertyList),
      (∀ r ∈ rows, (r.map fun p => bareName p.Name) = names ∧
        ∀ p ∈ r, currentNamespace p.Name = ns) →
      (l.filter fun p =>
        decide (currentNamespace p.Name = ns) && decide (bareName p.Name ≠ "id")) = rows.flatten →
      (l.filter fun p =>
        decide (currentNamespace p.Name = ns) && decide (bareName p.Name = "id")).length
          ≤ rows.length →
      idsAreKeysAt ns l →
      ∃ rest, extractTimes ns (rows.length + 1) l =
          .ok (rows.map (fun r => r.map rename) ++ [[]], rest) ∧
        ∀ p ∈ rest, currentNamespace p.Name ≠ ns := by
  intro rows
  induction rows with
  | nil =>
    intro l _ hs hi hk
    have hnone : ∀ b ∈ namesAt ns l, b ∈ ([] : List String) := by
      intro b hb
      obtain ⟨q, hq, hq1, rfl⟩ := mem_namesAt.1 hb
      exfalso
      by_cases hid : bareName q.Name = "id"
      · have : q ∈ l.filter fun p =>
            decide (currentNamespace p.Name = ns) && decide (bareName p.Name = "id") := by
          rw [List.mem_filter]; exact ⟨hq, by simp [hq1, hid]⟩
        rw [List.length_eq_zero.1 (Nat.le_zero.1 hi)] at this
        simp at this
      · have : q ∈ l.filter fun p =>
            decide (currentNamespace p.Name = ns) && decide (bareName p.Name ≠ "id") := by
          rw [List.mem_filter]; exact ⟨hq, by simp [hq1, hid]⟩
        rw [hs] at this
        simp at this
    obtain ⟨hr, hsv⟩ := removed_of_seen ns l [] hnone
    refine ⟨l, ?_, ?_⟩
    · simp [extractTimes, extract_eq ns l hk, hr, hsv]
    · intro p hp hcur
      have := hnone (bareName p.Name) (mem_namesAt.2 ⟨p, hp, hcur, rfl⟩)
      simp at this
  | cons r rs ih =>
    intro l hrows hs hi hk
    obtain ⟨hrn, hrat⟩ := hrows r (List.mem_cons_self _ _)
    have hrs : ∀ r' ∈ rs, (r'.map fun p => bareName p.Name) = names ∧
        ∀ p ∈ r', currentNamespace p.Name = ns :=
      fun r' hr' => hrows r' (List.mem_cons_of_mem _ hr')
    have hnr : namesAt ns r = names := by rw [namesAt_of_all ns r hrat, hrn]
    have hlater : ∀ b ∈ namesAt ns rs.flatten, b ∈ namesAt ns r ++ [] := by
      intro b hb
      obtain ⟨q, hq, _, rfl⟩ := mem_namesAt.1 hb
      obtain ⟨r', hr', hqr⟩ := List.mem_flatten.1 hq
      rw [List.append_nil, hnr, ← (hrs r' hr').1]
      exact List.mem_map_of_mem _ hqr
    obtain ⟨hf1, hf2⟩ := removed_of_fresh ns r [] (hnr ▸ hnd) (by simp)
    obtain ⟨hl1, hl2⟩ := removed_of_seen ns rs.flatten (namesAt ns r ++ []) hlater
    have hrall : r.filter (fun p => decide (currentNamespace p.Name = ns)) = r :=
      List.filter_eq_self.2 (fun p hp => by simpa using hrat p hp)
    have hrnone : r.filter (fun p => !decide (currentNamespace p.Name = ns)) = [] :=
      List.filter_eq_nil_iff.2 (fun p hp => by simpa using hrat p hp)
    -- the first extraction
    have hprops : ((removed ns [] l).filter fun p => decide (bareName p.Name ≠ "id")) = r := by
      rw [filter_scalar_removed, hs, List.flatten_cons, removed_append, hf1, hl1, hrall,
        List.append_nil]
    have hrest1 : ((survivors ns [] l).filter fun p =>
        decide (currentNamespace p.Name = ns) && decide (bareName p.Name ≠ "id")) = rs.flatten := by
      rw [filter_scalar_survivors, hs, List.flatten_cons, survivors_append, hf2, hl2, hrnone,
        List.nil_append]
    have hrest2 : ((survivors ns [] l).filter fun p =>
        decide (currentNamespace p.Name = ns) && decide (bareName p.Name = "id")).length
          ≤ rs.length := by
      rw [filter_id_survivors, survivors_ids ns _ (by
        intro p hp
        simpa using (List.mem_filter.1 hp).2), List.length_tail]
      simp only [List.length_cons] at hi
      omega
    have hk1 : idsAreKeysAt ns (survivors ns [] l) :=
      fun p hp => hk p ((survivors_sublist ns l []).subset hp)
    obtain ⟨rest, hrun, hrest⟩ := ih (survivors ns [] l) hrs hrest1 hrest2 hk1
    refine ⟨rest, ?_, hrest⟩
    rw [List.length_cons, extractTimes, extract_eq ns l hk]
    simp only [hrun, hprops, List.map_cons, List.cons_append]

theorem keyProperty_length {S : Type} (c : Codec S) (ns : String) (multiple : Bool)
    (f : Field (Entity S)) : (keyProperty c ns multiple f).length ≤ 1 := by
  unfold keyProperty
  split
  · split_ifs
    · split <;> simp
    · simp
  · simp

theorem flatMap_length_le {α β : Type} (f : α → List β) (h : ∀ a, (f a).length ≤ 1) :
    ∀ l : List α, (l.flatMap f).length ≤ l.length := by
  intro l
  induction l with
  | nil => simp
  | cons a l ih =>
    rw [List.flatMap_cons, List.length_append, List.length_cons]
    have := h a
    omega

theorem filter_and {α : Type} (a b : α → Bool) (l : List α) :
    l.filter (fun p => a p && b p) = (l.filter a).filter b := by
  rw [List.filter_filter]
  congr 1
  funext p
  exact Bool.and_comm _ _

/-- The attributes that saving one child of a repeated relation at `ns` leaves at `ns`:
its scalar attributes, then at most one key attribute. -/
theorem saved_child_row {S : Type} (c : Codec S) (left : Nat) (ch : Entity S) (ns : String)
    (out : PropertyList) (hns : trimmed ns) (hw : wellNamed c (left + 1) ch = true)
    (hprim : (ch.fields.filter fun f => (tagArg annotationPrimary f).isSome).length ≤ 1)
    (h : saveEntityAux c (left + 1) ch ns true = .ok out) :
    ∃ own, c.SaveStruct ch.scalars = .ok own ∧
      (out.filter fun p =>
        decide (currentNamespace p.Name = ns) && decide (bareName p.Name ≠ "id")) =
        (own.map fun property =>
          ({ property with Name := qualify ns property.Name, Multiple := true } : Property)) ∧
      (out.filter fun p =>
        decide (currentNamespace p.Name = ns) && decide (bareName p.Name = "id")).length ≤ 1 ∧
      idsAreKeysAt ns out := by
  obtain ⟨own, hs, hfilter, _⟩ := save_atNs c left ch ns true out hns hw h
  have hown := (wellNamed_succ c left ch hw).1 own hs
  have hbare : ∀ q ∈ own, bareName (qualify ns q.Name) = q.Name ∧ q.Name ≠ "id" :=
    fun q hq => ⟨(split_qualify ns q.Name hns (hown q hq).1).2, (hown q hq).2⟩
  have hkeyid : ∀ p ∈ ch.fields.flatMap (keyProperty c ns true), bareName p.Name = "id" := by
    intro p hp
    obtain ⟨f, _, hf⟩ := List.mem_flatMap.1 hp
    exact (keyProperty_atNs c ns hns true f p hf).2
  refine ⟨own, hs, ?_, ?_, ?_⟩
  · rw [filter_and, hfilter, List.filter_append]
    have h1 : ((own.map fun property : Property =>
        ({ property with Name := qualify ns property.Name, Multiple := true } : Property)).filter
          fun p => decide (bareName p.Name ≠ "id")) = _ := List.filter_eq_self.2 (by
      intro p hp
      obtain ⟨q, hq, rfl⟩ := List.mem_map.1 hp
      simp [(hbare q hq).1, (hbare q hq).2])
    have h2 : ((ch.fields.flatMap (keyProperty c ns true)).filter
        fun p => decide (bareName p.Name ≠ "id")) = [] := List.filter_eq_nil_iff.2 (by
      intro p hp
      simp [hkeyid p hp])
    rw [h1, h2, List.append_nil]
  · rw [filter_and, hfilter, List.filter_append]
    have h1 : ((own.map fun property : Property =>
        ({ property with Name := qualify ns property.Name, Multiple := true } : Property)).filter
          fun p => decide (bareName p.Name = "id")) = [] := List.filter_eq_nil_iff.2 (by
      intro p hp
      obtain ⟨q, hq, rfl⟩ := List.mem_map.1 hp
      simp [(hbare q hq).1, (hbare q hq).2])
    rw [h1, List.nil_append]
    refine le_trans (List.length_filter_le _ _) ?_
    rw [flatMap_keyProperty]
    exact le_trans (flatMap_length_le _ (keyProperty_length c ns true) _) hprim
  · intro p hp hcur hid
    have hmem : p ∈ out.filter fun p => decide (currentNamespace p.Name = ns) := by
      rw [List.mem_filter]; exact ⟨hp, by simpa using hcur⟩
    rw [hfilter] at hmem
    rcases List.mem_append.1 hmem with hm | hm
    · obtain ⟨q, hq, rfl⟩ := List.mem_map.1 hm
      exact absurd ((hbare q hq).1 ▸ hid) (hbare q hq).2
    · obtain ⟨f, _, hf⟩ := List.mem_flatMap.1 hm
      obtain ⟨_, k, rfl⟩ := mem_keyProperty c ns true f p hf
      rfl

/-- C5, counterexample. Flattening a repeated relation whose children lie below the depth
cap (level 3) yields the empty list: with one child that has a scalar field, the two
extractions at its namespace both return nothing. -/
theorem repeated_row_slicing_counterexample :
    saveSlice (fun e => saveEntity stringCodec e "a.b.c" true 3) [keyedRecord "k1" "hello"] []
        = .ok [] ∧
      stringCodec.SaveStruct (keyedRecord "k1" "hello").scalars
        = .ok [{ Name := "text", Value := .scalar "hello", NoIndex := true, Multiple := false }] ∧
      extractTimes "a.b.c" 2 [] = .ok ([[], []], []) :=
  ⟨rfl, rfl, rfl⟩

/-- C5, as amended. Take the attribute list built by flattening, within the depth cap
(`level ≤ 2` for the children), a repeated relation at a namespace `ns` without leading or
trailing dot, whose `N` children are well named, yield the same non-empty list of distinct
scalar names, and have at most one `primary` field each. Then `N + 1` extractions at `ns` on
the draining list return `N` non-empty property sets, the i-th holding the scalar
attributes of the i-th child under their bare names, followed by one empty set, and no
attribute at `ns` is left. -/
theorem repeated_row_slicing {S : Type} (c : Codec S) (ns : String) (level : Nat)
    (children : List (Entity S)) (names : List String) (list : PropertyList)
    (hlevel : level ≤ 2) (hns : trimmed ns) (hnames : names ≠ []) (hnd : names.Nodup)
    (hch : ∀ ch ∈ children, wellNamed c (3 - level) ch = true ∧
      (∃ own, c.SaveStruct ch.scalars = .ok own ∧ (own.map fun p => p.Name) = names) ∧
      (ch.fields.filter fun f => (tagArg annotationPrimary f).isSome).length ≤ 1)
    (hsave : saveSlice (fun e => saveEntity c e ns true level) children [] = .ok list) :
    ∃ rows rest, extractTimes ns (children.length + 1) list = .ok (rows ++ [[]], rest) ∧
      List.Forall₂ (fun ch row => ∃ own, c.SaveStruct ch.scalars = .ok own ∧
        row = own.map fun p => ({ p with Multiple := true } : Property)) children rows ∧
      (∀ row ∈ rows, row ≠ []) ∧
      ∀ p ∈ rest, currentNamespace p.Name ≠ ns := by
  obtain ⟨left, hleft⟩ : ∃ left, 3 - level = left + 1 := ⟨2 - level, by omega⟩
  obtain ⟨outs, hf, rfl⟩ := (saveSlice_ok_iff _ children list).1 hsave
  -- the rows as they stand in the list
  have key : ∀ (chs : List (Entity S)) (os : List PropertyList),
      List.Forall₂ (fun e o => saveEntity c e ns true level = .ok o) chs os →
      (∀ ch ∈ chs, wellNamed c (3 - level) ch = true ∧
        (∃ own, c.SaveStruct ch.scalars = .ok own ∧ (own.map fun p => p.Name) = names) ∧
        (ch.fields.filter fun f => (tagArg annotationPrimary f).isSome).length ≤ 1) →
      ∃ qrows : List PropertyList,
        List.Forall₂ (fun ch qrow => ∃ own, c.SaveStruct ch.scalars = .ok own ∧
          (own.map fun p => p.Name) = names ∧ (∀ q ∈ own, isSegment q.Name) ∧
          qrow = own.map fun property =>
            ({ property with Name := qualify ns property.Name, Multiple := true } : Property))
          chs qrows ∧
        (os.flatten.filter fun p =>
          decide (currentNamespace p.Name = ns) && decide (bareName p.Name ≠ "id")) =
            qrows.flatten ∧
        (os.flatten.filter fun p =>
          decide (currentNamespace p.Name = ns) && decide (bareName p.Name = "id")).length
            ≤ chs.length ∧
        idsAreKeysAt ns os.flatten := by
    intro chs os hfo
    induction hfo with
    | nil => intro _; exact ⟨[], List.Forall₂.nil, by simp, by simp, by simp [idsAreKeysAt]⟩
    | @cons e o es os' heo _ ih =>
      intro hall
      obtain ⟨qrows, hq1, hq2, hq3, hq4⟩ := ih (fun ch h => hall ch (List.mem_cons_of_mem _ h))
      obtain ⟨hw, ⟨own0, hs0, hn0⟩, hprim⟩ := hall e (List.mem_cons_self _ _)
      unfold saveEntity at heo
      rw [hleft] at heo hw
      obtain ⟨own, hs, hr1, hr2, hr3⟩ := saved_child_row c left e ns o hns hw hprim heo
      have hsame : own = own0 := by rw [hs0] at hs; exact (Except.ok.inj hs).symm
      subst hsame
      refine ⟨_ :: qrows, List.Forall₂.cons ⟨own, hs, hn0, ?_, rfl⟩ hq1, ?_, ?_, ?_⟩
      · exact fun q hq => ((wellNamed_succ c left e hw).1 own hs q hq).1
      · rw [List.flatten_cons, List.filter_append, hr1, hq2, List.flatten_cons]
      · rw [List.flatten_cons, List.filter_append, List.length_append, List.length_cons]
        omega
      · intro p hp
        rw [List.flatten_cons] at hp
        rcases List.mem_append.1 hp with hp | hp
        · exact hr3 p hp
        · exact hq4 p hp
  obtain ⟨qrows, hq1, hq2, hq3, hq4⟩ := key children outs hf hch
  have hlen : qrows.length = children.length := (List.Forall₂.length_eq hq1).symm
  have hrows : ∀ r ∈ qrows, (r.map fun p => bareName p.Name) = names ∧
      ∀ p ∈ r, currentNamespace p.Name = ns := by
    intro r hr
    obtain ⟨ch, _, own, _, hn, hseg, rfl⟩ := forall₂_of_mem_right hq1 hr
    constructor
    · rw [← hn, List.map_map]
      apply List.map_congr_left
      intro q hq
      exact (split_qualify ns q.Name hns (hseg q hq)).2
    · intro p hp
      obtain ⟨q, hq, rfl⟩ := List.mem_map.1 hp
      exact (split_qualify ns q.Name hns (hseg q hq)).1
  obtain ⟨rest, hrun, hrest⟩ :=
    extractTimes_rows ns names hnd qrows outs.flatten hrows hq2 (hlen ▸ hq3) hq4
  refine ⟨qrows.map (fun r => r.map rename), rest, hlen ▸ hrun, ?_, ?_, hrest⟩
  · rw [List.forall₂_map_right_iff]
    refine List.Forall₂.imp ?_ hq1
    rintro ch qrow ⟨own, hs, _, hseg, rfl⟩
    refine ⟨own, hs, ?_⟩
    rw [List.map_map]
    apply List.map_congr_left
    intro q hq
    simp [rename, (split_qualify ns q.Name hns (hseg q hq)).2]
  · intro row hrow
    obtain ⟨r, hr, rfl⟩ := List.mem_map.1 hrow
    have := (hrows r hr).1
    intro hnil
    rw [List.map_eq_nil_iff] at hnil
    rw [hnil] at this
    exact hnames this.symm

theorem repeated_row_slicing_witness :
    ∃ rows rest,
      extractTimes "comments" 3
          [{ Name := "comments.text", Value := .scalar "first", NoIndex := true, Multiple := true },
           { Name := "comments.id", Value := .key ⟨"k1"⟩, NoIndex := false, Multiple := true },
           { Name := "comments.text", Value := .scalar "second", NoIndex := true, Multiple := true },
           { Name := "comments.id", Value := .key ⟨"k2"⟩, NoIndex := false, Multiple := true }]
        = .ok (rows ++ [[]], rest) ∧
      (∀ row ∈ rows, row ≠ []) ∧ ∀ p ∈ rest, currentNamespace p.Name ≠ "comments" :=
  let ⟨rows, rest, h1, _, h3, h4⟩ :=
    repeated_row_slicing stringCodec "comments" 1
      [keyedRecord "k1" "first", keyedRecord "k2" "second"] ["text"] _
      (by decide) (by decide) (by decide) (by decide)
      (by
        intro ch hch
        simp only [List.mem_cons, List.mem_singleton, List.not_mem_nil, or_false] at hch
        rcases hch with rfl | rfl <;> exact ⟨by decide, ⟨_, rfl, rfl⟩, by decide⟩)
      rfl
  ⟨rows, rest, h1, h3, h4⟩

/-! ## `ErrNoMoreProperties` -/

theorem loadField_eq {S : Type} (env : TypeEnv S)
    (load : Entity S → PropertyList → String → Except Error (Entity S) × PropertyList)
    (ns : String) (f : Field (Entity S)) (ps : PropertyList) :
    loadField env load ns f ps =
      if tagOK f = false then (.error .ErrBadSchemaStructTag, ps)
      else
        match tagArg annotationRelation f with
        | some seg => loadRelation env load ns seg f ps
        | none => (.ok f, ps) := by
  unfold loadField tagOK tagArg
  by_cases h1 : f.Tag = ""
  · simp [h1]
  · simp only [h1, if_false, decide_False, Bool.false_or]
    rcases hs : Split f.Tag ',' with _ | ⟨arg0, _ | ⟨arg1, rest⟩⟩
    · simp
    · simp
    · by_cases h3 : arg0 = annotationRelation
      · simp [h3]
      · simp [h3]

theorem loadSlice_ne_noMore {S : Type}
    (load : PropertyList → Except Error (Entity S) × PropertyList) :
    ∀ (budget : Nat) (vs : List (Entity S)) (ps : PropertyList),
      (loadSlice load budget vs ps).1 ≠ .error .ErrNoMoreProperties := by
  intro budget
  induction budget with
  | zero => intro vs ps; simp [loadSlice]
  | succ budget ih =>
    intro vs ps
    rw [loadSlice]
    rcases hl : load ps with ⟨r, ps1⟩
    cases r with
    | ok v => exact ih _ _
    | error err => cases err <;> simp

theorem loadRelation_ne_noMore {S : Type} (env : TypeEnv S)
    (load : Entity S → PropertyList → String → Except Error (Entity S) × PropertyList)
    (ns seg : String) (f : Field (Entity S)) (ps : PropertyList) :
    (loadRelation env load ns seg f ps).1 ≠ .error .ErrNoMoreProperties := by
  unfold loadRelation
  cases hv : f.Value with
  | String s => simp
  | Other => simp
  | Ptr elem v =>
    cases v with
    | some child => simp
    | none =>
      simp only []
      rcases hl : load (New env elem) ps (qualify ns seg) with ⟨r, ps1⟩
      cases r with
      | ok v => simp
      | error err => cases err <;> simp
  | Slice elem vs =>
    simp only []
    have := loadSlice_ne_noMore (fun l => load (New env elem) l (qualify ns seg))
      (ps.length + 1) vs ps
    rcases hl : loadSlice (fun l => load (New env elem) l (qualify ns seg))
      (ps.length + 1) vs ps with ⟨r, ps1⟩
    rw [hl] at this
    cases r with
    | ok v => simp
    | error err => simpa using this

theorem loadField_ne_noMore {S : Type} (env : TypeEnv S)
    (load : Entity S → PropertyList → String → Except Error (Entity S) × PropertyList)
    (ns : String) (f : Field (Entity S)) (ps : PropertyList) :
    (loadField env load ns f ps).1 ≠ .error .ErrNoMoreProperties := by
  rw [loadField_eq]
  split_ifs
  · simp
  · split
    · exact loadRelation_ne_noMore env load ns _ f ps
    · simp

theorem loadFields_ne_noMore {S : Type} (env : TypeEnv S)
    (load : Entity S → PropertyList → String → Except Error (Entity S) × PropertyList)
    (ns : String) :
    ∀ (fs : List (Field (Entity S))) (ps : PropertyList),
      (loadFields env load ns fs ps).1 ≠ .error .ErrNoMoreProperties := by
  intro fs
  induction fs with
  | nil => intro ps; simp [loadFields]
  | cons f fs ih =>
    intro ps
    rw [loadFields]
    have hf := loadField_ne_noMore env load ns f ps
    rcases hl : loadField env load ns f ps with ⟨r, ps1⟩
    rw [hl] at hf
    cases r with
    | error err => simpa using hf
    | ok f1 =>
      simp only []
      have := ih ps1
      rcases hl2 : loadFields env load ns fs ps1 with ⟨r2, ps2⟩
      rw [hl2] at this
      cases r2 with
      | error err => simpa using this
      | ok fs1 => simp

theorem removed_covers (ns : String) :
    ∀ (l : PropertyList) (seen : List String) (b : String),
      b ∈ namesAt ns l → b ∉ seen → ∃ p ∈ removed ns seen l, bareName p.Name = b := by
  intro l
  induction l with
  | nil => intro seen b hb; simp [namesAt] at hb
  | cons q l ih =>
    intro seen b hb hs
    rw [namesAt_cons] at hb
    rw [removed]
    by_cases h1 : currentNamespace q.Name = ns
    · rw [if_pos h1] at hb
      by_cases h2 : bareName q.Name ∈ seen
      · have hbq : b ≠ bareName q.Name := fun h => hs (h ▸ h2)
        rcases List.mem_cons.1 hb with h | h
        · exact absurd h hbq
        · simpa [h1, h2] using ih seen b h hs
      · by_cases hbq : b = bareName q.Name
        · exact ⟨q, by simp [h1, h2], hbq.symm⟩
        · rcases List.mem_cons.1 hb with h | h
          · exact absurd h hbq
          · obtain ⟨p, hp, hpb⟩ := ih (bareName q.Name :: seen) b h
              (by simp only [List.mem_cons, not_or]; exact ⟨hbq, hs⟩)
            exact ⟨p, by simp [h1, h2, hp], hpb⟩
    · rw [if_neg h1] at hb
      simpa [h1] using ih seen b hb hs

/-- The extracted property set is empty exactly when the list holds no attribute at `ns`
with a bare name other than `id`. -/
theorem properties_eq_nil_iff (ns : String) (ps : PropertyList) :
    (((removed ns [] ps).filter fun p => decide (bareName p.Name ≠ "id")).map rename) = [] ↔
      ∀ p ∈ ps, currentNamespace p.Name = ns → bareName p.Name = "id" := by
  rw [List.map_eq_nil_iff, List.filter_eq_nil_iff]
  constructor
  · intro h p hp hcur
    obtain ⟨q, hq, hqb⟩ := removed_covers ns ps [] (bareName p.Name)
      (mem_namesAt.2 ⟨p, hp, hcur, rfl⟩) (by simp)
    have := h q hq
    simp only [ne_eq, decide_not, Bool.not_eq_true', decide_eq_false_iff_not, not_not] at this
    rw [← hqb, this]
  · intro h q hq
    obtain ⟨hmem, hcur, _⟩ := (removed_fresh ns ps []).2 q hq
    simp [h q hmem hcur]

theorem loadEntity_noMore_iff {S : Type} (c : Codec S) (env : TypeEnv S) (fuel : Nat)
    (e : Entity S) (ps : PropertyList) (ns : String) (hk : idsAreKeysAt ns ps) :
    (loadEntity c env (fuel + 1) e ps ns).1 = .error .ErrNoMoreProperties ↔
      ∀ p ∈ ps, currentNamespace p.Name = ns → bareName p.Name = "id" := by
  rw [← properties_eq_nil_iff, loadEntity, extract_eq ns ps hk]
  simp only [List.length_eq_zero]
  split_ifs with h0
  · exact ⟨fun _ => h0, fun _ => rfl⟩
  · simp only [h0, iff_false]
    cases c.LoadStruct e.scalars _ with
    | error err => simp
    | ok scalars =>
      simp only []
      split
      · simp
      · rename_i fields _
        have := loadFields_ne_noMore env (loadEntity c env fuel) ns fields (survivors ns [] ps)
        rcases hl : loadFields env (loadEntity c env fuel) ns fields (survivors ns [] ps)
          with ⟨r, ps1⟩
        rw [hl] at this
        cases r with
        | error err => simpa using this
        | ok fs1 => simp

/-- C6 (no more properties). For every attribute list that respects the reserved name
`id` at `ns`, `loadEntity` at `ns` fails with `ErrNoMoreProperties` exactly when the list
holds no attribute at `ns` with a bare name other than `id`; `LoadEntity` does so at the
root namespace and hands the error to the caller; and the loop over the relation fields
never returns that error, whatever the recursive calls return. -/
theorem no_more_properties {S : Type} (c : Codec S) (env : TypeEnv S) :
    (∀ (fuel : Nat) (e : Entity S) (ps : PropertyList) (ns : String), idsAreKeysAt ns ps →
      ((loadEntity c env (fuel + 1) e ps ns).1 = .error .ErrNoMoreProperties ↔
        ∀ p ∈ ps, currentNamespace p.Name = ns → bareName p.Name = "id")) ∧
    (∀ (e : Entity S) (ps : PropertyList), idsAreKeysAt "" ps →
      (LoadEntity c env e ps = .error .ErrNoMoreProperties ↔
        ∀ p ∈ ps, currentNamespace p.Name = "" → bareName p.Name = "id")) ∧
    (∀ (load : Entity S → PropertyList → String → Except Error (Entity S) × PropertyList)
      (ns : String) (fs : List (Field (Entity S))) (ps : PropertyList),
      (loadFields env load ns fs ps).1 ≠ .error .ErrNoMoreProperties) :=
  ⟨fun fuel e ps ns hk => loadEntity_noMore_iff c env fuel e ps ns hk,
   fun e ps hk => loadEntity_noMore_iff c env ps.length e ps "" hk,
   fun load ns fs ps => loadFields_ne_noMore env load ns fs ps⟩

theorem no_more_properties_witness :
    LoadEntity stringCodec testEnv (New testEnv "Post")
        [{ Name := "comments.text", Value := .scalar "My comment", NoIndex := true,
           Multiple := true },
         { Name := "comments.id", Value := .key ⟨"k"⟩, NoIndex := false, Multiple := true }]
      = .error .ErrNoMoreProperties :=
  ((no_more_properties stringCodec testEnv).2.1 (New testEnv "Post") _ (by decide)).2 (by decide)

/-! ## The example of the test file -/

theorem loadRelation_string {S : Type} (env : TypeEnv S)
    (load : Entity S → PropertyList → String → Except Error (Entity S) × PropertyList)
    (ns seg : String) (f f1 : Field (Entity S)) (ps ps1 : PropertyList)
    (h : loadRelation env load ns seg f ps = (.ok f1, ps1)) :
    f1.Name = f.Name ∧ f1.Tag = f.Tag ∧ ∀ s, f.Value = .String s → f1 = f := by
  unfold loadRelation at h
  cases hv : f.Value with
  | String s =>
    rw [hv] at h
    simp only [Prod.mk.injEq, Except.ok.injEq] at h
    simp [← h.1]
  | Other =>
    rw [hv] at h
    simp only [Prod.mk.injEq, Except.ok.injEq] at h
    simp [← h.1]
  | Ptr elem v =>
    rw [hv] at h
    cases v with
    | some child =>
      simp only [Prod.mk.injEq, Except.ok.injEq] at h
      simp [← h.1]
    | none =>
      simp only [] at h
      rcases hl : load (New env elem) ps (qualify ns seg) with ⟨r, ps2⟩
      rw [hl] at h
      cases r with
      | ok v =>
        simp only [Prod.mk.injEq, Except.ok.injEq] at h
        simp [← h.1]
      | error err =>
        cases err <;> simp only [Prod.mk.injEq, Except.ok.injEq, reduceCtorEq, false_and] at h
        simp [← h.1]
  | Slice elem vs =>
    rw [hv] at h
    simp only [] at h
    rcases hl : loadSlice (fun l => load (New env elem) l (qualify ns seg))
      (ps.length + 1) vs ps with ⟨r, ps2⟩
    rw [hl] at h
    cases r with
    | ok v =>
      simp only [Prod.mk.injEq, Except.ok.injEq] at h
      simp [← h.1]
    | error err => simp at h

theorem loadField_string {S : Type} (env : TypeEnv S)
    (load : Entity S → PropertyList → String → Except Error (Entity S) × PropertyList)
    (ns : String) (f f1 : Field (Entity S)) (ps ps1 : PropertyList)
    (h : loadField env load ns f ps = (.ok f1, ps1)) :
    f1.Name = f.Name ∧ f1.Tag = f.Tag ∧ ∀ s, f.Value = .String s → f1 = f := by
  rw [loadField_eq] at h
  split_ifs at h
  · simp at h
  · split at h
    · exact loadRelation_string env load ns _ f f1 ps ps1 h
    · simp only [Prod.mk.injEq, Except.ok.injEq] at h
      simp [← h.1]

theorem loadFields_cons_ok {S : Type} (env : TypeEnv S)
    (load : Entity S → PropertyList → String → Except Error (Entity S) × PropertyList)
    (ns : String) (f : Field (Entity S)) (fs out : List (Field (Entity S)))
    (ps ps2 : PropertyList) :
    loadFields env load ns (f :: fs) ps = (.ok out, ps2) ↔
      ∃ f1 fs1 ps1, loadField env load ns f ps = (.ok f1, ps1) ∧
        loadFields env load ns fs ps1 = (.ok fs1, ps2) ∧ out = f1 :: fs1 := by
  rw [loadFields]
  rcases hl : loadField env load ns f ps with ⟨r, ps1⟩
  cases r with
  | error err => simp
  | ok f1 =>
    simp only []
    rcases hl2 : loadFields env load ns fs ps1 with ⟨r2, ps3⟩
    cases r2 with
    | error err =>
      simp only [Prod.mk.injEq, reduceCtorEq, false_and, Except.ok.injEq, false_iff, not_exists,
        not_and]
      rintro g1 gs1 q1 ⟨rfl, rfl⟩ h2
      rw [hl2] at h2
      simp at h2
    | ok fs1 =>
      simp only [Prod.mk.injEq, Except.ok.injEq]
      constructor
      · rintro ⟨rfl, rfl⟩
        exact ⟨f1, fs1, ps1, ⟨rfl, rfl⟩, hl2, rfl⟩
      · rintro ⟨g1, gs1, q1, ⟨rfl, rfl⟩, h2, rfl⟩
        rw [hl2] at h2
        simp only [Prod.mk.injEq, Except.ok.injEq] at h2
        exact ⟨by rw [h2.1], h2.2⟩

theorem loadFields_string {S : Type} (env : TypeEnv S)
    (load : Entity S → PropertyList → String → Except Error (Entity S) × PropertyList)
    (ns : String) :
    ∀ (fs fs1 : List (Field (Entity S))) (ps ps1 : PropertyList),
      loadFields env load ns fs ps = (.ok fs1, ps1) →
      List.Forall₂ (fun f f1 => f1.Name = f.Name ∧ f1.Tag = f.Tag ∧
        ∀ s, f.Value = .String s → f1 = f) fs fs1 := by
  intro fs
  induction fs with
  | nil =>
    intro fs1 ps ps1 h
    simp only [loadFields, Prod.mk.injEq, Except.ok.injEq] at h
    rw [← h.1]
    exact List.Forall₂.nil
  | cons f fs ih =>
    intro fs1 ps ps1 h
    obtain ⟨g1, gs1, q1, h1, h2, rfl⟩ := (loadFields_cons_ok env load ns f fs fs1 ps ps1).1 h
    exact List.Forall₂.cons (loadField_string env load ns f g1 ps q1 h1) (ih gs1 q1 ps1 h2)

theorem forall₂_of_mem_left {α β : Type} {R : α → β → Prop} {l1 : List α} {l2 : List β}
    (h : List.Forall₂ R l1 l2) {a : α} (ha : a ∈ l1) : ∃ b ∈ l2, R a b := by
  induction h with
  | nil => simp at ha
  | cons hr _ ih =>
    rcases List.mem_cons.1 ha with rfl | ha
    · exact ⟨_, List.mem_cons_self _ _, hr⟩
    · obtain ⟨b, hb, hab⟩ := ih ha
      exact ⟨b, List.mem_cons_of_mem _ hb, hab⟩

theorem setID_sets {E : Type} (s : String) :
    ∀ (fs fs1 : List (Field E)), setID s fs = some fs1 →
      ∃ f ∈ fs1, f.Name = "ID" ∧ f.Value = .String s := by
  intro fs
  induction fs with
  | nil => intro fs1 h; simp [setID] at h
  | cons f fs ih =>
    intro fs1 h
    rw [setID] at h
    split_ifs at h with hn
    · cases hv : f.Value with
      | String s0 =>
        rw [hv] at h
        simp only [Option.some.injEq] at h
        refine ⟨{ f with Value := .String s }, ?_, hn, rfl⟩
        rw [← h]; exact List.mem_cons_self _ _
      | Ptr elem v => rw [hv] at h; simp at h
      | Slice elem vs => rw [hv] at h; simp at h
      | Other => rw [hv] at h; simp at h
    · cases hr : setID s fs with
      | none => rw [hr] at h; simp at h
      | some fs2 =>
        rw [hr] at h
        simp only [Option.map_some', Option.some.injEq] at h
        obtain ⟨g, hg, hg1, hg2⟩ := ih fs2 hr
        exact ⟨g, by rw [← h]; exact List.mem_cons_of_mem _ hg, hg1, hg2⟩

/-- A successful `loadEntity` whose extraction captured the key `k` gives back an entity
whose field `ID` holds the encoded key. -/
theorem loadEntity_sets_ID {S : Type} (c : Codec S) (env : TypeEnv S) (fuel : Nat)
    (e e1 : Entity S) (ps rest : PropertyList) (ns : String) (ex : Extracted) (k : Key)
    (h : loadEntity c env fuel e ps ns = (.ok e1, rest))
    (hex : extractEntityProperties ns ps = .ok ex) (hkey : ex.key = some k) :
    ∃ f ∈ e1.fields, f.Name = "ID" ∧ f.Value = .String (c.Encode k) := by
  cases fuel with
  | zero => simp [loadEntity] at h
  | succ fuel =>
    rw [loadEntity, hex] at h
    simp only [hkey, withID] at h
    split_ifs at h with h0
    · simp at h
    · cases hl : c.LoadStruct e.scalars
          (ex.properties.map fun property => { property with Multiple := false }) with
      | error err => rw [hl] at h; simp at h
      | ok scalars =>
        rw [hl] at h
        simp only [] at h
        cases hs : setID (c.Encode k) e.fields with
        | none => rw [hs] at h; simp at h
        | some fields =>
          rw [hs] at h
          simp only [] at h
          rcases hf : loadFields env (loadEntity c env fuel) ns fields ex.rest with ⟨r, ps1⟩
          rw [hf] at h
          cases r with
          | error err => simp at h
          | ok fs1 =>
            simp only [Prod.mk.injEq, Except.ok.injEq] at h
            obtain ⟨g, hg, hg1, hg2⟩ := setID_sets (c.Encode k) e.fields fields hs
            have hfa := loadFields_string env (loadEntity c env fuel) ns fields fs1 ex.rest ps1 hf
            obtain ⟨g1, hg1m, _, _, hrel⟩ := forall₂_of_mem_left hfa hg
            have := hrel _ hg2
            subst this
            rw [← h.1]
            exact ⟨g1, hg1m, hg1, hg2⟩

theorem test_load_post {S : Type} (c : Codec S) (env : TypeEnv S) (key : Key)
    (zPost zComment sPost sComment : S)
    (hPost : env "Post" = { zero := zPost, fields := postFields })
    (hComment : env "Comment" = { zero := zComment, fields := commentFields })
    (h1 : c.LoadStruct zPost
      [{ Name := "text", Value := .scalar "My post", NoIndex := true, Multiple := false }]
        = .ok sPost)
    (h2 : c.LoadStruct zComment
      [{ Name := "text", Value := .scalar "My comment", NoIndex := true, Multiple := false }]
        = .ok sComment) :
    LoadEntity c env (New env "Post") (serialized key) =
      .ok (.mk sPost
        [{ Name := "ID", Tag := "", Value := .String "" },
         { Name := "Comments", Tag := "relation,comments",
           Value := .Slice "Comment"
             [.mk sComment [{ Name := "ID", Tag := "", Value := .String (c.Encode key) }]] }]) := by
  have e1 : extractEntityProperties "" (serialized key) =
      .ok { key := none,
            properties := [{ Name := "text", Value := .scalar "My post", NoIndex := true,
                             Multiple := false }],
            rest := [{ Name := "comments.text", Value := .scalar "My comment", NoIndex := true,
                       Multiple := true },
                     { Name := "comments.id", Value := .key key, NoIndex := false,
                       Multiple := true }] } := rfl
  have e2 : extractEntityProperties "comments"
      [{ Name := "comments.text", Value := .scalar "My comment", NoIndex := true,
         Multiple := true },
       { Name := "comments.id", Value := .key key, NoIndex := false, Multiple := true }] =
      .ok { key := some key,
            properties := [{ Name := "text", Value := .scalar "My comment", NoIndex := true,
                             Multiple := true }],
            rest := [] } := rfl
  have e3 : extractEntityProperties "comments" [] =
      .ok { key := none, properties := [], rest := [] } := rfl
  have nC : New env "Comment" = .mk zComment [{ Name := "ID", Tag := "", Value := .String "" }] := by
    simp [New, hComment, commentFields, zeroField]
  have nP : New env "Post" = .mk zPost
      [{ Name := "ID", Tag := "", Value := .String "" },
       { Name := "Comments", Tag := "relation,comments", Value := .Slice "Comment" [] }] := by
    simp [New, hPost, postFields, zeroField]
  -- the call that ends the loop
  have stepA : ∀ n, loadEntity c env (n + 1) (New env "Comment") [] "comments" =
      (.error .ErrNoMoreProperties, []) := by
    intro n
    rw [loadEntity, e3]
    rfl
  -- the call that rebuilds the comment
  have stepB : ∀ n, loadEntity c env (n + 1) (New env "Comment")
      [{ Name := "comments.text", Value := .scalar "My comment", NoIndex := true,
         Multiple := true },
       { Name := "comments.id", Value := .key key, NoIndex := false, Multiple := true }]
      "comments" =
      (.ok (.mk sComment [{ Name := "ID", Tag := "", Value := .String (c.Encode key) }]), []) := by
    intro n
    rw [loadEntity, e2, nC]
    simp [Entity.scalars, Entity.fields, h2, withID, setID, loadFields, loadField]
  have stepC : loadSlice (fun l => loadEntity c env 3 (New env "Comment") l "comments") 3 []
      [{ Name := "comments.text", Value := .scalar "My comment", NoIndex := true,
         Multiple := true },
       { Name := "comments.id", Value := .key key, NoIndex := false, Multiple := true }] =
      (.ok [.mk sComment [{ Name := "ID", Tag := "", Value := .String (c.Encode key) }]], []) := by
    rw [loadSlice]
    simp only [stepB 2]
    rw [loadSlice]
    simp only [stepA 2, List.nil_append]
  have q : qualify "" "comments" = "comments" := by decide
  have hsplit : Split "relation,comments" ',' = ["relation", "comments"] := by decide
  have hne : ¬ ("relation,comments" = "") := by decide
  unfold LoadEntity
  have hlen : (serialized key).length + 1 = 3 + 1 := rfl
  rw [hlen, loadEntity, e1, nP]
  simp [Entity.scalars, Entity.fields, h1, withID, loadFields, loadField, hsplit, hne,
    annotationRelation, loadRelation, q, stepC]

/-- C7 (the test example). With `Post` and `Comment` declared as in the test file and a
scalar codec that decodes `text = "My post"` and `text = "My comment"`, loading the
three-attribute list of the test into an empty `Post` succeeds: the post holds the decoded
scalars and exactly one comment, whose `ID` is the encoded key. In general a successful
`loadEntity` whose extraction captured a key leaves the encoded key in the field `ID`. -/
theorem load_test_example {S : Type} (c : Codec S) (env : TypeEnv S) :
    (∀ (key : Key) (zPost zComment sPost sComment : S),
      env "Post" = { zero := zPost, fields := postFields } →
      env "Comment" = { zero := zComment, fields := commentFields } →
      c.LoadStruct zPost
        [{ Name := "text", Value := .scalar "My post", NoIndex := true, Multiple := false }]
          = .ok sPost →
      c.LoadStruct zComment
        [{ Name := "text", Value := .scalar "My comment", NoIndex := true, Multiple := false }]
          = .ok sComment →
      LoadEntity c env (New env "Post") (serialized key) =
        .ok (.mk sPost
          [{ Name := "ID", Tag := "", Value := .String "" },
           { Name := "Comments", Tag := "relation,comments",
             Value := .Slice "Comment"
               [.mk sComment
                 [{ Name := "ID", Tag := "", Value := .String (c.Encode key) }]] }])) ∧
    (∀ (fuel : Nat) (e e1 : Entity S) (ps rest : PropertyList) (ns : String) (ex : Extracted)
      (k : Key), loadEntity c env fuel e ps ns = (.ok e1, rest) →
      extractEntityProperties ns ps = .ok ex → ex.key = some k →
      ∃ f ∈ e1.fields, f.Name = "ID" ∧ f.Value = .String (c.Encode k)) :=
  ⟨fun key zPost zComment sPost sComment hPost hComment h1 h2 =>
      test_load_post c env key zPost zComment sPost sComment hPost hComment h1 h2,
   fun fuel e e1 ps rest ns ex k h hex hkey =>
      loadEntity_sets_ID c env fuel e e1 ps rest ns ex k h hex hkey⟩

theorem load_test_example_witness :
    LoadEntity stringCodec testEnv (New testEnv "Post") (serialized ⟨"k"⟩) =
      .ok (.mk [("text", "My post")]
        [{ Name := "ID", Tag := "", Value := .String "" },
         { Name := "Comments", Tag := "relation,comments",
           Value := .Slice "Comment"
             [.mk [("text", "My comment")]
               [{ Name := "ID", Tag := "", Value := .String "k" }]] }]) :=
  (load_test_example stringCodec testEnv).1 ⟨"k"⟩ [("text", "")] [("text", "")]
    [("text", "My post")] [("text", "My comment")] rfl rfl rfl rfl

/-! ## `loadEntity` only removes attributes -/

theorem walk_ok (ns : String) :
    ∀ (todo kept : PropertyList) (key : Option Key) (properties : PropertyList)
      (seen : List String) (ex : Extracted),
      walk ns todo kept key properties seen = .ok ex →
      ex.properties = properties ++
        ((removed ns seen todo).filter fun p => decide (bareName p.Name ≠ "id")).map rename ∧
      ex.rest = kept ++ survivors ns seen todo := by
  intro todo
  induction todo with
  | nil =>
    intro kept key properties seen ex h
    simp only [walk, Except.ok.injEq] at h
    subst h
    simp [removed, survivors]
  | cons p todo ih =>
    intro kept key properties seen ex h
    rw [walk] at h
    rw [removed, survivors]
    by_cases h1 : currentNamespace p.Name = ns
    · by_cases h2 : bareName p.Name ∈ seen
      · simp only [h1, h2, if_true, not_true_eq_false, and_false, if_false] at h ⊢
        obtain ⟨ha, hb⟩ := ih _ _ _ _ ex h
        exact ⟨ha, by rw [hb]; simp⟩
      · by_cases h3 : bareName p.Name = "id"
        · have h2i : "id" ∉ seen := h3 ▸ h2
          simp only [h1, h2i, h3, if_true, not_false_eq_true, and_self] at h ⊢
          have hne : ¬ (("id" : String) ≠ "id") := by simp
          by_cases h4 : key = none
          · simp only [h4, if_true] at h
            cases hv : p.Value with
            | scalar s => rw [hv] at h; simp at h
            | key kk =>
              rw [hv] at h
              obtain ⟨ha, hb⟩ := ih _ _ _ _ ex h
              exact ⟨by rw [ha]; simp [h3], hb⟩
          · simp only [h4, if_false] at h
            obtain ⟨ha, hb⟩ := ih _ _ _ _ ex h
            exact ⟨by rw [ha]; simp [h3], hb⟩
        · simp only [h1, h2, h3, if_true, not_false_eq_true, and_self, if_false] at h ⊢
          obtain ⟨ha, hb⟩ := ih _ _ _ _ ex h
          exact ⟨by rw [ha]; simp [h3, rename], hb⟩
    · simp only [h1, false_and, if_false] at h ⊢
      obtain ⟨ha, hb⟩ := ih _ _ _ _ ex h
      exact ⟨ha, by rw [hb]; simp⟩

/-- Whenever the extraction returns, it returns what the pass over the list describes. -/
theorem extract_ok (ns : String) (ps : PropertyList) (ex : Extracted)
    (h : extractEntityProperties ns ps = .ok ex) :
    ex.properties =
        ((removed ns [] ps).filter fun p => decide (bareName p.Name ≠ "id")).map rename ∧
      ex.rest = survivors ns [] ps := by
  rw [extractEntityProperties_eq_walk] at h
  simpa using walk_ok ns ps [] none [] [] ex h

theorem loadSlice_sublist {S : Type}
    (load : PropertyList → Except Error (Entity S) × PropertyList)
    (hload : ∀ l, (load l).2.Sublist l) :
    ∀ (budget : Nat) (vs : List (Entity S)) (ps : PropertyList),
      (loadSlice load budget vs ps).2.Sublist ps := by
  intro budget
  induction budget with
  | zero => intro vs ps; simp [loadSlice]
  | succ budget ih =>
    intro vs ps
    rw [loadSlice]
    have h1 := hload ps
    rcases hl : load ps with ⟨r, ps1⟩
    rw [hl] at h1
    cases r with
    | ok v => exact (ih _ ps1).trans h1
    | error err => cases err <;> simpa using h1

theorem loadField_sublist {S : Type} (env : TypeEnv S)
    (load : Entity S → PropertyList → String → Except Error (Entity S) × PropertyList)
    (hload : ∀ e l ns, (load e l ns).2.Sublist l)
    (ns : String) (f : Field (Entity S)) (ps : PropertyList) :
    (loadField env load ns f ps).2.Sublist ps := by
  rw [loadField_eq]
  split_ifs
  · simp
  · split
    · rename_i seg _
      unfold loadRelation
      cases hv : f.Value with
      | String s => simp
      | Other => simp
      | Ptr elem v =>
        cases v with
        | some child => simp
        | none =>
          simp only []
          have h1 := hload (New env elem) ps (qualify ns seg)
          rcases hl : load (New env elem) ps (qualify ns seg) with ⟨r, ps1⟩
          rw [hl] at h1
          cases r with
          | ok v => simpa using h1
          | error err => cases err <;> simpa using h1
      | Slice elem vs =>
        simp only []
        have h1 := loadSlice_sublist (fun l => load (New env elem) l (qualify ns seg))
          (fun l => hload _ l _) (ps.length + 1) vs ps
        rcases hl : loadSlice (fun l => load (New env elem) l (qualify ns seg))
          (ps.length + 1) vs ps with ⟨r, ps1⟩
        rw [hl] at h1
        cases r <;> simpa using h1
    · simp

theorem loadFields_sublist {S : Type} (env : TypeEnv S)
    (load : Entity S → PropertyList → String → Except Error (Entity S) × PropertyList)
    (hload : ∀ e l ns, (load e l ns).2.Sublist l) (ns : String) :
    ∀ (fs : List (Field (Entity S))) (ps : PropertyList),
      (loadFields env load ns fs ps).2.Sublist ps := by
  intro fs
  induction fs with
  | nil => intro ps; simp [loadFields]
  | cons f fs ih =>
    intro ps
    rw [loadFields]
    have h1 := loadField_sublist env load hload ns f ps
    rcases hl : loadField env load ns f ps with ⟨r, ps1⟩
    rw [hl] at h1
    cases r with
    | error err => simpa using h1
    | ok f1 =>
      simp only []
      have h2 := ih ps1
      rcases hl2 : loadFields env load ns fs ps1 with ⟨r2, ps2⟩
      rw [hl2] at h2
      cases r2 <;> exact h2.trans h1

/-- `loadEntity` only ever removes attributes: the list it leaves is a sublist, in order,
of the list it was given. -/
theorem loadEntity_sublist {S : Type} (c : Codec S) (env : TypeEnv S) :
    ∀ (fuel : Nat) (e : Entity S) (ps : PropertyList) (ns : String),
      (loadEntity c env fuel e ps ns).2.Sublist ps := by
  intro fuel
  induction fuel with
  | zero => intro e ps ns; simp [loadEntity]
  | succ fuel ih =>
    intro e ps ns
    rw [loadEntity]
    cases hex : extractEntityProperties ns ps with
    | error err => simp
    | ok ex =>
      have hrest : ex.rest.Sublist ps := by
        rw [(extract_ok ns ps ex hex).2]; exact survivors_sublist ns ps []
      simp only []
      split_ifs
      · exact hrest
      · cases c.LoadStruct e.scalars _ with
        | error err => exact hrest
        | ok scalars =>
          simp only []
          split
          · exact hrest
          · rename_i fields _
            have h2 := loadFields_sublist env (loadEntity c env fuel) ih ns fields ex.rest
            rcases hl : loadFields env (loadEntity c env fuel) ns fields ex.rest with ⟨r, ps1⟩
            rw [hl] at h2
            cases r <;> exact h2.trans hrest

/-! ## How deep `loadEntity` rebuilds -/

theorem lastIndexChars_get (c : Char) :
    ∀ (l : List Char) (i : Nat), lastIndexChars c l = some i →
      l = l.take i ++ c :: l.drop (i + 1) := by
  intro l
  induction l with
  | nil => intro i h; simp [lastIndexChars] at h
  | cons x xs ih =>
    intro i h
    rw [lastIndexChars] at h
    cases hr : lastIndexChars c xs with
    | some j =>
      rw [hr] at h
      simp only [Option.some.injEq] at h
      subst h
      have := ih j hr
      simp only [List.take_succ_cons, List.drop_succ_cons, List.cons_append]
      rw [← this]
    | none =>
      rw [hr] at h
      simp only [] at h
      split_ifs at h with hx
      simp only [Option.some.injEq] at h
      subst h
      simp [hx]

theorem dots_of_namespace (name ns : String) (h : currentNamespace name = ns) (hne : ns ≠ "") :
    dots ns + 1 ≤ dots name := by
  unfold currentNamespace LastIndex at h
  cases hl : lastIndexChars '.' name.data with
  | none => rw [hl] at h; exact absurd h.symm hne
  | some i =>
    rw [hl] at h
    simp only [] at h
    have hd := lastIndexChars_get '.' name.data i hl
    unfold dots
    rw [← h, hd]
    simp [sliceTo, List.count_append]

theorem dots_ge_level (name ns : String) (d : Nat) (h : currentNamespace name = ns)
    (hl : levelOK ns d) : d ≤ dots name := by
  rcases hl with rfl | ⟨hne, hd⟩
  · exact Nat.zero_le _
  · have := dots_of_namespace name ns h hne
    omega

theorem levelOK_qualify (ns seg : String) (d : Nat) (hns : trimmed ns) (hseg : isSegment seg)
    (hl : levelOK ns d) : levelOK (qualify ns seg) (d + 1) := by
  right
  refine ⟨qualify_ne_empty ns seg hns hseg, ?_⟩
  by_cases hne : ns = ""
  · subst hne
    rcases hl with rfl | ⟨h, _⟩
    · omega
    · exact absurd rfl h
  · rw [qualify_nonroot ns seg hns hne hseg]
    have : dots (ns ++ "." ++ seg) = dots ns + 1 + dots seg := by
      unfold dots
      simp [String.data_append, List.count_append]
      omega
    rcases hl with rfl | ⟨_, hd⟩ <;> omega

theorem loadSlice_children {S : Type}
    (load : PropertyList → Except Error (Entity S) × PropertyList)
    (Q : Entity S → Prop) (R : PropertyList → Prop)
    (hR : ∀ l, R l → R (load l).2)
    (hQ : ∀ l v rest, R l → load l = (.ok v, rest) → Q v) :
    ∀ (budget : Nat) (vs vs1 : List (Entity S)) (ps ps1 : PropertyList),
      R ps → (∀ v ∈ vs, Q v) → loadSlice load budget vs ps = (.ok vs1, ps1) →
      (∀ v ∈ vs1, Q v) ∧ R ps1 := by
  intro budget
  induction budget with
  | zero => intro vs vs1 ps ps1 _ _ h; simp [loadSlice] at h
  | succ budget ih =>
    intro vs vs1 ps ps1 hps hvs h
    rw [loadSlice] at h
    have h1 := hR ps hps
    rcases hl : load ps with ⟨r, ps2⟩
    rw [hl] at h h1
    cases r with
    | ok v =>
      refine ih (vs ++ [v]) vs1 ps2 ps1 h1 ?_ h
      intro w hw
      rcases List.mem_append.1 hw with hw | hw
      · exact hvs w hw
      · rw [List.mem_singleton.1 hw]; exact hQ ps v ps2 hps hl
    | error err =>
      cases err <;> simp only [Prod.mk.injEq, Except.ok.injEq, reduceCtorEq, false_and] at h
      obtain ⟨rfl, rfl⟩ := h
      exact ⟨hvs, h1⟩

theorem loadField_children {S : Type} (env : TypeEnv S)
    (load : Entity S → PropertyList → String → Except Error (Entity S) × PropertyList)
    (ns : String) (Q : Entity S → Prop) (R : PropertyList → Prop)
    (hR : ∀ e l ns1, R l → R (load e l ns1).2)
    (f f1 : Field (Entity S)) (ps ps1 : PropertyList)
    (hQ : ∀ seg, tagArg annotationRelation f = some seg → ∀ T l v rest, R l →
      load (New env T) l (qualify ns seg) = (.ok v, rest) → Q v)
    (hps : R ps) (hf : ∀ ch ∈ f.Value.children, Q ch)
    (h : loadField env load ns f ps = (.ok f1, ps1)) :
    (∀ ch ∈ f1.Value.children, Q ch) ∧ R ps1 := by
  rw [loadField_eq] at h
  split_ifs at h
  · simp at h
  · cases hseg : tagArg annotationRelation f with
    | none =>
      rw [hseg] at h
      simp only [Prod.mk.injEq, Except.ok.injEq] at h
      obtain ⟨rfl, rfl⟩ := h
      exact ⟨hf, hps⟩
    | some seg =>
      rw [hseg] at h
      simp only [] at h
      unfold loadRelation at h
      cases hv : f.Value with
      | String s =>
        rw [hv] at h
        simp only [Prod.mk.injEq, Except.ok.injEq] at h
        obtain ⟨rfl, rfl⟩ := h
        exact ⟨hf, hps⟩
      | Other =>
        rw [hv] at h
        simp only [Prod.mk.injEq, Except.ok.injEq] at h
        obtain ⟨rfl, rfl⟩ := h
        exact ⟨hf, hps⟩
      | Ptr elem v =>
        rw [hv] at h
        cases v with
        | some child =>
          simp only [Prod.mk.injEq, Except.ok.injEq] at h
          obtain ⟨rfl, rfl⟩ := h
          exact ⟨hf, hps⟩
        | none =>
          simp only [] at h
          have h1 := hR (New env elem) ps (qualify ns seg) hps
          rcases hl : load (New env elem) ps (qualify ns seg) with ⟨r, ps2⟩
          rw [hl] at h h1
          cases r with
          | ok v =>
            simp only [Prod.mk.injEq, Except.ok.injEq] at h
            obtain ⟨rfl, rfl⟩ := h
            refine ⟨?_, h1⟩
            intro ch hch
            simp only [FieldValue.children, List.mem_singleton] at hch
            rw [hch]
            exact hQ seg hseg elem ps v ps2 hps hl
          | error err =>
            cases err <;> simp only [Prod.mk.injEq, Except.ok.injEq, reduceCtorEq, false_and] at h
            obtain ⟨rfl, rfl⟩ := h
            exact ⟨hf, h1⟩
      | Slice elem vs =>
        rw [hv] at h hf
        simp only [] at h
        rcases hl : loadSlice (fun l => load (New env elem) l (qualify ns seg))
          (ps.length + 1) vs ps with ⟨r, ps2⟩
        rw [hl] at h
        cases r with
        | error err => simp at h
        | ok vs1 =>
          simp only [Prod.mk.injEq, Except.ok.injEq] at h
          obtain ⟨rfl, rfl⟩ := h
          exact loadSlice_children (fun l => load (New env elem) l (qualify ns seg)) Q R
            (fun l hl => hR _ l _ hl) (fun l v rest hl hlv => hQ seg hseg elem l v rest hl hlv)
            (ps.length + 1) vs vs1 ps ps2 hps (by simpa [FieldValue.children] using hf) hl

theorem loadFields_children {S : Type} (env : TypeEnv S)
    (load : Entity S → PropertyList → String → Except Error (Entity S) × PropertyList)
    (ns : String) (Q : Entity S → Prop) (R : PropertyList → Prop)
    (hR : ∀ e l ns1, R l → R (load e l ns1).2) :
    ∀ (fs fs1 : List (Field (Entity S))) (ps ps1 : PropertyList),
      (∀ f ∈ fs, ∀ seg, tagArg annotationRelation f = some seg → ∀ T l v rest, R l →
        load (New env T) l (qualify ns seg) = (.ok v, rest) → Q v) →
      R ps → (∀ f ∈ fs, ∀ ch ∈ f.Value.children, Q ch) →
      loadFields env load ns fs ps = (.ok fs1, ps1) →
      (∀ f1 ∈ fs1, ∀ ch ∈ f1.Value.children, Q ch) ∧ R ps1 := by
  intro fs
  induction fs with
  | nil =>
    intro fs1 ps ps1 _ hps _ h
    simp only [loadFields, Prod.mk.injEq, Except.ok.injEq] at h
    obtain ⟨rfl, rfl⟩ := h
    exact ⟨by simp, hps⟩
  | cons f fs ih =>
    intro fs1 ps ps1 hQ hps hf h
    obtain ⟨g1, gs1, q1, h1, h2, rfl⟩ := (loadFields_cons_ok env load ns f fs fs1 ps ps1).1 h
    obtain ⟨hg1, hq1⟩ := loadField_children env load ns Q R hR f g1 ps q1
      (hQ f (List.mem_cons_self _ _)) hps (hf f (List.mem_cons_self _ _)) h1
    obtain ⟨hgs, hps1⟩ := ih gs1 q1 ps1 (fun g hg => hQ g (List.mem_cons_of_mem _ hg)) hq1
      (fun g hg => hf g (List.mem_cons_of_mem _ hg)) h2
    refine ⟨?_, hps1⟩
    intro g hg
    rcases List.mem_cons.1 hg with rfl | hg
    · exact hg1
    · exact hgs g hg

theorem loadEntity_ok_iff {S : Type} (c : Codec S) (env : TypeEnv S) (fuel : Nat)
    (e e1 : Entity S) (ps rest : PropertyList) (ns : String) :
    loadEntity c env (fuel + 1) e ps ns = (.ok e1, rest) ↔
      ∃ ex scalars fields fs1, extractEntityProperties ns ps = .ok ex ∧ ex.properties ≠ [] ∧
        c.LoadStruct e.scalars
          (ex.properties.map fun property => { property with Multiple := false }) = .ok scalars ∧
        withID c ex.key e.fields = some fields ∧
        loadFields env (loadEntity c env fuel) ns fields ex.rest = (.ok fs1, rest) ∧
        e1 = .mk scalars fs1 := by
  rw [loadEntity]
  cases hex : extractEntityProperties ns ps with
  | error err => simp
  | ok ex =>
    simp only [List.length_eq_zero, Except.ok.injEq, exists_and_left, exists_eq_left']
    by_cases h0 : ex.properties = []
    · simp [h0]
    · simp only [h0, if_false, ne_eq, not_false_eq_true, true_and]
      cases hl : c.LoadStruct e.scalars
          (ex.properties.map fun property => { property with Multiple := false }) with
      | error err => simp
      | ok scalars =>
        simp only [Except.ok.injEq, exists_eq_left']
        cases hid : withID c ex.key e.fields with
        | none => simp
        | some fields =>
          simp only [Option.some.injEq, exists_eq_left']
          rcases hf : loadFields env (loadEntity c env fuel) ns fields ex.rest with ⟨r, ps1⟩
          cases r with
          | error err => simp
          | ok fs1 =>
            simp only [Prod.mk.injEq, Except.ok.injEq]
            constructor
            · rintro ⟨rfl, rfl⟩
              exact ⟨fs1, ⟨rfl, rfl⟩, rfl⟩
            · rintro ⟨fs2, ⟨rfl, rfl⟩, rfl⟩
              exact ⟨rfl, rfl⟩

theorem setID_shape {E : Type} (s : String) :
    ∀ (fs fs1 : List (Field E)), setID s fs = some fs1 →
      List.Forall₂ (fun f f1 => f1.Name = f.Name ∧ f1.Tag = f.Tag ∧
        f1.Value.children = f.Value.children) fs fs1 := by
  intro fs
  induction fs with
  | nil => intro fs1 h; simp [setID] at h
  | cons f fs ih =>
    intro fs1 h
    rw [setID] at h
    have hrefl : List.Forall₂ (fun f f1 : Field E => f1.Name = f.Name ∧ f1.Tag = f.Tag ∧
        f1.Value.children = f.Value.children) fs fs :=
      List.forall₂_same.2 (fun _ _ => ⟨rfl, rfl, rfl⟩)
    split_ifs at h with hn
    · cases hv : f.Value with
      | String s0 =>
        rw [hv] at h
        simp only [Option.some.injEq] at h
        rw [← h]
        exact List.Forall₂.cons ⟨rfl, rfl, by simp [FieldValue.children, hv]⟩ hrefl
      | Ptr elem v => rw [hv] at h; simp at h
      | Slice elem vs => rw [hv] at h; simp at h
      | Other => rw [hv] at h; simp at h
    · cases hr : setID s fs with
      | none => rw [hr] at h; simp at h
      | some fs2 =>
        rw [hr] at h
        simp only [Option.map_some', Option.some.injEq] at h
        rw [← h]
        exact List.Forall₂.cons ⟨rfl, rfl, rfl⟩ (ih fs2 hr)

theorem withID_shape {S : Type} (c : Codec S) (key : Option Key)
    (fs fs1 : List (Field (Entity S))) (h : withID c key fs = some fs1) :
    List.Forall₂ (fun f f1 => f1.Name = f.Name ∧ f1.Tag = f.Tag ∧
      f1.Value.children = f.Value.children) fs fs1 := by
  cases key with
  | none =>
    simp only [withID, Option.some.injEq] at h
    rw [← h]
    exact List.forall₂_same.2 (fun _ _ => ⟨rfl, rfl, rfl⟩)
  | some k => exact setID_shape _ fs fs1 h

theorem tagArg_congr {E : Type} (a : String) (f g : Field E) (h : g.Tag = f.Tag) :
    tagArg a g = tagArg a f := by
  unfold tagArg
  rw [h]

theorem New_fields {S : Type} (env : TypeEnv S) (henv : envNamed env) (T : TypeName) :
    ∀ f ∈ (New env T).fields, f.Value.children = [] ∧
      ∀ seg, tagArg annotationRelation f = some seg → isSegment seg := by
  intro f hf
  simp only [New, Entity.fields, List.mem_map] at hf
  obtain ⟨d, hd, rfl⟩ := hf
  refine ⟨?_, fun seg hseg => henv T d hd seg hseg⟩
  unfold zeroField
  cases d.Kind <;> rfl

theorem properties_source (ns : String) (ps : PropertyList) (ex : Extracted)
    (h : extractEntityProperties ns ps = .ok ex) (hne : ex.properties ≠ []) :
    ∃ p ∈ ps, currentNamespace p.Name = ns ∧ bareName p.Name ≠ "id" := by
  rw [(extract_ok ns ps ex h).1] at hne
  obtain ⟨q, hq⟩ := List.exists_mem_of_ne_nil _ hne
  obtain ⟨p, hp, _⟩ := List.mem_map.1 hq
  obtain ⟨hp1, hp2⟩ := List.mem_filter.1 hp
  obtain ⟨hmem, hcur, _⟩ := (removed_fresh ns ps []).2 p hp1
  exact ⟨p, hmem, hcur, by simpa using hp2⟩

theorem depthLE_of_children {S : Type} (m : Nat) (e : Entity S)
    (h : ∀ f ∈ e.fields, ∀ ch ∈ f.Value.children, 1 ≤ m ∧ depthLE (m - 1) ch = true) :
    depthLE m e = true := by
  cases m with
  | zero =>
    rw [depthLE, List.all_eq_true]
    intro f hf
    rw [List.isEmpty_iff]
    by_contra hne
    obtain ⟨ch, hch⟩ := List.exists_mem_of_ne_nil _ hne
    have := (h f hf ch hch).1
    omega
  | succ m =>
    rw [depthLE, List.all_eq_true]
    intro f hf
    rw [List.all_eq_true]
    intro ch hch
    simpa using (h f hf ch hch).2

/-- A node that `loadEntity` rebuilds at a namespace `d` levels below the root comes from
an attribute with at least `d` dots; so with names of at most `k` dots the rebuilt graph
is at most `k - d` levels deep. -/
theorem loadEntity_depth {S : Type} (c : Codec S) (env : TypeEnv S) (henv : envNamed env)
    (k : Nat) :
    ∀ (fuel : Nat) (T : TypeName) (ps rest : PropertyList) (ns : String) (d : Nat)
      (e1 : Entity S), trimmed ns → levelOK ns d → (∀ p ∈ ps, dots p.Name ≤ k) →
      loadEntity c env fuel (New env T) ps ns = (.ok e1, rest) →
      d ≤ k ∧ depthLE (k - d) e1 = true := by
  intro fuel
  induction fuel with
  | zero => intro T ps rest ns d e1 _ _ _ h; simp [loadEntity] at h
  | succ fuel ih =>
    intro T ps rest ns d e1 hns hlev hps h
    obtain ⟨ex, scalars, fields, fs1, hex, hne, _, hid, hlf, rfl⟩ :=
      (loadEntity_ok_iff c env fuel (New env T) e1 ps rest ns).1 h
    obtain ⟨p, hp, hcur, _⟩ := properties_source ns ps ex hex hne
    have hdk : d ≤ k := le_trans (dots_ge_level p.Name ns d hcur hlev) (hps p hp)
    refine ⟨hdk, ?_⟩
    have hshape := withID_shape c ex.key _ fields hid
    have hfields : ∀ f ∈ fields, f.Value.children = [] ∧
        ∀ seg, tagArg annotationRelation f = some seg → isSegment seg := by
      intro f hf
      obtain ⟨g, hg, _, htag, hch⟩ := forall₂_of_mem_right hshape hf
      obtain ⟨h1, h2⟩ := New_fields env henv T g hg
      exact ⟨hch ▸ h1, fun seg hseg => h2 seg (tagArg_congr _ g f htag ▸ hseg)⟩
    have hrest : ∀ q ∈ ex.rest, dots q.Name ≤ k := by
      intro q hq
      rw [(extract_ok ns ps ex hex).2] at hq
      exact hps q ((survivors_sublist ns ps []).subset hq)
    have key := loadFields_children env (loadEntity c env fuel) ns
      (fun ch => 1 ≤ k - d ∧ depthLE (k - d - 1) ch = true)
      (fun l => ∀ q ∈ l, dots q.Name ≤ k)
      (fun e l ns1 hl q hq => hl q ((loadEntity_sublist c env fuel e l ns1).subset hq))
      fields fs1 ex.rest rest
      (by
        intro f hf seg hseg T1 l v rest1 hl hload
        have hsegOK := (hfields f hf).2 seg hseg
        obtain ⟨h1, h2⟩ := ih T1 l rest1 (qualify ns seg) (d + 1) v (trimmed_qualify ns seg)
          (levelOK_qualify ns seg d hns hsegOK hlev) hl hload
        exact ⟨by omega, by rw [show k - d - 1 = k - (d + 1) by omega]; exact h2⟩)
      hrest
      (by
        intro f hf ch hch
        rw [(hfields f hf).1] at hch
        simp at hch)
      hlf
    exact depthLE_of_children (k - d) _ (fun f hf ch hch => key.1 f hf ch hch)

/-! ## When `loadEntity` cannot fail -/

theorem removed_length (ns : String) :
    ∀ (l : PropertyList) (seen : List String),
      (removed ns seen l).length + (survivors ns seen l).length = l.length := by
  intro l
  induction l with
  | nil => intro seen; simp [removed, survivors]
  | cons p l ih =>
    intro seen
    rw [removed, survivors]
    split_ifs
    · simp only [List.length_cons]
      have := ih (bareName p.Name :: seen)
      omega
    · simp only [List.length_cons]
      have := ih seen
      omega

/-- A successful `loadEntity` removes at least one attribute from the list. -/
theorem loadEntity_shrinks {S : Type} (c : Codec S) (env : TypeEnv S) (fuel : Nat)
    (e e1 : Entity S) (ps rest : PropertyList) (ns : String)
    (h : loadEntity c env fuel e ps ns = (.ok e1, rest)) : rest.length < ps.length := by
  cases fuel with
  | zero => simp [loadEntity] at h
  | succ fuel =>
    obtain ⟨ex, scalars, fields, fs1, hex, hne, _, _, hlf, _⟩ :=
      (loadEntity_ok_iff c env fuel e e1 ps rest ns).1 h
    obtain ⟨hp, hr⟩ := extract_ok ns ps ex hex
    have h1 : (removed ns [] ps) ≠ [] := by
      intro h0
      rw [hp, h0] at hne
      exact hne rfl
    have h2 := removed_length ns ps []
    have h3 : 0 < (removed ns [] ps).length := List.length_pos.2 h1
    have h4 := (loadFields_sublist env (loadEntity c env fuel)
      (loadEntity_sublist c env fuel) ns fields ex.rest).length_le
    rw [hlf, hr] at h4
    simp only at h4
    omega

theorem idsAreKeys_sublist {l1 l2 : PropertyList} (h : l1.Sublist l2) (hk : idsAreKeys l2) :
    idsAreKeys l1 :=
  fun p hp => hk p (h.subset hp)

theorem loadSlice_safe {S : Type}
    (load : PropertyList → Except Error (Entity S) × PropertyList) (n : Nat)
    (hsub : ∀ l, (load l).2.Sublist l)
    (hload : ∀ l, l.length ≤ n → idsAreKeys l →
      okOrNoMore (load l).1 ∧ ∀ v, (load l).1 = .ok v → (load l).2.length < l.length) :
    ∀ (budget : Nat) (vs : List (Entity S)) (ps : PropertyList),
      ps.length < budget → ps.length ≤ n → idsAreKeys ps →
      ∃ vs1 ps1, loadSlice load budget vs ps = (.ok vs1, ps1) := by
  intro budget
  induction budget with
  | zero => intro vs ps h; omega
  | succ budget ih =>
    intro vs ps hb hn hk
    rw [loadSlice]
    obtain ⟨h1, h3⟩ := hload ps hn hk
    have h2 := hsub ps
    rcases hl : load ps with ⟨r, ps2⟩
    rw [hl] at h1 h2 h3
    cases r with
    | ok v =>
      have := h3 v rfl
      simp only at this h2
      exact ih _ ps2 (by omega) (by omega) (idsAreKeys_sublist h2 hk)
    | error err =>
      rcases h1 with ⟨a, ha⟩ | ha
      · cases ha
      · simp only [Except.error.injEq] at ha
        subst ha
        exact ⟨vs, ps2, rfl⟩

theorem loadField_safe {S : Type} (env : TypeEnv S)
    (load : Entity S → PropertyList → String → Except Error (Entity S) × PropertyList)
    (ns : String) (n : Nat)
    (hsub : ∀ e l ns1, (load e l ns1).2.Sublist l)
    (hload : ∀ T l ns1, l.length ≤ n → idsAreKeys l →
      okOrNoMore (load (New env T) l ns1).1 ∧
        ∀ v, (load (New env T) l ns1).1 = .ok v → (load (New env T) l ns1).2.length < l.length)
    (f : Field (Entity S)) (ps : PropertyList) (hn : ps.length ≤ n) (hk : idsAreKeys ps)
    (htag : tagOK f = true) :
    ∃ f1 ps1, loadField env load ns f ps = (.ok f1, ps1) := by
  rw [loadField_eq]
  simp only [htag, Bool.true_eq_false, if_false]
  cases hseg : tagArg annotationRelation f with
  | none => exact ⟨f, ps, rfl⟩
  | some seg =>
    simp only []
    unfold loadRelation
    cases hv : f.Value with
    | String s => exact ⟨f, ps, rfl⟩
    | Other => exact ⟨f, ps, rfl⟩
    | Ptr elem v =>
      cases v with
      | some child => exact ⟨f, ps, rfl⟩
      | none =>
        simp only []
        obtain ⟨h1, _⟩ := hload elem ps (qualify ns seg) hn hk
        rcases hl : load (New env elem) ps (qualify ns seg) with ⟨r, ps2⟩
        rw [hl] at h1
        cases r with
        | ok v => exact ⟨_, ps2, rfl⟩
        | error err =>
          rcases h1 with ⟨a, ha⟩ | ha
          · cases ha
          · simp only [Except.error.injEq] at ha
            subst ha
            exact ⟨f, ps2, rfl⟩
    | Slice elem vs =>
      simp only []
      obtain ⟨vs1, ps1, hs⟩ := loadSlice_safe (fun l => load (New env elem) l (qualify ns seg)) n
        (fun l => hsub _ l _)
        (fun l hl hkl => hload elem l (qualify ns seg) hl hkl) (ps.length + 1) vs ps
        (by omega) hn hk
      rw [hs]
      exact ⟨_, ps1, rfl⟩

theorem loadFields_safe {S : Type} (env : TypeEnv S)
    (load : Entity S → PropertyList → String → Except Error (Entity S) × PropertyList)
    (ns : String) (n : Nat)
    (hsub : ∀ e l ns1, (load e l ns1).2.Sublist l)
    (hload : ∀ T l ns1, l.length ≤ n → idsAreKeys l →
      okOrNoMore (load (New env T) l ns1).1 ∧
        ∀ v, (load (New env T) l ns1).1 = .ok v → (load (New env T) l ns1).2.length < l.length) :
    ∀ (fs : List (Field (Entity S))) (ps : PropertyList), ps.length ≤ n → idsAreKeys ps →
      (∀ f ∈ fs, tagOK f = true) →
      ∃ fs1 ps1, loadFields env load ns fs ps = (.ok fs1, ps1) := by
  intro fs
  induction fs with
  | nil => intro ps _ _ _; exact ⟨[], ps, rfl⟩
  | cons f fs ih =>
    intro ps hn hk htag
    obtain ⟨f1, ps1, h1⟩ := loadField_safe env load ns n hsub hload f ps hn hk
      (htag f (List.mem_cons_self _ _))
    have hs := loadField_sublist env load hsub ns f ps
    rw [h1] at hs
    simp only at hs
    obtain ⟨fs1, ps2, h2⟩ := ih ps1 (le_trans hs.length_le hn) (idsAreKeys_sublist hs hk)
      (fun g hg => htag g (List.mem_cons_of_mem _ hg))
    exact ⟨f1 :: fs1, ps2, (loadFields_cons_ok env load ns f fs _ ps ps2).2
      ⟨f1, fs1, ps1, h1, h2, rfl⟩⟩

/-- With a scalar codec that accepts every attribute set, struct types that can be loaded
into and a list that respects the reserved name `id`, `loadEntity` into a fresh entity
either succeeds or reports `ErrNoMoreProperties`, as soon as the fuel exceeds the length
of the list. -/
theorem loadEntity_safe {S : Type} (c : Codec S) (env : TypeEnv S) (hc : codecTotal c)
    (henv : envLoadable env) :
    ∀ (fuel : Nat) (T : TypeName) (ps : PropertyList) (ns : String),
      ps.length < fuel → idsAreKeys ps →
      okOrNoMore (loadEntity c env fuel (New env T) ps ns).1 := by
  intro fuel
  induction fuel with
  | zero => intro T ps ns h; omega
  | succ fuel ih =>
    intro T ps ns hlen hk
    rw [loadEntity, extract_eq ns ps (idsAreKeys_at hk ns)]
    simp only [List.length_eq_zero]
    split_ifs with h0
    · exact Or.inr rfl
    · obtain ⟨s1, hs1⟩ := hc (New env T).scalars
        ((((removed ns [] ps).filter fun p => decide (bareName p.Name ≠ "id")).map rename).map
          fun property => { property with Multiple := false })
      rw [hs1]
      simp only []
      have hfields : ∃ fields, withID c (capturedKey (removed ns [] ps)) (New env T).fields
          = some fields := by
        cases capturedKey (removed ns [] ps) with
        | none => exact ⟨_, rfl⟩
        | some k => exact (henv T).2 (c.Encode k)
      obtain ⟨fields, hfields⟩ := hfields
      rw [hfields]
      simp only []
      have hshape := withID_shape c _ _ fields hfields
      have htags : ∀ f ∈ fields, tagOK f = true := by
        intro f hf
        obtain ⟨g, hg, _, htag, _⟩ := forall₂_of_mem_right hshape hf
        simp only [New, Entity.fields, List.mem_map] at hg
        obtain ⟨d, hd, rfl⟩ := hg
        have := (henv T).1 d hd
        unfold tagOK at this ⊢
        rw [htag]
        exact this
      have hremoved : (removed ns [] ps) ≠ [] := by
        intro h; apply h0; rw [h]; rfl
      have hshort : (survivors ns [] ps).length < ps.length := by
        have := removed_length ns ps []
        have := List.length_pos.2 hremoved
        omega
      obtain ⟨fs1, ps1, hlf⟩ := loadFields_safe env (loadEntity c env fuel) ns (fuel - 1)
        (loadEntity_sublist c env fuel)
        (fun T1 l ns1 hl hkl => ⟨ih T1 l ns1 (by omega) hkl, fun v hv => by
          rcases hr : loadEntity c env fuel (New env T1) l ns1 with ⟨r, rest⟩
          rw [hr] at hv
          simp only at hv
          subst hv
          exact loadEntity_shrinks c env fuel _ v l rest ns1 hr⟩)
        fields (survivors ns [] ps) (by omega)
        (idsAreKeys_sublist (survivors_sublist ns ps []) hk) htags
      rw [hlf]
      exact Or.inl ⟨_, rfl⟩

/-! ## The depth cap -/

theorem dots_segment (b : String) (hb : isSegment b) : dots b = 0 := by
  unfold dots
  exact List.count_eq_zero.2 hb.2

theorem dots_qualify (ns b : String) (hns : trimmed ns) (hb : isSegment b) :
    dots (qualify ns b) = if ns = "" then 0 else dots ns + 1 := by
  by_cases hne : ns = ""
  · subst hne
    rw [qualify_root b hb, dots_segment b hb]
    rfl
  · rw [qualify_nonroot ns b hns hne hb, if_neg hne]
    have := dots_segment b hb
    unfold dots at this ⊢
    simp [String.data_append, List.count_append, this]

theorem dots_descend :
    ∀ path : List String, (∀ s ∈ path, isSegment s) →
      (path = [] ∧ descend "" path = "") ∨
      (path ≠ [] ∧ descend "" path ≠ "" ∧ dots (descend "" path) + 1 = path.length) := by
  intro path
  induction path using List.reverseRecOn with
  | nil => intro _; exact Or.inl ⟨rfl, rfl⟩
  | append_singleton path s ih =>
    intro hp
    have hs : isSegment s := hp s (by simp)
    have ht : trimmed (descend "" path) := trimmed_descend "" (by decide) path
    have hd : descend "" (path ++ [s]) = qualify (descend "" path) s := by
      simp [descend, List.foldl_append]
    right
    refine ⟨by simp, ?_, ?_⟩
    · rw [hd]; exact qualify_ne_empty _ s ht hs
    · rw [hd, dots_qualify _ s ht hs]
      rcases ih (fun x hx => hp x (List.mem_append_left _ hx)) with ⟨h1, h2⟩ | ⟨_, h2, h3⟩
      · subst h1; simp [h2]
      · simp [h2]; omega

theorem dots_saved_name (path : List String) (b : String) (hp : ∀ s ∈ path, isSegment s)
    (hb : isSegment b) : dots (qualify (descend "" path) b) = path.length := by
  rw [dots_qualify _ b (trimmed_descend "" (by decide) path) hb]
  rcases dots_descend path hp with ⟨h1, h2⟩ | ⟨_, h2, h3⟩
  · subst h1; simp [h2]
  · simp [h2]; omega

theorem save_idsAreKeys {S : Type} (c : Codec S) :
    ∀ (left : Nat) (e : Entity S) (ns : String) (multiple : Bool) (out : PropertyList),
      trimmed ns → wellNamed c left e = true → saveEntityAux c left e ns multiple = .ok out →
      idsAreKeys out := by
  intro left
  induction left with
  | zero =>
    intro e ns multiple out _ _ h p hp
    rw [saveEntityAux] at h
    cases h
    simp at hp
  | succ left ih =>
    intro e ns multiple out hns hw h p hp hid
    obtain ⟨hown, hfields⟩ := wellNamed_succ c left e hw
    obtain ⟨own, outs, hs, hf, rfl⟩ := (saveEntityAux_ok_iff c left e ns multiple out).1 h
    rcases List.mem_append.1 hp with hp | hp
    · obtain ⟨q, hq, rfl⟩ := List.mem_map.1 hp
      obtain ⟨hseg, hne⟩ := hown own hs q hq
      exact absurd ((split_qualify ns q.Name hns hseg).2 ▸ hid) hne
    · obtain ⟨o, ho, hpo⟩ := List.mem_flatten.1 hp
      obtain ⟨f, hfm, hfo⟩ := forall₂_of_mem_right hf ho
      rcases saveField_cases c _ ns multiple f o hfo with ⟨_, rfl⟩ | ⟨_, _, rfl⟩ |
        ⟨seg, couts, _, hseg, hch, rfl⟩
      · obtain ⟨_, k, rfl⟩ := mem_keyProperty c ns multiple f p hpo
        rfl
      · simp at hpo
      · obtain ⟨_, hchw⟩ := hfields f hfm seg hseg
        obtain ⟨oc, hoc, hpoc⟩ := List.mem_flatten.1 hpo
        obtain ⟨ch, hchm, hsave⟩ := forall₂_of_mem_right hch hoc
        exact ih ch (qualify ns seg) _ oc (trimmed_qualify ns seg) (hchw _ hchm) hsave p hpoc hid

/-- C10, counterexample. `LoadEntity` has no depth cap: from a hand-built list with an
attribute at `next.next.next` it rebuilds a node three levels below the root. -/
theorem load_depth_counterexample :
    LoadEntity stringCodec chainEnv (New chainEnv "Node") deepList =
        .ok (chainNode "0" (some (chainNode "1" (some (chainNode "2"
          (some (chainNode "3" none))))))) ∧
      depthLE 2 (chainNode "0" (some (chainNode "1" (some (chainNode "2"
          (some (chainNode "3" none))))))) = false :=
  ⟨rfl, rfl⟩

/-- C10, as amended. Loading is bounded by the names in the list, not by a cap: for
every attribute list, every `k`, and struct types whose relation segments are not empty
and dot-free, if no attribute name holds more than `k` dots then `LoadEntity` into a fresh
entity rebuilds no node more than `k` levels below the root. For the lists `SaveEntity`
produces `k` is 2. -/
theorem load_depth_bound {S : Type} (c : Codec S) (env : TypeEnv S) (henv : envNamed env)
    (k : Nat) (T : TypeName) (ps : PropertyList) (e1 : Entity S)
    (hps : ∀ p ∈ ps, dots p.Name ≤ k)
    (h : LoadEntity c env (New env T) ps = .ok e1) : depthLE k e1 = true := by
  unfold LoadEntity at h
  rcases hl : loadEntity c env (ps.length + 1) (New env T) ps "" with ⟨r, rest⟩
  rw [hl] at h
  simp only at h
  subst h
  exact (loadEntity_depth c env henv k (ps.length + 1) T ps rest "" 0 e1 (by decide)
    (Or.inl rfl) hps hl).2

theorem envNamed_testEnv : envNamed testEnv := by
  intro T d hd seg hseg
  unfold testEnv at hd
  split_ifs at hd
  · simp only [postFields, List.mem_cons, List.mem_singleton, List.not_mem_nil, or_false] at hd
    rcases hd with rfl | rfl
    · simp [tagArg, zeroField] at hseg
    · have : seg = "comments" := by
        have h2 : tagArg annotationRelation (zeroField
          { Name := "Comments", Tag := "relation,comments", Kind := .Slice "Comment" } :
            Field (Entity StringFields)) = some "comments" := by decide
        rw [h2] at hseg
        exact (Option.some.inj hseg).symm
      subst this
      decide
  · simp only [commentFields, List.mem_singleton] at hd
    subst hd
    simp [tagArg, zeroField] at hseg
  · simp at hd

theorem load_depth_bound_witness :
    depthLE 1 (.mk [("text", "My post")]
      [{ Name := "ID", Tag := "", Value := .String "" },
       { Name := "Comments", Tag := "relation,comments",
         Value := .Slice "Comment"
           [.mk [("text", "My comment")]
             [{ Name := "ID", Tag := "", Value := .String "k" }]] }] : Entity StringFields)
      = true :=
  load_depth_bound stringCodec testEnv envNamed_testEnv 1 "Post" (serialized ⟨"k"⟩) _
    (by decide) rfl

/-- C9, counterexample. A root without scalar attributes, with well-formed names: the
saved list holds only the attribute of its item, and loading it into a fresh record of the
same type fails with `ErrNoMoreProperties`. -/
theorem depth_cap_counterexample :
    wellNamed stringCodec 3 folder = true ∧
      SaveEntity stringCodec folder =
        .ok [{ Name := "items.text", Value := .scalar "hello", NoIndex := true,
               Multiple := true }] ∧
      LoadEntity stringCodec folderEnv (New folderEnv "Folder")
        [{ Name := "items.text", Value := .scalar "hello", NoIndex := true, Multiple := true }]
        = .error .ErrNoMoreProperties :=
  ⟨by decide, rfl, rfl⟩

theorem envNamed_chainEnv : envNamed chainEnv := by
  intro T d hd seg hseg
  simp only [chainEnv, List.mem_cons, List.mem_singleton, List.not_mem_nil, or_false] at hd
  rcases hd with rfl | rfl
  · simp [tagArg, zeroField] at hseg
  · have h2 : tagArg annotationRelation (zeroField
        { Name := "Next", Tag := "relation,next", Kind := .Ptr "Node" } :
          Field (Entity StringFields)) = some "next" := by decide
    rw [h2] at hseg
    rw [← Option.some.inj hseg]
    decide

theorem envLoadable_chainEnv : envLoadable chainEnv := by
  intro T
  constructor
  · intro d hd
    simp only [chainEnv, List.mem_cons, List.mem_singleton, List.not_mem_nil, or_false] at hd
    rcases hd with rfl | rfl <;> decide
  · intro s
    exact ⟨_, rfl⟩

/-! ## The round trip -/

theorem descend_snoc (ns : String) (path : List String) (s : String) :
    descend ns (path ++ [s]) = qualify (descend ns path) s := by
  simp [descend, List.foldl_append]

theorem descend_injective (ns : String) (hns : trimmed ns) :
    ∀ p1 p2 : List String, (∀ s ∈ p1, isSegment s) → (∀ s ∈ p2, isSegment s) →
      descend ns p1 = descend ns p2 → p1 = p2 := by
  intro p1
  induction p1 using List.reverseRecOn with
  | nil =>
    intro p2 _ h2 h
    by_contra hne
    have h1 := length_descend ns hns p2 h2
    rw [← h] at h1
    have : 0 < p2.length := List.length_pos.2 (fun h0 => hne h0.symm)
    simp only [descend, List.foldl_nil] at h1
    omega
  | append_singleton p1 s1 ih =>
    intro p2 h1 h2 h
    rcases List.eq_nil_or_concat p2 with rfl | ⟨q2, s2, rfl⟩
    · have hl := length_descend ns hns (p1 ++ [s1]) h1
      rw [h] at hl
      simp only [descend, List.foldl_nil, List.length_append, List.length_singleton] at hl
      omega
    · rw [List.concat_eq_append] at h h2 ⊢
      rw [descend_snoc, descend_snoc] at h
      have hs1 : isSegment s1 := h1 s1 (by simp)
      have hs2 : isSegment s2 := h2 s2 (by simp)
      have e1 := split_qualify (descend ns p1) s1 (trimmed_descend ns hns p1) hs1
      have e2 := split_qualify (descend ns q2) s2 (trimmed_descend ns hns q2) hs2
      rw [h] at e1
      have hd : descend ns p1 = descend ns q2 := e1.1.symm.trans e2.1
      have hs : s1 = s2 := e1.2.symm.trans e2.2
      rw [ih q2 (fun x hx => h1 x (List.mem_append_left _ hx))
        (fun x hx => h2 x (List.mem_append_left _ hx)) hd, hs]

theorem under_child (ns seg : String) (p : Property) (hseg : isSegment seg)
    (h : under (qualify ns seg) p) : under ns p := by
  obtain ⟨path, hp, hc⟩ := h
  refine ⟨seg :: path, ?_, hc⟩
  intro s hs
  rcases List.mem_cons.1 hs with rfl | hs
  · exact hseg
  · exact hp s hs

theorem under_disjoint (ns s1 s2 : String) (p : Property) (hns : trimmed ns)
    (h1s : isSegment s1) (h2s : isSegment s2)
    (h1 : under (qualify ns s1) p) (h2 : under (qualify ns s2) p) : s1 = s2 := by
  obtain ⟨p1, hp1, hc1⟩ := h1
  obtain ⟨p2, hp2, hc2⟩ := h2
  have := descend_injective ns hns (s1 :: p1) (s2 :: p2)
    (by intro s hs; rcases List.mem_cons.1 hs with rfl | hs; exact h1s; exact hp1 s hs)
    (by intro s hs; rcases List.mem_cons.1 hs with rfl | hs; exact h2s; exact hp2 s hs)
    (by rw [descend_cons, descend_cons, ← hc1, ← hc2])
  exact (List.cons.inj this).1

theorem not_under_child_of_at (ns seg : String) (p : Property) (hns : trimmed ns)
    (hseg : isSegment seg) (hat : currentNamespace p.Name = ns) :
    ¬ under (qualify ns seg) p := by
  rintro ⟨path, hp, hc⟩
  have := descend_injective ns hns [] (seg :: path) (by simp)
    (by intro s hs; rcases List.mem_cons.1 hs with rfl | hs; exact hseg; exact hp s hs)
    (by rw [descend_cons, ← hc, hat]; rfl)
  simp at this

theorem save_under {S : Type} (c : Codec S) (left : Nat) (e : Entity S) (ns : String)
    (multiple : Bool) (out : PropertyList) (hns : trimmed ns) (hw : wellNamed c left e = true)
    (h : saveEntityAux c left e ns multiple = .ok out) : ∀ p ∈ out, under ns p := by
  intro p hp
  obtain ⟨path, hpath, _, hcur, _⟩ := save_names_split c left e ns multiple out hns hw h p hp
  exact ⟨path, hpath, hcur⟩

theorem wellNamed_of_roundTrippable {S : Type} (c : Codec S) (env : TypeEnv S) :
    ∀ (depth : Nat) (root : Bool) (e : Entity S) (T : TypeName),
      roundTrippable c env depth root e T → wellNamed c depth e = true := by
  intro depth
  induction depth with
  | zero => intro root e T h; exact absurd h (by simp [roundTrippable])
  | succ depth ih =>
    intro root e T h
    obtain ⟨hn, hch⟩ := h
    obtain ⟨own, hown, _, _, hnames, _⟩ := hn.scalars
    simp only [wellNamed, hown, Bool.and_eq_true, List.all_eq_true, decide_eq_true_eq]
    refine ⟨hnames, ?_⟩
    intro f hf
    cases hseg : tagArg annotationRelation f with
    | none => rfl
    | some seg =>
      simp only [Bool.and_eq_true, decide_eq_true_eq, List.all_eq_true]
      exact ⟨hn.segments f hf seg hseg, fun ch hc => ih false ch _ (hch f hf ch hc)⟩

theorem load_absent {S : Type} (c : Codec S) (env : TypeEnv S) (fuel : Nat) (e : Entity S)
    (l : PropertyList) (ns : String) (h : ∀ p ∈ l, currentNamespace p.Name ≠ ns) :
    loadEntity c env (fuel + 1) e l ns = (.error .ErrNoMoreProperties, l) := by
  have hk : idsAreKeysAt ns l := fun p hp hc => absurd hc (h p hp)
  have hn : ∀ b ∈ namesAt ns l, b ∈ ([] : List String) := by
    intro b hb
    obtain ⟨p, hp, hc, _⟩ := mem_namesAt.1 hb
    exact absurd hc (h p hp)
  obtain ⟨hr, hs⟩ := removed_of_seen ns l [] hn
  simp only [loadEntity, extract_eq ns l hk, hr, hs]
  rfl

theorem find_eq_head_filter {α : Type} (p : α → Bool) :
    ∀ l : List α, l.find? p = (l.filter p).head? := by
  intro l
  induction l with
  | nil => rfl
  | cons a l ih =>
    cases h : p a with
    | true => rw [List.find?_cons_of_pos _ h, List.filter_cons_of_pos h]; rfl
    | false =>
      rw [List.find?_cons_of_neg _ (by simp [h]), List.filter_cons_of_neg (by simp [h])]
      exact ih

theorem keyOf_of_filter {S : Type} (e : Entity S) (f : Field (Entity S)) (s : String)
    (h : e.fields.filter isPrimary = [f]) (hs : f.Value = .String s) : keyOf e = s := by
  have : e.fields.find? isPrimary = some f := by
    rw [find_eq_head_filter, h]; rfl
  simp only [keyOf, this, hs]

theorem keyOf_of_filter_nil {S : Type} (e : Entity S)
    (h : e.fields.filter isPrimary = []) : keyOf e = "" := by
  have : e.fields.find? isPrimary = none := by
    rw [find_eq_head_filter, h]; rfl
  simp only [keyOf, this]

theorem keyProperty_none {S : Type} (c : Codec S) (env : TypeEnv S) (root : Bool)
    (e : Entity S) (T : TypeName) (ns : String) (multiple : Bool) (hn : NodeOK c env root e T)
    (h : keyOf e = "" ∨ ns = "") : e.fields.flatMap (keyProperty c ns multiple) = [] := by
  rw [flatMap_keyProperty]
  have hlen := hn.onePrimary
  change (e.fields.filter isPrimary).flatMap (keyProperty c ns multiple) = []
  match hf : e.fields.filter isPrimary, hlen with
  | [], _ => rfl
  | [f], _ =>
    have hmem : f ∈ e.fields.filter isPrimary := by rw [hf]; simp
    obtain ⟨hfe, hp⟩ := List.mem_filter.1 hmem
    obtain ⟨_, s, hs, _, _⟩ := hn.primary f hfe hp
    have hk := keyOf_of_filter e f s hf hs
    simp only [List.flatMap_cons, List.flatMap_nil, List.append_nil, keyProperty, hs]
    cases htag : tagArg annotationPrimary f with
    | none => rfl
    | some a =>
      simp only
      rcases h with h | h
      · rw [hk] at h; simp [h]
      · simp [h]
  | _ :: _ :: _, hl => simp at hl

theorem keyProperty_some {S : Type} (c : Codec S) (env : TypeEnv S) (root : Bool)
    (e : Entity S) (T : TypeName) (ns : String) (multiple : Bool) (hn : NodeOK c env root e T)
    (hkey : keyOf e ≠ "") (hns : ns ≠ "") :
    ∃ k, c.DecodeKey (keyOf e) = .ok k ∧ c.Encode k = keyOf e ∧
      e.fields.flatMap (keyProperty c ns multiple) = [idProperty ns k multiple] := by
  rw [flatMap_keyProperty]
  have hlen := hn.onePrimary
  change ∃ k, _ ∧ _ ∧ (e.fields.filter isPrimary).flatMap (keyProperty c ns multiple) = _
  match hf : e.fields.filter isPrimary, hlen with
  | [], _ => exact absurd (keyOf_of_filter_nil e hf) hkey
  | [f], _ =>
    have hmem : f ∈ e.fields.filter isPrimary := by rw [hf]; simp
    obtain ⟨hfe, hp⟩ := List.mem_filter.1 hmem
    obtain ⟨_, s, hs, _, hdec⟩ := hn.primary f hfe hp
    have hk := keyOf_of_filter e f s hf hs
    rw [hk] at hkey ⊢
    obtain ⟨k, hd, he⟩ := hdec hkey
    refine ⟨k, hd, he, ?_⟩
    simp only [List.flatMap_cons, List.flatMap_nil, List.append_nil, keyProperty, hs]
    cases htag : tagArg annotationPrimary f with
    | none => simp [isPrimary, htag] at hp
    | some a => simp [hkey, hns, hd]
  | _ :: _ :: _, hl => simp at hl

theorem qualified_facts (ns : String) (multiple : Bool) (hns : trimmed ns) :
    ∀ own : PropertyList, (∀ p ∈ own, isSegment p.Name ∧ p.Name ≠ "id") →
      (∀ q ∈ qualified ns multiple own, currentNamespace q.Name = ns ∧ bareName q.Name ≠ "id") ∧
      (qualified ns multiple own).map (fun p => bareName p.Name) = own.map (fun p => p.Name) ∧
      (qualified ns multiple own).map rename =
        own.map (fun p => { p with Multiple := multiple }) := by
  intro own
  induction own with
  | nil => intro _; simp [qualified]
  | cons p own ih =>
    intro h
    obtain ⟨h1, h2, h3⟩ := ih (fun q hq => h q (List.mem_cons_of_mem _ hq))
    obtain ⟨hseg, hid⟩ := h p (List.mem_cons_self _ _)
    obtain ⟨hc, hb⟩ := split_qualify ns p.Name hns hseg
    simp only [qualified, List.map_cons, List.mem_cons, forall_eq_or_imp] at h1 h2 h3 ⊢
    refine ⟨⟨⟨hc, by rw [hb]; exact hid⟩, h1⟩, ?_, ?_⟩
    · rw [hb, h2]
    · rw [h3]; simp only [rename, hb]

theorem filter_eq_self_of_all {α : Type} (p : α → Bool) (l : List α)
    (h : ∀ a ∈ l, p a = true) : l.filter p = l :=
  List.filter_eq_self.2 h

theorem filter_eq_nil_of_none {α : Type} (p : α → Bool) (l : List α)
    (h : ∀ a ∈ l, p a = false) : l.filter p = [] := by
  apply List.filter_eq_nil_iff.2
  intro a ha
  simp [h a ha]

theorem find_append_of_none {α : Type} (p : α → Bool) (l1 l2 : List α)
    (h : ∀ a ∈ l1, p a = false) : (l1 ++ l2).find? p = l2.find? p := by
  induction l1 with
  | nil => rfl
  | cons a l1 ih =>
    rw [List.cons_append, List.find?_cons_of_neg _ (by simp [h a (List.mem_cons_self _ _)])]
    exact ih (fun b hb => h b (List.mem_cons_of_mem _ hb))

/-- Extraction at the namespace of a saved entity takes exactly the attributes that
`saveEntity` wrote for it, provided whatever else follows at that namespace repeats the
entity's own names. -/
theorem extract_saved {S : Type} (c : Codec S) (env : TypeEnv S) (left : Nat) (root : Bool)
    (e : Entity S) (T : TypeName) (ns : String) (multiple : Bool) (out R : PropertyList)
    (hns : trimmed ns) (hroot : ns = "" → root = true) (hn : NodeOK c env root e T)
    (hw : wellNamed c (left + 1) e = true)
    (hsave : saveEntityAux c (left + 1) e ns multiple = .ok out)
    (hcond : ∀ p ∈ R, currentNamespace p.Name = ns →
      bareName p.Name ∈ attrNames c e ∨ (bareName p.Name = "id" ∧ keyOf e ≠ ""))
    (hk : idsAreKeys (out ++ R)) :
    ∃ own kopt, c.SaveStruct e.scalars = .ok own ∧
      ((kopt = none ∧ keyOf e = "") ∨ ∃ k, kopt = some k ∧ c.Encode k = keyOf e ∧ keyOf e ≠ "") ∧
      extractEntityProperties ns (out ++ R) =
        .ok { key := kopt,
              properties := own.map fun p => { p with Multiple := multiple },
              rest := out.filter (fun p => !decide (currentNamespace p.Name = ns)) ++ R } := by
  obtain ⟨own, hown, hfilt, _⟩ := save_atNs c left e ns multiple out hns hw hsave
  obtain ⟨own1, hown1, hne, hnd, hnames, _⟩ := hn.scalars
  rw [hown] at hown1
  cases Except.ok.inj hown1
  have hattr : attrNames c e = own.map fun p => p.Name := by simp only [attrNames, hown]
  obtain ⟨q1, q2, q3⟩ := qualified_facts ns multiple hns own hnames
  change out.filter _ = qualified ns multiple own ++ _ at hfilt
  -- the key attribute
  have hkeys : ∃ kopt keys, e.fields.flatMap (keyProperty c ns multiple) = keys ∧
      ((kopt = none ∧ keyOf e = "" ∧ keys = []) ∨
        ∃ k, kopt = some k ∧ c.Encode k = keyOf e ∧ keyOf e ≠ "" ∧
          keys = [idProperty ns k multiple]) := by
    by_cases hkey : keyOf e = ""
    · exact ⟨none, [], keyProperty_none c env root e T ns multiple hn (Or.inl hkey),
        Or.inl ⟨rfl, hkey, rfl⟩⟩
    · have hns0 : ns ≠ "" := by
        intro h0
        have hr := hroot h0
        apply hkey
        have hlen := hn.onePrimary
        match hf : e.fields.filter isPrimary, hlen with
        | [], _ => exact keyOf_of_filter_nil e hf
        | [f], _ =>
          have hmem : f ∈ e.fields.filter isPrimary := by rw [hf]; simp
          obtain ⟨hfe, hp⟩ := List.mem_filter.1 hmem
          obtain ⟨_, s, hs, hs0, _⟩ := hn.primary f hfe hp
          rw [keyOf_of_filter e f s hf hs]
          exact hs0 hr
        | _ :: _ :: _, hl => simp at hl
      obtain ⟨k, _, he, hfl⟩ := keyProperty_some c env root e T ns multiple hn hkey hns0
      exact ⟨some k, _, hfl, Or.inr ⟨k, rfl, he, hkey, rfl⟩⟩
  obtain ⟨kopt, keys, hkeys, hcase⟩ := hkeys
  rw [hkeys] at hfilt
  have hkb : ∀ q ∈ keys, bareName q.Name = "id" := by
    intro q hq
    rw [← hkeys] at hq
    obtain ⟨f, _, hqf⟩ := List.mem_flatMap.1 hq
    exact (keyProperty_atNs c ns hns multiple f q hqf).2
  -- names at `ns` in the output
  have hnamesAt : namesAt ns out = (own.map fun p => p.Name) ++ keys.map fun p => bareName p.Name := by
    simp only [namesAt, hfilt, List.map_append, q2]
  have hnodup : (namesAt ns out).Nodup := by
    rw [hnamesAt]
    rcases hcase with ⟨_, _, rfl⟩ | ⟨k, _, _, _, rfl⟩
    · simpa using hnd
    · rw [List.nodup_append]
      refine ⟨hnd, by simp, ?_⟩
      intro a ha hb
      simp only [List.map_cons, List.map_nil, List.mem_singleton] at hb
      obtain ⟨p, hp, rfl⟩ := List.mem_map.1 ha
      have : bareName (idProperty ns k multiple).Name = "id" := hkb _ (by simp)
      rw [this] at hb
      exact (hnames p hp).2 hb
  obtain ⟨r1, s1⟩ := removed_of_fresh ns out [] hnodup (by simp)
  have hseen : ∀ b ∈ namesAt ns R, b ∈ namesAt ns out ++ [] := by
    intro b hb
    obtain ⟨p, hp, hc, rfl⟩ := mem_namesAt.1 hb
    rw [List.append_nil, hnamesAt]
    rcases hcond p hp hc with h | ⟨hid, hkey⟩
    · rw [hattr] at h; exact List.mem_append_left _ h
    · rcases hcase with ⟨_, h0, _⟩ | ⟨k, _, _, _, rfl⟩
      · exact absurd h0 hkey
      · apply List.mem_append_right
        have : bareName (idProperty ns k multiple).Name = "id" := hkb _ (by simp)
        simp [this, hid]
  obtain ⟨r2, s2⟩ := removed_of_seen ns R (namesAt ns out ++ []) hseen
  have hrem : removed ns [] (out ++ R) = qualified ns multiple own ++ keys := by
    rw [removed_append, r1, r2, List.append_nil, hfilt]
  have hsur : survivors ns [] (out ++ R) =
      out.filter (fun p => !decide (currentNamespace p.Name = ns)) ++ R := by
    rw [survivors_append, s1, s2]
  have hprops : ((removed ns [] (out ++ R)).filter fun p => decide (bareName p.Name ≠ "id")).map
      rename = own.map fun p => { p with Multiple := multiple } := by
    rw [hrem, List.filter_append,
      filter_eq_self_of_all _ _ (fun q hq => by simpa using (q1 q hq).2),
      filter_eq_nil_of_none _ _ (fun q hq => by simpa using hkb q hq), List.append_nil, q3]
  have hkey : capturedKey (removed ns [] (out ++ R)) = kopt := by
    rw [hrem, capturedKey, find_append_of_none _ _ _ (fun q hq => by simpa using (q1 q hq).2)]
    rcases hcase with ⟨rfl, _, rfl⟩ | ⟨k, rfl, _, _, rfl⟩
    · rfl
    · have : bareName (idProperty ns k multiple).Name = "id" := hkb _ (by simp)
      rw [List.find?_cons_of_pos _ (by simpa using this)]
      rfl
  refine ⟨own, kopt, hown, ?_, ?_⟩
  · rcases hcase with ⟨h1, h2, _⟩ | ⟨k, h1, h2⟩
    · exact Or.inl ⟨h1, h2⟩
    · exact Or.inr ⟨k, h1, h2.1, h2.2.1⟩
  · rw [extract_eq ns (out ++ R) (idsAreKeys_at hk ns), hkey, hsur]
    have : ((removed ns [] (out ++ R)).filter fun p => decide (bareName p.Name ≠ "id")) =
        ((removed ns [] (out ++ R)).filter fun p => bareName p.Name ≠ "id") := rfl
    rw [← hprops]

theorem strip_of_childless {E : Type} (f : Field E) (h : f.Value.children = []) :
    strip f = f := by
  obtain ⟨n, t, v⟩ := f
  cases v with
  | String s => rfl
  | Ptr elem v =>
    cases v with
    | none => rfl
    | some ch => simp [FieldValue.children] at h
  | Slice elem vs =>
    simp only [FieldValue.children] at h
    subst h
    rfl
  | Other => rfl

theorem primary_value {S : Type} (c : Codec S) (env : TypeEnv S) (root : Bool) (e : Entity S)
    (T : TypeName) (hn : NodeOK c env root e T) (f : Field (Entity S)) (hf : f ∈ e.fields)
    (hp : isPrimary f = true) (s : String) (hs : f.Value = .String s) : keyOf e = s := by
  have hmem : f ∈ e.fields.filter isPrimary := List.mem_filter.2 ⟨hf, hp⟩
  have hlen := hn.onePrimary
  match hfl : e.fields.filter isPrimary, hlen with
  | [], _ => rw [hfl] at hmem; simp at hmem
  | [g], _ =>
    rw [hfl] at hmem
    have : f = g := by simpa using hmem
    subst this
    exact keyOf_of_filter e f s hfl hs
  | _ :: _ :: _, hl => simp at hl

theorem primary_exists {S : Type} (e : Entity S) (h : keyOf e ≠ "") :
    ∃ f ∈ e.fields, isPrimary f = true := by
  by_contra hno
  apply h
  apply keyOf_of_filter_nil
  apply List.filter_eq_nil_iff.2
  intro f hf hp
  exact hno ⟨f, hf, hp⟩

theorem blank_eq_strip {S : Type} (f : Field (Entity S))
    (h : ∀ s, f.Value = .String s → s = "") : zeroField (declOf f) = strip f := by
  obtain ⟨n, t, v⟩ := f
  cases v with
  | String s =>
    have := h s rfl
    subst this
    rfl
  | Ptr elem v => rfl
  | Slice elem vs => rfl
  | Other => rfl

theorem setID_blank {S : Type} (key : String) :
    ∀ fs : List (Field (Entity S)), (∃ f ∈ fs, f.Name = "ID") →
      (∀ f ∈ fs, (f.Name = "ID" → f.Value = .String key) ∧
        (f.Name ≠ "ID" → zeroField (declOf f) = strip f)) →
      (fs.map fun f => f.Name).Nodup →
      setID key (fs.map fun f => zeroField (declOf f)) = some (fs.map strip) := by
  intro fs
  induction fs with
  | nil => rintro ⟨f, hf, _⟩; simp at hf
  | cons f fs ih =>
    intro hex hall hnd
    obtain ⟨h1, h2⟩ := hall f (List.mem_cons_self _ _)
    rw [List.map_cons, List.nodup_cons] at hnd
    by_cases hid : f.Name = "ID"
    · have hv := h1 hid
      have hrest : fs.map (fun f => zeroField (declOf f)) = fs.map strip := by
        apply List.map_congr_left
        intro g hg
        apply (hall g (List.mem_cons_of_mem _ hg)).2
        intro hgid
        apply hnd.1
        rw [hid, ← hgid]
        exact List.mem_map_of_mem _ hg
      obtain ⟨n, t, v⟩ := f
      simp only at hid hv
      subst hv
      rw [List.map_cons, List.map_cons, hrest]
      subst hid
      rfl
    · have hex1 : ∃ g ∈ fs, g.Name = "ID" := by
        obtain ⟨g, hg, hgid⟩ := hex
        rcases List.mem_cons.1 hg with rfl | hg
        · exact absurd hgid hid
        · exact ⟨g, hg, hgid⟩
      have := ih hex1 (fun g hg => hall g (List.mem_cons_of_mem _ hg)) hnd.2
      have hz : (strip f).Name = f.Name := rfl
      rw [List.map_cons, List.map_cons, h2 hid]
      simp only [setID, hz, hid, if_false, this, Option.map_some']

/-- A fresh value of the entity's type, with the captured key stored, is the entity
without its children. -/
theorem withID_fresh {S : Type} (c : Codec S) (env : TypeEnv S) (root : Bool) (e : Entity S)
    (T : TypeName) (hn : NodeOK c env root e T) (kopt : Option Key)
    (hcase : (kopt = none ∧ keyOf e = "") ∨
      ∃ k, kopt = some k ∧ c.Encode k = keyOf e ∧ keyOf e ≠ "") :
    withID c kopt (New env T).fields = some (e.fields.map strip) := by
  have hnew : (New env T).fields = e.fields.map fun f => zeroField (declOf f) := by
    simp only [New, Entity.fields, hn.typed, List.map_map]
    rfl
  have hnonprim : ∀ f ∈ e.fields, isPrimary f = false → zeroField (declOf f) = strip f :=
    fun f hf hp => blank_eq_strip f (hn.strings f hf hp)
  rw [hnew]
  rcases hcase with ⟨rfl, hkey⟩ | ⟨k, rfl, henc, hkey⟩
  · simp only [withID]
    congr 1
    apply List.map_congr_left
    intro f hf
    cases hp : isPrimary f with
    | false => exact hnonprim f hf hp
    | true =>
      apply blank_eq_strip
      intro s hs
      rw [← primary_value c env root e T hn f hf hp s hs, hkey]
  · simp only [withID, henc]
    obtain ⟨f0, hf0, hp0⟩ := primary_exists e hkey
    obtain ⟨hname0, s0, hs0, _, _⟩ := hn.primary f0 hf0 hp0
    have hk0 := primary_value c env root e T hn f0 hf0 hp0 s0 hs0
    apply setID_blank (keyOf e) e.fields ⟨f0, hf0, hname0⟩ _ hn.fieldNames
    intro f hf
    constructor
    · intro hid
      have : f = f0 :=
        List.inj_on_of_nodup_map hn.fieldNames hf hf0 (hid.trans hname0.symm)
      rw [this, hs0, hk0]
    · intro hid
      cases hp : isPrimary f with
      | false => exact hnonprim f hf hp
      | true => exact absurd (hn.primary f hf hp).1 hid

theorem saved_nonempty {S : Type} (c : Codec S) (env : TypeEnv S) (left : Nat) (root : Bool)
    (e : Entity S) (T : TypeName) (ns : String) (multiple : Bool) (out : PropertyList)
    (hn : NodeOK c env root e T) (hsave : saveEntityAux c (left + 1) e ns multiple = .ok out) :
    out ≠ [] := by
  obtain ⟨own, outs, hown, _, rfl⟩ := (saveEntityAux_ok_iff c left e ns multiple out).1 hsave
  obtain ⟨own1, hown1, hne, _⟩ := hn.scalars
  rw [hown] at hown1
  cases Except.ok.inj hown1
  cases own with
  | nil => exact absurd rfl hne
  | cons p own => simp

/-- What `saveEntity` writes for an entity without children lies at the entity's own
namespace and bears the entity's scalar names or, when the entity has a key, `id`. -/
theorem childless_saved {S : Type} (c : Codec S) (env : TypeEnv S) (left : Nat) (root : Bool)
    (e : Entity S) (T : TypeName) (ns : String) (multiple : Bool) (out : PropertyList)
    (hns : trimmed ns) (hn : NodeOK c env root e T) (hc : childless e)
    (hsave : saveEntityAux c (left + 1) e ns multiple = .ok out) :
    ∀ p ∈ out, currentNamespace p.Name = ns ∧
      (bareName p.Name ∈ attrNames c e ∨ (bareName p.Name = "id" ∧ keyOf e ≠ "")) := by
  obtain ⟨own, outs, hown, hall, rfl⟩ := (saveEntityAux_ok_iff c left e ns multiple out).1 hsave
  obtain ⟨own1, hown1, _, _, hnames, _⟩ := hn.scalars
  rw [hown] at hown1
  cases Except.ok.inj hown1
  have hattr : attrNames c e = own.map fun p => p.Name := by simp only [attrNames, hown]
  obtain ⟨q1, q2, _⟩ := qualified_facts ns multiple hns own hnames
  intro p hp
  rcases List.mem_append.1 hp with hp | hp
  · refine ⟨(q1 p hp).1, Or.inl ?_⟩
    rw [hattr, ← q2]
    exact List.mem_map_of_mem (fun p => bareName p.Name) hp
  · obtain ⟨o, ho, hpo⟩ := List.mem_flatten.1 hp
    obtain ⟨f, hf, hfo⟩ := forall₂_of_mem_right hall ho
    rcases saveField_cases c _ ns multiple f o hfo with ⟨_, rfl⟩ | ⟨_, _, rfl⟩ |
      ⟨seg, outs1, _, _, hch, rfl⟩
    · obtain ⟨h1, h2⟩ := keyProperty_atNs c ns hns multiple f p hpo
      refine ⟨h1, Or.inr ⟨h2, ?_⟩⟩
      intro hkey
      have := keyProperty_none c env root e T ns multiple hn (Or.inl hkey)
      have hmem : p ∈ e.fields.flatMap (keyProperty c ns multiple) :=
        List.mem_flatMap.2 ⟨f, hf, hpo⟩
      rw [this] at hmem
      simp at hmem
    · simp at hpo
    · rw [hc f hf] at hch
      cases hch
      simp at hpo

theorem under_self (ns : String) (p : Property) (h : currentNamespace p.Name = ns) :
    under ns p :=
  ⟨[], by simp, by rw [h]; rfl⟩

theorem idsAreKeys_append_right {l1 l2 : PropertyList} (h : idsAreKeys (l1 ++ l2)) :
    idsAreKeys l2 :=
  fun p hp => h p (List.mem_append_right _ hp)

theorem loadSlice_saved {S : Type} (c : Codec S) (env : TypeEnv S) (left : Nat)
    (ih : loadsBack c env left) (elem : TypeName) (ns : String) (fuel : Nat)
    (hns : trimmed ns) (hne : ns ≠ "") (names : List String) :
    ∀ (vs : List (Entity S)) (outs : List PropertyList) (acc : List (Entity S)) (budget : Nat)
      (R : PropertyList),
      List.Forall₂ (fun ch oc => saveEntityAux c left ch ns true = .ok oc) vs outs →
      (∀ v ∈ vs, roundTrippable c env left false v elem) →
      (∀ v ∈ vs, attrNames c v = names) →
      (∀ w ∈ vs.tail, childless w) →
      vs.Pairwise (fun a b => keyOf b ≠ "" → keyOf a ≠ "") →
      (∀ p ∈ R, ¬ under ns p) →
      idsAreKeys (outs.flatten ++ R) → (outs.flatten ++ R).length < fuel →
      (outs.flatten ++ R).length < budget →
      loadSlice (fun l => loadEntity c env fuel (New env elem) l ns) budget acc
        (outs.flatten ++ R) = (.ok (acc ++ vs), R) := by
  intro vs
  induction vs with
  | nil =>
    intro outs acc budget R hall _ _ _ _ hR _ hfuel hbudget
    cases hall
    simp only [List.flatten_nil, List.nil_append, List.append_nil] at hfuel hbudget ⊢
    obtain ⟨b, rfl⟩ : ∃ b, budget = b + 1 := ⟨budget - 1, by omega⟩
    obtain ⟨g, rfl⟩ : ∃ g, fuel = g + 1 := ⟨fuel - 1, by omega⟩
    have := load_absent c env g (New env elem) R ns
      (fun p hp hc => hR p hp (under_self ns p hc))
    simp only [loadSlice, this]
  | cons v vs ihvs =>
    intro outs acc budget R hall hrt hnames hchild hpair hR hk hfuel hbudget
    cases hall with
    | cons hv hrest =>
    rename_i oc outs
    obtain ⟨b, rfl⟩ : ∃ b, budget = b + 1 := ⟨budget - 1, by omega⟩
    have hrtv := hrt v (List.mem_cons_self _ _)
    obtain ⟨l, rfl⟩ : ∃ l, left = l + 1 := by
      cases left with
      | zero => exact absurd hrtv (by simp [roundTrippable])
      | succ l => exact ⟨l, rfl⟩
    rw [List.pairwise_cons] at hpair
    simp only [List.flatten_cons, List.append_assoc] at hk hfuel hbudget ⊢
    have hcond : ∀ p ∈ outs.flatten ++ R, under ns p → currentNamespace p.Name = ns ∧
        (bareName p.Name ∈ attrNames c v ∨ (bareName p.Name = "id" ∧ keyOf v ≠ "")) := by
      intro p hp hu
      rcases List.mem_append.1 hp with hp | hp
      · obtain ⟨ow, how, hpw⟩ := List.mem_flatten.1 hp
        obtain ⟨w, hw, hsw⟩ := forall₂_of_mem_right hrest how
        have hrw := hrt w (List.mem_cons_of_mem _ hw)
        obtain ⟨h1, h2⟩ := childless_saved c env l false w elem ns true ow hns hrw.1
          (hchild w hw) hsw p hpw
        refine ⟨h1, ?_⟩
        rcases h2 with h2 | ⟨h2, h3⟩
        · left
          rw [hnames v (List.mem_cons_self _ _), ← hnames w (List.mem_cons_of_mem _ hw)]
          exact h2
        · exact Or.inr ⟨h2, hpair.1 w hw h3⟩
      · exact absurd hu (hR p hp)
    have hload := ih false v elem ns true oc (outs.flatten ++ R) fuel hns
      (fun h => absurd h hne) hrtv hv hcond hk hfuel
    have hoc := saved_nonempty c env l false v elem ns true oc hrtv.1 hv
    have hlen : 0 < oc.length := List.length_pos.2 hoc
    simp only [List.length_append] at hfuel hbudget
    simp only [loadSlice, hload]
    have := ihvs outs (acc ++ [v]) b R hrest
      (fun w hw => hrt w (List.mem_cons_of_mem _ hw))
      (fun w hw => hnames w (List.mem_cons_of_mem _ hw))
      (fun w hw => hchild w (List.mem_of_mem_tail hw))
      hpair.2 hR (idsAreKeys_append_right hk)
      (by simp only [List.length_append]; omega) (by simp only [List.length_append]; omega)
    rw [this]
    simp

theorem tagArg_exclusive {E : Type} (f : Field E) (h : tagArg annotationPrimary f ≠ none) :
    tagArg annotationRelation f = none := by
  unfold tagArg at h ⊢
  by_cases ht : f.Tag = ""
  · simp [ht]
  · simp only [ht, if_false] at h ⊢
    cases hs : Split f.Tag ',' with
    | nil => rfl
    | cons a l =>
      cases l with
      | nil => rfl
      | cons b l =>
        simp only [hs] at h ⊢
        by_cases ha : a = annotationPrimary
        · subst ha
          simp [annotationPrimary, annotationRelation]
        · simp [ha] at h

/-- What a field contributed below the entity's namespace: nothing for a field that is not
a non-empty relation, the children's attributes otherwise. -/
theorem saveField_below {S : Type} (c : Codec S) (left : Nat) (ns : String) (multiple : Bool)
    (hns : trimmed ns) (f : Field (Entity S)) (o : PropertyList)
    (hw : ∀ ch ∈ f.Value.children, wellNamed c left ch = true)
    (hseg : ∀ seg, tagArg annotationRelation f = some seg → isSegment seg)
    (hsave : saveField c (saveEntityAux c left) ns multiple f [] = .ok o) :
    (tagArg annotationRelation f = none ∧
      o.filter (fun p => !decide (currentNamespace p.Name = ns)) = []) ∨
    ∃ seg outs, tagArg annotationRelation f = some seg ∧
      List.Forall₂ (fun ch oc => saveEntityAux c left ch (qualify ns seg)
        (childMultiple multiple f.Value) = .ok oc) f.Value.children outs ∧
      o.filter (fun p => !decide (currentNamespace p.Name = ns)) = outs.flatten ∧
      ∀ p ∈ outs.flatten, under (qualify ns seg) p := by
  rcases saveField_cases c _ ns multiple f o hsave with ⟨hp, rfl⟩ | ⟨_, hr, rfl⟩ |
    ⟨seg, outs, _, hr, hch, rfl⟩
  · left
    refine ⟨tagArg_exclusive f hp, ?_⟩
    apply filter_eq_nil_of_none
    intro p hp
    simp [(keyProperty_atNs c ns hns multiple f p hp).1]
  · exact Or.inl ⟨hr, rfl⟩
  · right
    have hu : ∀ p ∈ outs.flatten, under (qualify ns seg) p := by
      intro p hp
      obtain ⟨oc, hoc, hpoc⟩ := List.mem_flatten.1 hp
      obtain ⟨ch, hc, hsc⟩ := forall₂_of_mem_right hch hoc
      exact save_under c left ch (qualify ns seg) _ oc (trimmed_qualify ns seg) (hw ch hc) hsc
        p hpoc
    refine ⟨seg, outs, hr, hch, ?_, hu⟩
    apply filter_eq_self_of_all
    intro p hp
    have := hu p hp
    simp only [Bool.not_eq_true', decide_eq_false_iff_not]
    intro hat
    exact not_under_child_of_at ns seg p hns (hseg seg hr) hat this

theorem loadField_saved {S : Type} (c : Codec S) (env : TypeEnv S) (left : Nat)
    (ih : loadsBack c env left) (root : Bool) (e : Entity S) (T : TypeName)
    (hn : NodeOK c env root e T)
    (hch : ∀ f ∈ e.fields, ∀ ch ∈ f.Value.children,
      roundTrippable c env left false ch (elemOf f.Value))
    (ns : String) (multiple : Bool) (fuel : Nat) (hns : trimmed ns)
    (f : Field (Entity S)) (hf : f ∈ e.fields) (o R : PropertyList)
    (hsave : saveField c (saveEntityAux c left) ns multiple f [] = .ok o)
    (hR : ∀ seg, tagArg annotationRelation f = some seg → ∀ p ∈ R, ¬ under (qualify ns seg) p)
    (hk : idsAreKeys (o.filter (fun p => !decide (currentNamespace p.Name = ns)) ++ R))
    (hfuel : (o.filter (fun p => !decide (currentNamespace p.Name = ns)) ++ R).length < fuel) :
    loadField env (loadEntity c env fuel) ns (strip f)
      (o.filter (fun p => !decide (currentNamespace p.Name = ns)) ++ R) = (.ok f, R) := by
  have hw : ∀ ch ∈ f.Value.children, wellNamed c left ch = true :=
    fun ch hc => wellNamed_of_roundTrippable c env left false ch _ (hch f hf ch hc)
  have htag : tagOK (strip f) = true := hn.tags f hf
  have hrel : tagArg annotationRelation (strip f) = tagArg annotationRelation f :=
    tagArg_congr _ f (strip f) rfl
  rw [loadField_eq, htag, hrel]
  simp only [Bool.true_eq_false, if_false]
  rcases saveField_below c left ns multiple hns f o hw (hn.segments f hf) hsave with
    ⟨hr, ho⟩ | ⟨seg, outs, hr, hall, ho, hu⟩
  · rw [hr, ho, strip_of_childless f (hn.unsaved f hf hr)]
    rfl
  · have hseg := hn.segments f hf seg hr
    have hR1 := hR seg hr
    rw [ho] at hk hfuel
    rw [hr, ho]
    have hq := trimmed_qualify ns seg
    have hqne := qualify_ne_empty ns seg hns hseg
    simp only
    obtain ⟨n, t, v⟩ := f
    cases v with
    | String s =>
      cases hall
      rfl
    | Other =>
      cases hall
      rfl
    | Ptr elem v =>
      cases v with
      | none =>
        cases hall
        simp only [List.flatten_nil, List.nil_append] at hfuel ⊢
        obtain ⟨g, rfl⟩ : ∃ g, fuel = g + 1 := ⟨fuel - 1, by omega⟩
        have := load_absent c env g (New env elem) R (qualify ns seg)
          (fun p hp hc => hR1 p hp (under_self _ p hc))
        simp only [loadRelation, strip, this]
      | some ch =>
        simp only [FieldValue.children] at hall
        cases hall with
        | cons hv hrest =>
        cases hrest
        simp only [List.flatten_cons, List.flatten_nil, List.append_nil] at hk hfuel ⊢
        have hrt := hch _ hf ch (by simp [FieldValue.children])
        have := ih false ch elem (qualify ns seg) _ _ R fuel hq (fun h => absurd h hqne) hrt hv
          (fun p hp hu => absurd hu (hR1 p hp)) hk hfuel
        simp only [loadRelation, strip, this]
    | Slice elem vs =>
      simp only [FieldValue.children, childMultiple] at hall
      have hrt : ∀ v ∈ vs, roundTrippable c env left false v elem :=
        fun v hv => hch _ hf v (by simpa [FieldValue.children] using hv)
      have hsl : ∃ names, (∀ v ∈ vs, attrNames c v = names) ∧ (∀ w ∈ vs.tail, childless w) ∧
          vs.Pairwise (fun a b => keyOf b ≠ "" → keyOf a ≠ "") := by
        cases vs with
        | nil => exact ⟨[], by simp, by simp, List.Pairwise.nil⟩
        | cons v vs =>
          obtain ⟨h1, h2⟩ := hn.siblings _ hf elem v vs rfl
          refine ⟨attrNames c v, ?_, fun w hw => (h1 w hw).1, h2⟩
          intro w hw
          rcases List.mem_cons.1 hw with rfl | hw
          · rfl
          · exact (h1 w hw).2
      obtain ⟨names, h1, h2, h3⟩ := hsl
      have := loadSlice_saved c env left ih elem (qualify ns seg) fuel hq hqne names vs outs []
        ((outs.flatten ++ R).length + 1) R hall hrt h1 h2 h3 hR1 hk hfuel
        (Nat.lt_succ_self _)
      simp only [loadRelation, strip, this, List.nil_append]

theorem loadFields_saved {S : Type} (c : Codec S) (env : TypeEnv S) (left : Nat)
    (ih : loadsBack c env left) (root : Bool) (e : Entity S) (T : TypeName)
    (hn : NodeOK c env root e T)
    (hch : ∀ f ∈ e.fields, ∀ ch ∈ f.Value.children,
      roundTrippable c env left false ch (elemOf f.Value))
    (ns : String) (multiple : Bool) (fuel : Nat) (hns : trimmed ns) :
    ∀ (fs : List (Field (Entity S))) (outs : List PropertyList) (R : PropertyList),
      (∀ f ∈ fs, f ∈ e.fields) → (fs.filterMap (tagArg annotationRelation)).Nodup →
      List.Forall₂ (fun f o => saveField c (saveEntityAux c left) ns multiple f [] = .ok o)
        fs outs →
      (∀ f ∈ fs, ∀ seg, tagArg annotationRelation f = some seg →
        ∀ p ∈ R, ¬ under (qualify ns seg) p) →
      idsAreKeys (outs.flatten.filter (fun p => !decide (currentNamespace p.Name = ns)) ++ R) →
      (outs.flatten.filter (fun p => !decide (currentNamespace p.Name = ns)) ++ R).length
        < fuel →
      loadFields env (loadEntity c env fuel) ns (fs.map strip)
        (outs.flatten.filter (fun p => !decide (currentNamespace p.Name = ns)) ++ R) =
        (.ok fs, R) := by
  intro fs
  induction fs with
  | nil =>
    intro outs R _ _ hall _ _ _
    cases hall
    rfl
  | cons f fs ihfs =>
    intro outs R hmem hnd hall hR hk hfuel
    cases hall with
    | cons hf hrest =>
    rename_i o outs
    simp only [List.flatten_cons, List.filter_append, List.append_assoc] at hk hfuel ⊢
    have hfe := hmem f (List.mem_cons_self _ _)
    have hw : ∀ g ∈ fs, ∀ ch ∈ g.Value.children, wellNamed c left ch = true :=
      fun g hg ch hc => wellNamed_of_roundTrippable c env left false ch _
        (hch g (hmem g (List.mem_cons_of_mem _ hg)) ch hc)
    -- nothing that follows lies in the subtree of this field's relation
    have hR1 : ∀ seg, tagArg annotationRelation f = some seg →
        ∀ p ∈ outs.flatten.filter (fun p => !decide (currentNamespace p.Name = ns)) ++ R,
          ¬ under (qualify ns seg) p := by
      intro seg hseg p hp
      rcases List.mem_append.1 hp with hp | hp
      · obtain ⟨hp1, hp2⟩ := List.mem_filter.1 hp
        obtain ⟨og, hog, hpg⟩ := List.mem_flatten.1 hp1
        obtain ⟨g, hg, hsg⟩ := forall₂_of_mem_right hrest hog
        have hge := hmem g (List.mem_cons_of_mem _ hg)
        have hpf : p ∈ og.filter (fun p => !decide (currentNamespace p.Name = ns)) :=
          List.mem_filter.2 ⟨hpg, hp2⟩
        rcases saveField_below c left ns multiple hns g og (hw g hg) (hn.segments g hge) hsg
          with ⟨_, ho⟩ | ⟨sg, outs1, hrg, _, ho, hu⟩
        · rw [ho] at hpf; simp at hpf
        · rw [ho] at hpf
          intro hus
          have heq := under_disjoint ns seg sg p hns (hn.segments f hfe seg hseg)
            (hn.segments g hge sg hrg) hus (hu p hpf)
          rw [List.filterMap_cons, hseg, List.nodup_cons] at hnd
          apply hnd.1
          rw [heq]
          exact List.mem_filterMap.2 ⟨g, hg, hrg⟩
      · exact hR f (List.mem_cons_self _ _) seg hseg p hp
    have h1 := loadField_saved c env left ih root e T hn hch ns multiple fuel hns f hfe o _
      hf hR1 hk hfuel
    have hnd2 : (fs.filterMap (tagArg annotationRelation)).Nodup := by
      rw [List.filterMap_cons] at hnd
      cases h : tagArg annotationRelation f with
      | none => rw [h] at hnd; exact hnd
      | some seg => rw [h] at hnd; exact (List.nodup_cons.1 hnd).2
    have h2 := ihfs outs R (fun g hg => hmem g (List.mem_cons_of_mem _ hg)) hnd2 hrest
      (fun g hg => hR g (List.mem_cons_of_mem _ hg)) (idsAreKeys_append_right hk)
      (by simp only [List.length_append] at hfuel ⊢; omega)
    rw [List.map_cons]
    exact (loadFields_cons_ok env _ ns (strip f) (fs.map strip) (f :: fs) _ R).2
      ⟨f, fs, _, h1, h2, rfl⟩

theorem loadsBack_all {S : Type} (c : Codec S) (env : TypeEnv S) :
    ∀ left : Nat, loadsBack c env left := by
  intro left
  induction left with
  | zero =>
    intro root e T ns multiple out R fuel _ _ h
    exact absurd h (by simp [roundTrippable])
  | succ left ih =>
    intro root e T ns multiple out R fuel hns hroot hrt hsave hcond hk hfuel
    obtain ⟨hn, hch⟩ := hrt
    have hw := wellNamed_of_roundTrippable c env (left + 1) root e T ⟨hn, hch⟩
    obtain ⟨own, kopt, hown, hcase, hex⟩ := extract_saved c env left root e T ns multiple out R
      hns hroot hn hw hsave (fun p hp hc => (hcond p hp (under_self ns p hc)).2) hk
    obtain ⟨own1, outs, hown1, hall, hout⟩ :=
      (saveEntityAux_ok_iff c left e ns multiple out).1 hsave
    obtain ⟨own2, hown2, hne, _, hnames, hload⟩ := hn.scalars
    rw [hown] at hown1 hown2
    cases Except.ok.inj hown1
    cases Except.ok.inj hown2
    obtain ⟨q1, _, _⟩ := qualified_facts ns multiple hns own hnames
    -- the part of the output below the namespace
    have hbelow : out.filter (fun p => !decide (currentNamespace p.Name = ns)) =
        outs.flatten.filter (fun p => !decide (currentNamespace p.Name = ns)) := by
      rw [hout, List.filter_append]
      change (qualified ns multiple own).filter _ ++ _ = _
      rw [filter_eq_nil_of_none _ _ (fun q hq => by simp [(q1 q hq).1]), List.nil_append]
    have hlen : (out.filter (fun p => !decide (currentNamespace p.Name = ns))).length
        < out.length := by
      rw [hout, List.filter_append]
      change ((qualified ns multiple own).filter _ ++ _).length < (qualified ns multiple own ++ _).length
      rw [filter_eq_nil_of_none _ _ (fun q hq => by simp [(q1 q hq).1]), List.nil_append,
        List.length_append]
      have h1 : 0 < (qualified ns multiple own).length := by
        simp only [qualified, List.length_map]
        exact List.length_pos.2 hne
      have h2 := List.length_filter_le (fun p => !decide (currentNamespace p.Name = ns))
        outs.flatten
      omega
    obtain ⟨g, rfl⟩ : ∃ g, fuel = g + 1 := ⟨fuel - 1, by omega⟩
    have hkr : idsAreKeys (out.filter (fun p => !decide (currentNamespace p.Name = ns)) ++ R) := by
      intro p hp
      apply hk p
      rcases List.mem_append.1 hp with hp | hp
      · exact List.mem_append_left _ (List.mem_filter.1 hp).1
      · exact List.mem_append_right _ hp
    have hfields := loadFields_saved c env left ih root e T hn hch ns multiple g hns e.fields
      outs R (fun f hf => hf) hn.distinct hall
      (fun f hf seg hseg p hp hu => by
        have hs := hn.segments f hf seg hseg
        have hat := (hcond p hp (under_child ns seg p hs hu)).1
        exact not_under_child_of_at ns seg p hns hs hat hu)
      (by rw [← hbelow]; exact hkr)
      (by rw [← hbelow]; simp only [List.length_append] at hfuel ⊢; omega)
    rw [← hbelow] at hfields
    apply (loadEntity_ok_iff c env g (New env T) e
      (out ++ R) R ns).2
    refine ⟨_, e.scalars, e.fields.map strip, e.fields, hex, ?_, ?_,
      withID_fresh c env root e T hn kopt hcase, hfields, ?_⟩
    · simp only [ne_eq, List.map_eq_nil_iff]
      exact hne
    · simp only [List.map_map]
      exact hload
    · cases e
      rfl

theorem forall₂_of_forall_exists {α β : Type} {R : α → β → Prop} :
    ∀ l : List α, (∀ a ∈ l, ∃ b, R a b) → ∃ l2, List.Forall₂ R l l2 := by
  intro l
  induction l with
  | nil => intro _; exact ⟨[], List.Forall₂.nil⟩
  | cons a l ih =>
    intro h
    obtain ⟨b, hb⟩ := h a (List.mem_cons_self _ _)
    obtain ⟨l2, hl⟩ := ih (fun x hx => h x (List.mem_cons_of_mem _ hx))
    exact ⟨b :: l2, List.Forall₂.cons hb hl⟩

/-- Saving succeeds on every graph that satisfies the round-trip conditions. -/
theorem save_total {S : Type} (c : Codec S) (env : TypeEnv S) :
    ∀ (left : Nat) (root : Bool) (e : Entity S) (T : TypeName) (ns : String) (multiple : Bool),
      roundTrippable c env left root e T → ∃ out, saveEntityAux c left e ns multiple = .ok out := by
  intro left
  induction left with
  | zero => intro root e T ns multiple h; exact absurd h (by simp [roundTrippable])
  | succ left ih =>
    intro root e T ns multiple h
    obtain ⟨hn, hch⟩ := h
    obtain ⟨own, hown, _⟩ := hn.scalars
    have hfield : ∀ f ∈ e.fields, ∃ o,
        saveField c (saveEntityAux c left) ns multiple f [] = .ok o := by
      intro f hf
      rw [saveField_eq, hn.tags f hf]
      simp only [Bool.true_eq_false, if_false]
      cases hp : tagArg annotationPrimary f with
      | some a =>
        have hprim : isPrimary f = true := by simp [isPrimary, hp]
        obtain ⟨_, s, hs, _, hdec⟩ := hn.primary f hf hprim
        simp only [savePrimary, hs]
        by_cases hcond : s ≠ "" ∧ ns ≠ ""
        · obtain ⟨k, hk, _⟩ := hdec hcond.1
          rw [if_pos hcond, hk]
          exact ⟨_, rfl⟩
        · rw [if_neg hcond]
          exact ⟨_, rfl⟩
      | none =>
        cases hr : tagArg annotationRelation f with
        | none => exact ⟨_, rfl⟩
        | some seg =>
          simp only [saveRelation]
          have hc := hch f hf
          obtain ⟨n, t, v⟩ := f
          cases v with
          | String s => exact ⟨_, rfl⟩
          | Other => exact ⟨_, rfl⟩
          | Ptr elem v =>
            cases v with
            | none => exact ⟨_, rfl⟩
            | some ch =>
              obtain ⟨oc, hoc⟩ := ih false ch elem (qualify ns seg) multiple
                (hc ch (by simp [FieldValue.children]))
              simp only [hoc]
              exact ⟨_, rfl⟩
          | Slice elem vs =>
            have hx : ∀ v ∈ vs, ∃ o, saveEntityAux c left v (qualify ns seg) true = .ok o :=
              fun v hv => ih false v elem (qualify ns seg) true
                (hc v (by simpa [FieldValue.children] using hv))
            obtain ⟨outs, houts⟩ := forall₂_of_forall_exists vs hx
            exact ⟨outs.flatten, (saveSlice_ok_iff _ vs _).2 ⟨outs, houts, rfl⟩⟩
    obtain ⟨outs, houts⟩ := forall₂_of_forall_exists e.fields hfield
    exact ⟨_, (saveEntityAux_ok_iff c left e ns multiple _).2 ⟨own, outs, hown, houts, rfl⟩⟩

theorem trimmed_empty : trimmed "" := by
  simp [trimmed]

/-- C1 (amended). Round trip: for every entity graph within the depth cap (at most three
levels) in which every entity satisfies `NodeOK` for its struct type (the root has the
empty key string, every entity saves at least one scalar attribute, names are distinct,
non-empty and dot-free, the key codec and the scalar codec invert each other on the graph,
fields that are not saved are zero, and in a repeated relation only the first element has
children and keyed elements come before those without key), `SaveEntity` succeeds and
`LoadEntity` of the list it produced into a fresh entity of the same type succeeds with a
graph equal to the original: the same key strings, the same scalars, the same relation
collections. -/
theorem round_trip {S : Type} (c : Codec S) (env : TypeEnv S) (e : Entity S) (T : TypeName)
    (h : roundTrippable c env 3 true e T) :
    ∃ out, SaveEntity c e = .ok out ∧ LoadEntity c env (New env T) out = .ok e := by
  obtain ⟨out, hout⟩ := save_total c env 3 true e T "" false h
  refine ⟨out, hout, ?_⟩
  have hw := wellNamed_of_roundTrippable c env 3 true e T h
  have hk : idsAreKeys (out ++ []) := by
    rw [List.append_nil]
    exact save_idsAreKeys c 3 e "" false out trimmed_empty hw hout
  have := loadsBack_all c env 3 true e T "" false out [] (out.length + 1) trimmed_empty
    (fun _ => rfl) h hout (by simp) hk (by simp)
  rw [List.append_nil] at this
  simp only [LoadEntity, this]

/-- C1, counterexample. A root with a key: `SaveEntity` writes no key for the root, so the
loaded root has the empty key string. -/
theorem round_trip_counterexample :
    SaveEntity stringCodec (keyedRecord "k1" "hello") =
      .ok [{ Name := "text", Value := .scalar "hello", NoIndex := true, Multiple := false }] ∧
    LoadEntity stringCodec blogEnv (New blogEnv "Reply")
      [{ Name := "text", Value := .scalar "hello", NoIndex := true, Multiple := false }] =
      .ok (keyedRecord "" "hello") ∧
    keyedRecord "" "hello" ≠ keyedRecord "k1" "hello" := by
  refine ⟨rfl, rfl, ?_⟩
  intro h
  simp only [keyedRecord, Entity.mk.injEq, List.cons.injEq, Field.mk.injEq,
    FieldValue.String.injEq] at h
  exact absurd h.2.1.2.2 (by decide)

theorem nodeOK_reply : NodeOK stringCodec blogEnv false (keyedRecord "r1" "reply") "Reply" where
  typed := rfl
  fieldNames := by decide
  tags := by decide
  onePrimary := by decide
  primary := by
    intro f hf _
    simp only [keyedRecord, Entity.fields, List.mem_singleton] at hf
    subst hf
    exact ⟨rfl, "r1", rfl, fun h => absurd h (by decide), fun _ => ⟨⟨"r1"⟩, rfl, rfl⟩⟩
  strings := by
    intro f hf hp
    simp only [keyedRecord, Entity.fields, List.mem_singleton] at hf
    subst hf
    exact absurd hp (by decide)
  unsaved := by
    intro f hf _
    simp only [keyedRecord, Entity.fields, List.mem_singleton] at hf
    subst hf
    rfl
  segments := by
    intro f hf seg hseg
    simp only [keyedRecord, Entity.fields, List.mem_singleton] at hf
    subst hf
    cases hseg.symm.trans (rfl : _ = none)
  distinct := by decide
  scalars := by
    refine ⟨[{ Name := "text", Value := .scalar "reply", NoIndex := true, Multiple := false }],
      rfl, by simp, by decide, ?_, rfl⟩
    intro p hp
    simp only [List.mem_singleton] at hp
    subst hp
    exact ⟨by decide, by decide⟩
  siblings := by
    intro f hf elem v vs hv
    simp only [keyedRecord, Entity.fields, List.mem_singleton] at hf
    subst hf
    simp at hv

theorem nodeOK_comment (id text : String) (replies : List (Entity StringFields))
    (hid : id ≠ "" → stringCodec.DecodeKey id = .ok ⟨id⟩)
    (hrep : ∀ v vs, replies = v :: vs →
      (∀ w ∈ vs, childless w ∧ attrNames stringCodec w = attrNames stringCodec v) ∧
      (v :: vs).Pairwise fun a b => keyOf b ≠ "" → keyOf a ≠ "") :
    NodeOK stringCodec blogEnv false (blogComment id text replies) "Comment" where
  typed := rfl
  fieldNames := (by decide : (["ID", "Replies"] : List String).Nodup)
  tags := by
    intro f hf
    simp only [blogComment, Entity.fields, List.mem_cons, List.mem_singleton,
      List.not_mem_nil, or_false] at hf
    rcases hf with rfl | rfl <;> rfl
  onePrimary := by
    simp only [blogComment, Entity.fields]
    exact Nat.le_of_eq rfl
  primary := by
    intro f hf hp
    simp only [blogComment, Entity.fields, List.mem_cons, List.mem_singleton,
      List.not_mem_nil, or_false] at hf
    rcases hf with rfl | rfl
    · exact ⟨rfl, id, rfl, fun h => absurd h (by decide), fun h => ⟨⟨id⟩, hid h, rfl⟩⟩
    · cases hp.symm.trans (rfl : _ = false)
  strings := by
    intro f hf hp s hs
    simp only [blogComment, Entity.fields, List.mem_cons, List.mem_singleton,
      List.not_mem_nil, or_false] at hf
    rcases hf with rfl | rfl
    · cases hp.symm.trans (rfl : _ = true)
    · cases hs
  unsaved := by
    intro f hf hr
    simp only [blogComment, Entity.fields, List.mem_cons, List.mem_singleton,
      List.not_mem_nil, or_false] at hf
    rcases hf with rfl | rfl
    · rfl
    · cases hr.symm.trans (rfl : _ = some "replies")
  segments := by
    intro f hf seg hseg
    simp only [blogComment, Entity.fields, List.mem_cons, List.mem_singleton,
      List.not_mem_nil, or_false] at hf
    rcases hf with rfl | rfl
    · cases hseg.symm.trans (rfl : _ = none)
    · cases hseg.symm.trans (rfl : _ = some "replies")
      decide
  distinct := by
    simp only [blogComment, Entity.fields]
    exact (by decide : (["replies"] : List String).Nodup)
  scalars := by
    refine ⟨[{ Name := "text", Value := .scalar text, NoIndex := true, Multiple := false }],
      rfl, by simp, (by decide : (["text"] : List String).Nodup), ?_, rfl⟩
    intro p hp
    simp only [List.mem_singleton] at hp
    subst hp
    exact ⟨(by decide : isSegment "text"), (by decide : "text" ≠ "id")⟩
  siblings := by
    intro f hf elem v vs hv
    simp only [blogComment, Entity.fields, List.mem_cons, List.mem_singleton,
      List.not_mem_nil, or_false] at hf
    rcases hf with rfl | rfl
    · cases hv
    · simp only [FieldValue.Slice.injEq] at hv
      exact hrep v vs hv.2

theorem nodeOK_post : NodeOK stringCodec blogEnv true blogPost "Post" where
  typed := rfl
  fieldNames := by decide
  tags := by
    intro f hf
    simp only [blogPost, Entity.fields, List.mem_cons, List.mem_singleton,
      List.not_mem_nil, or_false] at hf
    rcases hf with rfl | rfl <;> rfl
  onePrimary := Nat.le_of_eq rfl
  primary := by
    intro f hf hp
    simp only [blogPost, Entity.fields, List.mem_cons, List.mem_singleton,
      List.not_mem_nil, or_false] at hf
    rcases hf with rfl | rfl
    · exact ⟨rfl, "", rfl, fun _ => rfl, fun h => absurd rfl h⟩
    · cases hp.symm.trans (rfl : _ = false)
  strings := by
    intro f hf hp s hs
    simp only [blogPost, Entity.fields, List.mem_cons, List.mem_singleton,
      List.not_mem_nil, or_false] at hf
    rcases hf with rfl | rfl
    · cases hp.symm.trans (rfl : _ = true)
    · cases hs
  unsaved := by
    intro f hf hr
    simp only [blogPost, Entity.fields, List.mem_cons, List.mem_singleton,
      List.not_mem_nil, or_false] at hf
    rcases hf with rfl | rfl
    · rfl
    · cases hr.symm.trans (rfl : _ = some "comments")
  segments := by
    intro f hf seg hseg
    simp only [blogPost, Entity.fields, List.mem_cons, List.mem_singleton,
      List.not_mem_nil, or_false] at hf
    rcases hf with rfl | rfl
    · cases hseg.symm.trans (rfl : _ = none)
    · cases hseg.symm.trans (rfl : _ = some "comments")
      decide
  distinct := (by decide : (["comments"] : List String).Nodup)
  scalars := by
    refine ⟨[{ Name := "text", Value := .scalar "hello", NoIndex := true, Multiple := false }],
      rfl, by simp, by decide, ?_, rfl⟩
    intro p hp
    simp only [List.mem_singleton] at hp
    subst hp
    exact ⟨by decide, by decide⟩
  siblings := by
    intro f hf elem v vs hv
    simp only [blogPost, Entity.fields, List.mem_cons, List.mem_singleton,
      List.not_mem_nil, or_false] at hf
    rcases hf with rfl | rfl
    · cases hv
    · simp only [FieldValue.Slice.injEq, List.cons.injEq] at hv
      obtain ⟨_, rfl, rfl⟩ := hv
      constructor
      · intro w hw
        simp only [List.mem_singleton] at hw
        subst hw
        refine ⟨?_, rfl⟩
        intro f hf
        simp only [blogComment, Entity.fields, List.mem_cons, List.mem_singleton,
          List.not_mem_nil, or_false] at hf
        rcases hf with rfl | rfl <;> rfl
      · simp only [List.pairwise_cons, List.mem_singleton, forall_eq, List.not_mem_nil,
          false_implies, implies_true, List.Pairwise.nil, and_true]
        intro _
        exact (by decide : ("k1" : String) ≠ "")

/-- The example graph satisfies the round-trip conditions. -/
theorem blogPost_roundTrippable : roundTrippable stringCodec blogEnv 3 true blogPost "Post" := by
  refine ⟨nodeOK_post, ?_⟩
  intro f hf ch hch
  simp only [blogPost, Entity.fields, List.mem_cons, List.mem_singleton,
    List.not_mem_nil, or_false] at hf
  rcases hf with rfl | rfl
  · simp [FieldValue.children] at hch
  · simp only [FieldValue.children, List.mem_cons, List.mem_singleton, List.not_mem_nil,
      or_false] at hch
    rcases hch with rfl | rfl
    · refine ⟨nodeOK_comment "k1" "first" _ (fun _ => rfl) ?_, ?_⟩
      · intro v vs hv
        simp only [List.cons.injEq] at hv
        obtain ⟨rfl, rfl⟩ := hv
        exact ⟨by simp, by simp⟩
      · intro f hf ch hch
        simp only [blogComment, Entity.fields, List.mem_cons, List.mem_singleton,
          List.not_mem_nil, or_false] at hf
        rcases hf with rfl | rfl
        · simp [FieldValue.children] at hch
        · simp only [FieldValue.children, List.mem_singleton] at hch
          subst hch
          refine ⟨nodeOK_reply, ?_⟩
          intro f hf ch hch
          simp only [keyedRecord, Entity.fields, List.mem_singleton] at hf
          subst hf
          simp [FieldValue.children] at hch
    · refine ⟨nodeOK_comment "" "second" [] (fun h => absurd rfl h) ?_, ?_⟩
      · intro v vs hv
        cases hv
      · intro f hf ch hch
        simp only [blogComment, Entity.fields, List.mem_cons, List.mem_singleton,
          List.not_mem_nil, or_false] at hf
        rcases hf with rfl | rfl <;> simp [FieldValue.children] at hch

/-- C1, an instance: the post with a keyed comment that has a reply and a second comment
without key goes through `SaveEntity` and `LoadEntity` unchanged. -/
theorem round_trip_witness :
    roundTrippable stringCodec blogEnv 3 true blogPost "Post" ∧
    ∃ out, SaveEntity stringCodec blogPost = .ok out ∧
      LoadEntity stringCodec blogEnv (New blogEnv "Post") out = .ok blogPost :=
  ⟨blogPost_roundTrippable, round_trip stringCodec blogEnv blogPost "Post" blogPost_roundTrippable⟩

/-- Why only the first element of a repeated relation may have children: the replies of
the second comment are loaded into the first, whose loop over `comments.replies` runs
before the second comment is read. -/
theorem first_element_takes_all :
    SaveEntity stringCodec
      (.mk [("text", "hello")]
        [{ Name := "ID", Tag := "primary,id", Value := .String "" },
         { Name := "Comments", Tag := "relation,comments",
           Value := .Slice "Comment"
             [blogComment "" "first" [], blogComment "" "second" [keyedRecord "" "reply"]] }]) =
      .ok [{ Name := "text", Value := .scalar "hello", NoIndex := true, Multiple := false },
           { Name := "comments.text", Value := .scalar "first", NoIndex := true, Multiple := true },
           { Name := "comments.text", Value := .scalar "second", NoIndex := true, Multiple := true },
           { Name := "comments.replies.text", Value := .scalar "reply", NoIndex := true,
             Multiple := true }] ∧
    LoadEntity stringCodec blogEnv (New blogEnv "Post")
      [{ Name := "text", Value := .scalar "hello", NoIndex := true, Multiple := false },
       { Name := "comments.text", Value := .scalar "first", NoIndex := true, Multiple := true },
       { Name := "comments.text", Value := .scalar "second", NoIndex := true, Multiple := true },
       { Name := "comments.replies.text", Value := .scalar "reply", NoIndex := true,
         Multiple := true }] =
      .ok (.mk [("text", "hello")]
        [{ Name := "ID", Tag := "primary,id", Value := .String "" },
         { Name := "Comments", Tag := "relation,comments",
           Value := .Slice "Comment"
             [blogComment "" "first" [keyedRecord "" "reply"], blogComment "" "second" []] }]) :=
  ⟨rfl, rfl⟩

/-! ## Addressing -/

/-- C15. Addressing round trip: for a namespace `ns` without leading or trailing dot (the
root namespace included) and a non-empty dot-free bare name `b`, the name that the
flattener builds, `Trim (ns ++ "." ++ b) '.'`, is split by the extractor at its last dot
into `ns` and `b`; an extraction at `ns1` takes an attribute so named out of the list if
and only if `ns1 = ns`, and then returns it under the name `b` (or captures it as the key
when `b` is `id`); and the save loop and the load loop hand the same child namespace
`Trim (ns ++ "." ++ seg) '.'` to their recursive calls, for single and repeated
relations. -/
theorem addressing_round_trip (ns b : String) (hns : trimmed ns) (hb : isSegment b) :
    qualify ns b = Trim (ns ++ "." ++ b) '.' ∧
    currentNamespace (qualify ns b) = ns ∧ bareName (qualify ns b) = b ∧
    (∀ (ns1 : String) (p : Property) (ex : Extracted), p.Name = qualify ns b →
      extractEntityProperties ns1 [p] = .ok ex →
      (ex.rest = [] ↔ ns1 = ns) ∧ (ns1 ≠ ns → ex.rest = [p] ∧ ex.properties = []) ∧
      (ns1 = ns → ex.properties = if b = "id" then [] else [{ p with Name := b }])) ∧
    (∀ {S : Type} (env : TypeEnv S) (seg name tag : String) (elem : TypeName)
      (ch : Entity S) (multiple : Bool) (ps : PropertyList),
      saveRelation (fun _ ns1 _ => .ok [⟨ns1, .scalar "", false, false⟩]) ns multiple seg
          { Name := name, Tag := tag, Value := .Ptr elem (some ch) } [] =
        .ok [⟨Trim (ns ++ "." ++ seg) '.', .scalar "", false, false⟩] ∧
      saveRelation (fun _ ns1 _ => .ok [⟨ns1, .scalar "", false, false⟩]) ns multiple seg
          { Name := name, Tag := tag, Value := .Slice elem [ch] } [] =
        .ok [⟨Trim (ns ++ "." ++ seg) '.', .scalar "", false, false⟩] ∧
      loadRelation env (fun _ l ns1 => (.error (.datastore ns1), l)) ns seg
          { Name := name, Tag := tag, Value := .Ptr elem none } ps =
        (.error (.datastore (Trim (ns ++ "." ++ seg) '.')), ps) ∧
      loadRelation env (fun _ l ns1 => (.error (.datastore ns1), l)) ns seg
          { Name := name, Tag := tag, Value := .Slice elem [] } ps =
        (.error (.datastore (Trim (ns ++ "." ++ seg) '.')), ps)) := by
  obtain ⟨hc, hbare⟩ := split_qualify ns b hns hb
  refine ⟨rfl, hc, hbare, ?_, ?_⟩
  · intro ns1 p ex hp hex
    obtain ⟨hprops, hrest⟩ := extract_ok ns1 [p] ex hex
    have hcp : currentNamespace p.Name = ns := by rw [hp]; exact hc
    have hbp : bareName p.Name = b := by rw [hp]; exact hbare
    by_cases h : ns1 = ns
    · subst h
      have hr : removed ns1 [] [p] = [p] := by simp [removed, hcp]
      have hs : survivors ns1 [] [p] = [] := by simp [survivors, hcp]
      rw [hr] at hprops
      rw [hs] at hrest
      refine ⟨⟨fun _ => rfl, fun _ => hrest⟩, fun hne => absurd rfl hne, fun _ => ?_⟩
      rw [hprops]
      by_cases hid : b = "id"
      · simp [hbp, hid]
      · simp [hbp, hid, rename]
    · have hne : ¬ currentNamespace p.Name = ns1 := by rw [hcp]; exact fun h1 => h h1.symm
      have hr : removed ns1 [] [p] = [] := by simp [removed, hne]
      have hs : survivors ns1 [] [p] = [p] := by simp [survivors, hne]
      rw [hr] at hprops
      rw [hs] at hrest
      refine ⟨⟨fun h0 => ?_, fun h1 => absurd h1 h⟩, fun _ => ⟨hrest, by simpa using hprops⟩,
        fun h1 => absurd h1 h⟩
      rw [hrest] at h0
      simp at h0
  · intro S env seg name tag elem ch multiple ps
    refine ⟨rfl, rfl, rfl, ?_⟩
    simp only [loadRelation, loadSlice]
    rfl

/-- C15, an instance: the comment text below `comments`, and the child namespace of the
relation `replies`. -/
theorem addressing_round_trip_witness :
    currentNamespace (qualify "comments" "text") = "comments" ∧
    bareName (qualify "comments" "text") = "text" :=
  ⟨(addressing_round_trip "comments" "text" (by decide) (by decide)).2.1,
   (addressing_round_trip "comments" "text" (by decide) (by decide)).2.2.1⟩

/-! ## Absent relations -/

theorem tagOK_of_tagArg {E : Type} (a : String) (f : Field E) (x : String)
    (h : tagArg a f = some x) : tagOK f = true := by
  unfold tagArg at h
  unfold tagOK
  by_cases ht : f.Tag = ""
  · simp [ht] at h
  · simp only [ht, if_false] at h
    cases hs : Split f.Tag ',' with
    | nil => simp [hs] at h
    | cons a1 l =>
      cases l with
      | nil => simp [hs] at h
      | cons b l => simp

theorem setID_cases {E : Type} (s : String) :
    ∀ (fs fs1 : List (Field E)), setID s fs = some fs1 →
      List.Forall₂ (fun f f1 => f1 = f ∨
        ∃ t, f.Value = .String t ∧ f1 = { f with Value := .String s }) fs fs1 := by
  intro fs
  induction fs with
  | nil => intro fs1 h; simp [setID] at h
  | cons f fs ih =>
    intro fs1 h
    simp only [setID] at h
    by_cases hid : f.Name = "ID"
    · simp only [hid, if_true] at h
      cases hv : f.Value with
      | String t =>
        simp only [hv, Option.some.injEq] at h
        subst h
        refine List.Forall₂.cons (Or.inr ⟨t, hv, by rw [hid]⟩) ?_
        exact List.forall₂_same.2 (fun _ _ => Or.inl rfl)
      | Ptr elem v => simp [hv] at h
      | Slice elem vs => simp [hv] at h
      | Other => simp [hv] at h
    · simp only [hid, if_false, Option.map_eq_some'] at h
      obtain ⟨fs2, h2, rfl⟩ := h
      exact List.Forall₂.cons (Or.inl rfl) (ih fs2 h2)

theorem withID_cases {S : Type} (c : Codec S) (key : Option Key)
    (fs fs1 : List (Field (Entity S))) (h : withID c key fs = some fs1) :
    List.Forall₂ (fun f f1 => f1 = f ∨
      ∃ s t, f.Value = .String t ∧ f1 = { f with Value := .String s }) fs fs1 := by
  cases key with
  | none =>
    simp only [withID, Option.some.injEq] at h
    subst h
    exact List.forall₂_same.2 (fun _ _ => Or.inl rfl)
  | some k =>
    simp only [withID] at h
    exact List.Forall₂.imp (fun _ _ h1 => h1.imp id (fun ⟨t, h2, h3⟩ => ⟨_, t, h2, h3⟩))
      (setID_cases (c.Encode k) fs fs1 h)

theorem forall₂_getElem? {α β : Type} {R : α → β → Prop} :
    ∀ {l1 : List α} {l2 : List β}, List.Forall₂ R l1 l2 → ∀ (i : Nat) (a : α),
      l1[i]? = some a → ∃ b, l2[i]? = some b ∧ R a b := by
  intro l1 l2 h
  induction h with
  | nil => intro i a hi; simp at hi
  | cons hab _ ih =>
    intro i a hi
    cases i with
    | zero =>
      simp only [List.getElem?_cons_zero, Option.some.injEq] at hi
      subst hi
      exact ⟨_, by simp, hab⟩
    | succ i =>
      simp only [List.getElem?_cons_succ] at hi ⊢
      exact ih i a hi

/-- Every field of a successful pass of the field loop was handled by one pass of the loop
body, on a list that is what is left of the list the loop started with. -/
theorem loadFields_forall₂ {S : Type} (env : TypeEnv S)
    (load : Entity S → PropertyList → String → Except Error (Entity S) × PropertyList)
    (hsub : ∀ e l ns1, (load e l ns1).2.Sublist l) (ns : String) :
    ∀ (fs fs1 : List (Field (Entity S))) (ps rest : PropertyList),
      loadFields env load ns fs ps = (.ok fs1, rest) →
      List.Forall₂ (fun f f1 => ∃ l l1, l.Sublist ps ∧ rest.Sublist l1 ∧
        loadField env load ns f l = (.ok f1, l1)) fs fs1 := by
  intro fs
  induction fs with
  | nil =>
    intro fs1 ps rest h
    simp only [loadFields, Prod.mk.injEq, Except.ok.injEq] at h
    rw [← h.1]
    exact List.Forall₂.nil
  | cons f fs ih =>
    intro fs1 ps rest h
    obtain ⟨f1, fs2, ps1, h1, h2, rfl⟩ := (loadFields_cons_ok env load ns f fs fs1 ps rest).1 h
    have hs1 : ps1.Sublist ps := by
      have := loadField_sublist env load hsub ns f ps
      rw [h1] at this
      exact this
    have hs2 : rest.Sublist ps1 := by
      have := loadFields_sublist env load hsub ns fs ps1
      rw [h2] at this
      exact this
    refine List.Forall₂.cons ⟨ps, ps1, List.Sublist.refl _, hs2, h1⟩ ?_
    exact List.Forall₂.imp (fun _ _ ⟨l, l1, a, b, d⟩ => ⟨l, l1, a.trans hs1, b, d⟩)
      (ih fs2 ps1 rest h2)

theorem loadField_absent {S : Type} (c : Codec S) (env : TypeEnv S) (ns seg : String)
    (f : Field (Entity S)) (elem : TypeName) (hv : f.Value = .Ptr elem none)
    (ht : tagArg annotationRelation f = some seg) (fuel : Nat) (ps : PropertyList)
    (h : ∀ p ∈ ps, currentNamespace p.Name ≠ qualify ns seg) :
    loadField env (loadEntity c env (fuel + 1)) ns f ps = (.ok f, ps) := by
  rw [loadField_eq, tagOK_of_tagArg _ f seg ht, ht]
  simp only [Bool.true_eq_false, if_false, loadRelation, hv,
    load_absent c env fuel (New env elem) ps (qualify ns seg) h]

/-- C11. Absent optional relation: a pointer relation field that is nil, whose child
namespace has no attribute in the list, is left as it is by the field loop of `loadEntity`,
without error and without change to the list; and in every successful `loadEntity` on a
list without attribute at that child namespace the field is nil in the loaded entity. -/
theorem absent_relation {S : Type} (c : Codec S) (env : TypeEnv S) (ns seg : String)
    (f : Field (Entity S)) (elem : TypeName) (hv : f.Value = .Ptr elem none)
    (ht : tagArg annotationRelation f = some seg) :
    (∀ (fuel : Nat) (ps : PropertyList),
      (∀ p ∈ ps, currentNamespace p.Name ≠ qualify ns seg) →
      loadField env (loadEntity c env (fuel + 1)) ns f ps = (.ok f, ps)) ∧
    (∀ (fuel : Nat) (e e1 : Entity S) (ps rest : PropertyList) (i : Nat),
      e.fields[i]? = some f →
      (∀ p ∈ ps, currentNamespace p.Name ≠ qualify ns seg) →
      loadEntity c env fuel e ps ns = (.ok e1, rest) → e1.fields[i]? = some f) := by
  refine ⟨fun fuel ps h => loadField_absent c env ns seg f elem hv ht fuel ps h, ?_⟩
  intro fuel e e1 ps rest i hi habs hload
  cases fuel with
  | zero => simp [loadEntity] at hload
  | succ fuel =>
    obtain ⟨ex, scalars, fields, fs1, hex, _, _, hwith, hfields, rfl⟩ :=
      (loadEntity_ok_iff c env fuel e e1 ps rest ns).1 hload
    have hrest : ex.rest.Sublist ps := by
      rw [(extract_ok ns ps ex hex).2]
      exact survivors_sublist ns ps []
    obtain ⟨f0, hf0, hcase⟩ := forall₂_getElem? (withID_cases c ex.key e.fields fields hwith) i f hi
    have hf0f : f0 = f := by
      rcases hcase with h | ⟨s, t, h, _⟩
      · exact h
      · rw [hv] at h; cases h
    subst hf0f
    obtain ⟨f1, hf1, l, l1, hl, _, hlf⟩ := forall₂_getElem?
      (loadFields_forall₂ env (loadEntity c env fuel) (fun e l ns1 => loadEntity_sublist c env fuel e l ns1)
        ns fields fs1 ex.rest rest hfields) i f0 hf0
    have habs1 : ∀ p ∈ l, currentNamespace p.Name ≠ qualify ns seg :=
      fun p hp => habs p ((hl.trans hrest).subset hp)
    cases fuel with
    | zero =>
      rw [loadField_eq, tagOK_of_tagArg _ f0 seg ht, ht] at hlf
      simp [loadRelation, hv, loadEntity] at hlf
    | succ fuel =>
      rw [loadField_absent c env ns seg f0 elem hv ht fuel l habs1] at hlf
      simp only [Prod.mk.injEq, Except.ok.injEq] at hlf
      rw [hlf.1]
      exact hf1

/-- C11, an instance: the nil `Next` pointer of a chain node and a list that holds only
the root attribute `v`. -/
theorem absent_relation_witness :
    loadField chainEnv (loadEntity lenientCodec chainEnv 1) ""
        { Name := "Next", Tag := "relation,next", Value := .Ptr "Node" none }
        [{ Name := "v", Value := .scalar "0", NoIndex := true, Multiple := false }] =
      (.ok { Name := "Next", Tag := "relation,next", Value := .Ptr "Node" none },
       [{ Name := "v", Value := .scalar "0", NoIndex := true, Multiple := false }]) :=
  (absent_relation lenientCodec chainEnv "" "next"
    { Name := "Next", Tag := "relation,next", Value := .Ptr "Node" none } "Node" rfl rfl).1 0
    [{ Name := "v", Value := .scalar "0", NoIndex := true, Multiple := false }] (by decide)

/-! ## A failed load consumes a key -/

theorem walk_pass (ns : String) :
    ∀ (l1 todo kept : PropertyList) (key : Option Key) (properties : PropertyList)
      (seen : List String),
      (∀ q ∈ l1, currentNamespace q.Name = ns → bareName q.Name ∈ seen) →
      walk ns (l1 ++ todo) kept key properties seen =
        walk ns todo (kept ++ l1) key properties seen := by
  intro l1
  induction l1 with
  | nil => intro todo kept key properties seen _; simp
  | cons q l1 ih =>
    intro todo kept key properties seen h
    have hq := h q (List.mem_cons_self _ _)
    have hrest := ih todo (kept ++ [q]) key properties seen
      (fun x hx => h x (List.mem_cons_of_mem _ hx))
    rw [List.cons_append, walk]
    by_cases hc : currentNamespace q.Name = ns
    · simp only [hc, if_true, hq hc, not_true_eq_false, if_false]
      rw [hrest, List.append_assoc, List.singleton_append]
    · simp only [hc, if_false]
      rw [hrest, List.append_assoc, List.singleton_append]

/-- Extraction at a namespace that holds only `id` attributes: the first is taken as the
key, nothing else is touched. -/
theorem extract_only_ids (ns : String) (l1 l2 : PropertyList) (p : Property) (k : Key)
    (h1 : ∀ q ∈ l1, currentNamespace q.Name ≠ ns) (hp : currentNamespace p.Name = ns)
    (hid : bareName p.Name = "id") (hk : p.Value = .key k)
    (h2 : ∀ q ∈ l2, currentNamespace q.Name = ns → bareName q.Name = "id") :
    extractEntityProperties ns (l1 ++ p :: l2) =
      .ok { key := some k, properties := [], rest := l1 ++ l2 } := by
  rw [extractEntityProperties_eq_walk,
    walk_pass ns l1 (p :: l2) [] none [] [] (fun q hq hc => absurd hc (h1 q hq))]
  have h3 := walk_pass ns l2 [] ([] ++ l1) (some k) [] ["id"]
    (fun q hq hc => by rw [h2 q hq hc]; simp)
  rw [List.append_nil] at h3
  rw [walk]
  simp only [hp, if_true, hid, List.not_mem_nil, not_false_eq_true, hk, h3]
  simp [walk]

theorem loadEntity_only_ids {S : Type} (c : Codec S) (env : TypeEnv S) (ns : String)
    (l1 l2 : PropertyList) (p : Property) (k : Key)
    (h1 : ∀ q ∈ l1, currentNamespace q.Name ≠ ns) (hp : currentNamespace p.Name = ns)
    (hid : bareName p.Name = "id") (hk : p.Value = .key k)
    (h2 : ∀ q ∈ l2, currentNamespace q.Name = ns → bareName q.Name = "id")
    (fuel : Nat) (e : Entity S) :
    loadEntity c env (fuel + 1) e (l1 ++ p :: l2) ns =
      (.error .ErrNoMoreProperties, l1 ++ l2) := by
  simp only [loadEntity, extract_only_ids ns l1 l2 p k h1 hp hid hk h2, List.length_nil,
    if_true]

/-- C19. A failed load is not atomic on the list: when the attributes at `ns` are `id`
attributes only, at least one (the first holding a key, as the data model has it),
`loadEntity` at `ns` fails with `ErrNoMoreProperties` and the list it leaves behind is the
list without the first of them. So a nil pointer relation whose child namespace is `ns`
stays nil while the key attribute is gone, and the loop of a repeated relation stops at
once, leaving every later `id` attribute at `ns` in the list. -/
theorem failed_load_not_atomic {S : Type} (c : Codec S) (env : TypeEnv S) (ns : String)
    (l1 l2 : PropertyList) (p : Property) (k : Key)
    (h1 : ∀ q ∈ l1, currentNamespace q.Name ≠ ns) (hp : currentNamespace p.Name = ns)
    (hid : bareName p.Name = "id") (hk : p.Value = .key k)
    (h2 : ∀ q ∈ l2, currentNamespace q.Name = ns → bareName q.Name = "id") :
    (∀ (fuel : Nat) (e : Entity S),
      loadEntity c env (fuel + 1) e (l1 ++ p :: l2) ns =
        (.error .ErrNoMoreProperties, l1 ++ l2)) ∧
    (∀ (fuel : Nat) (parent seg : String) (f : Field (Entity S)) (elem : TypeName),
      qualify parent seg = ns → tagArg annotationRelation f = some seg →
      f.Value = .Ptr elem none ∨ f.Value = .Slice elem [] →
      loadField env (loadEntity c env (fuel + 1)) parent f (l1 ++ p :: l2) =
        (.ok f, l1 ++ l2)) := by
  refine ⟨fun fuel e => loadEntity_only_ids c env ns l1 l2 p k h1 hp hid hk h2 fuel e, ?_⟩
  intro fuel parent seg f elem hq ht hv
  rw [loadField_eq, tagOK_of_tagArg _ f seg ht, ht]
  obtain ⟨n, t, v⟩ := f
  simp only at hv
  rcases hv with rfl | rfl
  · simp only [Bool.true_eq_false, if_false, loadRelation, hq,
      loadEntity_only_ids c env ns l1 l2 p k h1 hp hid hk h2 fuel]
  · simp only [Bool.true_eq_false, if_false, loadRelation, hq, loadSlice,
      loadEntity_only_ids c env ns l1 l2 p k h1 hp hid hk h2 fuel]

/-- C19, an instance: two key attributes at `comments` and no other attribute there. -/
theorem failed_load_not_atomic_witness :
    loadEntity stringCodec blogEnv 1 (New blogEnv "Comment")
        [{ Name := "text", Value := .scalar "hello", NoIndex := true, Multiple := false },
         { Name := "comments.id", Value := .key ⟨"k1"⟩, NoIndex := false, Multiple := true },
         { Name := "comments.id", Value := .key ⟨"k2"⟩, NoIndex := false, Multiple := true }]
        "comments" =
      (.error .ErrNoMoreProperties,
        [{ Name := "text", Value := .scalar "hello", NoIndex := true, Multiple := false },
         { Name := "comments.id", Value := .key ⟨"k2"⟩, NoIndex := false, Multiple := true }]) :=
  (failed_load_not_atomic stringCodec blogEnv "comments"
    [{ Name := "text", Value := .scalar "hello", NoIndex := true, Multiple := false }]
    [{ Name := "comments.id", Value := .key ⟨"k2"⟩, NoIndex := false, Multiple := true }]
    { Name := "comments.id", Value := .key ⟨"k1"⟩, NoIndex := false, Multiple := true } ⟨"k1"⟩
    (by decide) (by decide) (by decide) rfl (by decide)).1 0 (New blogEnv "Comment")

/-! ## Greedy loops -/

theorem walk_error (ns : String) :
    ∀ (todo kept : PropertyList) (key : Option Key) (properties : PropertyList)
      (seen : List String) (err : Error),
      walk ns todo kept key properties seen = .error err → err = .panic := by
  intro todo
  induction todo with
  | nil => intro kept key properties seen err h; simp [walk] at h
  | cons p todo ih =>
    intro kept key properties seen err h
    rw [walk] at h
    by_cases h1 : currentNamespace p.Name = ns
    · by_cases h2 : bareName p.Name ∈ seen
      · simp only [h1, if_true, h2, not_true_eq_false, if_false] at h
        exact ih _ _ _ _ _ h
      · by_cases h3 : bareName p.Name = "id"
        · have h2i : "id" ∉ seen := h3 ▸ h2
          by_cases h4 : key = none
          · cases hv : p.Value with
            | key k =>
              simp only [h1, if_true, h2, h2i, not_false_eq_true, h3, h4, hv] at h
              exact ih _ _ _ _ _ h
            | scalar s =>
              simp only [h1, if_true, h2, h2i, not_false_eq_true, h3, h4, hv] at h
              cases h
              rfl
          · simp only [h1, if_true, h2, h2i, not_false_eq_true, h3, h4, if_false] at h
            exact ih _ _ _ _ _ h
        · simp only [h1, if_true, h2, not_false_eq_true, h3, if_false] at h
          exact ih _ _ _ _ _ h
    · simp only [h1, if_false] at h
      exact ih _ _ _ _ _ h

/-- When `loadEntity` answers `ErrNoMoreProperties`, the list it leaves holds nothing but
`id` attributes at the namespace. -/
theorem loadEntity_noMore_rest {S : Type} (c : Codec S) (env : TypeEnv S) (fuel : Nat)
    (e : Entity S) (ps : PropertyList) (ns : String)
    (h : (loadEntity c env fuel e ps ns).1 = .error .ErrNoMoreProperties) :
    ∀ p ∈ (loadEntity c env fuel e ps ns).2, currentNamespace p.Name = ns →
      bareName p.Name = "id" := by
  cases fuel with
  | zero => simp [loadEntity] at h
  | succ fuel =>
    rw [loadEntity] at h ⊢
    cases hex : extractEntityProperties ns ps with
    | error err =>
      simp only [hex, Except.error.injEq] at h
      rw [extractEntityProperties_eq_walk] at hex
      have := walk_error ns _ _ _ _ _ _ hex
      rw [h] at this
      cases this
    | ok ex =>
      simp only [hex] at h ⊢
      obtain ⟨hprops, hrest⟩ := extract_ok ns ps ex hex
      by_cases hlen : ex.properties.length = 0
      · simp only [hlen, if_true]
        have hnil : ex.properties = [] := List.length_eq_zero.1 hlen
        rw [hprops] at hnil
        have hall := (properties_eq_nil_iff ns ps).1 hnil
        intro p hp
        rw [hrest] at hp
        exact hall p ((survivors_sublist ns ps []).subset hp)
      · simp only [hlen, if_false] at h
        exfalso
        cases hl : c.LoadStruct e.scalars
            (ex.properties.map fun property => { property with Multiple := false }) with
        | error err => simp [hl] at h
        | ok scalars =>
          simp only [hl] at h
          cases hw : withID c ex.key e.fields with
          | none => simp [hw] at h
          | some fields =>
            simp only [hw] at h
            have hne := loadFields_ne_noMore env (loadEntity c env fuel) ns fields ex.rest
            cases hf : loadFields env (loadEntity c env fuel) ns fields ex.rest with
            | mk r l =>
              rw [hf] at h hne
              cases r with
              | ok fs => simp at h
              | error err =>
                simp only [Except.error.injEq] at h
                exact hne (by rw [h])

theorem loadSlice_end {S : Type}
    (load : PropertyList → Except Error (Entity S) × PropertyList) :
    ∀ (budget : Nat) (vs vs1 : List (Entity S)) (ps ps1 : PropertyList),
      loadSlice load budget vs ps = (.ok vs1, ps1) →
      ∃ l, (load l).1 = .error .ErrNoMoreProperties ∧ (load l).2 = ps1 := by
  intro budget
  induction budget with
  | zero => intro vs vs1 ps ps1 h; simp [loadSlice] at h
  | succ budget ih =>
    intro vs vs1 ps ps1 h
    rw [loadSlice] at h
    cases hl : load ps with
    | mk r l =>
      rw [hl] at h
      cases r with
      | ok v => exact ih _ _ _ _ h
      | error err =>
        cases err <;> simp at h
        exact ⟨ps, by rw [hl], by rw [hl]; exact h.2⟩

theorem loadField_slice_rest {S : Type} (c : Codec S) (env : TypeEnv S) (fuel : Nat)
    (ns s : String) (f f1 : Field (Entity S)) (elem : TypeName) (vs : List (Entity S))
    (l l1 : PropertyList) (ht : tagArg annotationRelation f = some s)
    (hv : f.Value = .Slice elem vs)
    (h : loadField env (loadEntity c env fuel) ns f l = (.ok f1, l1)) :
    ∀ p ∈ l1, currentNamespace p.Name = qualify ns s → bareName p.Name = "id" := by
  rw [loadField_eq, tagOK_of_tagArg _ f s ht, ht] at h
  simp only [Bool.true_eq_false, if_false, loadRelation, hv] at h
  cases hs : loadSlice (fun l => loadEntity c env fuel (New env elem) l (qualify ns s))
      (l.length + 1) vs l with
  | mk r l2 =>
    rw [hs] at h
    cases r with
    | error err => simp at h
    | ok vs1 =>
      simp only [Prod.mk.injEq] at h
      obtain ⟨l0, h0, h1⟩ := loadSlice_end _ _ _ _ _ _ hs
      have := loadEntity_noMore_rest c env fuel (New env elem) l0 (qualify ns s) h0
      rw [h1, h.2] at this
      exact this

/-- C20. Greedy grandchildren: after a successful `loadEntity` at `ns` of an entity that
has a repeated relation with segment `s`, the list that is left holds no attribute at the
namespace of `s` below `ns` other than `id` attributes. So the list saved from a post
whose two comments have one reply each loads back as a post whose first comment has both
replies and whose second comment has none. -/
theorem greedy_grandchildren :
    (∀ {S : Type} (c : Codec S) (env : TypeEnv S) (fuel : Nat) (e e1 : Entity S)
      (ps rest : PropertyList) (ns s : String) (f : Field (Entity S)) (elem : TypeName)
      (vs : List (Entity S)),
      loadEntity c env fuel e ps ns = (.ok e1, rest) → f ∈ e.fields →
      tagArg annotationRelation f = some s → f.Value = .Slice elem vs →
      ∀ p ∈ rest, currentNamespace p.Name = qualify ns s → bareName p.Name = "id") ∧
    (∀ t0 t1 t2 g1 g2 : String,
      SaveEntity stringCodec
        (.mk [("text", t0)]
          [{ Name := "ID", Tag := "primary,id", Value := .String "" },
           { Name := "Comments", Tag := "relation,comments",
             Value := .Slice "Comment"
               [blogComment "" t1 [keyedRecord "" g1],
                blogComment "" t2 [keyedRecord "" g2]] }]) =
        .ok [{ Name := "text", Value := .scalar t0, NoIndex := true, Multiple := false },
             { Name := "comments.text", Value := .scalar t1, NoIndex := true, Multiple := true },
             { Name := "comments.replies.text", Value := .scalar g1, NoIndex := true,
               Multiple := true },
             { Name := "comments.text", Value := .scalar t2, NoIndex := true, Multiple := true },
             { Name := "comments.replies.text", Value := .scalar g2, NoIndex := true,
               Multiple := true }] ∧
      LoadEntity stringCodec blogEnv (New blogEnv "Post")
        [{ Name := "text", Value := .scalar t0, NoIndex := true, Multiple := false },
         { Name := "comments.text", Value := .scalar t1, NoIndex := true, Multiple := true },
         { Name := "comments.replies.text", Value := .scalar g1, NoIndex := true,
           Multiple := true },
         { Name := "comments.text", Value := .scalar t2, NoIndex := true, Multiple := true },
         { Name := "comments.replies.text", Value := .scalar g2, NoIndex := true,
           Multiple := true }] =
        .ok (.mk [("text", t0)]
          [{ Name := "ID", Tag := "primary,id", Value := .String "" },
           { Name := "Comments", Tag := "relation,comments",
             Value := .Slice "Comment"
               [blogComment "" t1 [keyedRecord "" g1, keyedRecord "" g2],
                blogComment "" t2 []] }])) := by
  refine ⟨?_, fun t0 t1 t2 g1 g2 => ⟨rfl, rfl⟩⟩
  intro S c env fuel e e1 ps rest ns s f elem vs hload hf ht hv
  cases fuel with
  | zero => simp [loadEntity] at hload
  | succ fuel =>
    obtain ⟨ex, scalars, fields, fs1, hex, _, _, hwith, hfields, rfl⟩ :=
      (loadEntity_ok_iff c env fuel e e1 ps rest ns).1 hload
    obtain ⟨i, hi⟩ := List.getElem?_of_mem hf
    obtain ⟨f0, hf0, hcase⟩ := forall₂_getElem? (withID_cases c ex.key e.fields fields hwith) i f hi
    have hf0f : f0 = f := by
      rcases hcase with h | ⟨s1, t, h, _⟩
      · exact h
      · rw [hv] at h; cases h
    subst hf0f
    obtain ⟨f1, _, l, l1, _, hl1, hlf⟩ := forall₂_getElem?
      (loadFields_forall₂ env (loadEntity c env fuel)
        (fun e l ns1 => loadEntity_sublist c env fuel e l ns1)
        ns fields fs1 ex.rest rest hfields) i f0 hf0
    intro p hp
    exact loadField_slice_rest c env fuel ns s f0 f1 elem vs l l1 ht hv hlf p (hl1.subset hp)

/-! ## Termination of `loadEntity` -/

theorem loadSlice_congr_on {S : Type}
    (load1 load2 : PropertyList → Except Error (Entity S) × PropertyList) (n : Nat)
    (hsub : ∀ l, (load1 l).2.Sublist l)
    (hagree : ∀ l, l.length ≤ n → load1 l = load2 l) :
    ∀ (budget : Nat) (vs : List (Entity S)) (ps : PropertyList), ps.length ≤ n →
      loadSlice load1 budget vs ps = loadSlice load2 budget vs ps := by
  intro budget
  induction budget with
  | zero => intro vs ps _; rfl
  | succ budget ih =>
    intro vs ps hn
    rw [loadSlice, loadSlice, ← hagree ps hn]
    cases hl : load1 ps with
    | mk r l =>
      have hs : l.Sublist ps := by have := hsub ps; rw [hl] at this; exact this
      cases r with
      | ok v => exact ih _ _ (hs.length_le.trans hn)
      | error err => cases err <;> rfl

theorem loadField_congr_on {S : Type} (env : TypeEnv S)
    (load1 load2 : Entity S → PropertyList → String → Except Error (Entity S) × PropertyList)
    (n : Nat) (hsub : ∀ e l ns1, (load1 e l ns1).2.Sublist l)
    (hagree : ∀ e l ns1, l.length ≤ n → load1 e l ns1 = load2 e l ns1)
    (ns : String) (f : Field (Entity S)) (ps : PropertyList) (hn : ps.length ≤ n) :
    loadField env load1 ns f ps = loadField env load2 ns f ps := by
  rw [loadField_eq, loadField_eq]
  cases tagOK f with
  | false => rfl
  | true =>
    simp only [Bool.true_eq_false, if_false]
    cases tagArg annotationRelation f with
    | none => rfl
    | some seg =>
      simp only [loadRelation]
      cases hv : f.Value with
      | String s => rfl
      | Other => rfl
      | Ptr elem v =>
        cases v with
        | none => simp only [hagree _ ps _ hn]
        | some ch => rfl
      | Slice elem vs =>
        simp only
        rw [loadSlice_congr_on _ (fun l => load2 (New env elem) l (qualify ns seg)) n
          (fun l => hsub _ l _) (fun l hl => hagree _ l _ hl) _ vs ps hn]

theorem loadFields_congr_on {S : Type} (env : TypeEnv S)
    (load1 load2 : Entity S → PropertyList → String → Except Error (Entity S) × PropertyList)
    (n : Nat) (hsub : ∀ e l ns1, (load1 e l ns1).2.Sublist l)
    (hagree : ∀ e l ns1, l.length ≤ n → load1 e l ns1 = load2 e l ns1) (ns : String) :
    ∀ (fs : List (Field (Entity S))) (ps : PropertyList), ps.length ≤ n →
      loadFields env load1 ns fs ps = loadFields env load2 ns fs ps := by
  intro fs
  induction fs with
  | nil => intro ps _; rfl
  | cons f fs ih =>
    intro ps hn
    rw [loadFields, loadFields, ← loadField_congr_on env load1 load2 n hsub hagree ns f ps hn]
    cases hl : loadField env load1 ns f ps with
    | mk r l =>
      have hs : l.Sublist ps := by
        have := loadField_sublist env load1 hsub ns f ps
        rw [hl] at this
        exact this
      cases r with
      | error err => rfl
      | ok f1 =>
        simp only
        rw [ih l (hs.length_le.trans hn)]

/-- Fuel beyond the length of the list changes nothing. -/
theorem loadEntity_fuel {S : Type} (c : Codec S) (env : TypeEnv S) :
    ∀ (fuel1 fuel2 : Nat) (e : Entity S) (ps : PropertyList) (ns : String),
      ps.length < fuel1 → ps.length < fuel2 →
      loadEntity c env fuel1 e ps ns = loadEntity c env fuel2 e ps ns := by
  intro fuel1
  induction fuel1 with
  | zero => intro fuel2 e ps ns h; omega
  | succ fuel1 ih =>
    intro fuel2 e ps ns h1 h2
    obtain ⟨g, rfl⟩ : ∃ g, fuel2 = g + 1 := ⟨fuel2 - 1, by omega⟩
    rw [loadEntity, loadEntity]
    cases hex : extractEntityProperties ns ps with
    | error err => rfl
    | ok ex =>
      simp only
      by_cases hlen : ex.properties.length = 0
      · simp only [hlen, if_true]
      · simp only [hlen, if_false]
        cases c.LoadStruct e.scalars
            (ex.properties.map fun property => { property with Multiple := false }) with
        | error err => rfl
        | ok scalars =>
          simp only
          cases withID c ex.key e.fields with
          | none => rfl
          | some fields =>
            simp only
            obtain ⟨hprops, hrest⟩ := extract_ok ns ps ex hex
            have hshr : ex.rest.length < ps.length := by
              have hr := removed_length ns ps []
              have hne : removed ns [] ps ≠ [] := by
                intro h0
                apply hlen
                rw [hprops, h0]
                rfl
              have := List.length_pos.2 hne
              rw [hrest]
              omega
            rw [loadFields_congr_on env (loadEntity c env fuel1) (loadEntity c env g)
              ex.rest.length (fun e l ns1 => loadEntity_sublist c env fuel1 e l ns1)
              (fun e l ns1 hl => ih g e l ns1 (by omega) (by omega)) ns fields ex.rest
              (Nat.le_refl _)]

theorem loadSlice_fueled {S : Type}
    (load : PropertyList → Except Error (Entity S) × PropertyList) (n : Nat)
    (hfuel : ∀ l, l.length ≤ n → (load l).1 ≠ .error .outOfFuel)
    (hshr : ∀ l v rest, load l = (.ok v, rest) → rest.length < l.length) :
    ∀ (budget : Nat) (vs : List (Entity S)) (ps : PropertyList), ps.length ≤ n →
      ps.length < budget → (loadSlice load budget vs ps).1 ≠ .error .outOfFuel := by
  intro budget
  induction budget with
  | zero => intro vs ps _ h; omega
  | succ budget ih =>
    intro vs ps hn hb
    rw [loadSlice]
    have h1 := hfuel ps hn
    cases hl : load ps with
    | mk r l =>
      rw [hl] at h1
      cases r with
      | ok v =>
        have := hshr ps v l hl
        exact ih _ _ (by omega) (by omega)
      | error err =>
        cases err <;> simp at h1 ⊢

theorem loadField_fueled {S : Type} (env : TypeEnv S)
    (load : Entity S → PropertyList → String → Except Error (Entity S) × PropertyList)
    (n : Nat) (hfuel : ∀ e l ns1, l.length ≤ n → (load e l ns1).1 ≠ .error .outOfFuel)
    (hshr : ∀ e l ns1 v rest, load e l ns1 = (.ok v, rest) → rest.length < l.length)
    (ns : String) (f : Field (Entity S)) (ps : PropertyList) (hn : ps.length ≤ n) :
    (loadField env load ns f ps).1 ≠ .error .outOfFuel := by
  rw [loadField_eq]
  cases tagOK f with
  | false => simp
  | true =>
    simp only [Bool.true_eq_false, if_false]
    cases tagArg annotationRelation f with
    | none => simp
    | some seg =>
      simp only [loadRelation]
      cases hv : f.Value with
      | String s => simp
      | Other => simp
      | Ptr elem v =>
        cases v with
        | some ch => simp
        | none =>
          simp only
          have h1 := hfuel (New env elem) ps (qualify ns seg) hn
          cases hl : load (New env elem) ps (qualify ns seg) with
          | mk r l =>
            rw [hl] at h1
            cases r with
            | ok v => simp
            | error err => cases err <;> simp at h1 ⊢
      | Slice elem vs =>
        simp only
        have h1 := loadSlice_fueled (fun l => load (New env elem) l (qualify ns seg)) n
          (fun l hl => hfuel _ l _ hl) (fun l v rest h => hshr _ l _ v rest h)
          (ps.length + 1) vs ps hn (Nat.lt_succ_self _)
        cases hl : loadSlice (fun l => load (New env elem) l (qualify ns seg))
            (ps.length + 1) vs ps with
        | mk r l =>
          rw [hl] at h1
          cases r with
          | ok v => simp
          | error err => simpa using h1

theorem loadFields_fueled {S : Type} (env : TypeEnv S)
    (load : Entity S → PropertyList → String → Except Error (Entity S) × PropertyList)
    (n : Nat) (hsub : ∀ e l ns1, (load e l ns1).2.Sublist l)
    (hfuel : ∀ e l ns1, l.length ≤ n → (load e l ns1).1 ≠ .error .outOfFuel)
    (hshr : ∀ e l ns1 v rest, load e l ns1 = (.ok v, rest) → rest.length < l.length)
    (ns : String) :
    ∀ (fs : List (Field (Entity S))) (ps : PropertyList), ps.length ≤ n →
      (loadFields env load ns fs ps).1 ≠ .error .outOfFuel := by
  intro fs
  induction fs with
  | nil => intro ps _; simp [loadFields]
  | cons f fs ih =>
    intro ps hn
    rw [loadFields]
    have h1 := loadField_fueled env load n hfuel hshr ns f ps hn
    cases hl : loadField env load ns f ps with
    | mk r l =>
      rw [hl] at h1
      have hs : l.Sublist ps := by
        have := loadField_sublist env load hsub ns f ps
        rw [hl] at this
        exact this
      cases r with
      | error err => simpa using h1
      | ok f1 =>
        simp only
        have h2 := ih l (hs.length_le.trans hn)
        cases hl2 : loadFields env load ns fs l with
        | mk r2 l2 =>
          rw [hl2] at h2
          cases r2 with
          | ok fs1 => simp
          | error err => simpa using h2

/-- With more fuel than the list is long, `loadEntity` never runs out of fuel. -/
theorem loadEntity_fueled {S : Type} (c : Codec S) (env : TypeEnv S) :
    ∀ (fuel : Nat) (e : Entity S) (ps : PropertyList) (ns : String), ps.length < fuel →
      (loadEntity c env fuel e ps ns).1 ≠ .error .outOfFuel := by
  intro fuel
  induction fuel with
  | zero => intro e ps ns h; omega
  | succ fuel ih =>
    intro e ps ns h
    rw [loadEntity]
    cases hex : extractEntityProperties ns ps with
    | error err =>
      rw [extractEntityProperties_eq_walk] at hex
      have := walk_error ns _ _ _ _ _ _ hex
      subst this
      simp
    | ok ex =>
      simp only
      by_cases hlen : ex.properties.length = 0
      · simp [hlen]
      · simp only [hlen, if_false]
        cases c.LoadStruct e.scalars
            (ex.properties.map fun property => { property with Multiple := false }) with
        | error err => simp
        | ok scalars =>
          simp only
          cases withID c ex.key e.fields with
          | none => simp
          | some fields =>
            simp only
            obtain ⟨hprops, hrest⟩ := extract_ok ns ps ex hex
            have hshr : ex.rest.length < ps.length := by
              have hr := removed_length ns ps []
              have hne : removed ns [] ps ≠ [] := by
                intro h0
                apply hlen
                rw [hprops, h0]
                rfl
              have := List.length_pos.2 hne
              rw [hrest]
              omega
            have h2 := loadFields_fueled env (loadEntity c env fuel) ex.rest.length
              (fun e l ns1 => loadEntity_sublist c env fuel e l ns1)
              (fun e l ns1 hl => ih e l ns1 (by omega))
              (fun e l ns1 v rest hv => loadEntity_shrinks c env fuel e v l rest ns1 hv)
              ns fields ex.rest (Nat.le_refl _)
            cases hl2 : loadFields env (loadEntity c env fuel) ns fields ex.rest with
            | mk r2 l2 =>
              rw [hl2] at h2
              cases r2 with
              | ok fs1 => simp
              | error err => simpa using h2

theorem countAt_cons (ns : String) (p : Property) (l : PropertyList) :
    countAt ns (p :: l) = (if currentNamespace p.Name = ns then 1 else 0) + countAt ns l := by
  unfold countAt
  by_cases h : currentNamespace p.Name = ns
  · simp [List.filter_cons, h]; omega
  · simp [List.filter_cons, h]

theorem countAt_survivors (ns : String) :
    ∀ (l : PropertyList) (seen : List String),
      countAt ns (survivors ns seen l) + (removed ns seen l).length = countAt ns l := by
  intro l
  induction l with
  | nil => intro seen; rfl
  | cons p l ih =>
    intro seen
    rw [survivors, removed]
    by_cases h : currentNamespace p.Name = ns ∧ bareName p.Name ∉ seen
    · rw [if_pos h, if_pos h, countAt_cons, if_pos h.1, List.length_cons]
      have := ih (bareName p.Name :: seen)
      omega
    · rw [if_neg h, if_neg h, countAt_cons, countAt_cons]
      have := ih seen
      omega

theorem countAt_sublist (ns : String) {l1 l2 : PropertyList} (h : l1.Sublist l2) :
    countAt ns l1 ≤ countAt ns l2 :=
  (h.filter _).length_le

/-- A successful `loadEntity` takes at least one attribute at its namespace out of the
list. -/
theorem loadEntity_countAt {S : Type} (c : Codec S) (env : TypeEnv S) (fuel : Nat)
    (e e1 : Entity S) (ps rest : PropertyList) (ns : String)
    (h : loadEntity c env fuel e ps ns = (.ok e1, rest)) :
    countAt ns rest < countAt ns ps := by
  cases fuel with
  | zero => simp [loadEntity] at h
  | succ fuel =>
    obtain ⟨ex, scalars, fields, fs1, hex, hne, _, _, hfields, _⟩ :=
      (loadEntity_ok_iff c env fuel e e1 ps rest ns).1 h
    obtain ⟨hprops, hrest⟩ := extract_ok ns ps ex hex
    have hrem : removed ns [] ps ≠ [] := by
      intro h0
      apply hne
      rw [hprops, h0]
      rfl
    have hpos := List.length_pos.2 hrem
    have hc := countAt_survivors ns ps []
    have hsub : rest.Sublist ex.rest := by
      have := loadFields_sublist env (loadEntity c env fuel)
        (fun e l ns1 => loadEntity_sublist c env fuel e l ns1) ns fields ex.rest
      rw [hfields] at this
      exact this
    have := countAt_sublist ns hsub
    rw [hrest] at this
    omega

theorem loadSlice_count {S : Type}
    (load : PropertyList → Except Error (Entity S) × PropertyList) (ns : String)
    (hsub : ∀ l, (load l).2.Sublist l)
    (hload : ∀ l v rest, load l = (.ok v, rest) → countAt ns rest < countAt ns l) :
    ∀ (budget : Nat) (vs vs1 : List (Entity S)) (ps ps1 : PropertyList),
      loadSlice load budget vs ps = (.ok vs1, ps1) →
      vs1.length + countAt ns ps1 ≤ vs.length + countAt ns ps := by
  intro budget
  induction budget with
  | zero => intro vs vs1 ps ps1 h; simp [loadSlice] at h
  | succ budget ih =>
    intro vs vs1 ps ps1 h
    rw [loadSlice] at h
    cases hl : load ps with
    | mk r l =>
      rw [hl] at h
      cases r with
      | ok v =>
        have h1 := ih _ _ _ _ h
        have h2 := hload ps v l hl
        simp only [List.length_append, List.length_singleton] at h1
        omega
      | error err =>
        cases err <;> simp at h
        obtain ⟨rfl, rfl⟩ := h
        have hs : countAt ns l ≤ countAt ns ps := by
          have := hsub ps
          rw [hl] at this
          exact countAt_sublist ns this
        omega

/-- C16. `loadEntity` terminates on every attribute list and every entity type: the
recursion is bounded by the length of the list (with more fuel than the list is long the
model never runs out of fuel and gives the result that `LoadEntity` computes with
`length + 1`); every successful call leaves a strictly shorter list; a call whose
extraction yields no property returns `ErrNoMoreProperties` at once, whatever is left of
the recursion budget; and the loop of a repeated relation appends at most as many
children as there are attributes at the child namespace, so it runs at most that number
plus one times. -/
theorem loadEntity_terminates {S : Type} (c : Codec S) (env : TypeEnv S) :
    (∀ (fuel : Nat) (e : Entity S) (ps : PropertyList) (ns : String), ps.length < fuel →
      loadEntity c env fuel e ps ns = loadEntity c env (ps.length + 1) e ps ns ∧
      (loadEntity c env fuel e ps ns).1 ≠ .error .outOfFuel) ∧
    (∀ (e : Entity S) (ps : PropertyList), LoadEntity c env e ps ≠ .error .outOfFuel) ∧
    (∀ (fuel : Nat) (e e1 : Entity S) (ps rest : PropertyList) (ns : String),
      loadEntity c env fuel e ps ns = (.ok e1, rest) → rest.length < ps.length) ∧
    (∀ (fuel : Nat) (e : Entity S) (ps : PropertyList) (ns : String) (ex : Extracted),
      extractEntityProperties ns ps = .ok ex → ex.properties = [] →
      loadEntity c env (fuel + 1) e ps ns = (.error .ErrNoMoreProperties, ex.rest)) ∧
    (∀ (fuel budget : Nat) (elem : TypeName) (ns : String) (vs vs1 : List (Entity S))
      (ps ps1 : PropertyList),
      loadSlice (fun l => loadEntity c env fuel (New env elem) l ns) budget vs ps =
        (.ok vs1, ps1) →
      vs1.length ≤ vs.length + countAt ns ps) ∧
    (∀ (fuel : Nat) (elem : TypeName) (ns : String) (vs : List (Entity S))
      (ps : PropertyList), ps.length < fuel →
      (loadSlice (fun l => loadEntity c env fuel (New env elem) l ns) (ps.length + 1) vs
        ps).1 ≠ .error .outOfFuel) := by
  refine ⟨?_, ?_, ?_, ?_, ?_, ?_⟩
  · intro fuel e ps ns h
    exact ⟨loadEntity_fuel c env fuel (ps.length + 1) e ps ns h (Nat.lt_succ_self _),
      loadEntity_fueled c env fuel e ps ns h⟩
  · intro e ps
    exact loadEntity_fueled c env (ps.length + 1) e ps "" (Nat.lt_succ_self _)
  · intro fuel e e1 ps rest ns h
    exact loadEntity_shrinks c env fuel e e1 ps rest ns h
  · intro fuel e ps ns ex hex hnil
    simp only [loadEntity, hex, hnil, List.length_nil, if_true]
  · intro fuel budget elem ns vs vs1 ps ps1 h
    have := loadSlice_count (fun l => loadEntity c env fuel (New env elem) l ns) ns
      (fun l => loadEntity_sublist c env fuel _ l ns)
      (fun l v rest hl => loadEntity_countAt c env fuel _ v l rest ns hl) budget vs vs1 ps ps1 h
    omega
  · intro fuel elem ns vs ps h
    exact loadSlice_fueled (fun l => loadEntity c env fuel (New env elem) l ns) ps.length
      (fun l hl => loadEntity_fueled c env fuel _ l ns (by omega))
      (fun l v rest hl => loadEntity_shrinks c env fuel _ v l rest ns hl)
      (ps.length + 1) vs ps (Nat.le_refl _) (Nat.lt_succ_self _)

/-- C16, an instance: the list of the test file, loaded with fuel 100 and with fuel 4. -/
theorem loadEntity_terminates_witness :
    loadEntity stringCodec testEnv 100 (New testEnv "Post") (serialized ⟨"k"⟩) "" =
      loadEntity stringCodec testEnv ((serialized ⟨"k"⟩).length + 1) (New testEnv "Post")
        (serialized ⟨"k"⟩) "" :=
  ((loadEntity_terminates stringCodec testEnv).1 100 (New testEnv "Post") (serialized ⟨"k"⟩) ""
    (by decide)).1

/-- C20, an instance: after loading a post from a list with one comment row and three
key attributes at `comments`, what is left at `comments` is a key attribute. -/
theorem greedy_grandchildren_witness :
    ∀ p ∈ [({ Name := "comments.id", Value := .key ⟨"k3"⟩, NoIndex := false,
              Multiple := true } : Property)],
      currentNamespace p.Name = qualify "" "comments" → bareName p.Name = "id" :=
  greedy_grandchildren.1 stringCodec blogEnv 6 (New blogEnv "Post")
    (.mk [("text", "hello")]
      [{ Name := "ID", Tag := "primary,id", Value := .String "" },
       { Name := "Comments", Tag := "relation,comments",
         Value := .Slice "Comment" [blogComment "k1" "first" []] }])
    [{ Name := "text", Value := .scalar "hello", NoIndex := true, Multiple := false },
     { Name := "comments.text", Value := .scalar "first", NoIndex := true, Multiple := true },
     { Name := "comments.id", Value := .key ⟨"k1"⟩, NoIndex := false, Multiple := true },
     { Name := "comments.id", Value := .key ⟨"k2"⟩, NoIndex := false, Multiple := true },
     { Name := "comments.id", Value := .key ⟨"k3"⟩, NoIndex := false, Multiple := true }]
    [{ Name := "comments.id", Value := .key ⟨"k3"⟩, NoIndex := false, Multiple := true }]
    "" "comments"
    { Name := "Comments", Tag := "relation,comments", Value := .Slice "Comment" [] }
    "Comment" [] rfl (List.Mem.tail _ (List.Mem.head _)) rfl rfl

/-! ## The `Multiple` flag on load -/

theorem walk_cleared (ns : String) :
    ∀ (todo kept : PropertyList) (key : Option Key) (properties : PropertyList)
      (seen : List String),
      walk ns (todo.map clearMultiple) (kept.map clearMultiple) key
          (properties.map clearMultiple) seen =
        (walk ns todo kept key properties seen).map Extracted.cleared := by
  intro todo
  induction todo with
  | nil => intro kept key properties seen; rfl
  | cons p todo ih =>
    intro kept key properties seen
    have hk := ih (kept ++ [p]) key properties seen
    rw [List.map_append, List.map_singleton] at hk
    rw [List.map_cons, walk, walk]
    have hn : (clearMultiple p).Name = p.Name := rfl
    have hv : (clearMultiple p).Value = p.Value := rfl
    rw [hn, hv]
    by_cases h1 : currentNamespace p.Name = ns
    · by_cases h2 : bareName p.Name ∈ seen
      · simp only [h1, if_true, h2, not_true_eq_false, if_false]
        exact hk
      · by_cases h3 : bareName p.Name = "id"
        · have h2i : "id" ∉ seen := h3 ▸ h2
          by_cases h4 : key = none
          · cases hpv : p.Value with
            | key k =>
              simp only [h1, if_true, h2, h2i, not_false_eq_true, h3, h4]
              exact ih kept (some k) properties ("id" :: seen)
            | scalar s =>
              simp only [h1, if_true, h2, h2i, not_false_eq_true, h3, h4]
              rfl
          · simp only [h1, if_true, h2, h2i, not_false_eq_true, h3, h4, if_false]
            exact ih kept key properties ("id" :: seen)
        · simp only [h1, if_true, h2, not_false_eq_true, h3, if_false]
          have := ih kept key (properties ++ [{ p with Name := bareName p.Name }])
            (bareName p.Name :: seen)
          rw [List.map_append, List.map_singleton] at this
          exact this
    · simp only [h1, if_false]
      exact hk

theorem extract_cleared (ns : String) (ps : PropertyList) :
    extractEntityProperties ns (ps.map clearMultiple) =
      (extractEntityProperties ns ps).map Extracted.cleared := by
  rw [extractEntityProperties_eq_walk, extractEntityProperties_eq_walk]
  exact walk_cleared ns ps [] none [] []

theorem loadSlice_cleared {S : Type}
    (load1 load2 : PropertyList → Except Error (Entity S) × PropertyList)
    (h : ∀ l, load1 (l.map clearMultiple) = ((load2 l).1, (load2 l).2.map clearMultiple)) :
    ∀ (budget : Nat) (vs : List (Entity S)) (ps : PropertyList),
      loadSlice load1 budget vs (ps.map clearMultiple) =
        ((loadSlice load2 budget vs ps).1, (loadSlice load2 budget vs ps).2.map clearMultiple) := by
  intro budget
  induction budget with
  | zero => intro vs ps; rfl
  | succ budget ih =>
    intro vs ps
    rw [loadSlice, loadSlice, h ps]
    cases hl : load2 ps with
    | mk r l =>
      cases r with
      | ok v => exact ih _ _
      | error err => cases err <;> rfl

theorem loadField_cleared {S : Type} (env : TypeEnv S)
    (load1 load2 : Entity S → PropertyList → String → Except Error (Entity S) × PropertyList)
    (h : ∀ e l ns1, load1 e (l.map clearMultiple) ns1 =
      ((load2 e l ns1).1, (load2 e l ns1).2.map clearMultiple))
    (ns : String) (f : Field (Entity S)) (ps : PropertyList) :
    loadField env load1 ns f (ps.map clearMultiple) =
      ((loadField env load2 ns f ps).1, (loadField env load2 ns f ps).2.map clearMultiple) := by
  rw [loadField_eq, loadField_eq]
  cases tagOK f with
  | false => rfl
  | true =>
    simp only [Bool.true_eq_false, if_false]
    cases tagArg annotationRelation f with
    | none => rfl
    | some seg =>
      simp only [loadRelation]
      cases hv : f.Value with
      | String s => rfl
      | Other => rfl
      | Ptr elem v =>
        cases v with
        | some ch => rfl
        | none =>
          simp only [h]
          cases hl : load2 (New env elem) ps (qualify ns seg) with
          | mk r l =>
            cases r with
            | ok v => rfl
            | error err => cases err <;> rfl
      | Slice elem vs =>
        simp only [List.length_map]
        rw [loadSlice_cleared _ (fun l => load2 (New env elem) l (qualify ns seg))
          (fun l => h _ l _)]
        cases hl : loadSlice (fun l => load2 (New env elem) l (qualify ns seg))
            (ps.length + 1) vs ps with
        | mk r l =>
          cases r with
          | ok v => rfl
          | error err => rfl

theorem loadFields_cleared {S : Type} (env : TypeEnv S)
    (load1 load2 : Entity S → PropertyList → String → Except Error (Entity S) × PropertyList)
    (h : ∀ e l ns1, load1 e (l.map clearMultiple) ns1 =
      ((load2 e l ns1).1, (load2 e l ns1).2.map clearMultiple))
    (ns : String) :
    ∀ (fs : List (Field (Entity S))) (ps : PropertyList),
      loadFields env load1 ns fs (ps.map clearMultiple) =
        ((loadFields env load2 ns fs ps).1,
         (loadFields env load2 ns fs ps).2.map clearMultiple) := by
  intro fs
  induction fs with
  | nil => intro ps; rfl
  | cons f fs ih =>
    intro ps
    rw [loadFields, loadFields, loadField_cleared env load1 load2 h ns f ps]
    cases hl : loadField env load2 ns f ps with
    | mk r l =>
      cases r with
      | error err => rfl
      | ok f1 =>
        simp only
        rw [ih l]
        cases hl2 : loadFields env load2 ns fs l with
        | mk r2 l2 =>
          cases r2 with
          | ok fs1 => rfl
          | error err => rfl

/-- Loading with a codec `c2` from a list with cleared flags is loading with `c` from the
list itself, when `c2` and `c` encode keys alike and load alike from attributes whose
flag is cleared. -/
theorem loadEntity_cleared {S : Type} (c c2 : Codec S) (env : TypeEnv S)
    (henc : c2.Encode = c.Encode)
    (hload : ∀ s l, (∀ p ∈ l, p.Multiple = false) → c2.LoadStruct s l = c.LoadStruct s l) :
    ∀ (fuel : Nat) (e : Entity S) (ps : PropertyList) (ns : String),
      loadEntity c2 env fuel e (ps.map clearMultiple) ns =
        ((loadEntity c env fuel e ps ns).1,
         (loadEntity c env fuel e ps ns).2.map clearMultiple) := by
  intro fuel
  induction fuel with
  | zero => intro e ps ns; rfl
  | succ fuel ih =>
    intro e ps ns
    rw [loadEntity, loadEntity, extract_cleared]
    cases hex : extractEntityProperties ns ps with
    | error err => rfl
    | ok ex =>
      simp only [Except.map, Extracted.cleared, List.length_map]
      by_cases hlen : ex.properties.length = 0
      · simp only [hlen, if_true]
      · simp only [hlen, if_false, List.map_map]
        have hcl : ((fun property : Property => { property with Multiple := false }) ∘
            clearMultiple) = fun property : Property => { property with Multiple := false } := by
          funext p; rfl
        rw [hcl, hload e.scalars _ (by
          intro p hp
          obtain ⟨q, _, rfl⟩ := List.mem_map.1 hp
          rfl)]
        cases c.LoadStruct e.scalars
            (ex.properties.map fun property => { property with Multiple := false }) with
        | error err => rfl
        | ok scalars =>
          simp only
          have hw : withID c2 ex.key e.fields = withID c ex.key e.fields := by
            simp only [withID, henc]
          rw [hw]
          cases withID c ex.key e.fields with
          | none => rfl
          | some fields =>
            simp only
            rw [loadFields_cleared env (loadEntity c2 env fuel) (loadEntity c env fuel) ih ns
              fields ex.rest]
            cases hl2 : loadFields env (loadEntity c env fuel) ns fields ex.rest with
            | mk r2 l2 =>
              cases r2 with
              | ok fs1 => rfl
              | error err => rfl

theorem LoadEntity_cleared {S : Type} (c c2 : Codec S) (env : TypeEnv S)
    (henc : c2.Encode = c.Encode)
    (hload : ∀ s l, (∀ p ∈ l, p.Multiple = false) → c2.LoadStruct s l = c.LoadStruct s l)
    (e : Entity S) (ps : PropertyList) :
    LoadEntity c2 env e (ps.map clearMultiple) = LoadEntity c env e ps := by
  simp only [LoadEntity, List.length_map,
    loadEntity_cleared c c2 env henc hload (ps.length + 1) e ps ""]

theorem map_clearMultiple_eq :
    ∀ ps1 ps2 : PropertyList,
      List.Forall₂ (fun p q : Property =>
        p.Name = q.Name ∧ p.Value = q.Value ∧ p.NoIndex = q.NoIndex) ps1 ps2 →
      ps1.map clearMultiple = ps2.map clearMultiple := by
  intro ps1 ps2 h
  induction h with
  | nil => rfl
  | cons hpq _ ih =>
    rename_i p q l1 l2
    obtain ⟨h1, h2, h3⟩ := hpq
    rw [List.map_cons, List.map_cons, ih]
    congr 1
    simp only [clearMultiple, h1, h2, h3]

/-- C17. Reconstruction does not trust the `Multiple` flag: two attribute lists that
differ only in the `Multiple` flags of their attributes give the same outcome of
`LoadEntity`, error or entity graph; and the scalar codec is only handed attributes whose
flag is cleared, so a codec that behaves like `c` on such attributes gives the same
outcome as `c` on every list. -/
theorem multiple_not_trusted {S : Type} (c : Codec S) (env : TypeEnv S) :
    (∀ (e : Entity S) (ps1 ps2 : PropertyList),
      List.Forall₂ (fun p q : Property =>
        p.Name = q.Name ∧ p.Value = q.Value ∧ p.NoIndex = q.NoIndex) ps1 ps2 →
      LoadEntity c env e ps1 = LoadEntity c env e ps2) ∧
    (∀ c2 : Codec S, c2.Encode = c.Encode →
      (∀ s l, (∀ p ∈ l, p.Multiple = false) → c2.LoadStruct s l = c.LoadStruct s l) →
      ∀ (e : Entity S) (ps : PropertyList), LoadEntity c2 env e ps = LoadEntity c env e ps) := by
  constructor
  · intro e ps1 ps2 h
    rw [← LoadEntity_cleared c c env rfl (fun _ _ _ => rfl) e ps1,
      ← LoadEntity_cleared c c env rfl (fun _ _ _ => rfl) e ps2, map_clearMultiple_eq ps1 ps2 h]
  · intro c2 henc hload e ps
    rw [← LoadEntity_cleared c c2 env henc hload e ps,
      LoadEntity_cleared c2 c2 env rfl (fun _ _ _ => rfl) e ps]

/-- C17, an instance: the list of the test file and the same list with every flag
inverted. -/
theorem multiple_not_trusted_witness :
    LoadEntity stringCodec testEnv (New testEnv "Post") (serialized ⟨"k"⟩) =
      LoadEntity stringCodec testEnv (New testEnv "Post")
        [{ Name := "text", Value := .scalar "My post", NoIndex := true, Multiple := true },
         { Name := "comments.text", Value := .scalar "My comment", NoIndex := true,
           Multiple := false },
         { Name := "comments.id", Value := .key ⟨"k"⟩, NoIndex := false, Multiple := false }] :=
  (multiple_not_trusted stringCodec testEnv).1 (New testEnv "Post") _ _
    (List.Forall₂.cons ⟨rfl, rfl, rfl⟩ (List.Forall₂.cons ⟨rfl, rfl, rfl⟩
      (List.Forall₂.cons ⟨rfl, rfl, rfl⟩ List.Forall₂.nil)))

/-! ## Index arithmetic of the extraction loop -/

theorem extractStep_cases (ns : String) (st st1 : ExtractState) (i : Nat)
    (h : extractStep ns st i = .ok st1) :
    (st1.ps = st.ps ∧ st1.deleted = st.deleted) ∨
    (st1.ps = st.ps.take ((i : Int) - st.deleted).toNat ++
        st.ps.drop (((i : Int) - st.deleted).toNat + 1) ∧
      st1.deleted = st.deleted + 1) := by
  unfold extractStep at h
  simp only at h
  by_cases h0 : (i : Int) - st.deleted < 0
  · simp [h0] at h
  · simp only [h0, if_false] at h
    cases hget : st.ps[((i : Int) - st.deleted).toNat]? with
    | none => simp [hget] at h
    | some property =>
      simp only [hget] at h
      by_cases h1 : currentNamespace property.Name = ns
      · by_cases h2 : bareName property.Name ∈ st.propertyMap
        · simp only [h1, if_true, h2, not_true_eq_false, if_false, Except.ok.injEq] at h
          subst h
          exact Or.inl ⟨rfl, rfl⟩
        · by_cases h3 : bareName property.Name = "id"
          · have h2i : "id" ∉ st.propertyMap := h3 ▸ h2
            by_cases h4 : st.key = none
            · cases hv : property.Value with
              | key k =>
                simp only [h1, if_true, h2, h2i, not_false_eq_true, h3, h4, hv,
                  Except.ok.injEq] at h
                subst h
                exact Or.inr ⟨rfl, rfl⟩
              | scalar s =>
                simp [h1, h2, h2i, h3, h4, hv] at h
            · simp only [h1, if_true, h2, h2i, not_false_eq_true, h3, h4, if_false,
                Except.ok.injEq] at h
              subst h
              exact Or.inr ⟨rfl, rfl⟩
          · simp only [h1, if_true, h2, not_false_eq_true, h3, if_false, Except.ok.injEq] at h
            subst h
            exact Or.inr ⟨rfl, rfl⟩
      · simp only [h1, if_false, Except.ok.injEq] at h
        subst h
        exact Or.inl ⟨rfl, rfl⟩

theorem extract_invariant (ns : String) (ps : PropertyList) :
    ∀ (i : Nat) (st : ExtractState), i ≤ ps.length →
      (List.range i).foldlM (extractStep ns) (extractInit ps) = .ok st →
      0 ≤ st.deleted ∧ st.deleted ≤ i ∧ (st.ps.length : Int) = ps.length - st.deleted := by
  intro i
  induction i with
  | zero =>
    intro st _ h
    simp only [List.range_zero, List.foldlM_nil, pure, Except.pure, Except.ok.injEq] at h
    subst h
    simp [extractInit]
  | succ i ih =>
    intro st hi h
    rw [List.range_succ, List.foldlM_append] at h
    cases h0 : (List.range i).foldlM (extractStep ns) (extractInit ps) with
    | error err => simp [h0, bind, Except.bind] at h
    | ok st0 =>
      simp only [h0, bind, Except.bind, List.foldlM_cons, List.foldlM_nil, pure, Except.pure] at h
      obtain ⟨a, b, d⟩ := ih st0 (by omega) h0
      have hstep : extractStep ns st0 i = .ok st := by
        cases hs : extractStep ns st0 i with
        | error err => simp [hs] at h
        | ok st2 => simp only [hs, Except.ok.injEq] at h; rw [h]
      rcases extractStep_cases ns st0 st i hstep with ⟨h1, h2⟩ | ⟨h1, h2⟩
      · rw [h1, h2]
        refine ⟨a, by push_cast; omega, d⟩
      · rw [h1, h2]
        have hj : ((i : Int) - st0.deleted).toNat < st0.ps.length := by
          have : (((i : Int) - st0.deleted).toNat : Int) = (i : Int) - st0.deleted :=
            Int.toNat_of_nonneg (by omega)
          omega
        refine ⟨by omega, by push_cast; omega, ?_⟩
        simp only [List.length_append, List.length_take, List.length_drop]
        push_cast
        omega

theorem extractStep_error (ns : String) (st : ExtractState) (i : Nat) (err : Error)
    (hj : 0 ≤ (i : Int) - st.deleted) (hlt : ((i : Int) - st.deleted).toNat < st.ps.length)
    (h : extractStep ns st i = .error err) :
    ∃ property s, st.ps[((i : Int) - st.deleted).toNat]? = some property ∧
      bareName property.Name = "id" ∧ property.Value = .scalar s := by
  unfold extractStep at h
  simp only at h
  have h0 : ¬ (i : Int) - st.deleted < 0 := by omega
  simp only [h0, if_false] at h
  cases hget : st.ps[((i : Int) - st.deleted).toNat]? with
  | none =>
    rw [List.getElem?_eq_none_iff] at hget
    omega
  | some property =>
    simp only [hget] at h
    by_cases h1 : currentNamespace property.Name = ns
    · by_cases h2 : bareName property.Name ∈ st.propertyMap
      · simp [h1, h2] at h
      · by_cases h3 : bareName property.Name = "id"
        · have h2i : "id" ∉ st.propertyMap := h3 ▸ h2
          by_cases h4 : st.key = none
          · cases hv : property.Value with
            | key k => simp [h1, h2, h2i, h3, h4, hv] at h
            | scalar s => exact ⟨property, s, rfl, h3, hv⟩
          · simp [h1, h2, h2i, h3, h4] at h
        · simp [h1, h2, h3] at h
    · simp [h1] at h

/-- C18. Index safety of the removal loop of `extractEntityProperties`: the loop runs over
the indices `0..n-1` of the list as it was on entry; after `i < n` iterations the list
holds `n - deleted` attributes with `0 ≤ deleted ≤ i`, so the index that iteration `i`
reads, `j = i - deleted`, satisfies `0 ≤ j < current length`: the read at `j` finds an
attribute, the removal at `j` leaves a list one shorter, and the only way iteration `i`
can fail is the assertion of an `id` payload that is not a key. -/
theorem extract_index_safe (ns : String) (ps : PropertyList) (i : Nat) (st : ExtractState)
    (hi : i < ps.length)
    (h : (List.range i).foldlM (extractStep ns) (extractInit ps) = .ok st) :
    extractEntityProperties ns ps =
      finish ((List.range ps.length).foldlM (extractStep ns) (extractInit ps)) ∧
    0 ≤ st.deleted ∧ st.deleted ≤ i ∧ (st.ps.length : Int) = ps.length - st.deleted ∧
    0 ≤ (i : Int) - st.deleted ∧ ((i : Int) - st.deleted).toNat < st.ps.length ∧
    st.ps[((i : Int) - st.deleted).toNat]? ≠ none ∧
    (st.ps.take ((i : Int) - st.deleted).toNat ++
      st.ps.drop (((i : Int) - st.deleted).toNat + 1)).length + 1 = st.ps.length ∧
    (∀ err, extractStep ns st i = .error err →
      ∃ property s, st.ps[((i : Int) - st.deleted).toNat]? = some property ∧
        bareName property.Name = "id" ∧ property.Value = .scalar s) := by
  obtain ⟨a, b, d⟩ := extract_invariant ns ps i st (by omega) h
  have hj : 0 ≤ (i : Int) - st.deleted := by omega
  have hlt : ((i : Int) - st.deleted).toNat < st.ps.length := by
    have : (((i : Int) - st.deleted).toNat : Int) = (i : Int) - st.deleted :=
      Int.toNat_of_nonneg hj
    omega
  refine ⟨rfl, a, b, d, hj, hlt, ?_, ?_, fun err herr => extractStep_error ns st i err hj hlt herr⟩
  · rw [ne_eq, List.getElem?_eq_none_iff]
    omega
  · simp only [List.length_append, List.length_take, List.length_drop]
    omega

/-- C18, an instance: the list of the test file at `comments`, before the third
iteration: one attribute is gone, the list holds `3 - 1` attributes and the loop reads
index `2 - 1`. -/
theorem extract_index_safe_witness :
    (([{ Name := "text", Value := .scalar "My post", NoIndex := true, Multiple := false },
       { Name := "comments.id", Value := .key ⟨"k"⟩, NoIndex := false, Multiple := true }] :
        PropertyList).length : Int) = ((serialized ⟨"k"⟩).length : Int) - 1 :=
  (extract_index_safe "comments" (serialized ⟨"k"⟩) 2
    { ps := [{ Name := "text", Value := .scalar "My post", NoIndex := true, Multiple := false },
             { Name := "comments.id", Value := .key ⟨"k"⟩, NoIndex := false, Multiple := true }],
      key := none,
      properties := [{ Name := "text", Value := .scalar "My comment", NoIndex := true,
                       Multiple := true }],
      propertyMap := ["text"], deleted := 1 }
    (by decide) rfl).2.2.2.1

/-! ## The `Multiple` flag on save -/

theorem traceSlice_erase {S : Type} (trace : Entity S → Except Error (List Traced))
    (save : Entity S → Except Error PropertyList) (h : ∀ e, erase (trace e) = save e) :
    ∀ (vs : List (Entity S)) (acc : List Traced),
      erase (traceSlice trace vs acc) = saveSlice save vs (acc.map Prod.fst) := by
  intro vs
  induction vs with
  | nil => intro acc; rfl
  | cons v vs ih =>
    intro acc
    rw [traceSlice, saveSlice, ← h v]
    cases trace v with
    | error err => rfl
    | ok tr =>
      simp only [erase, Except.map]
      have := ih (acc ++ tr)
      rw [List.map_append] at this
      exact this

theorem traceField_erase {S : Type} (c : Codec S)
    (trace : Entity S → String → Bool → List (String × Bool) → Except Error (List Traced))
    (save : Entity S → String → Bool → Except Error PropertyList)
    (h : ∀ e ns m path, erase (trace e ns m path) = save e ns m)
    (ns : String) (multiple : Bool) (path : List (String × Bool)) (f : Field (Entity S))
    (acc : List Traced) :
    erase (traceField c trace ns multiple path f acc) =
      saveField c save ns multiple f (acc.map Prod.fst) := by
  unfold traceField saveField
  by_cases ht : f.Tag = ""
  · simp only [ht, if_true]; rfl
  · simp only [ht, if_false]
    cases Split f.Tag ',' with
    | nil => rfl
    | cons a l =>
      cases l with
      | nil => rfl
      | cons b l =>
        simp only
        by_cases hp : a = annotationPrimary
        · simp only [hp, if_true, tracePrimary, savePrimary]
          cases f.Value with
          | String id =>
            simp only
            by_cases hc : id ≠ "" ∧ ns ≠ ""
            · rw [if_pos hc, if_pos hc]
              cases c.DecodeKey id with
              | error err => rfl
              | ok key => simp [erase, Except.map]
            · rw [if_neg hc, if_neg hc]; rfl
          | Ptr elem v => rfl
          | Slice elem vs => rfl
          | Other => rfl
        · simp only [hp, if_false]
          by_cases hr : a = annotationRelation
          · simp only [hr, if_true, traceRelation, saveRelation]
            cases f.Value with
            | String id => rfl
            | Other => rfl
            | Ptr elem v =>
              cases v with
              | none => rfl
              | some ch =>
                simp only
                rw [← h ch (qualify ns b) multiple (path ++ [(b, false)])]
                cases trace ch (qualify ns b) multiple (path ++ [(b, false)]) with
                | error err => rfl
                | ok tr => simp [erase, Except.map]
            | Slice elem vs =>
              exact traceSlice_erase _ _ (fun e => h e (qualify ns b) true _) vs acc
          · simp only [hr, if_false]; rfl

theorem traceFields_erase {S : Type} (c : Codec S)
    (trace : Entity S → String → Bool → List (String × Bool) → Except Error (List Traced))
    (save : Entity S → String → Bool → Except Error PropertyList)
    (h : ∀ e ns m path, erase (trace e ns m path) = save e ns m)
    (ns : String) (multiple : Bool) (path : List (String × Bool)) :
    ∀ (fs : List (Field (Entity S))) (acc : List Traced),
      erase (traceFields c trace ns multiple path fs acc) =
        saveFields c save ns multiple fs (acc.map Prod.fst) := by
  intro fs
  induction fs with
  | nil => intro acc; rfl
  | cons f fs ih =>
    intro acc
    rw [traceFields, saveFields, ← traceField_erase c trace save h ns multiple path f acc]
    cases traceField c trace ns multiple path f acc with
    | error err => rfl
    | ok tr =>
      simp only [erase, Except.map]
      exact ih tr

/-- Forgetting the paths gives `saveEntityAux`. -/
theorem traceEntityAux_erase {S : Type} (c : Codec S) :
    ∀ (left : Nat) (e : Entity S) (ns : String) (multiple : Bool) (path : List (String × Bool)),
      erase (traceEntityAux c left e ns multiple path) = saveEntityAux c left e ns multiple := by
  intro left
  induction left with
  | zero => intro e ns multiple path; rfl
  | succ left ih =>
    intro e ns multiple path
    rw [traceEntityAux, saveEntityAux]
    cases c.SaveStruct e.scalars with
    | error err => rfl
    | ok ps =>
      simp only
      rw [traceFields_erase c (traceEntityAux c left) (saveEntityAux c left) ih ns multiple path
        e.fields, List.map_map]
      rfl

theorem traceSlice_flagged {S : Type} (trace : Entity S → Except Error (List Traced))
    (h : ∀ e tr, trace e = .ok tr → ∀ x ∈ tr, flagged x) :
    ∀ (vs : List (Entity S)) (acc out : List Traced), (∀ x ∈ acc, flagged x) →
      traceSlice trace vs acc = .ok out → ∀ x ∈ out, flagged x := by
  intro vs
  induction vs with
  | nil =>
    intro acc out hacc ho
    simp only [traceSlice, Except.ok.injEq] at ho
    rw [← ho]
    exact hacc
  | cons v vs ih =>
    intro acc out hacc ho
    rw [traceSlice] at ho
    cases hv : trace v with
    | error err => simp [hv] at ho
    | ok tr =>
      rw [hv] at ho
      refine ih (acc ++ tr) out ?_ ho
      intro x hx
      rcases List.mem_append.1 hx with hx | hx
      · exact hacc x hx
      · exact h v tr hv x hx

theorem traceField_flagged {S : Type} (c : Codec S)
    (trace : Entity S → String → Bool → List (String × Bool) → Except Error (List Traced))
    (h : ∀ e ns1 m path1 tr, m = throughRepeated path1 →
      ns1 = descend "" (path1.map Prod.fst) → trace e ns1 m path1 = .ok tr →
      ∀ x ∈ tr, flagged x)
    (ns : String) (multiple : Bool) (path : List (String × Bool))
    (hm : multiple = throughRepeated path) (hns : ns = descend "" (path.map Prod.fst))
    (f : Field (Entity S)) (acc out : List Traced) (hacc : ∀ x ∈ acc, flagged x)
    (ho : traceField c trace ns multiple path f acc = .ok out) : ∀ x ∈ out, flagged x := by
  unfold traceField at ho
  by_cases ht : f.Tag = ""
  · simp only [ht, if_true, Except.ok.injEq] at ho
    rw [← ho]; exact hacc
  · simp only [ht, if_false] at ho
    cases hs : Split f.Tag ',' with
    | nil => simp [hs] at ho
    | cons a l =>
      cases l with
      | nil => simp [hs] at ho
      | cons b l =>
        simp only [hs] at ho
        by_cases hp : a = annotationPrimary
        · simp only [hp, if_true, tracePrimary] at ho
          cases hv : f.Value with
          | String id =>
            simp only [hv] at ho
            by_cases hc : id ≠ "" ∧ ns ≠ ""
            · rw [if_pos hc] at ho
              cases hd : c.DecodeKey id with
              | error err => simp [hd] at ho
              | ok key =>
                simp only [hd, Except.ok.injEq] at ho
                rw [← ho]
                intro x hx
                rcases List.mem_append.1 hx with hx | hx
                · exact hacc x hx
                · simp only [List.mem_singleton] at hx
                  subst hx
                  exact ⟨hm, "id", by rw [hns]⟩
            · rw [if_neg hc] at ho
              simp only [Except.ok.injEq] at ho
              rw [← ho]; exact hacc
          | Ptr elem v => simp [hv] at ho
          | Slice elem vs => simp [hv] at ho
          | Other => simp [hv] at ho
        · simp only [hp, if_false] at ho
          by_cases hr : a = annotationRelation
          · simp only [hr, if_true, traceRelation] at ho
            have hq1 : ∀ k : Bool, qualify ns b = descend "" ((path ++ [(b, k)]).map Prod.fst) := by
              intro k
              rw [List.map_append, List.map_singleton, descend_snoc, hns]
            cases hv : f.Value with
            | String id =>
              simp only [hv, Except.ok.injEq] at ho
              rw [← ho]; exact hacc
            | Other =>
              simp only [hv, Except.ok.injEq] at ho
              rw [← ho]; exact hacc
            | Ptr elem v =>
              cases v with
              | none =>
                simp only [hv, Except.ok.injEq] at ho
                rw [← ho]; exact hacc
              | some ch =>
                simp only [hv] at ho
                cases hc : trace ch (qualify ns b) multiple (path ++ [(b, false)]) with
                | error err => simp [hc] at ho
                | ok tr =>
                  simp only [hc, Except.ok.injEq] at ho
                  rw [← ho]
                  intro x hx
                  rcases List.mem_append.1 hx with hx | hx
                  · exact hacc x hx
                  · refine h ch _ multiple _ tr ?_ (hq1 false) hc x hx
                    simp [throughRepeated, hm]
            | Slice elem vs =>
              simp only [hv] at ho
              refine traceSlice_flagged _ ?_ vs acc out hacc ho
              intro e tr he
              refine h e _ true _ tr ?_ (hq1 true) he
              simp [throughRepeated]
          · simp only [hr, if_false, Except.ok.injEq] at ho
            rw [← ho]; exact hacc

theorem traceFields_flagged {S : Type} (c : Codec S)
    (trace : Entity S → String → Bool → List (String × Bool) → Except Error (List Traced))
    (h : ∀ e ns1 m path1 tr, m = throughRepeated path1 →
      ns1 = descend "" (path1.map Prod.fst) → trace e ns1 m path1 = .ok tr →
      ∀ x ∈ tr, flagged x)
    (ns : String) (multiple : Bool) (path : List (String × Bool))
    (hm : multiple = throughRepeated path) (hns : ns = descend "" (path.map Prod.fst)) :
    ∀ (fs : List (Field (Entity S))) (acc out : List Traced), (∀ x ∈ acc, flagged x) →
      traceFields c trace ns multiple path fs acc = .ok out → ∀ x ∈ out, flagged x := by
  intro fs
  induction fs with
  | nil =>
    intro acc out hacc ho
    simp only [traceFields, Except.ok.injEq] at ho
    rw [← ho]; exact hacc
  | cons f fs ih =>
    intro acc out hacc ho
    rw [traceFields] at ho
    cases hf : traceField c trace ns multiple path f acc with
    | error err => simp [hf] at ho
    | ok tr =>
      rw [hf] at ho
      exact ih tr out (traceField_flagged c trace h ns multiple path hm hns f acc tr hacc hf) ho

theorem traceEntityAux_flagged {S : Type} (c : Codec S) :
    ∀ (left : Nat) (e : Entity S) (ns : String) (multiple : Bool) (path : List (String × Bool))
      (tr : List Traced), multiple = throughRepeated path →
      ns = descend "" (path.map Prod.fst) → traceEntityAux c left e ns multiple path = .ok tr →
      ∀ x ∈ tr, flagged x := by
  intro left
  induction left with
  | zero =>
    intro e ns multiple path tr _ _ h
    simp only [traceEntityAux, Except.ok.injEq] at h
    rw [← h]; simp
  | succ left ih =>
    intro e ns multiple path tr hm hns h
    rw [traceEntityAux] at h
    cases hs : c.SaveStruct e.scalars with
    | error err => simp [hs] at h
    | ok ps =>
      simp only [hs] at h
      refine traceFields_flagged c (traceEntityAux c left) ih ns multiple path hm hns e.fields
        _ tr ?_ h
      intro x hx
      obtain ⟨p, _, rfl⟩ := List.mem_map.1 hx
      exact ⟨hm, p.Name, by rw [hns]⟩

/-- C12. Multiplicity is sticky: pair every attribute of the output of `SaveEntity` with
the path of relations from the root to the entity that produced it (forgetting the paths
gives back `SaveEntity`, error or list); then an attribute, scalar or key, has
`Multiple = true` if and only if its path passes through a repeated relation, and its
name lies in the namespace spelled by the segments of the path. In particular root
attributes and attributes reached through single relations only have the flag false,
and everything below a repeated relation has it true. -/
theorem multiplicity_sticky {S : Type} (c : Codec S) (e : Entity S) :
    erase (traceEntity c e) = SaveEntity c e ∧
    ∀ tr, traceEntity c e = .ok tr → ∀ x ∈ tr,
      (x.1.Multiple = true ↔ ∃ step ∈ x.2, step.2 = true) ∧
      ∃ b, x.1.Name = qualify (descend "" (x.2.map Prod.fst)) b := by
  refine ⟨traceEntityAux_erase c 3 e "" false [], ?_⟩
  intro tr h x hx
  obtain ⟨h1, h2⟩ := traceEntityAux_flagged c 3 e "" false [] tr rfl rfl h x hx
  refine ⟨?_, h2⟩
  rw [h1, throughRepeated, List.any_eq_true]

/-- C12, an instance: in the output for the example post the text of the reply, reached
through `comments` and `replies`, has the flag set. -/
theorem multiplicity_sticky_witness :
    (({ Name := "comments.replies.text", Value := .scalar "reply", NoIndex := true,
        Multiple := true } : Property).Multiple = true ↔
      ∃ step ∈ [("comments", true), ("replies", true)], step.2 = true) :=
  ((multiplicity_sticky stringCodec blogPost).2
    [({ Name := "text", Value := .scalar "hello", NoIndex := true, Multiple := false }, []),
     ({ Name := "comments.text", Value := .scalar "first", NoIndex := true, Multiple := true },
       [("comments", true)]),
     ({ Name := "comments.id", Value := .key ⟨"k1"⟩, NoIndex := false, Multiple := true },
       [("comments", true)]),
     ({ Name := "comments.replies.text", Value := .scalar "reply", NoIndex := true,
        Multiple := true }, [("comments", true), ("replies", true)]),
     ({ Name := "comments.replies.id", Value := .key ⟨"r1"⟩, NoIndex := false,
        Multiple := true }, [("comments", true), ("replies", true)]),
     ({ Name := "comments.text", Value := .scalar "second", NoIndex := true, Multiple := true },
       [("comments", true)])]
    rfl
    ({ Name := "comments.replies.text", Value := .scalar "reply", NoIndex := true,
       Multiple := true }, [("comments", true), ("replies", true)])
    (by decide)).1

/-! ## Order of the output of `saveEntity` -/

theorem savePrimary_ok_iff {S : Type} (c : Codec S) (ns : String) (multiple : Bool)
    (f : Field (Entity S)) (a : String) (ha : tagArg annotationPrimary f = some a)
    (o : PropertyList) :
    savePrimary c ns multiple f [] = .ok o ↔
      (∃ id, f.Value = .String id ∧ (id ≠ "" → ns ≠ "" → ∃ k, c.DecodeKey id = .ok k)) ∧
      o = keyProperty c ns multiple f := by
  unfold savePrimary keyProperty
  rw [ha]
  cases hv : f.Value with
  | String id =>
    simp only [FieldValue.String.injEq, exists_eq_left']
    by_cases hc : id ≠ "" ∧ ns ≠ ""
    · rw [if_pos hc, if_pos hc]
      cases hd : c.DecodeKey id with
      | error err =>
        constructor
        · intro h; cases h
        · rintro ⟨h, _⟩
          obtain ⟨k, hk⟩ := h hc.1 hc.2
          cases hk
      | ok key =>
        simp only [List.nil_append, Except.ok.injEq, idProperty]
        constructor
        · intro h; exact ⟨fun _ _ => ⟨key, rfl⟩, h.symm⟩
        · intro h; exact h.2.symm
    · rw [if_neg hc, if_neg hc]
      simp only [Except.ok.injEq]
      constructor
      · intro h
        refine ⟨fun h1 h2 => absurd ⟨h1, h2⟩ hc, h.symm⟩
      · intro h; exact h.2.symm
  | Ptr elem v => simp
  | Slice elem vs => simp
  | Other => simp

theorem saveRelation_ok_iff {S : Type}
    (save : Entity S → String → Bool → Except Error PropertyList) (ns : String)
    (multiple : Bool) (seg : String) (f : Field (Entity S)) (o : PropertyList) :
    saveRelation save ns multiple seg f [] = .ok o ↔
      ∃ os, List.Forall₂ (fun ch oc =>
          save ch (qualify ns seg) (childMultiple multiple f.Value) = .ok oc)
        f.Value.children os ∧ o = os.flatten := by
  unfold saveRelation
  cases hv : f.Value with
  | String id =>
    simp only [FieldValue.children, Except.ok.injEq, List.forall₂_nil_left_iff,
      exists_eq_left, List.flatten_nil]
    exact eq_comm
  | Other =>
    simp only [FieldValue.children, Except.ok.injEq, List.forall₂_nil_left_iff,
      exists_eq_left, List.flatten_nil]
    exact eq_comm
  | Ptr elem v =>
    cases v with
    | none =>
      simp only [FieldValue.children, Except.ok.injEq, List.forall₂_nil_left_iff,
        exists_eq_left, List.flatten_nil]
      exact eq_comm
    | some ch =>
      simp only [FieldValue.children, childMultiple]
      constructor
      · intro h
        cases hs : save ch (qualify ns seg) multiple with
        | error err => simp [hs] at h
        | ok oc =>
          simp only [hs, List.nil_append, Except.ok.injEq] at h
          exact ⟨[oc], List.Forall₂.cons hs List.Forall₂.nil, by simp [h]⟩
      · rintro ⟨os, hall, rfl⟩
        cases hall with
        | cons h1 h2 =>
          cases h2
          simp [h1]
  | Slice elem vs =>
    simp only [FieldValue.children, childMultiple]
    exact saveSlice_ok_iff _ vs o

/-- One pass of the field loop succeeds with output `o` exactly when `fieldOutput`
holds. -/
theorem saveField_ok_iff {S : Type} (c : Codec S)
    (save : Entity S → String → Bool → Except Error PropertyList) (ns : String)
    (multiple : Bool) (f : Field (Entity S)) (o : PropertyList) :
    saveField c save ns multiple f [] = .ok o ↔ fieldOutput c save ns multiple f o := by
  rw [saveField_eq, fieldOutput]
  cases ht : tagOK f with
  | false => simp
  | true =>
    simp only [Bool.true_eq_false, if_false, true_and]
    cases hp : tagArg annotationPrimary f with
    | some a => exact savePrimary_ok_iff c ns multiple f a hp o
    | none =>
      simp only
      cases hr : tagArg annotationRelation f with
      | some seg => exact saveRelation_ok_iff save ns multiple seg f o
      | none =>
        simp only [Except.ok.injEq]
        exact eq_comm

theorem keyProperty_of_not_primary {S : Type} (c : Codec S) (ns : String) (multiple : Bool)
    (f : Field (Entity S)) (h : tagArg annotationPrimary f = none) :
    keyProperty c ns multiple f = [] := by
  simp only [keyProperty, h]

theorem forall₂_append_left {α β : Type} {R : α → β → Prop} :
    ∀ (l1 l2 : List α) (l : List β), List.Forall₂ R (l1 ++ l2) l →
      ∃ k1 k2, l = k1 ++ k2 ∧ List.Forall₂ R l1 k1 ∧ List.Forall₂ R l2 k2 := by
  intro l1
  induction l1 with
  | nil => intro l2 l h; exact ⟨[], l, rfl, List.Forall₂.nil, h⟩
  | cons a l1 ih =>
    intro l2 l h
    rw [List.cons_append] at h
    cases h with
    | cons hab hrest =>
      obtain ⟨k1, k2, rfl, h1, h2⟩ := ih l2 _ hrest
      exact ⟨_ :: k1, k2, rfl, List.Forall₂.cons hab h1, h2⟩

/-- C13, counterexample. A comment whose relation field `Replies` is declared before its
`primary` field `ID`: the key attribute `comments.id` comes after the attributes of the
reply, not right after the comment's own scalar attribute. -/
theorem save_order_counterexample :
    SaveEntity stringCodec
      (.mk [("text", "hello")]
        [{ Name := "Comments", Tag := "relation,comments",
           Value := .Slice "Comment"
             [.mk [("text", "first")]
               [{ Name := "Replies", Tag := "relation,replies",
                  Value := .Slice "Reply" [keyedRecord "r1" "reply"] },
                { Name := "ID", Tag := "primary,id", Value := .String "k1" }]] }]) =
      .ok [{ Name := "text", Value := .scalar "hello", NoIndex := true, Multiple := false },
           { Name := "comments.text", Value := .scalar "first", NoIndex := true,
             Multiple := true },
           { Name := "comments.replies.text", Value := .scalar "reply", NoIndex := true,
             Multiple := true },
           { Name := "comments.replies.id", Value := .key ⟨"r1"⟩, NoIndex := false,
             Multiple := true },
           { Name := "comments.id", Value := .key ⟨"k1"⟩, NoIndex := false,
             Multiple := true }] :=
  rfl

/-- C13 (amended). Output order of the flattener, within the depth cap: `saveEntity`
returns a list exactly when the scalar codec and every pass of the field loop succeed, and
the list is then the entity's own scalar attributes followed by what its fields
contribute in field-declaration order: the key attribute at a `primary` field, the
attributes of the entities of a relation at the `relation` field, the elements of a
repeated relation in sequence order. So for an entity whose `primary` fields are declared
before its relation fields the list is the own scalar attributes, then the key attribute
if any, then the attributes of the relations in field-declaration order. -/
theorem save_order {S : Type} (c : Codec S) (e : Entity S) (ns : String) (multiple : Bool)
    (level : Nat) (hlevel : level ≤ 2) :
    (∀ out, saveEntity c e ns multiple level = .ok out ↔
      ∃ own outs, c.SaveStruct e.scalars = .ok own ∧
        List.Forall₂ (fieldOutput c (fun ch ns1 m1 => saveEntity c ch ns1 m1 (level + 1))
          ns multiple) e.fields outs ∧
        out = qualified ns multiple own ++ outs.flatten) ∧
    (∀ out pre post, e.fields = pre ++ post →
      (∀ f ∈ pre, tagArg annotationRelation f = none) →
      (∀ f ∈ post, tagArg annotationPrimary f = none) →
      saveEntity c e ns multiple level = .ok out →
      ∃ own routs, c.SaveStruct e.scalars = .ok own ∧
        List.Forall₂ (fieldOutput c (fun ch ns1 m1 => saveEntity c ch ns1 m1 (level + 1))
          ns multiple) post routs ∧
        out = qualified ns multiple own ++ pre.flatMap (keyProperty c ns multiple) ++
          routs.flatten) := by
  have hl : 3 - level = (3 - (level + 1)) + 1 := by omega
  have hiff : ∀ out, saveEntity c e ns multiple level = .ok out ↔
      ∃ own outs, c.SaveStruct e.scalars = .ok own ∧
        List.Forall₂ (fieldOutput c (fun ch ns1 m1 => saveEntity c ch ns1 m1 (level + 1))
          ns multiple) e.fields outs ∧
        out = qualified ns multiple own ++ outs.flatten := by
    intro out
    unfold saveEntity
    rw [hl, saveEntityAux_ok_iff]
    constructor
    · rintro ⟨own, outs, h1, h2, h3⟩
      exact ⟨own, outs, h1, List.Forall₂.imp (fun f o h => (saveField_ok_iff c _ ns multiple f o).1 h) h2, h3⟩
    · rintro ⟨own, outs, h1, h2, h3⟩
      exact ⟨own, outs, h1, List.Forall₂.imp (fun f o h => (saveField_ok_iff c _ ns multiple f o).2 h) h2, h3⟩
  refine ⟨hiff, ?_⟩
  intro out pre post hsplit hpre hpost hsave
  obtain ⟨own, outs, h1, h2, h3⟩ := (hiff out).1 hsave
  rw [hsplit] at h2
  obtain ⟨k1, k2, rfl, hk1, hk2⟩ := forall₂_append_left pre post outs h2
  refine ⟨own, k2, h1, hk2, ?_⟩
  have hkeys : ∀ (l : List (Field (Entity S))) (k : List PropertyList),
      (∀ f ∈ l, tagArg annotationRelation f = none) →
      List.Forall₂ (fieldOutput c (fun ch ns1 m1 => saveEntity c ch ns1 m1 (level + 1))
        ns multiple) l k → k.flatten = l.flatMap (keyProperty c ns multiple) := by
    intro l k hl2 hall
    induction hall with
    | nil => rfl
    | cons hab htail ih =>
      rename_i f o l1 k1
      rw [List.flatten_cons, List.flatMap_cons,
        ih (fun g hg => hl2 g (List.mem_cons_of_mem _ hg))]
      congr 1
      have hr := hl2 f (List.mem_cons_self _ _)
      obtain ⟨_, hab⟩ := hab
      cases hp : tagArg annotationPrimary f with
      | some a =>
        rw [hp] at hab
        exact hab.2
      | none =>
        rw [hp] at hab
        simp only [hr] at hab
        rw [hab, keyProperty_of_not_primary c ns multiple f hp]
  rw [h3, List.flatten_append, hkeys pre k1 hpre hk1, List.append_assoc]

/-- C13, an instance: the example post, whose `ID` field is declared before `Comments`. -/
theorem save_order_witness :
    ∃ own routs, stringCodec.SaveStruct blogPost.scalars = .ok own ∧
      List.Forall₂ (fieldOutput stringCodec
          (fun ch ns1 m1 => saveEntity stringCodec ch ns1 m1 (0 + 1)) "" false)
        [{ Name := "Comments", Tag := "relation,comments",
           Value := .Slice "Comment"
             [blogComment "k1" "first" [keyedRecord "r1" "reply"],
              blogComment "" "second" []] }] routs ∧
      [{ Name := "text", Value := .scalar "hello", NoIndex := true, Multiple := false },
       { Name := "comments.text", Value := .scalar "first", NoIndex := true, Multiple := true },
       { Name := "comments.id", Value := .key ⟨"k1"⟩, NoIndex := false, Multiple := true },
       { Name := "comments.replies.text", Value := .scalar "reply", NoIndex := true,
         Multiple := true },
       { Name := "comments.replies.id", Value := .key ⟨"r1"⟩, NoIndex := false,
         Multiple := true },
       { Name := "comments.text", Value := .scalar "second", NoIndex := true,
         Multiple := true }] =
        qualified "" false own ++
          ([{ Name := "ID", Tag := "primary,id", Value := .String "" }] :
            List (Field (Entity StringFields))).flatMap (keyProperty stringCodec "" false) ++
          routs.flatten :=
  (save_order stringCodec blogPost "" false 0 (by decide)).2 _
    [{ Name := "ID", Tag := "primary,id", Value := .String "" }]
    [{ Name := "Comments", Tag := "relation,comments",
       Value := .Slice "Comment"
         [blogComment "k1" "first" [keyedRecord "r1" "reply"], blogComment "" "second" []] }]
    rfl
    (by
      intro f hf
      simp only [List.mem_singleton] at hf
      subst hf
      rfl)
    (by
      intro f hf
      simp only [List.mem_singleton] at hf
      subst hf
      rfl)
    rfl

/-! ## When `SaveEntity` fails -/

theorem saveSlice_outcome {S : Type} (c : Codec S) (save : Entity S → Except Error PropertyList)
    (P : Entity S → Prop) :
    ∀ (vs : List (Entity S)) (acc : PropertyList),
      (∀ v ∈ vs, (P v → keyFailure c (save v)) ∧ (¬ P v → ∃ o, save v = .ok o)) →
      ((∃ v ∈ vs, P v) → keyFailure c (saveSlice save vs acc)) ∧
      ((∀ v ∈ vs, ¬ P v) → ∃ out, saveSlice save vs acc = .ok out) := by
  intro vs
  induction vs with
  | nil =>
    intro acc _
    exact ⟨fun ⟨v, hv, _⟩ => by simp at hv, fun _ => ⟨acc, rfl⟩⟩
  | cons v vs ih =>
    intro acc h
    obtain ⟨h1, h2⟩ := h v (List.mem_cons_self _ _)
    have hrest := fun acc1 => ih acc1 (fun w hw => h w (List.mem_cons_of_mem _ hw))
    by_cases hp : P v
    · obtain ⟨id, msg, hd, he⟩ := h1 hp
      have hfail : keyFailure c (saveSlice save (v :: vs) acc) :=
        ⟨id, msg, hd, by rw [saveSlice, he]⟩
      exact ⟨fun _ => hfail, fun hall => absurd hp (hall v (List.mem_cons_self _ _))⟩
    · obtain ⟨o, ho⟩ := h2 hp
      have heq : saveSlice save (v :: vs) acc = saveSlice save vs (acc ++ o) := by
        rw [saveSlice, ho]
      rw [heq]
      constructor
      · rintro ⟨w, hw, hpw⟩
        rcases List.mem_cons.1 hw with rfl | hw
        · exact absurd hpw hp
        · exact (hrest _).1 ⟨w, hw, hpw⟩
      · intro hall
        exact (hrest _).2 (fun w hw => hall w (List.mem_cons_of_mem _ hw))

theorem saveFields_outcome {S : Type} (c : Codec S)
    (save : Entity S → String → Bool → Except Error PropertyList) (ns : String)
    (multiple : Bool) (P : Field (Entity S) → Prop) :
    ∀ (fs : List (Field (Entity S))) (acc : PropertyList),
      (∀ f ∈ fs, (P f → keyFailure c (saveField c save ns multiple f [])) ∧
        (¬ P f → ∃ o, saveField c save ns multiple f [] = .ok o)) →
      ((∃ f ∈ fs, P f) → keyFailure c (saveFields c save ns multiple fs acc)) ∧
      ((∀ f ∈ fs, ¬ P f) → ∃ out, saveFields c save ns multiple fs acc = .ok out) := by
  intro fs
  induction fs with
  | nil =>
    intro acc _
    exact ⟨fun ⟨v, hv, _⟩ => by simp at hv, fun _ => ⟨acc, rfl⟩⟩
  | cons f fs ih =>
    intro acc h
    obtain ⟨h1, h2⟩ := h f (List.mem_cons_self _ _)
    have hrest := fun acc1 => ih acc1 (fun w hw => h w (List.mem_cons_of_mem _ hw))
    by_cases hp : P f
    · obtain ⟨id, msg, hd, he⟩ := h1 hp
      have hfail : keyFailure c (saveFields c save ns multiple (f :: fs) acc) :=
        ⟨id, msg, hd, by rw [saveFields, saveField_acc, he]⟩
      exact ⟨fun _ => hfail, fun hall => absurd hp (hall f (List.mem_cons_self _ _))⟩
    · obtain ⟨o, ho⟩ := h2 hp
      have heq : saveFields c save ns multiple (f :: fs) acc =
          saveFields c save ns multiple fs (acc ++ o) := by
        rw [saveFields, saveField_acc, ho]
      rw [heq]
      constructor
      · rintro ⟨w, hw, hpw⟩
        rcases List.mem_cons.1 hw with rfl | hw
        · exact absurd hpw hp
        · exact (hrest _).1 ⟨w, hw, hpw⟩
      · intro hall
        exact (hrest _).2 (fun w hw => hall w (List.mem_cons_of_mem _ hw))

theorem saveField_outcome {S : Type} (c : Codec S) (left : Nat) (ns : String)
    (multiple nonRoot : Bool) (hns : trimmed ns) (hroot : nonRoot = true ↔ ns ≠ "")
    (ih : ∀ ch ns1 m1, trimmed ns1 → ns1 ≠ "" → saveReady c left ch →
      (hasBadKey c left true ch → keyFailure c (saveEntityAux c left ch ns1 m1)) ∧
      (¬ hasBadKey c left true ch → ∃ out, saveEntityAux c left ch ns1 m1 = .ok out))
    (f : Field (Entity S)) (htag : tagOK f = true)
    (hstr : isPrimary f = true → ∃ id, f.Value = .String id)
    (hrel : ∀ seg, tagArg annotationRelation f = some seg →
      isSegment seg ∧ ∀ ch ∈ f.Value.children, saveReady c left ch) :
    (((nonRoot = true ∧ badPrimary c f) ∨
        ∃ seg, tagArg annotationRelation f = some seg ∧
          ∃ ch ∈ f.Value.children, hasBadKey c left true ch) →
      keyFailure c (saveField c (saveEntityAux c left) ns multiple f [])) ∧
    (¬ ((nonRoot = true ∧ badPrimary c f) ∨
        ∃ seg, tagArg annotationRelation f = some seg ∧
          ∃ ch ∈ f.Value.children, hasBadKey c left true ch) →
      ∃ o, saveField c (saveEntityAux c left) ns multiple f [] = .ok o) := by
  rw [saveField_eq, htag]
  simp only [Bool.true_eq_false, if_false]
  cases hp : tagArg annotationPrimary f with
  | some a =>
    have hprim : isPrimary f = true := by simp [isPrimary, hp]
    obtain ⟨id, hid⟩ := hstr hprim
    have hnr : tagArg annotationRelation f = none := tagArg_exclusive f (by rw [hp]; simp)
    have hno : ¬ ∃ seg, tagArg annotationRelation f = some seg ∧
        ∃ ch ∈ f.Value.children, hasBadKey c left true ch := by
      rintro ⟨seg, h, _⟩
      rw [hnr] at h
      cases h
    simp only [hno, or_false]
    simp only [savePrimary, hid]
    by_cases hc : id ≠ "" ∧ ns ≠ ""
    · rw [if_pos hc]
      cases hd : c.DecodeKey id with
      | error msg =>
        have hP : nonRoot = true ∧ badPrimary c f :=
          ⟨hroot.2 hc.2, hprim, id, hid, hc.1, msg, hd⟩
        exact ⟨fun _ => ⟨id, msg, hd, rfl⟩, fun h => absurd hP h⟩
      | ok k =>
        refine ⟨?_, fun _ => ⟨_, rfl⟩⟩
        rintro ⟨_, _, id1, hid1, _, msg, hmsg⟩
        rw [hid] at hid1
        cases hid1
        rw [hd] at hmsg
        cases hmsg
    · rw [if_neg hc]
      refine ⟨?_, fun _ => ⟨_, rfl⟩⟩
      rintro ⟨hnon, _, id1, hid1, hne, _⟩
      rw [hid] at hid1
      cases hid1
      exact absurd ⟨hne, hroot.1 hnon⟩ hc
  | none =>
    have hnb : ¬ badPrimary c f := by
      rintro ⟨h, _⟩
      simp [isPrimary, hp] at h
    simp only [hnb, and_false, false_or]
    cases hr : tagArg annotationRelation f with
    | none =>
      refine ⟨?_, fun _ => ⟨_, rfl⟩⟩
      rintro ⟨seg, h, _⟩
      cases h
    | some seg =>
      obtain ⟨hseg, hch⟩ := hrel seg hr
      have hq := trimmed_qualify ns seg
      have hqne := qualify_ne_empty ns seg hns hseg
      simp only [Option.some.injEq, exists_eq_left', saveRelation]
      obtain ⟨n, t, v⟩ := f
      simp only at hch ⊢
      cases v with
      | String s =>
        simp only [FieldValue.children, List.not_mem_nil, false_and, exists_false,
          not_false_eq_true, forall_true_left, false_implies, true_and]
        exact ⟨_, rfl⟩
      | Other =>
        simp only [FieldValue.children, List.not_mem_nil, false_and, exists_false,
          not_false_eq_true, forall_true_left, false_implies, true_and]
        exact ⟨_, rfl⟩
      | Ptr elem v =>
        cases v with
        | none =>
          simp only [FieldValue.children, List.not_mem_nil, false_and, exists_false,
            not_false_eq_true, forall_true_left, false_implies, true_and]
          exact ⟨_, rfl⟩
        | some ch =>
          simp only [FieldValue.children, List.mem_singleton, exists_eq_left]
          obtain ⟨i1, i2⟩ := ih ch (qualify ns seg) multiple hq hqne
            (hch ch (by simp [FieldValue.children]))
          constructor
          · intro hb
            obtain ⟨id, msg, hd, he⟩ := i1 hb
            exact ⟨id, msg, hd, by rw [he]⟩
          · intro hb
            obtain ⟨out, ho⟩ := i2 hb
            exact ⟨_, by rw [ho]⟩
      | Slice elem vs =>
        simp only [FieldValue.children] at hch ⊢
        have := saveSlice_outcome c (fun e => saveEntityAux c left e (qualify ns seg) true)
          (hasBadKey c left true) vs []
          (fun v hv => ih v (qualify ns seg) true hq hqne (hch v hv))
        refine ⟨this.1, fun h => this.2 ?_⟩
        intro v hv hb
        exact h ⟨v, hv, hb⟩

/-- Within `left` levels and under `saveReady`, saving fails exactly when there is a bad
key, and then with a decode error of the key codec. -/
theorem saveEntityAux_outcome {S : Type} (c : Codec S) :
    ∀ (left : Nat) (e : Entity S) (ns : String) (multiple nonRoot : Bool),
      trimmed ns → (nonRoot = true ↔ ns ≠ "") → saveReady c left e →
      (hasBadKey c left nonRoot e → keyFailure c (saveEntityAux c left e ns multiple)) ∧
      (¬ hasBadKey c left nonRoot e → ∃ out, saveEntityAux c left e ns multiple = .ok out) := by
  intro left
  induction left with
  | zero =>
    intro e ns multiple nonRoot _ _ _
    exact ⟨fun h => absurd h (by simp [hasBadKey]), fun _ => ⟨[], rfl⟩⟩
  | succ left ih =>
    intro e ns multiple nonRoot hns hroot hready
    obtain ⟨⟨own, hown⟩, hfields⟩ := hready
    have hfs := saveFields_outcome c (saveEntityAux c left) ns multiple
      (fun f => (nonRoot = true ∧ badPrimary c f) ∨
        ∃ seg, tagArg annotationRelation f = some seg ∧
          ∃ ch ∈ f.Value.children, hasBadKey c left true ch)
      e.fields
      (own.map fun property =>
        { property with Name := qualify ns property.Name, Multiple := multiple })
      (fun f hf => saveField_outcome c left ns multiple nonRoot hns hroot
        (fun ch ns1 m1 h1 h2 h3 => ih ch ns1 m1 true h1 (by simp [h2]) h3) f
        (hfields f hf).1 (hfields f hf).2.1 (hfields f hf).2.2)
    have hunf : saveEntityAux c (left + 1) e ns multiple =
        saveFields c (saveEntityAux c left) ns multiple e.fields
          (own.map fun property =>
            { property with Name := qualify ns property.Name, Multiple := multiple }) := by
      rw [saveEntityAux, hown]
    rw [hunf]
    have hiff : hasBadKey c (left + 1) nonRoot e ↔
        ∃ f ∈ e.fields, (nonRoot = true ∧ badPrimary c f) ∨
          ∃ seg, tagArg annotationRelation f = some seg ∧
            ∃ ch ∈ f.Value.children, hasBadKey c left true ch := by
      simp only [hasBadKey]
      constructor
      · rintro (⟨h1, f, hf, h2⟩ | ⟨f, hf, h⟩)
        · exact ⟨f, hf, Or.inl ⟨h1, h2⟩⟩
        · exact ⟨f, hf, Or.inr h⟩
      · rintro ⟨f, hf, ⟨h1, h2⟩ | h⟩
        · exact Or.inl ⟨h1, f, hf, h2⟩
        · exact Or.inr ⟨f, hf, h⟩
    constructor
    · intro hb
      exact hfs.1 (hiff.1 hb)
    · intro hb
      apply hfs.2
      intro f hf hP
      exact hb (hiff.2 ⟨f, hf, hP⟩)

/-- C14. For every entity graph in which, on the levels that are saved, the scalar codec
succeeds, every `serializer` tag is well-formed (empty, or two parts with a non-empty
dot-free relation name) and a `primary` field holds a string: `SaveEntity` fails if and
only if some entity other than the root, within the depth cap, has a non-empty primary
key that the key codec cannot decode, and it then fails with a decode error of the key
codec; otherwise it returns a list. The key of the root, an empty key, and a key below
the cap play no part. -/
theorem save_fails_only_on_keys {S : Type} (c : Codec S) (e : Entity S)
    (hready : saveReady c 3 e) :
    (hasBadKey c 3 false e ↔ keyFailure c (SaveEntity c e)) ∧
    (¬ hasBadKey c 3 false e ↔ ∃ out, SaveEntity c e = .ok out) := by
  obtain ⟨h1, h2⟩ := saveEntityAux_outcome c 3 e "" false false trimmed_empty
    (by simp) hready
  have hexcl : keyFailure c (SaveEntity c e) → ¬ ∃ out, SaveEntity c e = .ok out := by
    rintro ⟨id, msg, _, he⟩ ⟨out, ho⟩
    rw [he] at ho
    cases ho
  constructor
  · constructor
    · exact h1
    · intro hf
      by_contra hb
      exact hexcl hf (h2 hb)
  · constructor
    · exact h2
    · intro ho hb
      exact hexcl (h1 hb) ho

/-- C14, an instance: a post whose one comment has the key string `bad key`, which the
key codec of the example rejects. -/
theorem save_fails_only_on_keys_witness :
    keyFailure stringCodec (SaveEntity stringCodec
      (.mk [("text", "hello")]
        [{ Name := "Comments", Tag := "relation,comments",
           Value := .Slice "Comment" [keyedRecord "bad key" "first"] }])) :=
  (save_fails_only_on_keys stringCodec
    (.mk [("text", "hello")]
      [{ Name := "Comments", Tag := "relation,comments",
         Value := .Slice "Comment" [keyedRecord "bad key" "first"] }])
    (by
      refine ⟨⟨_, rfl⟩, ?_⟩
      intro f hf
      simp only [Entity.fields, List.mem_singleton] at hf
      subst hf
      refine ⟨rfl, fun h => absurd h (by decide), ?_⟩
      intro seg hseg
      cases hseg.symm.trans (rfl : _ = some "comments")
      refine ⟨by decide, ?_⟩
      intro ch hch
      simp only [FieldValue.children, List.mem_singleton] at hch
      subst hch
      refine ⟨⟨_, rfl⟩, ?_⟩
      intro f hf
      simp only [keyedRecord, Entity.fields, List.mem_singleton] at hf
      subst hf
      refine ⟨rfl, fun _ => ⟨_, rfl⟩, ?_⟩
      intro seg hseg
      cases hseg.symm.trans (rfl : _ = none))).1.1
    (Or.inr ⟨_, List.Mem.head _, "comments", rfl, keyedRecord "bad key" "first",
      List.Mem.head _,
      Or.inl ⟨rfl, _, List.Mem.head _, rfl, "bad key", rfl, by decide,
        "illegal base64 data", rfl⟩⟩)

/-! ## Loading a saved list within the cap -/

theorem codecAccepts_of_total {S : Type} (c : Codec S) (env : TypeEnv S) (T0 : TypeName)
    (out : PropertyList) (h : codecTotal c) : codecAccepts c env T0 out :=
  fun _ T ps _ _ => h (env T).zero ps

theorem loadSlice_safeOn {S : Type}
    (load : PropertyList → Except Error (Entity S) × PropertyList) (A : PropertyList → Prop)
    (hsub : ∀ l, (load l).2.Sublist l)
    (hA : ∀ l l1, A l → l1.Sublist l → A l1)
    (hload : ∀ l, A l →
      okOrNoMore (load l).1 ∧ ∀ v, (load l).1 = .ok v → (load l).2.length < l.length) :
    ∀ (budget : Nat) (vs : List (Entity S)) (ps : PropertyList),
      ps.length < budget → A ps →
      ∃ vs1 ps1, loadSlice load budget vs ps = (.ok vs1, ps1) := by
  intro budget
  induction budget with
  | zero => intro vs ps h; omega
  | succ budget ih =>
    intro vs ps hb ha
    rw [loadSlice]
    obtain ⟨h1, h3⟩ := hload ps ha
    have h2 := hsub ps
    rcases hl : load ps with ⟨r, ps2⟩
    rw [hl] at h1 h2 h3
    cases r with
    | ok v =>
      have := h3 v rfl
      simp only at this h2
      exact ih _ ps2 (by omega) (hA ps ps2 ha h2)
    | error err =>
      rcases h1 with ⟨a, ha1⟩ | ha1
      · cases ha1
      · simp only [Except.error.injEq] at ha1
        subst ha1
        exact ⟨vs, ps2, rfl⟩

theorem loadField_safeOn {S : Type} (env : TypeEnv S)
    (load : Entity S → PropertyList → String → Except Error (Entity S) × PropertyList)
    (ns : String) (A : TypeName → String → PropertyList → Prop)
    (hsub : ∀ e l ns1, (load e l ns1).2.Sublist l)
    (hA : ∀ T ns1 l l1, A T ns1 l → l1.Sublist l → A T ns1 l1)
    (hload : ∀ T l ns1, A T ns1 l →
      okOrNoMore (load (New env T) l ns1).1 ∧
        ∀ v, (load (New env T) l ns1).1 = .ok v → (load (New env T) l ns1).2.length < l.length)
    (f : Field (Entity S)) (ps : PropertyList) (htag : tagOK f = true)
    (hf : ∀ seg elem, tagArg annotationRelation f = some seg →
      (f.Value = .Ptr elem none ∨ ∃ vs, f.Value = .Slice elem vs) →
      A elem (qualify ns seg) ps) :
    ∃ f1 ps1, loadField env load ns f ps = (.ok f1, ps1) := by
  rw [loadField_eq]
  simp only [htag, Bool.true_eq_false, if_false]
  cases hseg : tagArg annotationRelation f with
  | none => exact ⟨f, ps, rfl⟩
  | some seg =>
    simp only []
    unfold loadRelation
    cases hv : f.Value with
    | String s => exact ⟨f, ps, rfl⟩
    | Other => exact ⟨f, ps, rfl⟩
    | Ptr elem v =>
      cases v with
      | some child => exact ⟨f, ps, rfl⟩
      | none =>
        simp only []
        obtain ⟨h1, _⟩ := hload elem ps (qualify ns seg) (hf seg elem hseg (Or.inl hv))
        rcases hl : load (New env elem) ps (qualify ns seg) with ⟨r, ps2⟩
        rw [hl] at h1
        cases r with
        | ok v => exact ⟨_, ps2, rfl⟩
        | error err =>
          rcases h1 with ⟨a, ha⟩ | ha
          · cases ha
          · simp only [Except.error.injEq] at ha
            subst ha
            exact ⟨f, ps2, rfl⟩
    | Slice elem vs =>
      simp only []
      obtain ⟨vs1, ps1, hs⟩ := loadSlice_safeOn (fun l => load (New env elem) l (qualify ns seg))
        (A elem (qualify ns seg)) (fun l => hsub _ l _) (hA elem (qualify ns seg))
        (fun l hl => hload elem l (qualify ns seg) hl) (ps.length + 1) vs ps
        (by omega) (hf seg elem hseg (Or.inr ⟨vs, hv⟩))
      rw [hs]
      exact ⟨_, ps1, rfl⟩

theorem loadFields_safeOn {S : Type} (env : TypeEnv S)
    (load : Entity S → PropertyList → String → Except Error (Entity S) × PropertyList)
    (ns : String) (A : TypeName → String → PropertyList → Prop)
    (hsub : ∀ e l ns1, (load e l ns1).2.Sublist l)
    (hA : ∀ T ns1 l l1, A T ns1 l → l1.Sublist l → A T ns1 l1)
    (hload : ∀ T l ns1, A T ns1 l →
      okOrNoMore (load (New env T) l ns1).1 ∧
        ∀ v, (load (New env T) l ns1).1 = .ok v → (load (New env T) l ns1).2.length < l.length) :
    ∀ (fs : List (Field (Entity S))) (ps : PropertyList), (∀ f ∈ fs, tagOK f = true) →
      (∀ f ∈ fs, ∀ seg elem, tagArg annotationRelation f = some seg →
        (f.Value = .Ptr elem none ∨ ∃ vs, f.Value = .Slice elem vs) →
        A elem (qualify ns seg) ps) →
      ∃ fs1 ps1, loadFields env load ns fs ps = (.ok fs1, ps1) := by
  intro fs
  induction fs with
  | nil => intro ps _ _; exact ⟨[], ps, rfl⟩
  | cons f fs ih =>
    intro ps htag hf
    obtain ⟨f1, ps1, h1⟩ := loadField_safeOn env load ns A hsub hA hload f ps
      (htag f (List.mem_cons_self _ _)) (hf f (List.mem_cons_self _ _))
    have hs := loadField_sublist env load hsub ns f ps
    rw [h1] at hs
    simp only at hs
    obtain ⟨fs1, ps2, h2⟩ := ih ps1
      (fun g hg => htag g (List.mem_cons_of_mem _ hg))
      (fun g hg seg elem h3 h4 => hA _ _ ps ps1 (hf g (List.mem_cons_of_mem _ hg) seg elem h3 h4) hs)
    exact ⟨f1 :: fs1, ps2, (loadFields_cons_ok env load ns f fs _ ps ps2).2
      ⟨f1, fs1, ps1, h1, h2, rfl⟩⟩

theorem zeroField_kind {E : Type} (d : FieldDecl) (elem : TypeName)
    (h : (zeroField d : Field E).Value = .Ptr elem none ∨
      ∃ vs, (zeroField d : Field E).Value = .Slice elem vs) :
    d.Kind = .Ptr elem ∨ d.Kind = .Slice elem := by
  unfold zeroField at h
  cases hk : d.Kind with
  | String => simp [hk] at h
  | Other => simp [hk] at h
  | Ptr e1 =>
    simp only [hk] at h
    rcases h with h | ⟨vs, h⟩
    · cases h; exact Or.inl rfl
    · cases h
  | Slice e1 =>
    simp only [hk] at h
    rcases h with h | ⟨vs, h⟩
    · cases h
    · cases h; exact Or.inr rfl

/-- With a scalar codec that accepts what is drawn from `out` for the type loaded at each
namespace, struct types that can be loaded into and a part of `out` that respects the
reserved name `id`, `loadEntity` into a fresh entity either succeeds or reports
`ErrNoMoreProperties`, as soon as the fuel exceeds the length of the list. -/
theorem loadEntity_safeOn {S : Type} (c : Codec S) (env : TypeEnv S) (T0 : TypeName)
    (out : PropertyList) (hc : codecAccepts c env T0 out) (henv : envLoadable env) :
    ∀ (fuel : Nat) (T : TypeName) (ps : PropertyList) (ns : String),
      Reaches env T0 ns T → ps.Sublist out → ps.length < fuel → idsAreKeys ps →
      okOrNoMore (loadEntity c env fuel (New env T) ps ns).1 := by
  intro fuel
  induction fuel with
  | zero => intro T ps ns _ _ h; omega
  | succ fuel ih =>
    intro T ps ns hreach hsubl hlen hk
    rw [loadEntity, extract_eq ns ps (idsAreKeys_at hk ns)]
    simp only [List.length_eq_zero]
    split_ifs with h0
    · exact Or.inr rfl
    · obtain ⟨hnd, hmem⟩ := removed_fresh ns ps []
      have hdrawn : drawnFrom out ns
          ((((removed ns [] ps).filter fun p => decide (bareName p.Name ≠ "id")).map rename).map
            fun property => { property with Multiple := false }) := by
        constructor
        · simp only [List.map_map]
          have : ((fun p : Property => p.Name) ∘
              (fun property : Property => { property with Multiple := false }) ∘ rename) =
              fun p => bareName p.Name := by
            funext p; rfl
          rw [this]
          exact (List.filter_sublist _).map _ |>.nodup hnd
        · intro p hp
          simp only [List.map_map, List.mem_map, List.mem_filter, decide_eq_true_eq] at hp
          obtain ⟨q, ⟨hq, hqid⟩, rfl⟩ := hp
          obtain ⟨hq1, hq2, _⟩ := hmem q hq
          exact ⟨q, hsubl.subset hq1, hq2, hqid, rfl⟩
      obtain ⟨s1, hs1⟩ := hc ns T _ hreach hdrawn
      have hz : (New env T).scalars = (env T).zero := rfl
      rw [hz, hs1]
      simp only []
      have hfields : ∃ fields, withID c (capturedKey (removed ns [] ps)) (New env T).fields
          = some fields := by
        cases capturedKey (removed ns [] ps) with
        | none => exact ⟨_, rfl⟩
        | some k => exact (henv T).2 (c.Encode k)
      obtain ⟨fields, hfields⟩ := hfields
      rw [hfields]
      simp only []
      have hcases := withID_cases c _ _ fields hfields
      have horigin : ∀ f ∈ fields, ∃ d ∈ (env T).fields, f.Tag = d.Tag ∧
          ((f.Value = .String "" ∨ ∃ s, f.Value = .String s) ∨
            f = (zeroField d : Field (Entity S))) := by
        intro f hf
        obtain ⟨g, hg, hcase⟩ := forall₂_of_mem_right hcases hf
        simp only [New, Entity.fields, List.mem_map] at hg
        obtain ⟨d, hd, rfl⟩ := hg
        rcases hcase with rfl | ⟨s, t, _, rfl⟩
        · exact ⟨d, hd, rfl, Or.inr rfl⟩
        · exact ⟨d, hd, rfl, Or.inl (Or.inr ⟨s, rfl⟩)⟩
      have htags : ∀ f ∈ fields, tagOK f = true := by
        intro f hf
        obtain ⟨d, hd, htag, _⟩ := horigin f hf
        have := (henv T).1 d hd
        unfold tagOK at this ⊢
        rw [htag]
        exact this
      have hremoved : (removed ns [] ps) ≠ [] := by
        intro h; apply h0; rw [h]; rfl
      have hshort : (survivors ns [] ps).length < ps.length := by
        have := removed_length ns ps []
        have := List.length_pos.2 hremoved
        omega
      have hsurv : (survivors ns [] ps).Sublist ps := survivors_sublist ns ps []
      obtain ⟨fs1, ps1, hlf⟩ := loadFields_safeOn env (loadEntity c env fuel) ns
        (fun T1 ns1 l => Reaches env T0 ns1 T1 ∧ l.Sublist out ∧ l.length < fuel ∧ idsAreKeys l)
        (loadEntity_sublist c env fuel)
        (fun T1 ns1 l l1 ⟨a, b, d, e⟩ hs =>
          ⟨a, hs.trans b, lt_of_le_of_lt hs.length_le d, idsAreKeys_sublist hs e⟩)
        (fun T1 l ns1 ⟨a, b, d, e⟩ => ⟨ih T1 l ns1 a b d e, fun v hv => by
          rcases hr : loadEntity c env fuel (New env T1) l ns1 with ⟨r, rest⟩
          rw [hr] at hv
          simp only at hv
          subst hv
          exact loadEntity_shrinks c env fuel _ v l rest ns1 hr⟩)
        fields (survivors ns [] ps) htags
        (by
          intro f hf seg elem hseg hv
          obtain ⟨d, hd, htag, hor⟩ := horigin f hf
          have hfz : f = (zeroField d : Field (Entity S)) := by
            rcases hor with (h | ⟨s, h⟩) | h
            · rcases hv with hv | ⟨vs, hv⟩ <;> rw [h] at hv <;> cases hv
            · rcases hv with hv | ⟨vs, hv⟩ <;> rw [h] at hv <;> cases hv
            · exact h
          subst hfz
          exact ⟨Reaches.step d seg elem hreach hd hseg (zeroField_kind d elem hv),
            hsurv.trans hsubl, by omega, idsAreKeys_sublist hsurv hk⟩)
      rw [hlf]
      exact Or.inl ⟨_, rfl⟩

/-- A saved root without scalar attribute leaves nothing at the root namespace. -/
theorem save_nothing_at_root {S : Type} (c : Codec S) (e : Entity S) (out : PropertyList)
    (hw : wellNamed c 3 e = true) (hsave : SaveEntity c e = .ok out)
    (hown : c.SaveStruct e.scalars = .ok []) :
    ∀ p ∈ out, currentNamespace p.Name ≠ "" := by
  intro p hp hat
  obtain ⟨own, hs, hfilt, _⟩ := save_atNs c 2 e "" false out (by decide) hw hsave
  rw [hown] at hs
  cases Except.ok.inj hs
  have hmem : p ∈ out.filter (fun p => decide (currentNamespace p.Name = "")) :=
    List.mem_filter.2 ⟨hp, by simpa using hat⟩
  rw [hfilt, List.map_nil, List.nil_append] at hmem
  obtain ⟨f, _, hf⟩ := List.mem_flatMap.1 hmem
  exact (mem_keyProperty c "" false f p hf).1 rfl

/-- C9, as amended. For every entity graph whose relation segments and scalar names are
not empty and dot-free (and no scalar is named `id`): `saveEntity` with `level > 2` returns
the empty list and no error, every name `SaveEntity` emits has a namespace of at most 2
segments, and whenever loading the saved list into a fresh entity succeeds no node more
than 2 levels below the root is rebuilt. Loading does succeed when the root has at least
one scalar attribute, the scalar codec accepts, for the struct type loaded at each
namespace, the attribute sets drawn from the saved list at that namespace, and every
struct type has well-formed tags and a string field `ID`; and it fails with
`ErrNoMoreProperties` when the root has no scalar attribute. -/
theorem depth_cap {S : Type} (c : Codec S) (env : TypeEnv S) (e : Entity S) (T : TypeName)
    (out : PropertyList) (hw : wellNamed c 3 e = true) (hsave : SaveEntity c e = .ok out) :
    (∀ (x : Entity S) (ns : String) (multiple : Bool) (level : Nat), 2 < level →
      saveEntity c x ns multiple level = .ok []) ∧
    (∀ p ∈ out, ∃ path, path.length ≤ 2 ∧ (∀ s ∈ path, isSegment s) ∧
      currentNamespace p.Name = descend "" path ∧ dots p.Name = path.length) ∧
    (envNamed env → ∀ e1, LoadEntity c env (New env T) out = .ok e1 → depthLE 2 e1 = true) ∧
    (envNamed env → codecAccepts c env T out → envLoadable env →
      (∀ own, c.SaveStruct e.scalars = .ok own → own ≠ []) →
      ∃ e1, LoadEntity c env (New env T) out = .ok e1 ∧ depthLE 2 e1 = true) ∧
    (c.SaveStruct e.scalars = .ok [] →
      LoadEntity c env (New env T) out = .error .ErrNoMoreProperties) := by
  have hroot : trimmed "" := by decide
  have hnames : ∀ p ∈ out, ∃ path, path.length ≤ 2 ∧ (∀ s ∈ path, isSegment s) ∧
      currentNamespace p.Name = descend "" path ∧ dots p.Name = path.length := by
    intro p hp
    obtain ⟨path, b, hpath, hlen, hb, hname⟩ := save_names c 3 e "" false out hroot hw hsave p hp
    refine ⟨path, by omega, hpath, ?_, ?_⟩
    · rw [hname]
      exact (split_qualify _ b (trimmed_descend "" hroot path) hb).1
    · rw [hname]
      exact dots_saved_name path b hpath hb
  have hdots : ∀ p ∈ out, dots p.Name ≤ 2 := by
    intro p hp
    obtain ⟨path, hlen, _, _, hd⟩ := hnames p hp
    omega
  have hdepth : envNamed env → ∀ e1, LoadEntity c env (New env T) out = .ok e1 →
      depthLE 2 e1 = true := by
    intro henv e1 h
    unfold LoadEntity at h
    rcases hl : loadEntity c env (out.length + 1) (New env T) out "" with ⟨r, rest⟩
    rw [hl] at h
    simp only at h
    subst h
    exact (loadEntity_depth c env henv 2 (out.length + 1) T out rest "" 0 e1 hroot
      (Or.inl rfl) hdots hl).2
  refine ⟨?_, hnames, hdepth, ?_, ?_⟩
  · intro x ns multiple level hlevel
    unfold saveEntity
    rw [show 3 - level = 0 by omega]
    rfl
  · intro henv hc hload hown
    have hk : idsAreKeys out := save_idsAreKeys c 3 e "" false out hroot hw hsave
    have hsafe := loadEntity_safeOn c env T out hc hload (out.length + 1) T out ""
      Reaches.root (List.Sublist.refl _) (by omega) hk
    have hnot : (loadEntity c env (out.length + 1) (New env T) out "").1 ≠
        .error .ErrNoMoreProperties := by
      intro hno
      have hall := (loadEntity_noMore_iff c env out.length (New env T) out ""
        (idsAreKeys_at hk "")).1 hno
      obtain ⟨own, outs, hs, _, hout⟩ := (saveEntityAux_ok_iff c 2 e "" false out).1 hsave
      obtain ⟨q, hq⟩ := List.exists_mem_of_ne_nil own (hown own hs)
      obtain ⟨hseg, hne⟩ := (wellNamed_succ c 2 e hw).1 own hs q hq
      have hsplit := split_qualify "" q.Name hroot hseg
      have hmem : ({ q with Name := qualify "" q.Name, Multiple := false } : Property) ∈ out := by
        rw [hout]
        exact List.mem_append_left _ (List.mem_map.2 ⟨q, hq, rfl⟩)
      have := hall _ hmem hsplit.1
      rw [hsplit.2] at this
      exact hne this
    rcases hsafe with ⟨e1, he1⟩ | hno
    · exact ⟨e1, he1, hdepth henv e1 he1⟩
    · exact absurd hno hnot
  · intro hown
    have habs := save_nothing_at_root c e out hw hsave hown
    unfold LoadEntity
    rw [load_absent c env out.length (New env T) out "" habs]

theorem loadStringFields_v :
    ∀ (ps : PropertyList) (x : String),
      (∀ p ∈ ps, p.Name = "v" ∧ ∃ y, p.Value = .scalar y) →
      ∃ z, loadStringFields [("v", x)] ps = .ok [("v", z)] := by
  intro ps
  induction ps with
  | nil => intro x _; exact ⟨x, rfl⟩
  | cons p ps ih =>
    intro x h
    obtain ⟨hn, y, hy⟩ := h p (List.mem_cons_self _ _)
    obtain ⟨z, hz⟩ := ih y (fun q hq => h q (List.mem_cons_of_mem _ hq))
    refine ⟨z, ?_⟩
    have hstep : loadStringField [("v", x)] p = .ok [("v", y)] := by
      simp [loadStringField, hy, hn]
    simp only [loadStringFields, List.foldlM_cons, hstep, bind, Except.bind] at hz ⊢
    exact hz

theorem codecAccepts_chain :
    codecAccepts stringCodec chainEnv "Node"
      [{ Name := "v", Value := .scalar "0", NoIndex := true, Multiple := false },
       { Name := "next.v", Value := .scalar "1", NoIndex := true, Multiple := false }] := by
  intro ns T ps _ hdrawn
  obtain ⟨z, hz⟩ := loadStringFields_v ps "" (by
    intro p hp
    obtain ⟨q, hq, _, _, rfl⟩ := hdrawn.2 p hp
    simp only [List.mem_cons, List.mem_singleton, List.not_mem_nil, or_false] at hq
    rcases hq with rfl | rfl
    · exact ⟨by decide, "0", rfl⟩
    · exact ⟨by decide, "1", rfl⟩)
  exact ⟨_, hz⟩

/-- C9, two instances: a chain of two nodes is saved and loaded back within the cap by the
example codec, and the folder without scalar attribute fails to load with
`ErrNoMoreProperties`. -/
theorem depth_cap_witness :
    (∃ e1, LoadEntity stringCodec chainEnv (New chainEnv "Node")
        [{ Name := "v", Value := .scalar "0", NoIndex := true, Multiple := false },
         { Name := "next.v", Value := .scalar "1", NoIndex := true, Multiple := false }]
        = .ok e1 ∧ depthLE 2 e1 = true) ∧
    LoadEntity stringCodec folderEnv (New folderEnv "Folder")
        [{ Name := "items.text", Value := .scalar "hello", NoIndex := true, Multiple := true }]
        = .error .ErrNoMoreProperties :=
  ⟨(depth_cap stringCodec chainEnv (chainNode "0" (some (chainNode "1" none))) "Node" _
    (by decide) rfl).2.2.2.1 envNamed_chainEnv codecAccepts_chain envLoadable_chainEnv
    (by
      intro own hown
      simp only [stringCodec, saveStringFields, chainNode, Entity.scalars,
        Except.ok.injEq] at hown
      rw [← hown]
      simp),
   (depth_cap stringCodec folderEnv folder "Folder" _ (by decide) rfl).2.2.2.2 rfl⟩

end Serializer
